import Mathlib

/-!
# FATSort: a shallow embedding of the sorting core

The definitions below follow the C sources (`FAT_fs.c`, `entrylist.c`, `sort.c`).

* Bytes are natural numbers below 256, C strings are lists of bytes without the
  terminating NUL, and a 32-byte directory slot is a list of 32 bytes.
* Unsigned 32-bit arithmetic is written with an explicit `% 2 ^ 32`.
* The device is a `File`: a size, a byte at every offset and the stream position.
  `fs_seek`, `fs_read` and `fs_write` pass it along explicitly.
* The host is little endian, so `SwapInt16` and `SwapInt32` are the identity
  (`endianness.h`).
-/

namespace FatSort

/-! ## Constants of `FAT_fs.h` -/

def FATTYPE_FAT12 : Int := 12
def FATTYPE_FAT16 : Int := 16
def FATTYPE_FAT32 : Int := 32

def ATTR_READ_ONLY : Nat := 0x01
def ATTR_HIDDEN : Nat := 0x02
def ATTR_SYSTEM : Nat := 0x04
def ATTR_VOLUME_ID : Nat := 0x08
def ATTR_DIRECTORY : Nat := 0x10
def ATTR_ARCHIVE : Nat := 0x20
def ATTR_LONG_NAME : Nat := 0x0f
def ATTR_LONG_NAME_MASK : Nat := 0x3f

def DE_FREE : Nat := 0xe5
def DE_FOLLOWING_FREE : Nat := 0x00
def LAST_LONG_ENTRY : Nat := 0x40
def DIR_ENTRY_SIZE : Nat := 32
def MAX_PATH_LEN : Nat := 512
def MAX_FILE_LEN : Nat := 0xFFFFFFFF
def MAX_CLUSTER_SIZE : Nat := 65536

/-- Reduction of a natural number to an unsigned 32-bit value. -/
def u32 (n : Nat) : Nat := n % 2 ^ 32

/-- Unsigned 32-bit subtraction `a - b` with wrap-around. -/
def sub32 (a b : Nat) : Nat := (a % 2 ^ 32 + 2 ^ 32 - b % 2 ^ 32) % 2 ^ 32

/-- Value of an unsigned 32-bit number after conversion to `int32_t`. -/
def toInt32 (n : Nat) : Int :=
  if n % 2 ^ 32 < 2 ^ 31 then ((n % 2 ^ 32 : Nat) : Int) else ((n % 2 ^ 32 : Nat) : Int) - 2 ^ 32

/-! ## The device -/

/-- The opened device or image: `size` bytes, the byte `data off` at offset `off`,
and the position `pos` of the stream. -/
structure File where
  size : Nat
  data : Nat → Nat
  pos : Nat

/-- Model of `fs_seek(stream, offset, SEEK_SET)`: every non-negative offset is accepted. -/
def fs_seek (f : File) (offset : Nat) : File :=
  { f with pos := offset }

/-- The `n` bytes of the device starting at `off`. -/
def bytesAt (f : File) (off n : Nat) : List Nat :=
  (List.range n).map (fun i => f.data (off + i))

/-- Model of `fs_read(ptr, size, 1, stream)`: `none` stands for a return value below 1,
which `fread` gives when `size` is zero or fewer than `size` bytes are left. -/
def fs_read (f : File) (size : Nat) : Option (List Nat × File) :=
  if size = 0 then none
  else if f.pos + size ≤ f.size then
    some (bytesAt f f.pos size, { f with pos := f.pos + size })
  else none

/-- Model of `fs_write(ptr, size, 1, stream)` for the bytes `buf`: the bytes are stored at the
current position, the position advances, and an image file grows when written past its end. -/
def fs_write (f : File) (buf : List Nat) : File :=
  { size := max f.size (f.pos + buf.length)
    data := fun off =>
      if f.pos ≤ off ∧ off < f.pos + buf.length then buf.getD (off - f.pos) 0 else f.data off
    pos := f.pos + buf.length }

/-! ## Boot sector and volume -/

/-- The fields of `struct sBootSector` that the core reads (already byte-swapped). -/
structure sBootSector where
  BS_JmpBoot0 : Nat
  BS_JmpBoot2 : Nat
  BS_BytesPerSec : Nat
  BS_SecPerClus : Nat
  BS_RsvdSecCnt : Nat
  BS_NumFATs : Nat
  BS_RootEntCnt : Nat
  BS_TotSec16 : Nat
  BS_FATSz16 : Nat
  BS_TotSec32 : Nat
  BS_FATSz32 : Nat
  BS_RootClus : Nat
  BS_EndOfBS : Nat
deriving DecidableEq, Repr

/-- The geometry part of `struct sFileSystem`. -/
structure sFileSystem where
  bs : sBootSector
  FATType : Int
  sectorSize : Nat
  totalSectors : Nat
  clusterSize : Nat
  clusters : Int
  FATSize : Nat
  FSSize : Nat
  maxDirEntriesPerCluster : Nat
  maxClusterChainLength : Nat
  firstDataSector : Nat
deriving DecidableEq, Repr

/-- Model of `check_bootsector`: 0 when the sector passes, -1 otherwise. -/
def check_bootsector (bs : sBootSector) : Int :=
  if ¬ (bs.BS_JmpBoot0 = 0xeb ∧ bs.BS_JmpBoot2 = 0x90) ∧ ¬ (bs.BS_JmpBoot0 = 0xe9) then -1
  else if bs.BS_EndOfBS ≠ 0xaa55 then -1
  else if bs.BS_BytesPerSec = 0 then -1
  else if bs.BS_BytesPerSec % 512 ≠ 0 then -1
  else if bs.BS_SecPerClus = 0 then -1
  else if bs.BS_SecPerClus * bs.BS_BytesPerSec > MAX_CLUSTER_SIZE then -1
  else if bs.BS_RsvdSecCnt = 0 then -1
  else if bs.BS_NumFATs = 0 then -1
  else if bs.BS_RootEntCnt % DIR_ENTRY_SIZE ≠ 0 then -1
  else 0

/-- Model of `getCountOfClusters`: the sums are unsigned 32-bit, the quotient is stored in an
`int32_t`, and a result that is not positive is reported as -1. -/
def getCountOfClusters (bs : sBootSector) : Int :=
  let RootDirSectors := u32 (bs.BS_RootEntCnt * DIR_ENTRY_SIZE + (bs.BS_BytesPerSec - 1))
  let RootDirSectors := RootDirSectors / bs.BS_BytesPerSec
  let FATSz := if bs.BS_FATSz16 ≠ 0 then bs.BS_FATSz16 else bs.BS_FATSz32
  let TotSec := if bs.BS_TotSec16 ≠ 0 then bs.BS_TotSec16 else bs.BS_TotSec32
  let DataSec := sub32 TotSec (u32 (u32 (bs.BS_RsvdSecCnt + u32 (bs.BS_NumFATs * FATSz)) + RootDirSectors))
  let retvalue := toInt32 (DataSec / bs.BS_SecPerClus)
  if retvalue ≤ 0 then -1 else retvalue

/-- Model of `getFATType`. -/
def getFATType (bs : sBootSector) : Int :=
  let CountOfClusters := getCountOfClusters bs
  if CountOfClusters = -1 then -1
  else if CountOfClusters < 4096 then FATTYPE_FAT12
  else if CountOfClusters < 65525 then FATTYPE_FAT16
  else FATTYPE_FAT32

/-- Model of `openFileSystem` after the device has been opened and its first sector read into
`bs`: the checks and the derived geometry. `none` stands for the return value -1. -/
def openFileSystem (bs : sBootSector) : Option sFileSystem :=
  if check_bootsector bs ≠ 0 then none
  else
    let totalSectors := if bs.BS_TotSec16 ≠ 0 then bs.BS_TotSec16 else bs.BS_TotSec32
    if totalSectors = 0 then none
    else
      let FATType := getFATType bs
      if FATType = -1 then none
      else if FATType = FATTYPE_FAT32 ∧ bs.BS_FATSz32 = 0 then none
      else if (FATType = FATTYPE_FAT12 ∨ FATType = FATTYPE_FAT16) ∧ bs.BS_FATSz16 = 0 then none
      else
        let FATSize := if bs.BS_FATSz16 ≠ 0 then bs.BS_FATSz16 else bs.BS_FATSz32
        if (FATType = FATTYPE_FAT16 ∨ FATType = FATTYPE_FAT12) ∧ bs.BS_RootEntCnt = 0 then none
        else if FATType = FATTYPE_FAT32 ∧ bs.BS_RootEntCnt ≠ 0 then none
        else
          let clusters := getCountOfClusters bs
          if clusters = -1 then none
          else if clusters > 268435445 then none
          else
            let sectorSize := bs.BS_BytesPerSec
            let clusterSize := bs.BS_SecPerClus * bs.BS_BytesPerSec
            let rootDirSectors :=
              u32 (bs.BS_RootEntCnt * DIR_ENTRY_SIZE + (bs.BS_BytesPerSec - 1)) / bs.BS_BytesPerSec
            some
              { bs := bs
                FATType := FATType
                sectorSize := sectorSize
                totalSectors := totalSectors
                clusterSize := clusterSize
                clusters := clusters
                FATSize := FATSize
                FSSize := clusters.toNat * clusterSize
                maxDirEntriesPerCluster := clusterSize / DIR_ENTRY_SIZE
                maxClusterChainLength := MAX_FILE_LEN / clusterSize
                firstDataSector :=
                  u32 (u32 (bs.BS_RsvdSecCnt + u32 (bs.BS_NumFATs * FATSize)) + rootDirSectors) }

/-- Offset of FAT copy `nr`, as `readFAT` and `writeFAT` compute it. -/
def fatOffset (fs : sFileSystem) (nr : Nat) : Nat :=
  fs.bs.BS_RsvdSecCnt * fs.bs.BS_BytesPerSec + u32 (nr * u32 (fs.FATSize * fs.sectorSize))

/-- Model of `readFAT`: the byte image of FAT copy `nr`, `none` for `NULL`. -/
def readFAT (fs : sFileSystem) (f : File) (nr : Nat) : Option (List Nat) :=
  let FATSizeInBytes := u32 (fs.FATSize * fs.sectorSize)
  (fs_read (fs_seek f (fatOffset fs nr)) FATSizeInBytes).map Prod.fst

/-- Little-endian value of a list of bytes. -/
def leValue : List Nat → Nat
  | [] => 0
  | b :: bs => b + 256 * leValue bs

/-- Model of `getFATEntry`: the entry of `cluster`, `none` for the return value -1. -/
def getFATEntry (fs : sFileSystem) (f : File) (cluster : Nat) : Option Nat :=
  let base := fs.bs.BS_RsvdSecCnt * fs.bs.BS_BytesPerSec
  if fs.FATType = FATTYPE_FAT32 then
    match fs_read (fs_seek f (base + cluster * 4)) 4 with
    | none => none
    | some (data, _) => some (leValue data &&& 0x0fffffff)
  else if fs.FATType = FATTYPE_FAT16 then
    match fs_read (fs_seek f (base + cluster * 2)) 2 with
    | none => none
    | some (data, _) => some (leValue data)
  else if fs.FATType = FATTYPE_FAT12 then
    match fs_read (fs_seek f (base + (cluster + cluster / 2))) 2 with
    | none => none
    | some (data, _) =>
      if cluster &&& 1 ≠ 0 then some (leValue data >>> 4) else some (leValue data &&& 0x0FFF)
  else none

/-- The unsigned 32-bit value with the bits of an `int32_t`. -/
def ofInt32 (c : Int) : Nat := (c % 2 ^ 32).toNat

/-- Modelled from the spec: `insertCluster` of `clusterchain.c`, which is not among the
sources. The chain walker is described as "appending each visited cluster", so the cluster is
put behind the clusters that the chain holds; allocation never fails. -/
def insertCluster (chain : List Nat) (cluster : Nat) : List Nat := chain ++ [cluster]

/-- The `do ... while` loops of `getClusterChain`, one pass per unit of `fuel`: `i` clusters
are in `chain` and `cluster` (an `int32_t`) is the next one, which `insertCluster` receives
as `u_int32_t`. `none` stands for the return value -1; the pass with
`i == maxClusterChainLength` returns -1, so that `maxClusterChainLength + 1` passes always
suffice. -/
def getClusterChainLoop (fs : sFileSystem) (f : File) :
    Nat → Nat → Int → List Nat → Option (Nat × List Nat)
  | 0, _, _, _ => none
  | fuel + 1, i, cluster, chain =>
    if i = fs.maxClusterChainLength then none
    else if fs.FATType = FATTYPE_FAT32 then
      if ((ofInt32 cluster &&& 0x0fffffff : Nat) : Int) ≥ fs.clusters + 2 then none
      else
        match getFATEntry fs f (ofInt32 cluster) with
        | none => none
        | some data =>
          if data &&& 0x0fffffff = 0 then none
          else if (ofInt32 (toInt32 data) &&& 0x0fffffff ≠ 0x0ff8fff8) ∧
              (ofInt32 (toInt32 data) &&& 0x0fffffff < 0x0ffffff8) then
            getClusterChainLoop fs f fuel (i + 1) (toInt32 data)
              (insertCluster chain (ofInt32 cluster))
          else some (i + 1, insertCluster chain (ofInt32 cluster))
    else
      if cluster ≥ fs.clusters + 2 then none
      else
        match getFATEntry fs f (ofInt32 cluster) with
        | none => none
        | some data =>
          if data = 0 then none
          else if toInt32 data < (if fs.FATType = FATTYPE_FAT12 then 0x0ff8 else 0xfff8) then
            getClusterChainLoop fs f fuel (i + 1) (toInt32 data)
              (insertCluster chain (ofInt32 cluster))
          else some (i + 1, insertCluster chain (ofInt32 cluster))

/-- Model of `getClusterChain(fs, startCluster, chain)` on an empty chain: the number of
clusters and the chain, `none` for the return value -1. -/
def getClusterChain (fs : sFileSystem) (f : File) (startCluster : Nat) :
    Option (Nat × List Nat) :=
  if fs.FATType = FATTYPE_FAT12 ∨ fs.FATType = FATTYPE_FAT16 ∨ fs.FATType = FATTYPE_FAT32 then
    getClusterChainLoop fs f (fs.maxClusterChainLength + 1) 0 (toInt32 startCluster) []
  else none

/-- The loop of `checkFATs` with `n` iterations left: every iteration seeks to
`BSOffset + FATSizeInBytes`, reads `FATx` and compares it with `FAT1`. -/
def checkFATsLoop (BSOffset FATSizeInBytes : Nat) (FAT1 : List Nat) : Nat → File → Int
  | 0, _ => 0
  | n + 1, f =>
    match fs_read (fs_seek f (BSOffset + FATSizeInBytes)) FATSizeInBytes with
    | none => -1
    | some (FATx, f1) =>
      if FAT1 ≠ FATx then 1 else checkFATsLoop BSOffset FATSizeInBytes FAT1 n f1

/-- Model of `checkFATs` (allocation never fails). -/
def checkFATs (fs : sFileSystem) (f : File) : Int :=
  if fs.bs.BS_NumFATs < 2 then 0
  else
    let FATSizeInBytes := u32 (fs.FATSize * fs.sectorSize)
    let BSOffset := fs.bs.BS_RsvdSecCnt * fs.bs.BS_BytesPerSec
    match fs_read (fs_seek f BSOffset) FATSizeInBytes with
    | none => -1
    | some (FAT1, f1) => checkFATsLoop BSOffset FATSizeInBytes FAT1 (fs.bs.BS_NumFATs - 1) f1

/-! ## C strings -/

/-- The bytes of an ASCII string literal. -/
def str (s : String) : List Nat := s.toList.map Char.toNat

/-- The C string stored in a buffer: the bytes before the first NUL. -/
def cstr (buf : List Nat) : List Nat := buf.takeWhile (fun c => c ≠ 0)

/-- Model of `tolower` on a byte (ASCII letters only, as in the C and UTF-8 locales). -/
def tolower (c : Nat) : Nat := if 65 ≤ c ∧ c ≤ 90 then c + 32 else c

/-- Model of `strcmp` on two buffers: the difference of the first pair of bytes that differ,
0 when a NUL is reached in both at once; the end of a list counts as NUL. -/
def strcmp : List Nat → List Nat → Int
  | [], [] => 0
  | [], b :: _ => - (b : Int)
  | a :: _, [] => (a : Int)
  | a :: as, b :: bs =>
    if a = b then (if a = 0 then 0 else strcmp as bs) else (a : Int) - (b : Int)

/-- Model of `strncasecmp(s1, s2, n)`, bytes folded by `tolower`. -/
def strncasecmp : List Nat → List Nat → Nat → Int
  | _, _, 0 => 0
  | [], [], _ + 1 => 0
  | [], b :: _, _ + 1 => - (tolower b : Int)
  | a :: _, [], _ + 1 => (tolower a : Int)
  | a :: as, b :: bs, n + 1 =>
    if tolower a = tolower b then (if a = 0 then 0 else strncasecmp as bs n)
    else (tolower a : Int) - (tolower b : Int)

/-! ## Directory entries and entry lists (`entrylist.c`) -/

/-- One node of `struct sDirEntryList`: short and long name strings, the 32 bytes of the short
entry, the long entries in stream order, and the number of slots. A directory list is a
`List sDirEntryList`; the dummy head node of the C list is not represented. -/
structure sDirEntryList where
  sname : List Nat
  lname : List Nat
  sde : List Nat
  ldel : List (List Nat)
  entries : Nat
deriving DecidableEq, Repr

/-- Byte `i` of a 32-byte slot. -/
def byteAt (e : List Nat) (i : Nat) : Nat := e.getD i 0

/-- Little-endian 16-bit field at offset `i` of a slot. -/
def le16 (e : List Nat) (i : Nat) : Nat := byteAt e i + 256 * byteAt e (i + 1)

def DIR_Name (sde : List Nat) : List Nat := sde.take 11
def DIR_Atrr (sde : List Nat) : Nat := byteAt sde 11
def DIR_FstClusHI (sde : List Nat) : Nat := le16 sde 20
def DIR_WrtTime (sde : List Nat) : Nat := le16 sde 22
def DIR_WrtDate (sde : List Nat) : Nat := le16 sde 24
def DIR_FstClusLO (sde : List Nat) : Nat := le16 sde 26
def LDIR_Ord (lde : List Nat) : Nat := byteAt lde 0
def LDIR_Attr (lde : List Nat) : Nat := byteAt lde 11
def LDIR_Checksum (lde : List Nat) : Nat := byteAt lde 13

/-- The option variables that the core reads (`options.h` is not part of the sources at hand).
`OPT_IGNORE_PREFIXES_LIST` is the string list without its dummy head. -/
structure Options where
  OPT_LIST : Bool
  OPT_RANDOM : Bool
  OPT_MORE_INFO : Bool
  OPT_FORCE : Bool
  OPT_ORDER : Nat
  OPT_MODIFICATION : Bool
  /-- Modelled from the spec: 1 without the reverse flag and -1 with it. -/
  OPT_REVERSE : Int
  OPT_IGNORE_CASE : Bool
  OPT_NATURAL_SORT : Bool
  OPT_ASCII : Bool
  OPT_IGNORE_PREFIXES_LIST : List (List Nat)

/-- What the core takes from outside the sources at hand: `natstrcmp`, the C library's
`strxfrm` (return value and resulting buffer string), the contents that the uninitialised
stack buffers `scase1` and `scase2` hold when two entries are compared, and the bytes
`lnameTail` that memory holds from `lname[MAX_PATH_LEN]` on in the parse functions, a byte
that they never store. -/
structure Env where
  natstrcmp : List Nat → List Nat → Int
  strxfrm : List Nat → Nat × List Nat
  scase1 : sDirEntryList → sDirEntryList → List Nat
  scase2 : sDirEntryList → sDirEntryList → List Nat
  lnameTail : List Nat

/-- Model of `stripSpecialPrefixes(old, new)` on C strings (`strlen` is the length of the
list): `some new` when the function returns 1 and `none` when it returns 0 (and leaves `new`
untouched). -/
def stripSpecialPrefixes : List (List Nat) → List Nat → Option (List Nat)
  | [], _ => none
  | p :: rest, old =>
    if strncasecmp old p p.length = 0 then
      some ((old.drop p.length).take (old.length - p.length))
    else stripSpecialPrefixes rest old

/-- The loop `while (ss[i]) { scase[i] = tolower(ss[i]); i++; }` on a buffer that held `buf`
before: the folded bytes overwrite the front of the buffer, no terminator is stored, and the
string that `strcmp` then sees ends at the first NUL left in the buffer. -/
def foldCase (ss buf : List Nat) : List Nat :=
  cstr (ss.map tolower ++ buf.drop ss.length)

/-- The test `(attr & (RO | HIDDEN | SYSTEM | VOLUME_ID | DIRECTORY)) == ATTR_VOLUME_ID`. -/
def isVolumeLabel (de : sDirEntryList) : Bool :=
  (DIR_Atrr de.sde &&&
    (ATTR_READ_ONLY ||| ATTR_HIDDEN ||| ATTR_SYSTEM ||| ATTR_VOLUME_ID ||| ATTR_DIRECTORY))
    == ATTR_VOLUME_ID

/-- The test `attr & ATTR_DIRECTORY`. -/
def isDirectory (de : sDirEntryList) : Bool :=
  DIR_Atrr de.sde &&& ATTR_DIRECTORY != 0

/-- The name that `cmpEntries` compares: the long name when it is not empty, else the short
name (`ss1`, `ss2`). -/
def displayName (de : sDirEntryList) : List Nat :=
  if de.lname ≠ [] then de.lname else de.sname

/-- The key of modification-time mode, `DIR_WrtDate << 16 | DIR_WrtTime` as `u_int32_t`. -/
def modKey (de : sDirEntryList) : Nat :=
  u32 ((DIR_WrtDate de.sde <<< 16) ||| DIR_WrtTime de.sde)

/-- The name after the step "strip special prefixes" of `cmpEntries`: the display name, or
what `stripSpecialPrefixes` has put into the buffer when the prefix list is not empty and a
prefix matches. -/
def strippedName (o : Options) (de : sDirEntryList) : List Nat :=
  if o.OPT_IGNORE_PREFIXES_LIST ≠ [] then
    (stripSpecialPrefixes o.OPT_IGNORE_PREFIXES_LIST (displayName de)).getD (displayName de)
  else displayName de

/-- The last part of `cmpEntries`: prefix stripping, case folding and the comparison of the
names; `none` stands for the `exit(1)` after a collation error. -/
def cmpByName (env : Env) (o : Options) (de1 de2 : sDirEntryList) : Option Int :=
  let ss1 := strippedName o de1
  let ss2 := strippedName o de2
  let ss1 := if o.OPT_IGNORE_CASE then foldCase ss1 (env.scase1 de1 de2) else ss1
  let ss2 := if o.OPT_IGNORE_CASE then foldCase ss2 (env.scase2 de1 de2) else ss2
  if o.OPT_NATURAL_SORT then some (env.natstrcmp ss1 ss2 * o.OPT_REVERSE)
  else if o.OPT_ASCII then some (strcmp ss1 ss2 * o.OPT_REVERSE)
  else
    let r1 := env.strxfrm ss1
    let r2 := env.strxfrm ss2
    if r1.1 = MAX_PATH_LEN * 2 ∨ r2.1 = MAX_PATH_LEN * 2 then none
    else some (strcmp r1.2 r2.2 * o.OPT_REVERSE)

/-- The part of `cmpEntries` behind the checks for special entries: list and random mode,
the directory-versus-file rule, modification-time mode, and the names. -/
def cmpOrdinary (env : Env) (o : Options) (de1 de2 : sDirEntryList) : Option Int :=
  if o.OPT_LIST ∨ o.OPT_RANDOM then some 1
  else if o.OPT_ORDER = 0 ∧ isDirectory de1 ∧ ¬ isDirectory de2 then some (-1)
  else if o.OPT_ORDER = 0 ∧ ¬ isDirectory de1 ∧ isDirectory de2 then some 1
  else if o.OPT_ORDER = 1 ∧ isDirectory de1 ∧ ¬ isDirectory de2 then some 1
  else if o.OPT_ORDER = 1 ∧ ¬ isDirectory de1 ∧ isDirectory de2 then some (-1)
  else if o.OPT_MODIFICATION then
    if modKey de1 < modKey de2 then some (- o.OPT_REVERSE)
    else if modKey de1 > modKey de2 then some o.OPT_REVERSE
    else some 0
  else cmpByName env o de1 de2

/-- Model of `cmpEntries`: volume label, ".", "..", deleted entries, then `cmpOrdinary`. -/
def cmpEntries (env : Env) (o : Options) (de1 de2 : sDirEntryList) : Option Int :=
  if isVolumeLabel de1 then some (-1)
  else if isVolumeLabel de2 then some 1
  else if de1.sname = str "." then some (-1)
  else if de2.sname = str "." then some 1
  else if de1.sname = str ".." then some (-1)
  else if de2.sname = str ".." then some 1
  else if de1.sname.headD 0 = DE_FREE then some 1
  else if de2.sname.headD 0 = DE_FREE then some (-1)
  else cmpOrdinary env o de1 de2

/-- Model of `insertDirEntryList(new, list)`: `new` goes behind the longest front part of the
list whose nodes all give `cmpEntries(new, node) >= 0`. `none` when `cmpEntries` exits. -/
def insertDirEntryList (env : Env) (o : Options) (new : sDirEntryList) :
    List sDirEntryList → Option (List sDirEntryList)
  | [] => some [new]
  | x :: rest =>
    match cmpEntries env o new x with
    | none => none
    | some c =>
      if c ≥ 0 then (insertDirEntryList env o new rest).map (fun l => x :: l)
      else some (new :: x :: rest)

/-- The list that results from inserting the records `recs` one after the other, in stream
order, into an empty list. -/
def insertAll (env : Env) (o : Options) :
    List sDirEntryList → List sDirEntryList → Option (List sDirEntryList)
  | [], list => some list
  | r :: recs, list =>
    match insertDirEntryList env o r list with
    | none => none
    | some list1 => insertAll env o recs list1

/-- The test of the skip loop in `randomizeDirEntryList`. -/
def isSkipped (de : sDirEntryList) : Bool :=
  isVolumeLabel de || de.sname == str "." || de.sname == str ".."

/-- The `for` loop of `randomizeDirEntryList` with `n` iterations left: `done` are the nodes
up to and including `randlist`, `rest` the nodes behind it, and `irand i` is the value that
`irand(0, entries - 1 - i)` returns in iteration `i`. The selected node `rest[pos]` is unlinked
and linked in right behind `randlist`; `none` stands for the dereference of a null link. -/
def randomizeLoop (irand : Nat → Nat) :
    Nat → Nat → List sDirEntryList → List sDirEntryList → Option (List sDirEntryList)
  | 0, _, done, rest => some (done ++ rest)
  | n + 1, i, done, rest =>
    match rest[irand i]? with
    | none => none
    | some d => randomizeLoop irand n (i + 1) (done ++ [d]) (rest.eraseIdx (irand i))

/-- Model of `randomizeDirEntryList(list, entries)`. -/
def randomizeDirEntryList (irand : Nat → Nat) (list : List sDirEntryList) (entries : Nat) :
    Option (List sDirEntryList) :=
  let skip := (list.takeWhile isSkipped).length
  randomizeLoop irand (entries - skip) skip (list.takeWhile isSkipped) (list.dropWhile isSkipped)

/-! ## Parsing and writing directories (`FAT_fs.c`, `sort.c`) -/

/-- Model of `getClusterOffset`; `cluster - 2` is an unsigned 32-bit difference and the rest
is computed in `off_t`. -/
def getClusterOffset (fs : sFileSystem) (cluster : Nat) : Nat :=
  (sub32 cluster 2 * fs.bs.BS_SecPerClus + fs.firstDataSector) * fs.sectorSize

/-- Model of `calculateChecksum` on the 11 name bytes, the sum being an `u_char`. -/
def calculateChecksum (sname : List Nat) : Nat :=
  (List.range 11).foldl
    (fun sum i => ((if sum &&& 1 ≠ 0 then 0x80 else 0) + (sum >>> 1) + byteAt sname i) % 256) 0

/-- The value of a byte read through a `char` that is signed. -/
def scharValue (b : Nat) : Int := if b < 128 then (b : Int) else (b : Int) - 256

/-- Model of `calculateChecksum` where `char` is a signed type: the name byte enters the sum
as a value from -128 to 127, and the sum is converted to `u_char`. -/
def calculateChecksumSigned (sname : List Nat) : Nat :=
  (List.range 11).foldl
    (fun sum i =>
      Int.toNat
        (((((if sum &&& 1 ≠ 0 then 0x80 else 0) + (sum >>> 1) : Nat) : Int)
          + scharValue (byteAt sname i)) % 256))
    0

/-- Model of `parseEntry`: the return code, the 32 bytes read and the advanced stream;
`none` when the read fails (return value -1). -/
def parseEntry (f : File) : Option (Int × List Nat × File) :=
  match fs_read f DIR_ENTRY_SIZE with
  | none => none
  | some (de, f1) =>
    if byteAt de 0 = DE_FOLLOWING_FREE then some (0, de, f1)
    else if LDIR_Attr de &&& ATTR_LONG_NAME_MASK = ATTR_LONG_NAME then some (2, de, f1)
    else some (1, de, f1)

/-- Model of `parseShortFilename`. -/
def parseShortFilename (sde : List Nat) : List Nat :=
  let base := (cstr ((DIR_Name sde).take 8)).takeWhile (fun c => c ≠ 32)
  if byteAt sde 8 ≠ 32 then
    (base ++ str "." ++ cstr (((DIR_Name sde).drop 8).take 3)).take 12
  else base

/-- The 26 bytes that `parseLongFilenamePart` gathers from a long entry. -/
def utf16str (lde : List Nat) : List Nat :=
  (lde.drop 1).take 10 ++ (lde.drop 14).take 12 ++ (lde.drop 28).take 4

/-- The number of input bytes that `parseLongFilenamePart` hands to `iconv`: up to the first
of the leading 12 code units that is zero, 26 otherwise. -/
def incount (u : List Nat) : Nat :=
  match (List.range 12).find? (fun i => byteAt u (i * 2) == 0 && byteAt u (i * 2 + 1) == 0) with
  | some i => i * 2
  | none => 26

/-- Model of `parseLongFilenamePart`; `iconv` is the converter behind `fs->cd`, giving the
bytes it has produced when the conversion loop ends. -/
def parseLongFilenamePart (iconv : List Nat → List Nat) (lde : List Nat) : List Nat :=
  cstr ((iconv ((utf16str lde).take (incount (utf16str lde)))).take MAX_PATH_LEN)

/-- The `for` loop of `checkLongDirEntries` with `n` iterations left, at index `i` and list
position `tmp`. `none` stands for the dereference of a null link. -/
def checkLongLoop (entries calculatedChecksum : Nat) : Nat → Nat → List (List Nat) → Option Int
  | 0, _, _ => some 0
  | _ + 1, _, [] => none
  | n + 1, i, lde :: tmp =>
    if LDIR_Ord lde ≠ DE_FREE then
      let nr := LDIR_Ord lde &&& 0xffffffbf
      if nr ≠ entries - 1 - i then some (-1)
      else if LDIR_Checksum lde ≠ calculatedChecksum then some (-1)
      else checkLongLoop entries calculatedChecksum n (i + 1) tmp
    else checkLongLoop entries calculatedChecksum n (i + 1) tmp

/-- Model of `checkLongDirEntries`. -/
def checkLongDirEntries (list : sDirEntryList) : Option Int :=
  if list.entries > 1 then
    let calculatedChecksum := calculateChecksum (DIR_Name list.sde)
    match list.ldel with
    | [] => none
    | lde :: _ =>
      if LDIR_Ord lde ≠ DE_FREE ∧ LDIR_Ord lde &&& LAST_LONG_ENTRY = 0 then some (-1)
      else checkLongLoop list.entries calculatedChecksum (list.entries - 1) 0 list.ldel
  else some 0

/-- The local variables of the two parse loops together with the stream and the list. -/
structure ParseState where
  f : File
  list : List sDirEntryList
  direntries : Nat
  entries : Nat
  llist : List (List Nat)
  lname : List Nat

/-- Outcome of a step of a parse loop: go on, `return code`, or the end of the process
(`exit(1)` after a collation error, or the dereference of a null link). -/
inductive ParseStep where
  | cont (s : ParseState)
  | ret (code : Int) (s : ParseState)
  | exit

/-- The return code of a finished parse, `none` while it goes on or when the process ended. -/
def ParseStep.code : ParseStep → Option Int
  | .ret c _ => some c
  | _ => none

/-- The list that a parse has built so far (empty when the process ended). -/
def ParseStep.list : ParseStep → List sDirEntryList
  | .cont s => s.list
  | .ret _ s => s.list
  | .exit => []

/-- The stream after a parse. -/
def ParseStep.file (f0 : File) : ParseStep → File
  | .cont s => s.f
  | .ret _ s => s.f
  | .exit => f0

/-- The string that `newDirEntry` copies from the buffer `lname` with `strlen` and `strcpy`.
The parse loops keep the name in `lname[0]` to `lname[MAX_PATH_LEN - 1]`, padded with NUL
(`strncpy(lname, dummy, MAX_PATH_LEN)`), and never store `lname[MAX_PATH_LEN]`: a name of
`MAX_PATH_LEN` bytes is read together with the bytes that memory holds behind it. -/
def heldLname (env : Env) (lname : List Nat) : List Nat :=
  if lname.length = MAX_PATH_LEN then lname ++ cstr env.lnameTail else lname

/-- The body of the slot loop shared by `parseClusterChain` and `parseFAT1xRootDirEntries`.
The listing output of list mode is not modelled and allocation never fails; `s.lname` is the
name in the first `MAX_PATH_LEN` bytes of the buffer `lname`. -/
def parseSlot (env : Env) (iconv : List Nat → List Nat) (o : Options) (s : ParseState) :
    ParseStep :=
  let entries := u32 (s.entries + 1)
  match parseEntry s.f with
  | none => .ret (-1) { s with entries := entries }
  | some (ret, de, f1) =>
    if ret = 0 then
      if s.llist ≠ [] then .ret (-1) { s with entries := entries, f := f1 }
      else .ret 0 { s with entries := entries, f := f1 }
    else if ret = 1 then
      let sname := parseShortFilename de
      let lnde : sDirEntryList :=
        { sname := sname, lname := heldLname env s.lname, sde := de, ldel := s.llist,
          entries := entries }
      match checkLongDirEntries lnde with
      | none => .exit
      | some chk =>
        if chk ≠ 0 then .ret (-1) { s with entries := entries, f := f1 }
        else
          match insertDirEntryList env o lnde s.list with
          | none => .exit
          | some list1 =>
            .cont { f := f1, list := list1, direntries := u32 (s.direntries + 1), entries := 0,
                    llist := [], lname := [] }
    else
      let tmp := parseLongFilenamePart iconv de
      .cont { s with
        entries := entries, f := f1, llist := s.llist ++ [de],
        lname := (tmp ++ s.lname).take MAX_PATH_LEN }

/-- The slot loop, `n` slots to go. -/
def parseSlots (env : Env) (iconv : List Nat → List Nat) (o : Options) :
    Nat → ParseState → ParseStep
  | 0, s => .cont s
  | n + 1, s =>
    match parseSlot env iconv o s with
    | .cont s1 => parseSlots env iconv o n s1
    | r => r

/-- The `while (chain != NULL)` loop of `parseClusterChain`. -/
def parseChainLoop (env : Env) (iconv : List Nat → List Nat) (o : Options) (fs : sFileSystem) :
    List Nat → ParseState → ParseStep
  | [], s => .cont s
  | cluster :: chain, s =>
    match parseSlots env iconv o fs.maxDirEntriesPerCluster
        { s with f := fs_seek s.f (getClusterOffset fs cluster) } with
    | .cont s1 => parseChainLoop env iconv o fs chain s1
    | r => r

/-- Start of both parse functions: empty list, no pending long entries. -/
def parseInit (f : File) : ParseState :=
  { f := f, list := [], direntries := 0, entries := 0, llist := [], lname := [] }

/-- The code after the loops: pending long entries without a short entry are an error. -/
def parseFinish : ParseStep → ParseStep
  | .cont s => if s.llist ≠ [] then .ret (-1) s else .ret 0 s
  | r => r

/-- Model of `parseClusterChain(fs, chain, list, direntries)` on an empty `list`; `chain` holds
the cluster numbers behind the dummy head. The result is `ret code s` with the list and the
entry count in `s`, or `exit`. -/
def parseClusterChain (env : Env) (iconv : List Nat → List Nat) (o : Options) (fs : sFileSystem)
    (f : File) (chain : List Nat) : ParseStep :=
  parseFinish (parseChainLoop env iconv o fs chain (parseInit f))

/-- Offset of the FAT12/16 root directory as `parseFAT1xRootDirEntries` and
`sortFAT1xRootDirectory` compute it: the product is unsigned 32-bit, the rest `off_t`. -/
def rootDirOffset (fs : sFileSystem) : Nat :=
  (fs.bs.BS_RsvdSecCnt + u32 (fs.bs.BS_NumFATs * fs.FATSize)) * fs.sectorSize

/-- Model of `parseFAT1xRootDirEntries(fs, list, direntries)` on an empty `list`. -/
def parseFAT1xRootDirEntries (env : Env) (iconv : List Nat → List Nat) (o : Options)
    (fs : sFileSystem) (f : File) : ParseStep :=
  parseFinish
    (parseSlots env iconv o fs.bs.BS_RootEntCnt (parseInit (fs_seek f (rootDirOffset fs))))

/-- The 32 bytes that `fs_write(e, DIR_ENTRY_SIZE, 1, fd)` takes from an entry. -/
def entryBytes (e : List Nat) : List Nat := (List.range DIR_ENTRY_SIZE).map (byteAt e)

/-- A loop that writes `n` long entries from `tmp` on; gives the rest of the list and the
stream, or `none` when `tmp` is null before `n` entries are written. -/
def writeLdes : Nat → List (List Nat) → File → Option (List (List Nat) × File)
  | 0, tmp, f => some (tmp, f)
  | _ + 1, [], _ => none
  | n + 1, lde :: tmp, f => writeLdes n tmp (fs_write f (entryBytes lde))

/-- The loop `while (tmp != NULL)` that writes all remaining long entries. -/
def writeAllLdes : List (List Nat) → File → File
  | [], f => f
  | lde :: tmp, f => writeAllLdes tmp (fs_write f (entryBytes lde))

/-- Model of `writeList`: all records one after the other at the current position. -/
def writeList : List sDirEntryList → File → File
  | [], f => f
  | p :: list, f => writeList list (fs_write (writeAllLdes p.ldel f) (entryBytes p.sde))

/-- The `while (p != NULL)` loop of `writeClusterChain`: `chain` is the current chain node and
its successors, `entries` the slots used in the current cluster. `none` stands for the
dereference of a null link. -/
def writeChainLoop (fs : sFileSystem) :
    List sDirEntryList → List Nat → Nat → File → Option (Nat × File)
  | [], _, entries, f => some (entries, f)
  | p :: list, chain, entries, f =>
    if u32 (entries + p.entries) ≤ fs.maxDirEntriesPerCluster then
      match writeLdes (p.entries - 1) p.ldel f with
      | none => none
      | some (_, f1) =>
        writeChainLoop fs list chain (u32 (entries + p.entries)) (fs_write f1 (entryBytes p.sde))
    else
      match writeLdes (sub32 fs.maxDirEntriesPerCluster entries) p.ldel f with
      | none => none
      | some (tmp, f1) =>
        match chain with
        | [] => none
        | _ :: [] => none
        | _ :: cluster :: chain1 =>
          let entries1 := sub32 p.entries (sub32 fs.maxDirEntriesPerCluster entries)
          let f2 := fs_seek f1 (getClusterOffset fs cluster)
          writeChainLoop fs list (cluster :: chain1) entries1
            (fs_write (writeAllLdes tmp f2) (entryBytes p.sde))

/-- Model of `writeClusterChain(fs, list, chain)`; the device takes every seek and write, so
the function returns 0 unless a null link is dereferenced (`none`). -/
def writeClusterChain (fs : sFileSystem) (list : List sDirEntryList) (chain : List Nat)
    (f : File) : Option File :=
  match chain with
  | [] => none
  | cluster :: _ =>
    match writeChainLoop fs list chain 0 (fs_seek f (getClusterOffset fs cluster)) with
    | none => none
    | some (entries, f1) =>
      if entries < fs.maxDirEntriesPerCluster then
        some (fs_write f1 (List.replicate DIR_ENTRY_SIZE 0))
      else some f1

/-! ## Free, bad and end-of-chain values (`FAT_fs.c`, `fatsort.c`) -/

/-- Model of `isFreeCluster`. -/
def isFreeCluster (data : Nat) : Bool := data &&& 0x0FFFFFFF == 0

/-- Model of `isEOC`. -/
def isEOC (fs : sFileSystem) (data : Nat) : Bool :=
  if fs.FATType = FATTYPE_FAT12 then decide (data ≥ 0x0FF8)
  else if fs.FATType = FATTYPE_FAT16 then decide (data ≥ 0xFFF8)
  else if fs.FATType = FATTYPE_FAT32 then decide (data &&& 0x0FFFFFFF ≥ 0x0FFFFFF8)
  else false

/-- Model of `isBadCluster`. -/
def isBadCluster (fs : sFileSystem) (data : Nat) : Bool :=
  if fs.FATType = FATTYPE_FAT12 then data == 0xFF7
  else if fs.FATType = FATTYPE_FAT16 then data == 0xFFF7
  else if fs.FATType = FATTYPE_FAT32 then data &&& 0x0FFFFFFF == 0x0FFFFFF7
  else false

/-- The value that `printFSInfo` looks at after `getFATEntry(&fs, i, &value)`, whose return
code it does not test: `getFATEntry` stores 0 before it reads, and a failed read is taken to
leave that 0. -/
def fatValue (fs : sFileSystem) (f : File) (i : Nat) : Nat := (getFATEntry fs f i).getD 0

/-- The counting loop of `printFSInfo` with `n` clusters to go, at cluster `i`, with the
counters `usedClusters` and `badClusters` as a pair. -/
def countClustersLoop (fs : sFileSystem) (f : File) : Nat → Nat → Nat × Nat → Nat × Nat
  | 0, _, acc => acc
  | n + 1, i, (usedClusters, badClusters) =>
    let value := fatValue fs f i
    let used1 := if value &&& 0x0FFFFFFF ≠ 0 then usedClusters + 1 else usedClusters
    let bad1 :=
      if fs.FATType = FATTYPE_FAT32 then
        (if value &&& 0x0FFFFFFF = 0x0FFFFFF7 then badClusters + 1 else badClusters)
      else if fs.FATType = FATTYPE_FAT16 then
        (if value = 0x0000FFF7 then badClusters + 1 else badClusters)
      else if fs.FATType = FATTYPE_FAT12 then
        (if value = 0x00000FF7 then badClusters + 1 else badClusters)
      else badClusters
    countClustersLoop fs f n (i + 1) (used1, bad1)

/-- The used and bad cluster counts of `printFSInfo`: the loop over the clusters 2 to
`clusters + 1`. -/
def countClusters (fs : sFileSystem) (f : File) : Nat × Nat :=
  countClustersLoop fs f fs.clusters.toNat 2 (0, 0)

/-! ## The driver (`sort.c`) -/

def FS_MODE_RO : Nat := 1
def FS_MODE_RO_EXCL : Nat := 2
def FS_MODE_RW : Nat := 3
def FS_MODE_RW_EXCL : Nat := 4

/-- Model of `strncpy(dst, src, n)` on the buffer `dst`: the first `n` bytes become the string
`src`, cut to `n` bytes or padded with NUL; the other bytes of the buffer stay. -/
def strncpy (dst src : List Nat) (n : Nat) : List Nat :=
  let s := (cstr src).take n
  s ++ List.replicate (n - s.length) 0 ++ dst.drop n

/-- Model of `strncat(dst, src, n)` on the buffer `dst`: at most `n` bytes of the string `src`
and a NUL are stored behind the string that `dst` holds. -/
def strncat (dst src : List Nat) (n : Nat) : List Nat :=
  let l := (cstr dst).length
  let s := (cstr src).take n
  dst.take l ++ s ++ [0] ++ dst.drop (l + s.length + 1)

/-- The buffer `newpath` of `sortSubdirectories` after the path of the subdirectory `p` has
been put together in it: `strncpy` of `path`, `strncat` of the long name, or of the short name
when there is no long name, and `strncat` of "/", each followed by
`newpath[MAX_PATH_LEN] = 0`. -/
def nextPath (newpath path : List Nat) (p : sDirEntryList) : List Nat :=
  let b1 := (strncpy newpath path (MAX_PATH_LEN - (cstr newpath).length)).set MAX_PATH_LEN 0
  let name := if p.lname ≠ [] then p.lname else p.sname
  let b2 := (strncat b1 name (MAX_PATH_LEN - (cstr b1).length)).set MAX_PATH_LEN 0
  (strncat b2 (str "/") (MAX_PATH_LEN - (cstr b2).length)).set MAX_PATH_LEN 0

/-- The test of `sortSubdirectories` for a record to descend into: a directory that is not
deleted, not a volume label, and neither "." nor "..". -/
def isSubdirectory (p : sDirEntryList) : Bool :=
  (DIR_Atrr p.sde &&& ATTR_DIRECTORY != 0) && (byteAt p.sde 0 != DE_FREE) &&
  (DIR_Atrr p.sde &&& ATTR_VOLUME_ID == 0) && (p.sname != str ".") && (p.sname != str "..")

/-- What the driver passes on: the device, the number of calls of `randomizeDirEntryList` made
so far, and a log of the paths of the directories for which `writeClusterChain` or `writeList`
was called. The log is not a variable of the program; it is kept to state which directories
were written. -/
structure SortState where
  f : File
  calls : Nat
  written : List (List Nat)

/-- How a function of the driver ended: `return code`, the end of the process (`exit(1)` or
the dereference of a null link), or a recursion deeper than the model follows it. -/
inductive Outcome where
  | ret (code : Int)
  | exit
  | deep
deriving DecidableEq, Repr

/-- Outcome and state of a function of the driver. -/
structure Run where
  out : Outcome
  s : SortState

/-- The loop of `sortSubdirectories(fs, list, path)` from record `p` on, with the buffer
`newpath`; `sortDir` stands for the call of `sortClusterChain`. -/
def sortSubdirectoriesLoop (fs : sFileSystem) (sortDir : Nat → List Nat → SortState → Run)
    (path : List Nat) : List sDirEntryList → List Nat → SortState → Run
  | [], _, s => { out := .ret 0, s := s }
  | p :: rest, newpath, s =>
    if isSubdirectory p then
      let c := u32 (DIR_FstClusHI p.sde * 65536 + DIR_FstClusLO p.sde)
      match getFATEntry fs s.f c with
      | none => { out := .ret (-1), s := s }
      | some _ =>
        let newpath1 := nextPath newpath path p
        let r := sortDir c (cstr newpath1) s
        match r.out with
        | .ret code =>
          if code = -1 then { out := .ret (-1), s := r.s }
          else sortSubdirectoriesLoop fs sortDir path rest newpath1 r.s
        | _ => r
    else sortSubdirectoriesLoop fs sortDir path rest newpath s

/-- Model of `sortSubdirectories(fs, list, path)`: the buffer `newpath` starts as
`MAX_PATH_LEN + 1` NUL bytes. -/
def sortSubdirectories (fs : sFileSystem) (sortDir : Nat → List Nat → SortState → Run)
    (path : List Nat) (list : List sDirEntryList) (s : SortState) : Run :=
  let r := sortSubdirectoriesLoop fs sortDir path list (List.replicate (MAX_PATH_LEN + 1) 0) s
  match r.out with
  | .ret code => { out := .ret (if code = -1 then -1 else 0), s := r.s }
  | _ => r

/-- The step `if (OPT_RANDOM) randomizeDirEntryList(list, direntries)`: `irand k i` is the
value that `irand` returns in iteration `i` of call number `k`. `none` stands for the
dereference of a null link. -/
def randomizeStep (o : Options) (irand : Nat → Nat → Nat) (list : List sDirEntryList)
    (direntries calls : Nat) : Option (List sDirEntryList × Nat) :=
  if o.OPT_RANDOM then
    (randomizeDirEntryList (irand calls) list direntries).map (fun l => (l, calls + 1))
  else some (list, calls)

/-- Model of `sortClusterChain(fs, cluster, path)`. `matchOf path` stands for the value of
`match`, which `matchesDirPathLists` and `matchesRegExList` compute from the path; `fuel`
bounds the depth of the recursion through `sortSubdirectories`. The messages are not
modelled. When `writeClusterChain` dereferences a null link, the state before the call is
given. -/
def sortClusterChain (env : Env) (iconv : List Nat → List Nat) (o : Options)
    (matchOf : List Nat → Bool) (irand : Nat → Nat → Nat) (fs : sFileSystem) :
    Nat → Nat → List Nat → SortState → Run
  | 0, _, _, s => { out := .deep, s := s }
  | fuel + 1, cluster, path, s =>
    match getClusterChain fs s.f cluster with
    | none => { out := .ret (-1), s := s }
    | some (_, chain) =>
      match parseClusterChain env iconv o fs s.f chain with
      | .exit => { out := .exit, s := s }
      | .cont p => { out := .exit, s := { s with f := p.f } }
      | .ret code p =>
        if code = -1 then { out := .ret (-1), s := { s with f := p.f } }
        else if ¬ o.OPT_LIST ∧ matchOf path then
          match randomizeStep o irand p.list p.direntries s.calls with
          | none => { out := .exit, s := { s with f := p.f } }
          | some (list1, calls1) =>
            match writeClusterChain fs list1 chain p.f with
            | none =>
              { out := .exit, s := { f := p.f, calls := calls1, written := s.written ++ [path] } }
            | some f1 =>
              sortSubdirectories fs (sortClusterChain env iconv o matchOf irand fs fuel) path
                list1 { f := f1, calls := calls1, written := s.written ++ [path] }
        else
          sortSubdirectories fs (sortClusterChain env iconv o matchOf irand fs fuel) path
            p.list { s with f := p.f }

/-- Model of `sortFAT1xRootDirectory(fs)`; `fuel` bounds the depth of the directory tree that
is followed. -/
def sortFAT1xRootDirectory (env : Env) (iconv : List Nat → List Nat) (o : Options)
    (matchOf : List Nat → Bool) (irand : Nat → Nat → Nat) (fs : sFileSystem) (fuel : Nat)
    (s : SortState) : Run :=
  match parseFAT1xRootDirEntries env iconv o fs s.f with
  | .exit => { out := .exit, s := s }
  | .cont p => { out := .exit, s := { s with f := p.f } }
  | .ret code p =>
    if code = -1 then { out := .ret (-1), s := { s with f := p.f } }
    else if ¬ o.OPT_LIST ∧ matchOf (str "/") then
      match randomizeStep o irand p.list p.direntries s.calls with
      | none => { out := .exit, s := { s with f := p.f } }
      | some (list1, calls1) =>
        sortSubdirectories fs (sortClusterChain env iconv o matchOf irand fs fuel) (str "/")
          list1
          { f := writeList list1 (fs_seek p.f (rootDirOffset fs)), calls := calls1,
            written := s.written ++ [str "/"] }
    else
      sortSubdirectories fs (sortClusterChain env iconv o matchOf irand fs fuel) (str "/")
        p.list { s with f := p.f }

/-- The open mode that `sortFileSystem` chooses. -/
def sortFileSystemMode (o : Options) : Nat :=
  if ¬ o.OPT_FORCE ∧ o.OPT_LIST then FS_MODE_RO_EXCL
  else if ¬ o.OPT_FORCE ∧ ¬ o.OPT_LIST then FS_MODE_RW_EXCL
  else if o.OPT_FORCE ∧ o.OPT_LIST then FS_MODE_RO
  else FS_MODE_RW

/-- Model of `sortFileSystem` after the device has been opened and its first sector read into
`bs`: the checks, and the sort of the root directory by FAT type. -/
def sortFileSystem (env : Env) (iconv : List Nat → List Nat) (o : Options)
    (matchOf : List Nat → Bool) (irand : Nat → Nat → Nat) (fuel : Nat) (bs : sBootSector)
    (f : File) : Run :=
  let s : SortState := { f := f, calls := 0, written := [] }
  match openFileSystem bs with
  | none => { out := .ret (-1), s := s }
  | some fs =>
    if checkFATs fs f ≠ 0 then { out := .ret (-1), s := s }
    else if fs.FATType = FATTYPE_FAT12 ∨ fs.FATType = FATTYPE_FAT16 then
      let r := sortFAT1xRootDirectory env iconv o matchOf irand fs fuel s
      match r.out with
      | .ret code => { out := .ret (if code = -1 then -1 else 0), s := r.s }
      | _ => r
    else if fs.FATType = FATTYPE_FAT32 then
      let r := sortClusterChain env iconv o matchOf irand fs fuel fs.bs.BS_RootClus (str "/") s
      match r.out with
      | .ret code => { out := .ret (if code = -1 then -1 else 0), s := r.s }
      | _ => r
    else { out := .ret (-1), s := s }

/-! ## The parse loops on a sequence of slots -/

/-- The local variables of the two parse loops and the list, without the stream. -/
structure Scan where
  list : List sDirEntryList
  direntries : Nat
  entries : Nat
  llist : List (List Nat)
  lname : List Nat
deriving DecidableEq, Repr

/-- Outcome of a step of a parse loop without the stream. -/
inductive ScanStep where
  | cont (s : Scan)
  | ret (code : Int) (s : Scan)
  | exit
deriving DecidableEq, Repr

/-- The variables of a parse state. -/
def ParseState.scan (s : ParseState) : Scan :=
  { list := s.list, direntries := s.direntries, entries := s.entries, llist := s.llist,
    lname := s.lname }

/-- The outcome of a parse step without the stream. -/
def ParseStep.scan : ParseStep → ScanStep
  | .cont s => .cont s.scan
  | .ret c s => .ret c s.scan
  | .exit => .exit

/-- The entry count `*direntries` of a parse (0 when the process ended). -/
def ParseStep.direntries : ParseStep → Nat
  | .cont s => s.direntries
  | .ret _ s => s.direntries
  | .exit => 0

/-- The body of the slot loop of `parseClusterChain` and `parseFAT1xRootDirEntries` for a slot
`de` that `parseEntry` has read: end of the directory, short entry, or long entry. -/
def scanSlot (env : Env) (iconv : List Nat → List Nat) (o : Options) (s : Scan)
    (de : List Nat) : ScanStep :=
  let entries := u32 (s.entries + 1)
  if byteAt de 0 = DE_FOLLOWING_FREE then
    if s.llist ≠ [] then .ret (-1) { s with entries := entries }
    else .ret 0 { s with entries := entries }
  else if LDIR_Attr de &&& ATTR_LONG_NAME_MASK = ATTR_LONG_NAME then
    let tmp := parseLongFilenamePart iconv de
    .cont { s with
      entries := entries, llist := s.llist ++ [de],
      lname := (tmp ++ s.lname).take MAX_PATH_LEN }
  else
    let sname := parseShortFilename de
    let lnde : sDirEntryList :=
      { sname := sname, lname := heldLname env s.lname, sde := de, ldel := s.llist,
        entries := entries }
    match checkLongDirEntries lnde with
    | none => .exit
    | some chk =>
      if chk ≠ 0 then .ret (-1) { s with entries := entries }
      else
        match insertDirEntryList env o lnde s.list with
        | none => .exit
        | some list1 =>
          .cont { list := list1, direntries := u32 (s.direntries + 1), entries := 0,
                  llist := [], lname := [] }

/-- The slot loop on the slots that the reads deliver one after the other. -/
def scanSlots (env : Env) (iconv : List Nat → List Nat) (o : Options) :
    List (List Nat) → Scan → ScanStep
  | [], s => .cont s
  | de :: rest, s =>
    match scanSlot env iconv o s de with
    | .cont s1 => scanSlots env iconv o rest s1
    | r => r

/-- The variables at the start of both parse functions. -/
def scanInit : Scan := { list := [], direntries := 0, entries := 0, llist := [], lname := [] }

/-- The code after the loops, without the stream. -/
def scanFinish : ScanStep → ScanStep
  | .cont s => if s.llist ≠ [] then .ret (-1) s else .ret 0 s
  | r => r

/-- The `n` slots of 32 bytes that the device holds from offset `off` on. -/
def readSlots (f : File) : Nat → Nat → List (List Nat)
  | _, 0 => []
  | off, n + 1 => bytesAt f off DIR_ENTRY_SIZE :: readSlots f (off + DIR_ENTRY_SIZE) n

/-- The slots of a directory on the cluster chain `chain`, cluster by cluster. -/
def chainSlots (fs : sFileSystem) (f : File) : List Nat → List (List Nat)
  | [] => []
  | cluster :: chain =>
    readSlots f (getClusterOffset fs cluster) fs.maxDirEntriesPerCluster ++ chainSlots fs f chain

/-- The slots of the root directory of a FAT12 or FAT16 volume. -/
def rootSlots (fs : sFileSystem) (f : File) : List (List Nat) :=
  readSlots f (rootDirOffset fs) fs.bs.BS_RootEntCnt

/-! ## Notions used in the statements -/

/-- A C string: no byte is NUL. -/
def IsCStr (s : List Nat) : Prop := ∀ c ∈ s, c ≠ 0

/-- The string `p` matches the start of `old` when letter case is ignored. -/
def matchesPrefix (p old : List Nat) : Bool :=
  decide (p.length ≤ old.length ∧ (old.take p.length).map tolower = p.map tolower)

/-- The test `(u_char) sname[0] == DE_FREE`. -/
def isDeleted (de : sDirEntryList) : Bool := de.sname.headD 0 == DE_FREE

/-- Class of a record in the fixed precedence of `cmpEntries`: 0 volume label, 1 ".",
2 "..", 4 deleted entry, 3 every other (live) record. -/
def rank (de : sDirEntryList) : Nat :=
  if isVolumeLabel de then 0
  else if de.sname = str "." then 1
  else if de.sname = str ".." then 2
  else if isDeleted de then 4
  else 3

/-- A live record: not a volume label, not "." or "..", not deleted. -/
def isLive (de : sDirEntryList) : Bool :=
  !isVolumeLabel de && de.sname != str "." && de.sname != str ".." && !isDeleted de

/-- The list is ordered by class: volume labels, ".", "..", live records, deleted entries. -/
def RankSorted (l : List sDirEntryList) : Prop := l.Pairwise (fun a b => rank a ≤ rank b)

/-- The list starts with its volume labels, then its "." and then its ".." records. -/
def SpecialFirst (l : List sDirEntryList) : Prop :=
  l.Pairwise (fun a b => min (rank a) 3 ≤ min (rank b) 3)

/-- What the order of the special entries means for the first two places of a list: a volume
label, if the list has one, is at index 0; without a volume label a "." record, if any, is at
index 0; and without a volume label and with a single "." record a ".." record, if any, is
at index 1. -/
def SpecialLead (l : List sDirEntryList) : Prop :=
  ((∃ r ∈ l, isVolumeLabel r = true) → ∃ x, l[0]? = some x ∧ isVolumeLabel x = true) ∧
  ((∀ r ∈ l, isVolumeLabel r = false) → (∃ r ∈ l, r.sname = str ".") →
    ∃ x, l[0]? = some x ∧ x.sname = str ".") ∧
  ((∀ r ∈ l, isVolumeLabel r = false) → (l.filter (fun r => r.sname == str ".")).length = 1 →
    (∃ r ∈ l, r.sname = str "..") → ∃ y, l[1]? = some y ∧ y.sname = str "..")

/-- What sorted insertion establishes for a record `a` directly followed by `b`: `a` was put
in front of `b` because it compared below it, or `b` was put behind `a` because it did not
compare below it. -/
def InsertedInOrder (env : Env) (o : Options) (a b : sDirEntryList) : Prop :=
  (∃ c, cmpEntries env o a b = some c ∧ c < 0) ∨ (∃ c, cmpEntries env o b a = some c ∧ 0 ≤ c)

/-- The order of two adjacent records `a`, `b` of a list `l`: they are as sorted insertion
leaves them, and outside list, random, natural and ignore-case mode `cmpEntries(a, b) <= 0`
unless both are deleted entries. -/
def AdjacentOrdered (env : Env) (o : Options) (l : List sDirEntryList) : Prop :=
  ∀ pre a b post, l = pre ++ a :: b :: post →
    InsertedInOrder env o a b ∧
    (o.OPT_LIST = false → o.OPT_RANDOM = false → o.OPT_IGNORE_CASE = false →
      o.OPT_NATURAL_SORT = false → ¬ (isDeleted a = true ∧ isDeleted b = true) →
      ∃ c, cmpEntries env o a b = some c ∧ c ≤ 0)

/-- The name comparison of `cmpEntries` orders two records as `strcmp` orders their display
names (times `OPT_REVERSE`): this is so in ASCII mode without prefix list and case folding. -/
def ByteOrderMode (env : Env) (o : Options) : Prop :=
  ∀ a b, ∃ c, cmpByName env o a b = some c ∧
    (c < 0 ↔ strcmp (displayName a) (displayName b) * o.OPT_REVERSE < 0) ∧
    (0 < c ↔ 0 < strcmp (displayName a) (displayName b) * o.OPT_REVERSE)

/-- Every live directory is in front of every live file, and within the live directories and
within the live files the display names descend in byte order. -/
def DirsFirstDescending (l : List sDirEntryList) : Prop :=
  l.Pairwise (fun a b => isLive a = true → isLive b = true →
    (isDirectory b = true → isDirectory a = true) ∧
    (isDirectory a = isDirectory b → 0 ≤ strcmp (displayName a) (displayName b)))

/-- The order of the whole list in directories-first reverse mode: by class, and within the
live records directories first and then names descending. -/
def DirsFirstRevLe (a b : sDirEntryList) : Prop :=
  rank a < rank b ∨
  (rank a = rank b ∧
    (rank a = 3 →
      (isDirectory a = true ∧ isDirectory b = false) ∨
      (isDirectory a = isDirectory b ∧ 0 ≤ strcmp (displayName a) (displayName b))))

/-- Every element is a byte. -/
def IsBytes (e : List Nat) : Prop := ∀ x ∈ e, x < 256

/-- The FAT timestamp that a write date and a write time encode, as the list year, month, day,
hour, minute, two-second count. This follows the on-disk format of FAT timestamps, not the
source: the date holds the year since 1980 in bits 9 to 15, the month in bits 5 to 8 and the
day in bits 0 to 4; the time holds the hour in bits 11 to 15, the minute in bits 5 to 10 and
the two-second count in bits 0 to 4. -/
def specTimestamp (date time : Nat) : List Nat :=
  [1980 + date / 512 % 128, date / 32 % 16, date % 32,
   time / 2048 % 32, time / 32 % 64, time % 32]

/-- Lexicographic comparison of two lists of numbers. -/
def lexCompare : List Nat → List Nat → Ordering
  | [], [] => .eq
  | [], _ :: _ => .lt
  | _ :: _, [] => .gt
  | a :: as, b :: bs => if a < b then .lt else if b < a then .gt else lexCompare as bs

/-- The decoded timestamp of the last write of a record. -/
def writeTimestamp (de : sDirEntryList) : List Nat :=
  specTimestamp (DIR_WrtDate de.sde) (DIR_WrtTime de.sde)

/-- The ceiling of `a / b` for `b > 0`: the negated floor of the negated quotient. -/
def ceilDiv (a b : Int) : Int := -((-a) / b)

/-- The total sector count: the 16-bit field when it is not zero, else the 32-bit field. -/
def specTotalSectors (bs : sBootSector) : Int :=
  if bs.BS_TotSec16 ≠ 0 then bs.BS_TotSec16 else bs.BS_TotSec32

/-- The FAT size in sectors: the 16-bit field when it is not zero, else the 32-bit field. -/
def specFATSize (bs : sBootSector) : Int :=
  if bs.BS_FATSz16 ≠ 0 then bs.BS_FATSz16 else bs.BS_FATSz32

/-- The root directory sectors as the specification states them, over the integers:
`ceil(root-entry count * 32 / bytes per sector)`. -/
def specRootDirSectors (bs : sBootSector) : Int :=
  ceilDiv (bs.BS_RootEntCnt * 32) bs.BS_BytesPerSec

/-- The data sectors as the specification states them, over the integers:
`total sectors - (reserved sectors + NumFATs * FAT size + root directory sectors)`. -/
def specDataSectors (bs : sBootSector) : Int :=
  specTotalSectors bs
    - (bs.BS_RsvdSecCnt + bs.BS_NumFATs * specFATSize bs + specRootDirSectors bs)

/-- The cluster count as the specification states it: `floor(data sectors / sectors per cluster)`. -/
def specClusterCount (bs : sBootSector) : Int :=
  specDataSectors bs / bs.BS_SecPerClus

/-- The FAT type as the specification states it: -1 when the cluster count is not positive, FAT12
below 4096 clusters, FAT16 below 65525 clusters, FAT32 otherwise. -/
def specFATType (bs : sBootSector) : Int :=
  if specClusterCount bs ≤ 0 then -1
  else if specClusterCount bs < 4096 then FATTYPE_FAT12
  else if specClusterCount bs < 65525 then FATTYPE_FAT16
  else FATTYPE_FAT32

/-- Every byte of the image is a byte. -/
def File.IsBytes (f : File) : Prop := ∀ off, f.data off < 256

/-- Bit `i` of the byte array that starts at offset `base` of the image, the bits of every byte
counted from its least significant bit. -/
def specBit (f : File) (base i : Nat) : Nat := f.data (base + i / 8) / 2 ^ (i % 8) % 2

/-- The `n`-bit value stored at bit offset `i` of the byte array at `base`, least significant
bit first. -/
def specBits (f : File) (base i n : Nat) : Nat :=
  ((List.range n).map (fun j => specBit f base (i + j) * 2 ^ j)).sum

/-- The little-endian value of the `n` bytes at offset `off` of the image. -/
def specLE (f : File) (off : Nat) : Nat → Nat
  | 0 => 0
  | n + 1 => f.data off + 256 * specLE f (off + 1) n

/-- The range test of `getClusterChain` passes for `cluster`: the signed comparison
`cluster >= fs->clusters + 2` on FAT12 and FAT16, and the comparison of the low 28 bits on
FAT32, is false. -/
def walkInRange (fs : sFileSystem) (cluster : Int) : Bool :=
  if fs.FATType = FATTYPE_FAT32 then
    decide (((ofInt32 cluster &&& 0x0fffffff : Nat) : Int) < fs.clusters + 2)
  else decide (cluster < fs.clusters + 2)

/-- The test of `getClusterChain` for an unused cluster: `data == 0`, on FAT32
`(data & 0x0fffffff) == 0`. -/
def walkFree (fs : sFileSystem) (data : Nat) : Bool :=
  if fs.FATType = FATTYPE_FAT32 then data &&& 0x0fffffff == 0 else data == 0

/-- The `while` condition of `getClusterChain` after `cluster = data`: the walk goes on to
the cluster `data`. -/
def walkContinues (fs : sFileSystem) (data : Nat) : Bool :=
  if fs.FATType = FATTYPE_FAT32 then
    decide ((ofInt32 (toInt32 data) &&& 0x0fffffff ≠ 0x0ff8fff8) ∧
      (ofInt32 (toInt32 data) &&& 0x0fffffff < 0x0ffffff8))
  else decide (toInt32 data < (if fs.FATType = FATTYPE_FAT12 then 0x0ff8 else 0xfff8))

/-- Rotation of an 8-bit value to the right by one bit: bit 0 becomes bit 7. -/
def rotr8 (x : Nat) : Nat := x / 2 + x % 2 * 128

/-- The checksum as the specification states it: an 8-bit accumulator that starts at 0 and, for each
byte in order, is rotated right by one bit and has the byte added modulo 256. -/
def specChecksum (name : List Nat) : Nat :=
  name.foldl (fun acc b => (rotr8 acc + b) % 256) 0

/-- An ordinal with the bit 0x40 cleared. -/
def clearBit40 (ord : Nat) : Nat := if ord / 64 % 2 = 1 then ord - 64 else ord

/-- The bit 0x40 of an ordinal is set. -/
def hasBit40 (ord : Nat) : Bool := ord / 64 % 2 == 1

/-- The conditions of the specification on the fragments `ldel` of a record whose short name has the
checksum `chk`: the first fragment is deleted or has the bit 0x40 set, and every fragment that
is not deleted, at position `i`, has the ordinal `N - i` (bit 0x40 cleared) and the checksum
`chk`. -/
def FragmentsOk (ldel : List (List Nat)) (chk : Nat) : Prop :=
  ∀ (i : Nat) (lde : List Nat), ldel[i]? = some lde →
    (i = 0 → LDIR_Ord lde = 0xe5 ∨ hasBit40 (LDIR_Ord lde) = true) ∧
    (LDIR_Ord lde ≠ 0xe5 →
      clearBit40 (LDIR_Ord lde) = ldel.length - i ∧ LDIR_Checksum lde = chk)

/-- A pick sequence for `m` records that take part in the shuffle: pick number `j` is at most
`m - 1 - j`. -/
def ValidPicks (m : Nat) (picks : List Nat) : Prop :=
  picks.length = m ∧ ∀ j, j < m → picks.getD j 0 ≤ m - 1 - j

/-- The value that `irand` returns in iteration `i` when the picks from iteration `s` on are
`picks`. -/
def picksFrom (s : Nat) (picks : List Nat) (i : Nat) : Nat := picks.getD (i - s) 0

/-- The comparison of live records is consistent: there is a relation `R` ("comes no later
than") that is total and transitive on the live records and such that `cmpEntries(a, b)` is not
negative exactly when `R b a`. -/
def Consistent (env : Env) (o : Options) : Prop :=
  ∃ R : sDirEntryList → sDirEntryList → Prop,
    (∀ a b, isLive a = true → isLive b = true → R a b ∨ R b a) ∧
    (∀ a b c, isLive a = true → isLive b = true → isLive c = true → R a b → R b c → R a c) ∧
    ∀ a b c, isLive a = true → isLive b = true → cmpEntries env o a b = some c →
      (0 ≤ c ↔ R b a)

/-- The place of a record under the directory-versus-file rule: 0 for the kind that comes
first, 1 for the other kind, and 0 for every record when the rule is off. -/
def kindKey (o : Options) (de : sDirEntryList) : Nat :=
  if o.OPT_ORDER = 0 then (if isDirectory de then 0 else 1)
  else if o.OPT_ORDER = 1 then (if isDirectory de then 1 else 0)
  else 0

/-- A deleted record: the short name starts with 0xE5 and the record is not a volume label. -/
def isDeletedRecord (de : sDirEntryList) : Bool := !isVolumeLabel de && isDeleted de

/-- The devices `f` and `g` have the same size and hold the same bytes. -/
def File.SameBytes (f g : File) : Prop := g.size = f.size ∧ g.data = f.data

/-- What a part of a run has done when it leads from state `s0` to state `s`: the paths that it
has added to the log all match the filters, none is added in list mode, and when it has added
none the device has its size and bytes as before. -/
def WritesOnlyMatches (o : Options) (matchOf : List Nat → Bool) (s0 s : SortState) : Prop :=
  ∃ w, s.written = s0.written ++ w ∧ (∀ p ∈ w, matchOf p = true ∧ o.OPT_LIST = false) ∧
    (w = [] → s0.f.SameBytes s.f)

/-- A slot that is not the end mark of a directory: byte 0 is not 0x00. -/
def isEntry (de : List Nat) : Bool := byteAt de 0 != DE_FOLLOWING_FREE

/-- A slot with the attributes of a long-name fragment. -/
def isLongSlot (de : List Nat) : Bool :=
  LDIR_Attr de &&& ATTR_LONG_NAME_MASK == ATTR_LONG_NAME

/-- The slots of a directory up to and including the first slot whose byte 0 is 0x00 (all
slots when there is none). -/
def upToTerminator (stream : List (List Nat)) : List (List Nat) :=
  stream.take ((stream.takeWhile isEntry).length + 1)

/-- The name that the buffer `lname` holds in its first `MAX_PATH_LEN` bytes after the
fragments `frags` (in stream order): the converted parts are put in front of one another, each
result cut to `MAX_PATH_LEN` bytes. -/
def lnameOf (iconv : List Nat → List Nat) (frags : List (List Nat)) : List Nat :=
  frags.foldl (fun acc de => (parseLongFilenamePart iconv de ++ acc).take MAX_PATH_LEN) []

/-- The record of a short entry `sde` that follows the fragments `frags`. -/
def recordOf (env : Env) (iconv : List Nat → List Nat) (frags : List (List Nat))
    (sde : List Nat) : sDirEntryList :=
  { sname := parseShortFilename sde, lname := heldLname env (lnameOf iconv frags), sde := sde,
    ldel := frags, entries := frags.length + 1 }

/-- The records of a sequence of slots, in stream order, and the fragments that are left over
at its end: a record is a run of long-name fragments and the short entry behind it. `pending`
are the fragments in front of the sequence. -/
def groupSlots (env : Env) (iconv : List Nat → List Nat) :
    List (List Nat) → List (List Nat) → List sDirEntryList × List (List Nat)
  | [], pending => ([], pending)
  | de :: rest, pending =>
    if isLongSlot de then groupSlots env iconv rest (pending ++ [de])
    else
      (recordOf env iconv pending de :: (groupSlots env iconv rest []).1,
        (groupSlots env iconv rest []).2)

/-- What a parse `r` of the directory with the slots `stream` has done when it stops at the first
slot whose byte 0 is 0x00: its outcome is that of the slot loop on the slots up to and
including that slot, so no later slot has any influence; and when every record in front of
that slot passes the check of its long entries and no insertion ends the process, it returns
-1 if fragments are pending at that slot (or at the end of the slots when there is no such
slot) and 0 otherwise, the list is the result of inserting the records in front of that slot
in stream order, and `*direntries` is the number of records in the list. -/
def StopsAtTerminator (env : Env) (iconv : List Nat → List Nat) (o : Options)
    (stream : List (List Nat)) (r : ParseStep) : Prop :=
  r.scan = scanFinish (scanSlots env iconv o (upToTerminator stream) scanInit) ∧
  ∀ recs pend list, groupSlots env iconv (stream.takeWhile isEntry) [] = (recs, pend) →
    (∀ x ∈ recs, checkLongDirEntries x = some 0) → insertAll env o recs [] = some list →
    stream.length < 2 ^ 32 →
    r.code = some (if pend = [] then 0 else -1) ∧ r.list = list ∧ list.Perm recs ∧
    r.direntries = list.length

/-- Offset of slot `k` of the directory on `chain`: the slot with index
`k mod maxDirEntriesPerCluster` in cluster `k / maxDirEntriesPerCluster` of the chain. -/
def slotOffset (fs : sFileSystem) (chain : List Nat) (k : Nat) : Nat :=
  getClusterOffset fs (chain.getD (k / fs.maxDirEntriesPerCluster) 0)
    + DIR_ENTRY_SIZE * (k % fs.maxDirEntriesPerCluster)

/-- The 32-byte entries of a list in the order in which a directory holds them: for every
record its fragments in their original order and then its short entry. -/
def listEntries : List sDirEntryList → List (List Nat)
  | [] => []
  | p :: list => p.ldel.map entryBytes ++ [entryBytes p.sde] ++ listEntries list

/-- Storing the entries `es` in the slots `k`, `k + 1`, ... of the directory on `chain`. -/
def writeSlotsAt (fs : sFileSystem) (chain : List Nat) : Nat → List (List Nat) → File → File
  | _, [], f => f
  | k, e :: es, f =>
    writeSlotsAt fs chain (k + 1) es (fs_write (fs_seek f (slotOffset fs chain k)) e)

/-- The all-zero entry `empty` of `writeClusterChain`. -/
def emptyEntry : List Nat := List.replicate DIR_ENTRY_SIZE 0

/-- A record as the parse loops build it from slots of 32 bytes: the names are those of its
entries, the fragments are long-name slots, the short entry is not, and no slot is an end
mark. -/
def IsParsed (env : Env) (iconv : List Nat → List Nat) (r : sDirEntryList) : Prop :=
  r = recordOf env iconv r.ldel r.sde ∧
  (∀ e ∈ r.ldel, isEntry e = true ∧ isLongSlot e = true ∧ e.length = DIR_ENTRY_SIZE) ∧
  isEntry r.sde = true ∧ isLongSlot r.sde = false ∧ r.sde.length = DIR_ENTRY_SIZE

/-- The list that the slot loop has built (empty when the process ended). -/
def ScanStep.list : ScanStep → List sDirEntryList
  | .cont s => s.list
  | .ret _ s => s.list
  | .exit => []

/-- The record `r` is the record of a short entry of the slot sequence `stream`: its fragment
list holds the long-name slots that stand directly in front of that short entry (all of them,
in stream order), its short entry is that slot, no slot of the record is an end mark, and
`entries` and the names are those of `recordOf`. -/
def RecordIn (env : Env) (iconv : List Nat → List Nat) (stream : List (List Nat))
    (r : sDirEntryList) : Prop :=
  r = recordOf env iconv r.ldel r.sde ∧
  ∃ pre post, stream = pre ++ r.ldel ++ [r.sde] ++ post ∧
    (∀ e ∈ r.ldel, isLongSlot e = true ∧ isEntry e = true) ∧
    isLongSlot r.sde = false ∧ isEntry r.sde = true ∧
    ∀ e, pre.getLast? = some e → isLongSlot e = false

/-- The bytes of the 13 code units of a long entry up to the first unit 0x0000 (all 26 bytes
when there is none), as the specification states them: the units are gathered from the bytes 1
to 10, 14 to 25 and 28 to 31. -/
def specCodeUnits (f : List Nat) : List Nat :=
  let u := (f.drop 1).take 10 ++ (f.drop 14).take 12 ++ (f.drop 28).take 4
  match (List.range 13).find? (fun i => byteAt u (2 * i) == 0 && byteAt u (2 * i + 1) == 0) with
  | some i => u.take (2 * i)
  | none => u

/-- The text of one fragment as the specification states it: the conversion of its code units
up to the first unit 0x0000, as a string. -/
def specDecode (iconv : List Nat → List Nat) (f : List Nat) : List Nat :=
  cstr (iconv (specCodeUnits f))

/-- The long name of the fragments `frags` (in stream order) as the specification states it:
the texts of the fragments, the last one first, cut to `MAX_PATH_LEN` bytes. -/
def specLongName (iconv : List Nat → List Nat) (frags : List (List Nat)) : List Nat :=
  ((frags.reverse.map (specDecode iconv)).flatten).take MAX_PATH_LEN

/-- The converter turns a code unit 0x0000 behind twelve code units into a NUL byte: the string
that it gives is that of the twelve units. -/
def ConvertsNul (iconv : List Nat → List Nat) : Prop :=
  ∀ u : List Nat, u.length = 24 → cstr (iconv (u ++ [0, 0])) = cstr (iconv u)

/-- A live subdirectory as the specification states it: the directory attribute (bit 0x10) is
set, the volume-id attribute (bit 0x08) is clear, byte 0 of the short name is not 0xE5, and
the short name is neither "." nor "..". -/
def specLiveSubdirectory (p : sDirEntryList) : Prop :=
  DIR_Atrr p.sde / 16 % 2 = 1 ∧ DIR_Atrr p.sde / 8 % 2 = 0 ∧ byteAt p.sde 0 ≠ 0xe5 ∧
  p.sname ≠ str "." ∧ p.sname ≠ str ".."

/-! ## Concrete volumes used below -/

/-- A FAT12 boot sector with three FAT copies of one sector each. -/
def bsThreeFATs : sBootSector :=
  { BS_JmpBoot0 := 0xeb, BS_JmpBoot2 := 0x90, BS_BytesPerSec := 512, BS_SecPerClus := 1,
    BS_RsvdSecCnt := 1, BS_NumFATs := 3, BS_RootEntCnt := 32, BS_TotSec16 := 100,
    BS_FATSz16 := 1, BS_TotSec32 := 0, BS_FATSz32 := 0, BS_RootClus := 0, BS_EndOfBS := 0xaa55 }

/-- The volume that `openFileSystem` derives from `bsThreeFATs`. -/
def fsThreeFATs : sFileSystem :=
  { bs := bsThreeFATs, FATType := 12, sectorSize := 512, totalSectors := 100, clusterSize := 512,
    clusters := 94, FATSize := 1, FSSize := 48128, maxDirEntriesPerCluster := 16,
    maxClusterChainLength := 8388607, firstDataSector := 6 }

/-- An image of `bsThreeFATs` whose FAT copies 0 and 1 are all zero and whose FAT copy 2
(offsets 1536 to 2047) holds 0xff at offset 1540. -/
def imgThirdFATDiffers : File :=
  { size := 51200, data := fun off => if off = 1540 then 0xff else 0, pos := 0 }

/-- A FAT12 boot sector with 512-byte clusters: 16 directory slots per cluster. -/
def bsSmall : sBootSector :=
  { BS_JmpBoot0 := 0xeb, BS_JmpBoot2 := 0x90, BS_BytesPerSec := 512, BS_SecPerClus := 1,
    BS_RsvdSecCnt := 1, BS_NumFATs := 2, BS_RootEntCnt := 32, BS_TotSec16 := 100,
    BS_FATSz16 := 1, BS_TotSec32 := 0, BS_FATSz32 := 0, BS_RootClus := 0, BS_EndOfBS := 0xaa55 }

/-- The volume that `openFileSystem` derives from `bsSmall`; cluster `c` starts at offset
`(c + 3) * 512`. -/
def fsSmall : sFileSystem :=
  { bs := bsSmall, FATType := 12, sectorSize := 512, totalSectors := 100, clusterSize := 512,
    clusters := 95, FATSize := 1, FSSize := 48640, maxDirEntriesPerCluster := 16,
    maxClusterChainLength := 8388607, firstDataSector := 5 }

/-- A converter that keeps the low byte of every UTF-16LE code unit. -/
def iconvLow (u : List Nat) : List Nat :=
  (List.range (u.length / 2)).map (fun i => byteAt u (2 * i))

/-- An environment for runs in ASCII mode: the other comparison helpers are not reached. -/
def envPlain : Env :=
  { natstrcmp := fun _ _ => 0, strxfrm := fun s => (s.length, s),
    scase1 := fun _ _ => [], scase2 := fun _ _ => [], lnameTail := [] }

/-- The options of `fatsort -a`: ASCII order, directories first. -/
def optsAscii : Options :=
  { OPT_LIST := false, OPT_RANDOM := false, OPT_MORE_INFO := false, OPT_FORCE := false,
    OPT_ORDER := 0, OPT_MODIFICATION := false, OPT_REVERSE := 1, OPT_IGNORE_CASE := false,
    OPT_NATURAL_SORT := false, OPT_ASCII := true, OPT_IGNORE_PREFIXES_LIST := [] }

/-- A short entry with the given 11 name bytes and attribute byte, all other fields zero. -/
def mkSde (name : List Nat) (attr : Nat) : List Nat :=
  name.take 11 ++ [attr] ++ List.replicate 20 0

/-- A long entry with ordinal `ord` and checksum `chk` whose 13 code units are all `ch`. -/
def mkLde (ord chk ch : Nat) : List Nat :=
  [ord, ch, 0, ch, 0, ch, 0, ch, 0, ch, 0, ATTR_LONG_NAME, 0, chk,
   ch, 0, ch, 0, ch, 0, ch, 0, ch, 0, ch, 0, 0, 0, ch, 0, ch, 0]

/-- The long entries, in stream order, of a name of `n` fragments for the short name `name`. -/
def mkLdes (name : List Nat) (ch : Nat) (n : Nat) : List (List Nat) :=
  (List.range n).map (fun i =>
    mkLde (if i = 0 then LAST_LONG_ENTRY ||| n else n - i) (calculateChecksum name) ch)

/-- The slots of a file with short name `name` and a long name of `n` fragments. -/
def mkSlots (name : List Nat) (ch : Nat) (n : Nat) : List (List Nat) :=
  mkLdes name ch n ++ [mkSde name ATTR_ARCHIVE]

/-- Slots of file A: eleven fragments and the short entry make 12 slots. -/
def slotsA : List (List Nat) := mkSlots (str "A          ") 97 11

/-- Slots of file B: twenty fragments and the short entry make 21 slots. -/
def slotsB : List (List Nat) := mkSlots (str "B          ") 98 20

/-- An image of `bsSmall` that is all zero. -/
def imgZero : File := { size := 51200, data := fun _ => 0, pos := 0 }

/-- An image of `bsSmall` whose two FAT copies (offsets 512 and 1024) start with the bytes
`fat` and that is zero elsewhere. -/
def imgWithFATs (fat : List Nat) : File :=
  fs_write (fs_seek (fs_write (fs_seek imgZero 512) fat) 1024) fat

/-- The first bytes of a FAT12 table in which cluster 2 is a chain of its own: entry 2 is the
end-of-chain value 0xfff. -/
def fatOneCluster : List Nat := [0xf8, 0xff, 0xff, 0xff, 0x0f, 0x00]

/-- An image of `bsSmall` with an empty directory in cluster 2. -/
def imgOneCluster : File := imgWithFATs fatOneCluster

/-- The first bytes of a FAT12 table with the chain 2, 9, 4: entry 2 is 9, entry 9 is 4 and
entry 4 is the end-of-chain value 0xfff. -/
def fatSmall : List Nat :=
  [0xf8, 0xff, 0xff, 0x09, 0x00, 0x00, 0xff, 0x0f, 0x00, 0x00, 0x00, 0x00, 0x00, 0x40, 0x00]

/-- A directory on the chain 2, 9, 4 of `fsSmall` that holds file B and then file A: the 33 slots
fill clusters 2 and 9 and the first slot of cluster 4. Both FAT copies (offsets 512 and 1024)
hold `fatSmall`. -/
def imgLongRecord : File :=
  let slots := slotsB ++ slotsA
  let f1 := writeAllLdes (slots.take 16)
    (fs_seek (imgWithFATs fatSmall) (getClusterOffset fsSmall 2))
  let f2 := writeAllLdes ((slots.drop 16).take 16) (fs_seek f1 (getClusterOffset fsSmall 9))
  writeAllLdes (slots.drop 32) (fs_seek f2 (getClusterOffset fsSmall 4))

/-- The list that parsing `imgLongRecord` yields. -/
def listLongRecord : List sDirEntryList :=
  (parseClusterChain envPlain iconvLow optsAscii fsSmall imgLongRecord [2, 9, 4]).list

/-- A boot sector whose single FAT has 0xFFFFFFFF sectors: `reserved + NumFATs * FATSize`
is 2^32, which the 32-bit sums of `getCountOfClusters` and `openFileSystem` turn into 0. -/
def bsWrap : sBootSector :=
  { BS_JmpBoot0 := 0xeb, BS_JmpBoot2 := 0x90, BS_BytesPerSec := 512, BS_SecPerClus := 1,
    BS_RsvdSecCnt := 1, BS_NumFATs := 1, BS_RootEntCnt := 0, BS_TotSec16 := 0,
    BS_FATSz16 := 0, BS_TotSec32 := 8388608, BS_FATSz32 := 0xFFFFFFFF, BS_RootClus := 3,
    BS_EndOfBS := 0xaa55 }

/-- The volume that `openFileSystem` derives from `bsWrap`: FAT32 with first data sector 0. -/
def fsWrap : sFileSystem :=
  { bs := bsWrap, FATType := 32, sectorSize := 512, totalSectors := 8388608, clusterSize := 512,
    clusters := 8388608, FATSize := 0xFFFFFFFF, FSSize := 4294967296,
    maxDirEntriesPerCluster := 16, maxClusterChainLength := 8388607, firstDataSector := 0 }

/-- Short entry of a file "B" whose bytes 12 to 15 are f8 ff ff 0f. -/
def sdeWrapB : List Nat :=
  str "B          " ++ [ATTR_ARCHIVE, 0xf8, 0xff, 0xff, 0x0f] ++ List.replicate 16 0

/-- An image of `bsWrap`: the root directory, cluster 3, lies at offset 512, where the FAT
starts as well, and holds the files "B" and "A"; the FAT entry of cluster 3 (offset 524) is
the end-of-chain value 0x0ffffff8. -/
def imgWrap : File :=
  writeAllLdes [sdeWrapB, mkSde (str "A          ") ATTR_ARCHIVE]
    (fs_seek { size := 4294967296, data := fun _ => 0, pos := 0 } 512)

/-- An environment in which the buffer `scase1` still holds "xyz" from an earlier use. -/
def envStale : Env :=
  { natstrcmp := fun _ _ => 0, strxfrm := fun s => (s.length, s),
    scase1 := fun _ _ => str "xyz", scase2 := fun _ _ => [], lnameTail := [] }

/-- The options of `fatsort -a -c`: ASCII order, ignore case. -/
def optsAsciiNoCase : Options :=
  { OPT_LIST := false, OPT_RANDOM := false, OPT_MORE_INFO := false, OPT_FORCE := false,
    OPT_ORDER := 0, OPT_MODIFICATION := false, OPT_REVERSE := 1, OPT_IGNORE_CASE := true,
    OPT_NATURAL_SORT := false, OPT_ASCII := true, OPT_IGNORE_PREFIXES_LIST := [] }

/-- The record of a file without long name whose short name is `name`. -/
def mkFile (name : List Nat) : sDirEntryList :=
  { sname := name, lname := [], sde := mkSde (name ++ List.replicate 11 32) ATTR_ARCHIVE,
    ldel := [], entries := 1 }

/-- The record that the parser builds for a short entry without long name. -/
def mkRecord (sde : List Nat) : sDirEntryList :=
  { sname := parseShortFilename sde, lname := [], sde := sde, ldel := [], entries := 1 }

/-- A record with display name `name`, kept as long name, short name `sname` and attribute
byte `attr`. -/
def mkNamed (name sname : List Nat) (attr : Nat) : sDirEntryList :=
  { sname := sname, lname := name, sde := mkSde (sname ++ List.replicate 11 32) attr,
    ldel := [], entries := 1 }

/-- Short entries of two deleted files. -/
def sdeDeletedA : List Nat := mkSde ([0xe5] ++ str "A         ") ATTR_ARCHIVE
def sdeDeletedB : List Nat := mkSde ([0xe5] ++ str "B         ") ATTR_ARCHIVE

/-- A directory in cluster 2 of `fsSmall` that holds two deleted entries. -/
def imgTwoDeleted : File :=
  writeAllLdes [sdeDeletedA, sdeDeletedB] (fs_seek imgOneCluster (getClusterOffset fsSmall 2))

/-- A directory in cluster 2 of `fsSmall` that holds ".", ".." and a volume label. -/
def imgLabelAndDots : File :=
  writeAllLdes
    [mkSde (str ".          ") ATTR_DIRECTORY, mkSde (str "..         ") ATTR_DIRECTORY,
     mkSde (str "LABEL      ") ATTR_VOLUME_ID]
    (fs_seek imgOneCluster (getClusterOffset fsSmall 2))

/-- The options of `fatsort -a -o d -r`: ASCII order, directories first, reverse. -/
def optsDirsFirstReverse : Options :=
  { OPT_LIST := false, OPT_RANDOM := false, OPT_MORE_INFO := false, OPT_FORCE := false,
    OPT_ORDER := 0, OPT_MODIFICATION := false, OPT_REVERSE := -1, OPT_IGNORE_CASE := false,
    OPT_NATURAL_SORT := false, OPT_ASCII := true, OPT_IGNORE_PREFIXES_LIST := [] }

/-- The four records of the directories-first reverse scenario. -/
def recDirX : sDirEntryList := mkNamed (str "dirX") (str "DIRX") ATTR_DIRECTORY
def recDirA : sDirEntryList := mkNamed (str "dirA") (str "DIRA") ATTR_DIRECTORY
def recFile1 : sDirEntryList := mkNamed (str "file1.txt") (str "FILE1.TXT") ATTR_ARCHIVE
def recFile2 : sDirEntryList := mkNamed (str "file2.txt") (str "FILE2.TXT") ATTR_ARCHIVE

/-- A directory in cluster 2 of `fsSmall` with the entries DIRX, FILE1.TXT, DIRA, FILE2.TXT. -/
def imgDirsAndFiles : File :=
  writeAllLdes
    [mkSde (str "DIRX       ") ATTR_DIRECTORY, mkSde (str "FILE1   TXT") ATTR_ARCHIVE,
     mkSde (str "DIRA       ") ATTR_DIRECTORY, mkSde (str "FILE2   TXT") ATTR_ARCHIVE]
    (fs_seek imgOneCluster (getClusterOffset fsSmall 2))

/-- A subdirectory list: ".", ".." and five files. -/
def listDotsAndFive : List sDirEntryList :=
  [mkNamed [] (str ".") ATTR_DIRECTORY, mkNamed [] (str "..") ATTR_DIRECTORY,
   mkFile (str "F1"), mkFile (str "F2"), mkFile (str "F3"), mkFile (str "F4"), mkFile (str "F5")]

/-- Picks for a list of seven records: iteration `i` takes the last remaining node. -/
def picksLast (i : Nat) : Nat := 6 - i

/-- A record whose short entry holds the write date `date` and the write time `time`. -/
def mkTimed (name : List Nat) (attr date time : Nat) : sDirEntryList :=
  { sname := name, lname := [],
    sde := (name ++ List.replicate 11 32).take 11 ++ [attr] ++ List.replicate 10 0 ++
      [time % 256, time / 256, date % 256, date / 256] ++ List.replicate 6 0,
    ldel := [], entries := 1 }

/-- The options of `fatsort -t`: by modification time, directories first. -/
def optsTime : Options :=
  { OPT_LIST := false, OPT_RANDOM := false, OPT_MORE_INFO := false, OPT_FORCE := false,
    OPT_ORDER := 0, OPT_MODIFICATION := true, OPT_REVERSE := 1, OPT_IGNORE_CASE := false,
    OPT_NATURAL_SORT := false, OPT_ASCII := false, OPT_IGNORE_PREFIXES_LIST := [] }

/-- A file last written on 2024-03-15 at 10:30:20. -/
def recMarch15 : sDirEntryList := mkTimed (str "OLD") ATTR_ARCHIVE 22639 21450

/-- A file last written on 2024-03-16 at 09:00:00. -/
def recMarch16 : sDirEntryList := mkTimed (str "NEW") ATTR_ARCHIVE 22640 18432

/-- A boot sector with the geometry of a 1.44 MB floppy disk, two sectors per cluster, and a
total sector count of 8 in place of 2880: the reserved sector, the two FATs of 9 sectors and
the 14 root directory sectors make 33 sectors, more than the volume has. -/
def bsShort : sBootSector :=
  { BS_JmpBoot0 := 0xeb, BS_JmpBoot2 := 0x90, BS_BytesPerSec := 512, BS_SecPerClus := 2,
    BS_RsvdSecCnt := 1, BS_NumFATs := 2, BS_RootEntCnt := 224, BS_TotSec16 := 8,
    BS_FATSz16 := 9, BS_TotSec32 := 0, BS_FATSz32 := 0, BS_RootClus := 0, BS_EndOfBS := 0xaa55 }

/-- An image of `bsSmall` in whose FAT the entry of cluster 2 points to cluster 2. -/
def imgSelfLoop : File := imgWithFATs [0xf8, 0xff, 0xff, 0x02, 0x00, 0x00]

/-- An 11-byte short name whose first byte, 0x8e, is negative when read as a signed `char`. -/
def nameHighByte : List Nat := [0x8e] ++ str "BC     TXT"

/-- The record of a file "A" with a long name of three fragments, as the parser builds it. -/
def recThreeFragments : sDirEntryList :=
  { sname := str "A", lname := [], sde := mkSde (str "A          ") ATTR_ARCHIVE,
    ldel := mkLdes (str "A          ") 97 3, entries := 4 }

/-- The first bytes of a FAT12 table in which entry 2 is the end-of-chain value 0xfff, entry 3 is
the bad-cluster mark 0xff7 and every later entry is 0. -/
def fatBadCluster : List Nat := [0xf8, 0xff, 0xff, 0xff, 0x7f, 0xff]

/-- An image of `bsSmall` with one used and one bad cluster. -/
def imgBadCluster : File := imgWithFATs fatBadCluster

/-- The options of `fatsort -l -a`: list mode. -/
def optsList : Options :=
  { OPT_LIST := true, OPT_RANDOM := false, OPT_MORE_INFO := false, OPT_FORCE := false,
    OPT_ORDER := 0, OPT_MODIFICATION := false, OPT_REVERSE := 1, OPT_IGNORE_CASE := false,
    OPT_NATURAL_SORT := false, OPT_ASCII := true, OPT_IGNORE_PREFIXES_LIST := [] }

/-- The options of `fatsort -R -a`: random mode. -/
def optsRandom : Options :=
  { OPT_LIST := false, OPT_RANDOM := true, OPT_MORE_INFO := false, OPT_FORCE := false,
    OPT_ORDER := 0, OPT_MODIFICATION := false, OPT_REVERSE := 1, OPT_IGNORE_CASE := false,
    OPT_NATURAL_SORT := false, OPT_ASCII := true, OPT_IGNORE_PREFIXES_LIST := [] }

/-- The records of two deleted files. -/
def recDeletedA : sDirEntryList := mkRecord sdeDeletedA
def recDeletedB : sDirEntryList := mkRecord sdeDeletedB

/-- A directory stream in which deleted files stand between the live ones and "." and ".."
come last. -/
def recsMixed : List sDirEntryList :=
  [mkFile (str "Z"), recDeletedB, mkFile (str "A"), recDeletedA, mkFile (str "M"),
   mkNamed [] (str ".") ATTR_DIRECTORY, mkNamed [] (str "..") ATTR_DIRECTORY]

/-- An image of `bsSmall` whose root directory (offset 1536) holds the file LIVE followed by
the deleted file A. -/
def imgRootLiveDeleted : File :=
  writeAllLdes [mkSde (str "LIVE       ") ATTR_ARCHIVE, sdeDeletedA] (fs_seek imgOneCluster 1536)

/-- Picks for a list of two records: the first iteration takes the second node. -/
def picksSecond (_ : Nat) (i : Nat) : Nat := 1 - i

/-- A directory in cluster 2 of `fsSmall` that holds the file LIVE, one long-name fragment
without a short entry, the end mark, and behind it the short entry of a file STALE. -/
def imgOrphan : File :=
  writeAllLdes
    [mkSde (str "LIVE       ") ATTR_ARCHIVE, mkLde 0x41 0 97, List.replicate 32 0,
     mkSde (str "STALE      ") ATTR_ARCHIVE]
    (fs_seek imgOneCluster (getClusterOffset fsSmall 2))

/-- A directory in cluster 2 of `fsSmall` that holds the file LIVE, the end mark, and behind it
the short entry of a file STALE. -/
def imgStale : File :=
  writeAllLdes
    [mkSde (str "LIVE       ") ATTR_ARCHIVE, List.replicate 32 0,
     mkSde (str "STALE      ") ATTR_ARCHIVE]
    (fs_seek imgOneCluster (getClusterOffset fsSmall 2))

/-- The record of a file "A" with a long name of eleven fragments: twelve slots. -/
def recTwelveSlots : sDirEntryList :=
  { sname := str "A", lname := [], sde := mkSde (str "A          ") ATTR_ARCHIVE,
    ldel := mkLdes (str "A          ") 97 11, entries := 12 }

/-- The short entry of a directory `name` whose first cluster is `cluster`. -/
def mkDirSde (name : List Nat) (cluster : Nat) : List Nat :=
  name.take 11 ++ [ATTR_DIRECTORY] ++ List.replicate 14 0 ++ [cluster % 256, cluster / 256]
    ++ List.replicate 4 0

/-- An image of `bsSmall` whose root directory holds the directory SUB, which lies in cluster 2
and holds ".", "..", the file B and the file A. -/
def imgTree : File :=
  writeAllLdes
    [mkDirSde (str ".          ") 2, mkDirSde (str "..         ") 0,
     mkSde (str "B          ") ATTR_ARCHIVE, mkSde (str "A          ") ATTR_ARCHIVE]
    (fs_seek
      (writeAllLdes [mkDirSde (str "SUB        ") 2] (fs_seek imgOneCluster 1536))
      (getClusterOffset fsSmall 2))

/-- A FAT32 boot sector: 70000 sectors of 512 bytes, one sector per cluster, 32 reserved
sectors and two FATs of 600 sectors. -/
def bsFat32 : sBootSector :=
  { BS_JmpBoot0 := 0xeb, BS_JmpBoot2 := 0x90, BS_BytesPerSec := 512, BS_SecPerClus := 1,
    BS_RsvdSecCnt := 32, BS_NumFATs := 2, BS_RootEntCnt := 0, BS_TotSec16 := 0,
    BS_FATSz16 := 0, BS_TotSec32 := 70000, BS_FATSz32 := 600, BS_RootClus := 2,
    BS_EndOfBS := 0xaa55 }

/-- The volume that `openFileSystem` derives from `bsFat32`; the first FAT starts at offset
16384. -/
def fsFat32 : sFileSystem :=
  { bs := bsFat32, FATType := 32, sectorSize := 512, totalSectors := 70000, clusterSize := 512,
    clusters := 68768, FATSize := 600, FSSize := 35209216, maxDirEntriesPerCluster := 16,
    maxClusterChainLength := 8388607, firstDataSector := 1232 }

/-- An image of `bsFat32` whose FAT entry of cluster 2 (offset 16392) is 0x0ff8fff8 and that
is zero elsewhere. -/
def imgMarker : File :=
  fs_write (fs_seek { size := 35840000, data := fun _ => 0, pos := 0 } 16392)
    [0xf8, 0xff, 0xf8, 0x0f]

/-- A FAT32-style boot sector with 32 sectors per cluster whose metadata does not fit into the
volume: the 32 reserved sectors and the two FATs of 100 sectors make 232 sectors, and the
volume has 100 sectors. -/
def bsNoRoom : sBootSector :=
  { BS_JmpBoot0 := 0xeb, BS_JmpBoot2 := 0x90, BS_BytesPerSec := 512, BS_SecPerClus := 32,
    BS_RsvdSecCnt := 32, BS_NumFATs := 2, BS_RootEntCnt := 0, BS_TotSec16 := 0,
    BS_FATSz16 := 0, BS_TotSec32 := 100, BS_FATSz32 := 100, BS_RootClus := 2,
    BS_EndOfBS := 0xaa55 }

/-- The volume that `openFileSystem` derives from `bsNoRoom`: FAT32 with 134217723 clusters
of 16384 bytes. -/
def fsNoRoom : sFileSystem :=
  { bs := bsNoRoom, FATType := 32, sectorSize := 512, totalSectors := 100, clusterSize := 16384,
    clusters := 134217723, FATSize := 100, FSSize := 2199023173632,
    maxDirEntriesPerCluster := 512, maxClusterChainLength := 262143, firstDataSector := 232 }

/-- A directory in cluster 2 of `fsSmall` that holds the file M, a deleted long entry (ordinal
byte 0xE5) with the text "AAAAAAAAAAAAA", and the file ZEBRA. -/
def imgDeletedFragment : File :=
  writeAllLdes
    [mkSde (str "M          ") ATTR_ARCHIVE, mkLde DE_FREE 0 65,
     mkSde (str "ZEBRA      ") ATTR_ARCHIVE]
    (fs_seek imgOneCluster (getClusterOffset fsSmall 2))

/-- A converter from UTF-16LE to UTF-8 for code units outside the surrogate range. -/
def iconvUtf8 (u : List Nat) : List Nat :=
  ((List.range (u.length / 2)).map (fun i =>
    let c := byteAt u (2 * i) + 256 * byteAt u (2 * i + 1)
    if c < 0x80 then [c]
    else if c < 0x800 then [0xc0 + c / 64, 0x80 + c % 64]
    else [0xe0 + c / 4096, 0x80 + c / 64 % 64, 0x80 + c % 64])).flatten

/-- The long entries, in stream order, of a name of `n` fragments for the short name `name`
whose code units are all U+4E2D, a character of three bytes in UTF-8. -/
def mkLdesWide (name : List Nat) (n : Nat) : List (List Nat) :=
  (List.range n).map (fun i =>
    [if i = 0 then LAST_LONG_ENTRY ||| n else n - i,
     0x2d, 0x4e, 0x2d, 0x4e, 0x2d, 0x4e, 0x2d, 0x4e, 0x2d, 0x4e, ATTR_LONG_NAME, 0,
     calculateChecksum name,
     0x2d, 0x4e, 0x2d, 0x4e, 0x2d, 0x4e, 0x2d, 0x4e, 0x2d, 0x4e, 0x2d, 0x4e, 0, 0,
     0x2d, 0x4e, 0x2d, 0x4e])

/-- A directory in cluster 2 of `fsSmall` that holds one file whose long name has 14 fragments
of 13 characters U+4E2D: 182 characters, 546 bytes in UTF-8. -/
def imgWideName : File :=
  writeAllLdes (mkLdesWide (str "A          ") 14 ++ [mkSde (str "A          ") ATTR_ARCHIVE])
    (fs_seek imgOneCluster (getClusterOffset fsSmall 2))

/-- An environment in which the byte behind the first `MAX_PATH_LEN` bytes of the buffer `lname`
is "X", followed by NUL. -/
def envNameTail : Env :=
  { natstrcmp := fun _ _ => 0, strxfrm := fun s => (s.length, s),
    scase1 := fun _ _ => [], scase2 := fun _ _ => [], lnameTail := str "X" }

/-- The first bytes of a FAT12 table in which the clusters 2, 3 and 4 are chains of their own:
their entries are the end-of-chain value 0xfff. -/
def fatThreeDirs : List Nat := [0xf8, 0xff, 0xff, 0xff, 0xff, 0xff, 0xff, 0x0f, 0x00]

/-- An image of `bsSmall` whose root directory holds a directory with a long name of 19
fragments, 247 times "d", in cluster 2; that directory holds ".", "..", the directory
"AAAAAAAAAAAAA" (one fragment, short name A, cluster 3) and the directory B (cluster 4), which
hold "." and "..". -/
def imgDeep : File :=
  writeAllLdes [mkDirSde (str ".          ") 4, mkDirSde (str "..         ") 2]
    (fs_seek
      (writeAllLdes [mkDirSde (str ".          ") 3, mkDirSde (str "..         ") 2]
        (fs_seek
          (writeAllLdes
            ([mkDirSde (str ".          ") 2, mkDirSde (str "..         ") 0]
              ++ mkLdes (str "A          ") 65 1
              ++ [mkDirSde (str "A          ") 3, mkDirSde (str "B          ") 4])
            (fs_seek
              (writeAllLdes
                (mkLdes (str "D          ") 100 19 ++ [mkDirSde (str "D          ") 2])
                (fs_seek (imgWithFATs fatThreeDirs) 1536))
              (getClusterOffset fsSmall 2)))
          (getClusterOffset fsSmall 3)))
      (getClusterOffset fsSmall 4))

/-- The path of the directory in cluster 2 of `imgDeep`: 249 bytes. -/
def pathDeep : List Nat := str "/" ++ List.replicate 247 100 ++ str "/"

/-! ## Lemmas -/

/-! ## What `checkFATs` compares -/

theorem fs_read_seek_congr (f g : File) (off size : Nat) (hs : f.size = g.size)
    (hd : f.data = g.data) :
    (fs_read (fs_seek f off) size).map Prod.fst = (fs_read (fs_seek g off) size).map Prod.fst := by
  unfold fs_read fs_seek bytesAt
  simp only [hs, hd]

theorem fs_read_keeps (f f1 : File) (size : Nat) (buf : List Nat)
    (h : fs_read f size = some (buf, f1)) : f1.size = f.size ∧ f1.data = f.data := by
  unfold fs_read at h
  split_ifs at h
  simp only [Option.some.injEq, Prod.mk.injEq] at h
  obtain ⟨_, rfl⟩ := h
  exact ⟨rfl, rfl⟩

theorem checkFATsLoop_eq (BSOffset size : Nat) (FAT1 FATx : List Nat) :
    ∀ (n : Nat) (f : File),
      (fs_read (fs_seek f (BSOffset + size)) size).map Prod.fst = some FATx →
      checkFATsLoop BSOffset size FAT1 n f
        = if n = 0 then 0 else if FAT1 ≠ FATx then 1 else 0 := by
  intro n
  induction n with
  | zero =>
    intro f _
    rfl
  | succ n ih =>
    intro f hr
    unfold checkFATsLoop
    cases hread : fs_read (fs_seek f (BSOffset + size)) size with
    | none => simp [hread] at hr
    | some r =>
      obtain ⟨buf, f1⟩ := r
      simp only [hread, Option.map_some', Option.some.injEq] at hr
      subst hr
      simp only []
      by_cases hne : FAT1 ≠ buf
      · simp [hne]
      · have hkeep := fs_read_keeps _ _ _ _ hread
        have hr1 : (fs_read (fs_seek f1 (BSOffset + size)) size).map Prod.fst = some buf := by
          rw [fs_read_seek_congr f1 f (BSOffset + size) size hkeep.1 hkeep.2, hread]
          rfl
        rw [if_neg hne, ih f1 hr1]
        simp [hne]

/-- With two or more FAT copies of which copies 0 and 1 can be read, `checkFATs` returns 0
exactly when copy 1 equals copy 0; the other copies do not take part. -/
theorem checkFATs_eq (fs : sFileSystem) (f : File) (FAT0 FAT1 : List Nat)
    (h2 : 2 ≤ fs.bs.BS_NumFATs) (h0 : readFAT fs f 0 = some FAT0)
    (h1 : readFAT fs f 1 = some FAT1) :
    checkFATs fs f = if FAT0 = FAT1 then 0 else 1 := by
  have hlt : ¬ fs.bs.BS_NumFATs < 2 := by omega
  have hoff0 : fatOffset fs 0 = fs.bs.BS_RsvdSecCnt * fs.bs.BS_BytesPerSec := by
    simp [fatOffset, u32]
  have hoff1 : fatOffset fs 1
      = fs.bs.BS_RsvdSecCnt * fs.bs.BS_BytesPerSec + u32 (fs.FATSize * fs.sectorSize) := by
    simp [fatOffset, u32]
  unfold readFAT at h0 h1
  rw [hoff0] at h0
  rw [hoff1] at h1
  unfold checkFATs
  simp only [hlt, if_false]
  cases hread : fs_read (fs_seek f (fs.bs.BS_RsvdSecCnt * fs.bs.BS_BytesPerSec))
      (u32 (fs.FATSize * fs.sectorSize)) with
  | none => simp [hread] at h0
  | some r =>
    obtain ⟨buf, f1⟩ := r
    simp only [hread, Option.map_some', Option.some.injEq] at h0
    subst h0
    simp only []
    have hkeep := fs_read_keeps _ _ _ _ hread
    have hr1 : (fs_read (fs_seek f1 (fs.bs.BS_RsvdSecCnt * fs.bs.BS_BytesPerSec
        + u32 (fs.FATSize * fs.sectorSize))) (u32 (fs.FATSize * fs.sectorSize))).map Prod.fst
        = some FAT1 := by
      rw [fs_read_seek_congr f1 f _ _ hkeep.1 hkeep.2]
      exact h1
    rw [checkFATsLoop_eq _ _ buf FAT1 _ f1 hr1]
    have hn : ¬ fs.bs.BS_NumFATs - 1 = 0 := by omega
    simp only [hn, if_false]
    by_cases he : buf = FAT1
    · simp [he]
    · simp [he]

/-! ## Writes do not reach below their start -/

theorem fs_write_below (f : File) (buf : List Nat) (base : Nat) (h : base ≤ f.pos) :
    base ≤ (fs_write f buf).pos ∧ ∀ off, off < base → (fs_write f buf).data off = f.data off := by
  refine ⟨?_, ?_⟩
  · simp only [fs_write]
    omega
  · intro off hoff
    have : ¬ (f.pos ≤ off ∧ off < f.pos + buf.length) := by omega
    simp only [fs_write, this, if_false]

theorem writeLdes_below (base : Nat) :
    ∀ (n : Nat) (tmp tmp1 : List (List Nat)) (f f1 : File),
      writeLdes n tmp f = some (tmp1, f1) → base ≤ f.pos →
      base ≤ f1.pos ∧ ∀ off, off < base → f1.data off = f.data off := by
  intro n
  induction n with
  | zero =>
    intro tmp tmp1 f f1 h hb
    simp only [writeLdes, Option.some.injEq, Prod.mk.injEq] at h
    obtain ⟨_, rfl⟩ := h
    exact ⟨hb, fun _ _ => rfl⟩
  | succ n ih =>
    intro tmp tmp1 f f1 h hb
    cases tmp with
    | nil => simp [writeLdes] at h
    | cons lde tmp =>
      simp only [writeLdes] at h
      have hw := fs_write_below f (entryBytes lde) base hb
      have := ih tmp tmp1 _ f1 h hw.1
      exact ⟨this.1, fun off hoff => (this.2 off hoff).trans (hw.2 off hoff)⟩

theorem writeAllLdes_below (base : Nat) :
    ∀ (tmp : List (List Nat)) (f : File), base ≤ f.pos →
      base ≤ (writeAllLdes tmp f).pos ∧
      ∀ off, off < base → (writeAllLdes tmp f).data off = f.data off := by
  intro tmp
  induction tmp with
  | nil =>
    intro f hb
    exact ⟨hb, fun _ _ => rfl⟩
  | cons lde tmp ih =>
    intro f hb
    simp only [writeAllLdes]
    have hw := fs_write_below f (entryBytes lde) base hb
    have := ih _ hw.1
    exact ⟨this.1, fun off hoff => (this.2 off hoff).trans (hw.2 off hoff)⟩

/-- `writeList` changes no byte below the position at which it starts. -/
theorem writeList_below (base : Nat) :
    ∀ (list : List sDirEntryList) (f : File), base ≤ f.pos →
      base ≤ (writeList list f).pos ∧
      ∀ off, off < base → (writeList list f).data off = f.data off := by
  intro list
  induction list with
  | nil =>
    intro f hb
    exact ⟨hb, fun _ _ => rfl⟩
  | cons p list ih =>
    intro f hb
    simp only [writeList]
    have h1 := writeAllLdes_below base p.ldel f hb
    have h2 := fs_write_below _ (entryBytes p.sde) base h1.1
    have := ih _ h2.1
    exact ⟨this.1, fun off hoff =>
      ((this.2 off hoff).trans (h2.2 off hoff)).trans (h1.2 off hoff)⟩

theorem writeChainLoop_below (fs : sFileSystem) (base : Nat) :
    ∀ (list : List sDirEntryList) (chain : List Nat) (entries entries1 : Nat) (f f1 : File),
      (∀ c ∈ chain, base ≤ getClusterOffset fs c) →
      writeChainLoop fs list chain entries f = some (entries1, f1) → base ≤ f.pos →
      base ≤ f1.pos ∧ ∀ off, off < base → f1.data off = f.data off := by
  intro list
  induction list with
  | nil =>
    intro chain entries entries1 f f1 _ h hb
    simp only [writeChainLoop, Option.some.injEq, Prod.mk.injEq] at h
    obtain ⟨_, rfl⟩ := h
    exact ⟨hb, fun _ _ => rfl⟩
  | cons p list ih =>
    intro chain entries entries1 f f1 hchain h hb
    unfold writeChainLoop at h
    by_cases hfit : u32 (entries + p.entries) ≤ fs.maxDirEntriesPerCluster
    · simp only [hfit, if_true] at h
      cases hw : writeLdes (p.entries - 1) p.ldel f with
      | none => simp [hw] at h
      | some r =>
        obtain ⟨tmp, f2⟩ := r
        simp only [hw] at h
        have h1 := writeLdes_below base _ _ _ _ _ hw hb
        have h2 := fs_write_below f2 (entryBytes p.sde) base h1.1
        have := ih chain _ entries1 _ f1 hchain h h2.1
        exact ⟨this.1, fun off hoff =>
          ((this.2 off hoff).trans (h2.2 off hoff)).trans (h1.2 off hoff)⟩
    · simp only [hfit, if_false] at h
      cases hw : writeLdes (sub32 fs.maxDirEntriesPerCluster entries) p.ldel f with
      | none => simp [hw] at h
      | some r =>
        obtain ⟨tmp, f2⟩ := r
        simp only [hw] at h
        have h1 := writeLdes_below base _ _ _ _ _ hw hb
        match chain, hchain, h with
        | [], _, h => simp at h
        | [_], _, h => simp at h
        | c0 :: cluster :: chain1, hchain, h =>
          simp only [] at h
          have hc : base ≤ getClusterOffset fs cluster := hchain cluster (by simp)
          have hseek : base ≤ (fs_seek f2 (getClusterOffset fs cluster)).pos := hc
          have h3 := writeAllLdes_below base tmp _ hseek
          have h4 := fs_write_below _ (entryBytes p.sde) base h3.1
          have := ih (cluster :: chain1) _ entries1 _ f1
            (fun c hcm => hchain c (List.mem_cons_of_mem _ hcm)) h h4.1
          exact ⟨this.1, fun off hoff =>
            (((this.2 off hoff).trans (h4.2 off hoff)).trans (h3.2 off hoff)).trans
              (h1.2 off hoff)⟩

/-- `writeClusterChain` changes no byte below the lowest offset of a cluster of the chain. -/
theorem writeClusterChain_below (fs : sFileSystem) (base : Nat) (list : List sDirEntryList)
    (chain : List Nat) (f f1 : File) (hchain : ∀ c ∈ chain, base ≤ getClusterOffset fs c)
    (h : writeClusterChain fs list chain f = some f1) :
    ∀ off, off < base → f1.data off = f.data off := by
  unfold writeClusterChain at h
  cases chain with
  | nil => simp at h
  | cons cluster chain1 =>
    simp only [] at h
    have hseek : base ≤ (fs_seek f (getClusterOffset fs cluster)).pos :=
      hchain cluster (by simp)
    cases hw : writeChainLoop fs list (cluster :: chain1) 0
        (fs_seek f (getClusterOffset fs cluster)) with
    | none => simp [hw] at h
    | some r =>
      obtain ⟨entries, f2⟩ := r
      simp only [hw] at h
      have h1 := writeChainLoop_below fs base list _ 0 entries _ f2 hchain hw hseek
      intro off hoff
      by_cases hlt : entries < fs.maxDirEntriesPerCluster
      · simp only [hlt, if_true, Option.some.injEq] at h
        subst h
        exact ((fs_write_below f2 _ base h1.1).2 off hoff).trans (h1.2 off hoff)
      · simp only [hlt, if_false, Option.some.injEq] at h
        subst h
        exact h1.2 off hoff

/-- The geometry that a successful `openFileSystem` stores. -/
theorem openFileSystem_geometry (bs : sBootSector) (fs : sFileSystem)
    (hopen : openFileSystem bs = some fs) :
    fs.bs = bs ∧ fs.sectorSize = bs.BS_BytesPerSec ∧
    fs.FATSize = (if bs.BS_FATSz16 ≠ 0 then bs.BS_FATSz16 else bs.BS_FATSz32) ∧
    fs.clusterSize = bs.BS_SecPerClus * bs.BS_BytesPerSec ∧
    fs.maxDirEntriesPerCluster = bs.BS_SecPerClus * bs.BS_BytesPerSec / DIR_ENTRY_SIZE ∧
    fs.maxClusterChainLength = MAX_FILE_LEN / (bs.BS_SecPerClus * bs.BS_BytesPerSec) ∧
    fs.firstDataSector =
      u32 (u32 (bs.BS_RsvdSecCnt
          + u32 (bs.BS_NumFATs * (if bs.BS_FATSz16 ≠ 0 then bs.BS_FATSz16 else bs.BS_FATSz32)))
        + u32 (bs.BS_RootEntCnt * DIR_ENTRY_SIZE + (bs.BS_BytesPerSec - 1))
          / bs.BS_BytesPerSec) ∧
    fs.FATType = getFATType bs ∧ fs.clusters = getCountOfClusters bs ∧
    check_bootsector bs = 0 := by
  dsimp only [openFileSystem] at hopen
  by_cases h1 : check_bootsector bs ≠ 0
  · rw [if_pos h1] at hopen
    cases hopen
  rw [if_neg h1] at hopen
  by_cases h2 : (if bs.BS_TotSec16 ≠ 0 then bs.BS_TotSec16 else bs.BS_TotSec32) = 0
  · rw [if_pos h2] at hopen
    cases hopen
  rw [if_neg h2] at hopen
  by_cases h3 : getFATType bs = -1
  · rw [if_pos h3] at hopen
    cases hopen
  rw [if_neg h3] at hopen
  by_cases h4 : getFATType bs = FATTYPE_FAT32 ∧ bs.BS_FATSz32 = 0
  · rw [if_pos h4] at hopen
    cases hopen
  rw [if_neg h4] at hopen
  by_cases h5 : (getFATType bs = FATTYPE_FAT12 ∨ getFATType bs = FATTYPE_FAT16) ∧ bs.BS_FATSz16 = 0
  · rw [if_pos h5] at hopen
    cases hopen
  rw [if_neg h5] at hopen
  by_cases h6 : (getFATType bs = FATTYPE_FAT16 ∨ getFATType bs = FATTYPE_FAT12) ∧ bs.BS_RootEntCnt = 0
  · rw [if_pos h6] at hopen
    cases hopen
  rw [if_neg h6] at hopen
  by_cases h7 : getFATType bs = FATTYPE_FAT32 ∧ bs.BS_RootEntCnt ≠ 0
  · rw [if_pos h7] at hopen
    cases hopen
  rw [if_neg h7] at hopen
  by_cases h8 : getCountOfClusters bs = -1
  · rw [if_pos h8] at hopen
    cases hopen
  rw [if_neg h8] at hopen
  by_cases h9 : getCountOfClusters bs > 268435445
  · rw [if_pos h9] at hopen
    cases hopen
  rw [if_neg h9] at hopen
  have hfs := Option.some.inj hopen
  subst hfs
  exact ⟨rfl, rfl, rfl, rfl, rfl, rfl, rfl, rfl, rfl, Decidable.of_not_not h1⟩

/-- Without wrap-around of the 32-bit sum in `openFileSystem`, every cluster lies at or behind
the end of the FATs. -/
theorem getClusterOffset_ge_fat_end (bs : sBootSector) (fs : sFileSystem)
    (hopen : openFileSystem bs = some fs)
    (hnowrap : bs.BS_RsvdSecCnt + bs.BS_NumFATs * fs.FATSize
      + u32 (bs.BS_RootEntCnt * DIR_ENTRY_SIZE + (bs.BS_BytesPerSec - 1)) / bs.BS_BytesPerSec
      < 2 ^ 32)
    (cluster : Nat) :
    (bs.BS_RsvdSecCnt + bs.BS_NumFATs * fs.FATSize) * fs.sectorSize
      ≤ getClusterOffset fs cluster := by
  obtain ⟨_, _, hF, _, _, _, hD, _, _, _⟩ := openFileSystem_geometry bs fs hopen
  have e3 : ∀ n, n < 2 ^ 32 → u32 n = n := fun n hn => Nat.mod_eq_of_lt hn
  rw [← hF] at hD
  unfold getClusterOffset
  apply Nat.mul_le_mul_right
  rw [hD]
  generalize bs.BS_NumFATs * fs.FATSize = m at hnowrap ⊢
  generalize u32 (bs.BS_RootEntCnt * DIR_ENTRY_SIZE + (bs.BS_BytesPerSec - 1))
    / bs.BS_BytesPerSec = r at hnowrap ⊢
  rw [e3 m (by omega), e3 (bs.BS_RsvdSecCnt + m) (by omega),
    e3 (bs.BS_RsvdSecCnt + m + r) hnowrap]
  omega

/-- On an accepted volume whose 32-bit sum `reserved + NumFATs * FATSize + rootDirSectors` does
not wrap around, `writeClusterChain` and `writeList` (started at the root directory offset)
leave every byte below `(reserved + NumFATs * FATSize) * sectorSize` as it was. -/
theorem writers_keep_fat_bytes_without_wrap (bs : sBootSector) (fs : sFileSystem)
    (hopen : openFileSystem bs = some fs)
    (hnowrap : bs.BS_RsvdSecCnt + bs.BS_NumFATs * fs.FATSize
      + u32 (bs.BS_RootEntCnt * DIR_ENTRY_SIZE + (bs.BS_BytesPerSec - 1)) / bs.BS_BytesPerSec
      < 2 ^ 32) :
    (∀ (list : List sDirEntryList) (chain : List Nat) (f f1 : File),
      writeClusterChain fs list chain f = some f1 →
      ∀ off, off < (bs.BS_RsvdSecCnt + bs.BS_NumFATs * fs.FATSize) * fs.sectorSize →
        f1.data off = f.data off) ∧
    (∀ (list : List sDirEntryList) (f : File),
      ∀ off, off < (bs.BS_RsvdSecCnt + bs.BS_NumFATs * fs.FATSize) * fs.sectorSize →
        (writeList list (fs_seek f (rootDirOffset fs))).data off = f.data off) := by
  constructor
  · intro list chain f f1 h off hoff
    exact writeClusterChain_below fs _ list chain f f1
      (fun c _ => getClusterOffset_ge_fat_end bs fs hopen hnowrap c) h off hoff
  · intro list f off hoff
    obtain ⟨hbs, _⟩ := openFileSystem_geometry bs fs hopen
    have hroot : rootDirOffset fs
        = (bs.BS_RsvdSecCnt + bs.BS_NumFATs * fs.FATSize) * fs.sectorSize := by
      unfold rootDirOffset
      rw [hbs]
      have hlt : bs.BS_NumFATs * fs.FATSize < 2 ^ 32 :=
        Nat.lt_of_le_of_lt
          (Nat.le_trans (Nat.le_add_left _ _) (Nat.le_add_right _ _)) hnowrap
      have : u32 (bs.BS_NumFATs * fs.FATSize) = bs.BS_NumFATs * fs.FATSize :=
        Nat.mod_eq_of_lt hlt
      rw [this]
    have hpos : (bs.BS_RsvdSecCnt + bs.BS_NumFATs * fs.FATSize) * fs.sectorSize
        ≤ (fs_seek f (rootDirOffset fs)).pos := by
      rw [← hroot]
      exact Nat.le_refl _
    exact (writeList_below _ list _ hpos).2 off hoff

/-! ## Prefix stripping -/

theorem tolower_eq_zero {c : Nat} : tolower c = 0 ↔ c = 0 := by
  unfold tolower
  split <;> omega

theorem strncasecmp_eq_zero_iff (p : List Nat) (hp : IsCStr p) (old : List Nat) :
    strncasecmp old p p.length = 0 ↔
      p.length ≤ old.length ∧ (old.take p.length).map tolower = p.map tolower := by
  induction p generalizing old with
  | nil => simp [strncasecmp]
  | cons b bs ih =>
    have hb : b ≠ 0 := hp b (List.mem_cons_self _ _)
    have hbs : IsCStr bs := fun c hc => hp c (List.mem_cons_of_mem _ hc)
    cases old with
    | nil =>
      have : tolower b ≠ 0 := fun h => hb (tolower_eq_zero.mp h)
      simp [strncasecmp]
      omega
    | cons a as =>
      by_cases hab : tolower a = tolower b
      · have ha : a ≠ 0 := fun h => hb (tolower_eq_zero.mp (by rw [← hab, h]; rfl))
        simp [strncasecmp, hab, ha, ih hbs as]
      · have : (tolower a : Int) - (tolower b : Int) ≠ 0 := by omega
        simp [strncasecmp, hab, this]

theorem stripSpecialPrefixes_eq (prefixes : List (List Nat)) (old : List Nat)
    (hp : ∀ p ∈ prefixes, IsCStr p) :
    stripSpecialPrefixes prefixes old =
      (prefixes.find? (fun p => matchesPrefix p old)).map (fun p => old.drop p.length) := by
  induction prefixes with
  | nil => rfl
  | cons p rest ih =>
    have hp1 : IsCStr p := hp p (List.mem_cons_self _ _)
    have hrest : ∀ q ∈ rest, IsCStr q := fun q hq => hp q (List.mem_cons_of_mem _ hq)
    by_cases hm : p.length ≤ old.length ∧ (old.take p.length).map tolower = p.map tolower
    · have h0 : strncasecmp old p p.length = 0 := (strncasecmp_eq_zero_iff p hp1 old).mpr hm
      have hmp : matchesPrefix p old = true := decide_eq_true hm
      simp [stripSpecialPrefixes, h0, List.find?, hmp]
    · have h0 : strncasecmp old p p.length ≠ 0 := fun h =>
        hm ((strncasecmp_eq_zero_iff p hp1 old).mp h)
      have hmp : matchesPrefix p old = false := decide_eq_false hm
      simp [stripSpecialPrefixes, h0, List.find?, hmp, ih hrest]

/-! ## Case folding -/

theorem cstr_append_of_isCStr (s rest : List Nat) (hs : IsCStr s) (hrest : rest.headD 0 = 0) :
    cstr (s ++ rest) = s := by
  induction s with
  | nil =>
    cases rest with
    | nil => rfl
    | cons x xs =>
      simp only [List.headD_cons] at hrest
      subst hrest
      simp [cstr]
  | cons c s ih =>
    have hc : c ≠ 0 := hs c (List.mem_cons_self _ _)
    have hs1 : IsCStr s := fun x hx => hs x (List.mem_cons_of_mem _ hx)
    have := ih hs1
    unfold cstr at this ⊢
    rw [List.cons_append, List.takeWhile_cons, if_pos (by simpa using hc), this]

/-- The folded copy of a name is the lower-cased name when the buffer holds NUL right behind
it; otherwise the bytes up to the next NUL of the buffer follow. -/
theorem foldCase_of_nul (ss buf : List Nat) (hss : IsCStr ss)
    (hbuf : (buf.drop ss.length).headD 0 = 0) : foldCase ss buf = ss.map tolower := by
  unfold foldCase
  apply cstr_append_of_isCStr _ _ _ hbuf
  intro c hc
  obtain ⟨x, hx, rfl⟩ := List.mem_map.mp hc
  exact fun h => hss x hx (tolower_eq_zero.mp h)

/-! ## Randomisation -/

theorem perm_cons_eraseIdx {α : Type} (l : List α) (n : Nat) (d : α) (h : l[n]? = some d) :
    (d :: l.eraseIdx n).Perm l := by
  induction l generalizing n with
  | nil => simp at h
  | cons x xs ih =>
    cases n with
    | zero =>
      simp at h
      subst h
      simp
    | succ m =>
      simp at h
      have := ih m (by simpa using h)
      simp only [List.eraseIdx_cons_succ]
      exact (List.Perm.swap x d _).trans (List.Perm.cons x this)

theorem randomizeLoop_perm (irand : Nat → Nat) :
    ∀ (n i : Nat) (done rest l1 : List sDirEntryList),
      randomizeLoop irand n i done rest = some l1 → ∃ r, l1 = done ++ r ∧ r.Perm rest := by
  intro n
  induction n with
  | zero =>
    intro i done rest l1 h
    simp [randomizeLoop] at h
    exact ⟨rest, h.symm, List.Perm.refl _⟩
  | succ n ih =>
    intro i done rest l1 h
    unfold randomizeLoop at h
    cases hg : rest[irand i]? with
    | none => simp [hg] at h
    | some d =>
      simp only [hg] at h
      obtain ⟨r, hr, hp⟩ := ih (i + 1) (done ++ [d]) (rest.eraseIdx (irand i)) l1 h
      refine ⟨d :: r, by simpa using hr, ?_⟩
      exact (List.Perm.cons d hp).trans (perm_cons_eraseIdx rest (irand i) d hg)

theorem randomizeLoop_isSome (irand : Nat → Nat) :
    ∀ (n i : Nat) (done rest : List sDirEntryList), rest.length = n →
      (∀ j, i ≤ j → j < i + n → irand j ≤ i + n - 1 - j) →
      ∃ l1, randomizeLoop irand n i done rest = some l1 := by
  intro n
  induction n with
  | zero =>
    intro i done rest _ _
    exact ⟨done ++ rest, rfl⟩
  | succ n ih =>
    intro i done rest hlen hpick
    have hpos : irand i < rest.length := by
      have := hpick i (Nat.le_refl _) (by omega)
      omega
    have hg : rest[irand i]? = some (rest[irand i]) := List.getElem?_eq_getElem hpos
    unfold randomizeLoop
    simp only [hg]
    apply ih
    · rw [List.length_eraseIdx]
      simp [hpos, hlen]
      omega
    · intro j h1 h2
      have := hpick j (by omega) (by omega)
      omega

/-! ## Sorted insertion and the parse loops -/

theorem insertDirEntryList_mem (env : Env) (o : Options) (new : sDirEntryList) :
    ∀ (l l1 : List sDirEntryList), insertDirEntryList env o new l = some l1 →
      ∀ y, y ∈ l1 ↔ y = new ∨ y ∈ l := by
  intro l
  induction l with
  | nil =>
    intro l1 h y
    simp [insertDirEntryList] at h
    subst h
    simp
  | cons x rest ih =>
    intro l1 h y
    unfold insertDirEntryList at h
    cases hc : cmpEntries env o new x with
    | none => simp [hc] at h
    | some c =>
      simp only [hc] at h
      by_cases hge : c ≥ 0
      · simp only [hge, if_true] at h
        cases hr : insertDirEntryList env o new rest with
        | none => simp [hr] at h
        | some l2 =>
          simp [hr] at h
          subst h
          have := ih l2 hr y
          simp only [List.mem_cons, this]
          tauto
      · simp only [hge, if_false] at h
        simp at h
        subst h
        simp

/-- Sorted insertion keeps a transitive relation pairwise valid when passing an entry and
stopping before an entry both agree with the relation. -/
theorem insertDirEntryList_pairwise (env : Env) (o : Options)
    (R : sDirEntryList → sDirEntryList → Prop)
    (htrans : ∀ a b c, R a b → R b c → R a c)
    (hpass : ∀ a b c, cmpEntries env o a b = some c → c ≥ 0 → R b a)
    (hstop : ∀ a b c, cmpEntries env o a b = some c → c < 0 → R a b)
    (new : sDirEntryList) :
    ∀ (l l1 : List sDirEntryList), l.Pairwise R → insertDirEntryList env o new l = some l1 →
      l1.Pairwise R := by
  intro l
  induction l with
  | nil =>
    intro l1 _ h
    simp [insertDirEntryList] at h
    subst h
    simp
  | cons x rest ih =>
    intro l1 hl h
    rw [List.pairwise_cons] at hl
    unfold insertDirEntryList at h
    cases hc : cmpEntries env o new x with
    | none => simp [hc] at h
    | some c =>
      simp only [hc] at h
      by_cases hge : c ≥ 0
      · simp only [hge, if_true] at h
        cases hr : insertDirEntryList env o new rest with
        | none => simp [hr] at h
        | some l2 =>
          simp [hr] at h
          subst h
          rw [List.pairwise_cons]
          refine ⟨?_, ih l2 hl.2 hr⟩
          intro y hy
          rcases (insertDirEntryList_mem env o new rest l2 hr y).mp hy with rfl | hy
          · exact hpass _ _ c hc hge
          · exact hl.1 y hy
      · simp only [hge, if_false] at h
        simp at h
        subst h
        have hlt : c < 0 := by omega
        have hnx : R new x := hstop _ _ c hc hlt
        rw [List.pairwise_cons]
        refine ⟨?_, List.pairwise_cons.mpr hl⟩
        intro y hy
        rcases List.mem_cons.mp hy with rfl | hy
        · exact hnx
        · exact htrans _ _ _ hnx (hl.1 y hy)

/-- A property of lists that holds for the empty list and that `insertDirEntryList` keeps holds
for the list of every stage of a parse. -/
theorem parseSlot_invariant (env : Env) (iconv : List Nat → List Nat) (o : Options)
    (P : List sDirEntryList → Prop) (hnil : P [])
    (hins : ∀ new l l1, P l → insertDirEntryList env o new l = some l1 → P l1)
    (s : ParseState) (hs : P s.list) : P (parseSlot env iconv o s).list := by
  unfold parseSlot
  cases hpe : parseEntry s.f with
  | none => simpa [ParseStep.list] using hs
  | some r =>
    obtain ⟨ret, de, f1⟩ := r
    simp only []
    by_cases h0 : ret = 0
    · simp only [h0, if_true]
      split <;> simpa [ParseStep.list] using hs
    · simp only [h0, if_false]
      by_cases h1 : ret = 1
      · simp only [h1, if_true]
        split
        · simpa [ParseStep.list] using hnil
        · split
          · simpa [ParseStep.list] using hs
          · split
            · simpa [ParseStep.list] using hnil
            · rename_i list1 hl
              simpa [ParseStep.list] using hins _ _ _ hs hl
      · simp only [h1, if_false]
        simpa [ParseStep.list] using hs

theorem parseSlots_invariant (env : Env) (iconv : List Nat → List Nat) (o : Options)
    (P : List sDirEntryList → Prop) (hnil : P [])
    (hins : ∀ new l l1, P l → insertDirEntryList env o new l = some l1 → P l1) :
    ∀ (n : Nat) (s : ParseState), P s.list → P (parseSlots env iconv o n s).list := by
  intro n
  induction n with
  | zero =>
    intro s hs
    simpa [parseSlots, ParseStep.list] using hs
  | succ n ih =>
    intro s hs
    have h1 := parseSlot_invariant env iconv o P hnil hins s hs
    unfold parseSlots
    cases hp : parseSlot env iconv o s with
    | cont s1 =>
      rw [hp] at h1
      exact ih s1 h1
    | ret c s1 =>
      rw [hp] at h1
      exact h1
    | exit => simpa [ParseStep.list] using hnil

theorem parseChainLoop_invariant (env : Env) (iconv : List Nat → List Nat) (o : Options)
    (fs : sFileSystem) (P : List sDirEntryList → Prop) (hnil : P [])
    (hins : ∀ new l l1, P l → insertDirEntryList env o new l = some l1 → P l1) :
    ∀ (chain : List Nat) (s : ParseState), P s.list →
      P (parseChainLoop env iconv o fs chain s).list := by
  intro chain
  induction chain with
  | nil =>
    intro s hs
    simpa [parseChainLoop, ParseStep.list] using hs
  | cons c chain ih =>
    intro s hs
    have h1 := parseSlots_invariant env iconv o P hnil hins fs.maxDirEntriesPerCluster
      { s with f := fs_seek s.f (getClusterOffset fs c) } hs
    unfold parseChainLoop
    cases hp : parseSlots env iconv o fs.maxDirEntriesPerCluster
        { s with f := fs_seek s.f (getClusterOffset fs c) } with
    | cont s1 =>
      rw [hp] at h1
      exact ih s1 h1
    | ret c s1 =>
      rw [hp] at h1
      exact h1
    | exit => simpa [ParseStep.list] using hnil

theorem parseFinish_list (r : ParseStep) : (parseFinish r).list = r.list := by
  cases r with
  | cont s =>
    simp only [parseFinish]
    split <;> rfl
  | ret c s => rfl
  | exit => rfl

theorem parseClusterChain_invariant (env : Env) (iconv : List Nat → List Nat) (o : Options)
    (fs : sFileSystem) (P : List sDirEntryList → Prop) (hnil : P [])
    (hins : ∀ new l l1, P l → insertDirEntryList env o new l = some l1 → P l1)
    (f : File) (chain : List Nat) :
    P (parseClusterChain env iconv o fs f chain).list := by
  unfold parseClusterChain
  rw [parseFinish_list]
  exact parseChainLoop_invariant env iconv o fs P hnil hins chain (parseInit f) hnil

theorem parseFAT1xRootDirEntries_invariant (env : Env) (iconv : List Nat → List Nat)
    (o : Options) (fs : sFileSystem) (P : List sDirEntryList → Prop) (hnil : P [])
    (hins : ∀ new l l1, P l → insertDirEntryList env o new l = some l1 → P l1) (f : File) :
    P (parseFAT1xRootDirEntries env iconv o fs f).list := by
  unfold parseFAT1xRootDirEntries
  rw [parseFinish_list]
  exact parseSlots_invariant env iconv o P hnil hins _ _ hnil

/-! ## Properties of `strcmp` -/

theorem strcmp_antisymm : ∀ (a b : List Nat), strcmp b a = - strcmp a b := by
  intro a
  induction a with
  | nil =>
    intro b
    cases b <;> simp [strcmp]
  | cons x xs ih =>
    intro b
    cases b with
    | nil => simp [strcmp]
    | cons y ys =>
      by_cases hxy : x = y
      · subst hxy
        by_cases h0 : x = 0
        · simp [strcmp, h0]
        · simp [strcmp, h0, ih ys]
      · have hyx : ¬ y = x := fun h => hxy h.symm
        simp [strcmp, hxy, hyx]

theorem strcmp_self (a : List Nat) : strcmp a a = 0 := by
  have := strcmp_antisymm a a
  omega

theorem strcmp_trans_nonneg :
    ∀ (a b c : List Nat), 0 ≤ strcmp a b → 0 ≤ strcmp b c → 0 ≤ strcmp a c := by
  intro a
  induction a with
  | nil =>
    intro b c hab hbc
    cases c with
    | nil => simp [strcmp]
    | cons z zs =>
      cases b with
      | nil => exact hbc
      | cons y ys =>
        simp only [strcmp] at hab hbc ⊢
        have hy : y = 0 := by omega
        subst hy
        by_cases hz : (0 : Nat) = z
        · subst hz
          simp
        · simp only [hz, if_false] at hbc
          omega
  | cons x xs ih =>
    intro b c hab hbc
    cases c with
    | nil =>
      simp only [strcmp]
      omega
    | cons z zs =>
      cases b with
      | nil =>
        simp only [strcmp] at hab hbc ⊢
        have hz : z = 0 := by omega
        subst hz
        by_cases hx : x = 0
        · simp [hx]
        · simp only [hx, if_false]
          omega
      | cons y ys =>
        simp only [strcmp] at hab hbc ⊢
        by_cases hxy : x = y
        · subst hxy
          by_cases hxz : x = z
          · subst hxz
            by_cases h0 : x = 0
            · simp [h0]
            · simp only [h0, if_true, if_false] at hab hbc ⊢
              exact ih ys zs hab hbc
          · simp only [hxz, if_false] at hbc ⊢
            exact hbc
        · simp only [hxy, if_false] at hab
          by_cases hyz : y = z
          · subst hyz
            simp only [hxy, if_false]
            exact hab
          · simp only [hyz, if_false] at hbc
            have hxz : ¬ x = z := by omega
            simp only [hxz, if_false]
            omega

/-! ## The fixed precedence of special entries -/

theorem str_dotdot_ne_dot : str ".." ≠ str "." := by decide

/-- The class of a record together with the outcome of the tests that `cmpEntries` makes. -/
theorem rank_spec (de : sDirEntryList) :
    (rank de = 0 ∧ isVolumeLabel de = true) ∨
    (rank de = 1 ∧ isVolumeLabel de = false ∧ de.sname = str ".") ∨
    (rank de = 2 ∧ isVolumeLabel de = false ∧ de.sname ≠ str "." ∧ de.sname = str "..") ∨
    (rank de = 3 ∧ isVolumeLabel de = false ∧ de.sname ≠ str "." ∧ de.sname ≠ str ".." ∧
      isDeleted de = false) ∨
    (rank de = 4 ∧ isVolumeLabel de = false ∧ de.sname ≠ str "." ∧ de.sname ≠ str ".." ∧
      isDeleted de = true) := by
  by_cases h1 : isVolumeLabel de = true
  · exact Or.inl ⟨by rw [rank, if_pos h1], h1⟩
  · have h1f : isVolumeLabel de = false := by simpa using h1
    by_cases h2 : de.sname = str "."
    · exact Or.inr (Or.inl ⟨by rw [rank, if_neg h1, if_pos h2], h1f, h2⟩)
    · by_cases h3 : de.sname = str ".."
      · exact Or.inr (Or.inr (Or.inl ⟨by rw [rank, if_neg h1, if_neg h2, if_pos h3], h1f, h2, h3⟩))
      · by_cases h4 : isDeleted de = true
        · exact Or.inr (Or.inr (Or.inr (Or.inr
            ⟨by rw [rank, if_neg h1, if_neg h2, if_neg h3, if_pos h4], h1f, h2, h3, h4⟩)))
        · have h4f : isDeleted de = false := by simpa using h4
          exact Or.inr (Or.inr (Or.inr (Or.inl
            ⟨by rw [rank, if_neg h1, if_neg h2, if_neg h3, if_neg h4], h1f, h2, h3, h4f⟩)))

theorem rank_le (de : sDirEntryList) : rank de ≤ 4 := by
  rcases rank_spec de with h | h | h | h | h <;> omega

theorem isLive_iff (de : sDirEntryList) : isLive de = true ↔ rank de = 3 := by
  rcases rank_spec de with ⟨h, f⟩ | ⟨h, f⟩ | ⟨h, f⟩ | ⟨h, f⟩ | ⟨h, f⟩ <;>
    simp [isLive, h, f, str_dotdot_ne_dot]

theorem isSkipped_iff (de : sDirEntryList) : isSkipped de = true ↔ rank de < 3 := by
  rcases rank_spec de with ⟨h, f⟩ | ⟨h, f⟩ | ⟨h, f⟩ | ⟨h, f⟩ | ⟨h, f⟩ <;>
    simp [isSkipped, h, f, str_dotdot_ne_dot]

/-- `cmpEntries` in terms of the classes of its arguments. -/
theorem cmpEntries_eq (env : Env) (o : Options) (a b : sDirEntryList) :
    cmpEntries env o a b =
      if rank a < 3 ∧ rank a ≤ rank b then some (-1)
      else if rank b < 3 then some 1
      else if rank a = 4 then some 1
      else if rank b = 4 then some (-1)
      else cmpOrdinary env o a b := by
  have hdel : ∀ d : sDirEntryList, (d.sname.headD 0 = DE_FREE) = (isDeleted d = true) := by
    intro d
    simp [isDeleted]
  unfold cmpEntries
  simp only [hdel]
  rcases rank_spec a with ⟨ra, fa⟩ | ⟨ra, fa⟩ | ⟨ra, fa⟩ | ⟨ra, fa⟩ | ⟨ra, fa⟩ <;>
  rcases rank_spec b with ⟨rb, fb⟩ | ⟨rb, fb⟩ | ⟨rb, fb⟩ | ⟨rb, fb⟩ | ⟨rb, fb⟩ <;>
  simp [ra, rb, fa, fb, str_dotdot_ne_dot]

/-! ## Special entries lead the list -/

theorem cmpEntries_pass_rank (env : Env) (o : Options) (a b : sDirEntryList) (c : Int)
    (h : cmpEntries env o a b = some c) (hc : c ≥ 0) : rank b ≤ rank a := by
  rw [cmpEntries_eq] at h
  have ha := rank_le a
  have hb := rank_le b
  split_ifs at h with h1 h2 h3 h4
  · simp at h
    omega
  · omega
  · omega
  · simp at h
    omega
  · omega

theorem cmpEntries_stop_rank (env : Env) (o : Options) (a b : sDirEntryList) (c : Int)
    (h : cmpEntries env o a b = some c) (hc : c < 0) : rank a ≤ rank b := by
  rw [cmpEntries_eq] at h
  have ha := rank_le a
  have hb := rank_le b
  split_ifs at h with h1 h2 h3 h4
  · omega
  · simp at h
    omega
  · simp at h
    omega
  · omega
  · omega

theorem insertDirEntryList_rankSorted (env : Env) (o : Options) (new : sDirEntryList)
    (l l1 : List sDirEntryList) (hl : RankSorted l)
    (h : insertDirEntryList env o new l = some l1) : RankSorted l1 :=
  insertDirEntryList_pairwise env o (fun a b => rank a ≤ rank b)
    (fun _ _ _ h1 h2 => Nat.le_trans h1 h2)
    (fun a b c => cmpEntries_pass_rank env o a b c)
    (fun a b c => cmpEntries_stop_rank env o a b c) new l l1 hl h

theorem RankSorted.specialFirst {l : List sDirEntryList} (h : RankSorted l) : SpecialFirst l :=
  List.Pairwise.imp (fun {a b} (hab : rank a ≤ rank b) => by omega) h

/-- Randomisation keeps the special entries in front. -/
theorem randomizeDirEntryList_specialFirst (irand : Nat → Nat) (l l1 : List sDirEntryList)
    (n : Nat) (hl : SpecialFirst l) (h : randomizeDirEntryList irand l n = some l1) :
    SpecialFirst l1 := by
  unfold randomizeDirEntryList at h
  obtain ⟨r, hr, hp⟩ := randomizeLoop_perm irand _ _ _ _ _ h
  subst hr
  have hdrop : ∀ y ∈ l.dropWhile isSkipped, 3 ≤ rank y := by
    intro y hy
    cases hd : l.dropWhile isSkipped with
    | nil => simp [hd] at hy
    | cons x xs =>
      have hx : isSkipped x = false := by
        have := List.head_dropWhile_not isSkipped l (by simp [hd])
        simpa [hd] using this
      have hx3 : 3 ≤ rank x := by
        by_contra hlt
        have := (isSkipped_iff x).mpr (by omega)
        simp [hx] at this
      have hpw : (x :: xs).Pairwise (fun a b => min (rank a) 3 ≤ min (rank b) 3) := by
        rw [← hd]
        exact List.Pairwise.sublist (List.dropWhile_sublist _) hl
      rw [hd] at hy
      rcases List.mem_cons.mp hy with rfl | hy
      · exact hx3
      · have := (List.pairwise_cons.mp hpw).1 y hy
        omega
  have hr3 : ∀ y ∈ r, 3 ≤ rank y := fun y hy => hdrop y (hp.subset hy)
  unfold SpecialFirst
  rw [List.pairwise_append]
  refine ⟨List.Pairwise.sublist (List.takeWhile_sublist _) hl, ?_, ?_⟩
  · exact List.pairwise_of_forall_mem_list (fun a ha b hb => by
      have := hr3 a ha
      have := hr3 b hb
      omega)
  · intro a _ b hb
    have := hr3 b hb
    omega

theorem SpecialFirst.lead {l : List sDirEntryList} (h : SpecialFirst l) : SpecialLead l := by
  have r0 : ∀ d : sDirEntryList, isVolumeLabel d = true → rank d = 0 := by
    intro d hd
    rcases rank_spec d with ⟨hr, f⟩ | ⟨hr, f⟩ | ⟨hr, f⟩ | ⟨hr, f⟩ | ⟨hr, f⟩ <;> simp_all
  have r1 : ∀ d : sDirEntryList, isVolumeLabel d = false → d.sname = str "." → rank d = 1 := by
    intro d hv hd
    rcases rank_spec d with ⟨hr, f⟩ | ⟨hr, f⟩ | ⟨hr, f⟩ | ⟨hr, f⟩ | ⟨hr, f⟩ <;> simp_all
  have r2 : ∀ d : sDirEntryList, isVolumeLabel d = false → d.sname = str ".." → 1 ≤ rank d ∧ rank d ≤ 2 := by
    intro d hv hd
    rcases rank_spec d with ⟨hr, f⟩ | ⟨hr, f⟩ | ⟨hr, f⟩ | ⟨hr, f⟩ | ⟨hr, f⟩ <;> simp_all
  have v0 : ∀ d : sDirEntryList, rank d = 0 → isVolumeLabel d = true := by
    intro d hd
    rcases rank_spec d with ⟨hr, f⟩ | ⟨hr, f⟩ | ⟨hr, f⟩ | ⟨hr, f⟩ | ⟨hr, f⟩ <;> simp_all
  have v1 : ∀ d : sDirEntryList, rank d = 1 → d.sname = str "." := by
    intro d hd
    rcases rank_spec d with ⟨hr, f⟩ | ⟨hr, f⟩ | ⟨hr, f⟩ | ⟨hr, f⟩ | ⟨hr, f⟩ <;> simp_all
  have v2 : ∀ d : sDirEntryList, rank d = 2 → d.sname = str ".." := by
    intro d hd
    rcases rank_spec d with ⟨hr, f⟩ | ⟨hr, f⟩ | ⟨hr, f⟩ | ⟨hr, f⟩ | ⟨hr, f⟩ <;> simp_all
  have n0 : ∀ d : sDirEntryList, isVolumeLabel d = false → 1 ≤ rank d := by
    intro d hd
    rcases rank_spec d with ⟨hr, f⟩ | ⟨hr, f⟩ | ⟨hr, f⟩ | ⟨hr, f⟩ | ⟨hr, f⟩ <;> simp_all
  cases l with
  | nil => refine ⟨?_, ?_, ?_⟩ <;> simp
  | cons x t =>
    unfold SpecialFirst at h
    rw [List.pairwise_cons] at h
    obtain ⟨hx, ht⟩ := h
    have hle : ∀ y ∈ x :: t, min (rank x) 3 ≤ min (rank y) 3 := by
      intro y hy
      rcases List.mem_cons.mp hy with rfl | hy
      · exact Nat.le_refl _
      · exact hx y hy
    refine ⟨?_, ?_, ?_⟩
    · rintro ⟨r, hr, hv⟩
      have := hle r hr
      have := r0 r hv
      exact ⟨x, by simp, v0 x (by omega)⟩
    · rintro hnv ⟨r, hr, hd⟩
      have := hle r hr
      have := r1 r (hnv r hr) hd
      have := n0 x (hnv x (List.mem_cons_self _ _))
      exact ⟨x, by simp, v1 x (by omega)⟩
    · rintro hnv hone ⟨r, hr, hdd⟩
      have hx1 := n0 x (hnv x (List.mem_cons_self _ _))
      have hr2 := r2 r (hnv r hr) hdd
      have hxr := hle r hr
      -- the first record is "." or ".."
      by_cases hxd : x.sname = str "."
      · -- no further "." in the tail
        have htail : ∀ y ∈ t, y.sname ≠ str "." := by
          intro y hy hyd
          have hmem : y ∈ t.filter (fun r => r.sname == str ".") := by
            simp [List.mem_filter, hy, hyd]
          have : (t.filter (fun r => r.sname == str ".")).length = 0 := by
            simp [List.filter_cons, hxd] at hone
            simpa using hone
          rw [List.length_eq_zero] at this
          rw [this] at hmem
          simp at hmem
        have hrt : r ∈ t := by
          rcases List.mem_cons.mp hr with rfl | hrt
          · exact absurd (hxd ▸ hdd : str "." = str "..") (fun e => str_dotdot_ne_dot e.symm)
          · exact hrt
        have hrne : r.sname ≠ str "." := htail r hrt
        have hr2' : rank r = 2 := by
          rcases rank_spec r with ⟨hr', f⟩ | ⟨hr', f⟩ | ⟨hr', f⟩ | ⟨hr', f⟩ | ⟨hr', f⟩ <;> simp_all
        cases t with
        | nil => simp at hrt
        | cons y t2 =>
          rw [List.pairwise_cons] at ht
          have hyle : min (rank y) 3 ≤ min (rank r) 3 := by
            rcases List.mem_cons.mp hrt with rfl | hrt2
            · exact Nat.le_refl _
            · exact ht.1 r hrt2
          have hy1 := n0 y (hnv y (by simp))
          have hyne : y.sname ≠ str "." := htail y (by simp)
          have hy2 : rank y = 2 := by
            rcases rank_spec y with ⟨hr', f⟩ | ⟨hr', f⟩ | ⟨hr', f⟩ | ⟨hr', f⟩ | ⟨hr', f⟩ <;>
              first
              | omega
              | exact absurd f.2 hyne
          exact ⟨y, by simp, v2 y hy2⟩
      · -- the first record is not ".", so no record is
        exfalso
        have hx2 : 2 ≤ rank x := by
          rcases rank_spec x with ⟨hr', f⟩ | ⟨hr', f⟩ | ⟨hr', f⟩ | ⟨hr', f⟩ | ⟨hr', f⟩ <;>
            first
            | omega
            | exact absurd f.2 hxd
        have hnone : (List.filter (fun r => r.sname == str ".") (x :: t)) = [] := by
          rw [List.filter_eq_nil_iff]
          intro y hy hyd
          have hyd' : y.sname = str "." := by simpa using hyd
          have := hle y hy
          have := r1 y (hnv y hy) hyd'
          omega
        rw [hnone] at hone
        simp at hone

/-! ## Adjacent records -/

theorem insertDirEntryList_head (env : Env) (o : Options) (new : sDirEntryList)
    (l l1 : List sDirEntryList) (h : insertDirEntryList env o new l = some l1) :
    ∀ y ∈ l1.head?, y = new ∨ y ∈ l.head? := by
  cases l with
  | nil =>
    simp [insertDirEntryList] at h
    subst h
    simp
  | cons x rest =>
    unfold insertDirEntryList at h
    cases hc : cmpEntries env o new x with
    | none => simp [hc] at h
    | some c =>
      simp only [hc] at h
      by_cases hge : c ≥ 0
      · simp only [hge, if_true] at h
        cases hr : insertDirEntryList env o new rest with
        | none => simp [hr] at h
        | some l2 =>
          simp [hr] at h
          subst h
          simp
      · simp only [hge, if_false] at h
        simp at h
        subst h
        simp

theorem insertDirEntryList_chain (env : Env) (o : Options) (new : sDirEntryList) :
    ∀ (l l1 : List sDirEntryList), l.Chain' (InsertedInOrder env o) →
      insertDirEntryList env o new l = some l1 → l1.Chain' (InsertedInOrder env o) := by
  intro l
  induction l with
  | nil =>
    intro l1 _ h
    simp [insertDirEntryList] at h
    subst h
    simp
  | cons x rest ih =>
    intro l1 hl h
    rw [List.chain'_cons'] at hl
    unfold insertDirEntryList at h
    cases hc : cmpEntries env o new x with
    | none => simp [hc] at h
    | some c =>
      simp only [hc] at h
      by_cases hge : c ≥ 0
      · simp only [hge, if_true] at h
        cases hr : insertDirEntryList env o new rest with
        | none => simp [hr] at h
        | some l2 =>
          simp [hr] at h
          subst h
          rw [List.chain'_cons']
          refine ⟨?_, ih l2 hl.2 hr⟩
          intro y hy
          rcases insertDirEntryList_head env o new rest l2 hr y hy with rfl | hy
          · exact Or.inr ⟨c, hc, hge⟩
          · exact hl.1 y hy
      · simp only [hge, if_false] at h
        simp at h
        subst h
        rw [List.chain'_cons']
        refine ⟨?_, List.chain'_cons'.mpr hl⟩
        intro y hy
        simp at hy
        subst hy
        exact Or.inl ⟨c, hc, by omega⟩

theorem cmpByName_antisymm (env : Env) (o : Options) (a b : sDirEntryList) (c2 : Int)
    (hcase : o.OPT_IGNORE_CASE = false) (hnat : o.OPT_NATURAL_SORT = false)
    (h : cmpByName env o b a = some c2) : cmpByName env o a b = some (- c2) := by
  unfold cmpByName at h ⊢
  simp only [hcase, hnat, Bool.false_eq_true, if_false] at h ⊢
  generalize strippedName o a = ka at h ⊢
  generalize strippedName o b = kb at h ⊢
  by_cases h1 : o.OPT_ASCII = true
  · simp only [h1, if_true, Option.some.injEq] at h ⊢
    rw [strcmp_antisymm kb ka, ← h]
    ring
  · have h1f : o.OPT_ASCII = false := by simpa using h1
    simp only [h1f, Bool.false_eq_true, if_false] at h ⊢
    by_cases h2 : (env.strxfrm kb).1 = MAX_PATH_LEN * 2 ∨ (env.strxfrm ka).1 = MAX_PATH_LEN * 2
    · simp [h2] at h
    · have h3 : ¬ ((env.strxfrm ka).1 = MAX_PATH_LEN * 2 ∨ (env.strxfrm kb).1 = MAX_PATH_LEN * 2) :=
        fun h' => h2 h'.symm
      simp only [h2, h3, if_false, Option.some.injEq] at h ⊢
      rw [strcmp_antisymm (env.strxfrm kb).2 (env.strxfrm ka).2, ← h]
      ring

theorem cmpByTime_antisymm (o : Options) (a b : sDirEntryList) (c2 : Int)
    (h : (if modKey b < modKey a then some (- o.OPT_REVERSE)
          else if modKey b > modKey a then some o.OPT_REVERSE else some 0) = some c2) :
    (if modKey a < modKey b then some (- o.OPT_REVERSE)
      else if modKey a > modKey b then some o.OPT_REVERSE else some 0) = some (- c2) := by
  by_cases g1 : modKey b < modKey a
  · have g2 : ¬ modKey a < modKey b := by omega
    have g3 : modKey a > modKey b := g1
    simp only [g1, if_true, Option.some.injEq] at h
    simp only [g2, g3, if_true, if_false, Option.some.injEq]
    omega
  · by_cases g2 : modKey b > modKey a
    · have g3 : modKey a < modKey b := g2
      simp only [g1, g2, if_true, if_false, Option.some.injEq] at h
      simp only [g3, if_true, Option.some.injEq]
      omega
    · have g3 : ¬ modKey a < modKey b := g2
      have g4 : ¬ modKey a > modKey b := g1
      simp only [g1, g2, if_false, Option.some.injEq] at h
      simp only [g3, g4, if_false, Option.some.injEq]
      omega

theorem cmpOrdinary_antisymm (env : Env) (o : Options) (a b : sDirEntryList) (c2 : Int)
    (hlist : o.OPT_LIST = false) (hrand : o.OPT_RANDOM = false)
    (hcase : o.OPT_IGNORE_CASE = false) (hnat : o.OPT_NATURAL_SORT = false)
    (h : cmpOrdinary env o b a = some c2) : cmpOrdinary env o a b = some (- c2) := by
  have htail : (if o.OPT_MODIFICATION = true then
        (if modKey b < modKey a then some (- o.OPT_REVERSE)
          else if modKey b > modKey a then some o.OPT_REVERSE else some 0)
        else cmpByName env o b a) = some c2 →
      (if o.OPT_MODIFICATION = true then
        (if modKey a < modKey b then some (- o.OPT_REVERSE)
          else if modKey a > modKey b then some o.OPT_REVERSE else some 0)
        else cmpByName env o a b) = some (- c2) := by
    intro ht
    by_cases hm : o.OPT_MODIFICATION = true
    · simp only [hm, if_true] at ht ⊢
      exact cmpByTime_antisymm o a b c2 ht
    · simp only [hm, if_false] at ht ⊢
      exact cmpByName_antisymm env o a b c2 hcase hnat ht
  unfold cmpOrdinary at h ⊢
  simp only [hlist, hrand, Bool.false_eq_true, or_self, if_false] at h ⊢
  generalize isDirectory a = da at h ⊢
  generalize isDirectory b = db at h ⊢
  by_cases h0 : o.OPT_ORDER = 0
  · have h1 : ¬ o.OPT_ORDER = 1 := by omega
    cases da <;> cases db <;>
      simp only [h0, h1, Bool.false_eq_true, not_true_eq_false, not_false_eq_true, and_true,
        and_false, and_self, true_and, false_and, if_true, if_false, Option.some.injEq] at h ⊢ <;>
      first
      | exact htail h
      | omega
  · by_cases h1 : o.OPT_ORDER = 1
    · cases da <;> cases db <;>
        simp only [h0, h1, Bool.false_eq_true, not_true_eq_false, not_false_eq_true, and_true,
          and_false, and_self, true_and, false_and, if_true, if_false, Option.some.injEq] at h ⊢ <;>
        first
        | exact htail h
        | omega
        | (simp at h ⊢; omega)
    · simp only [h0, h1, false_and, if_false] at h ⊢
      exact htail h

theorem isDeleted_of_rank_four (d : sDirEntryList) (h : rank d = 4) : isDeleted d = true := by
  rcases rank_spec d with ⟨hr, f⟩ | ⟨hr, f⟩ | ⟨hr, f⟩ | ⟨hr, f⟩ | ⟨hr, f⟩ <;>
    first
    | omega
    | exact f.2.2.2

/-- Outside list, random, natural and ignore-case mode `cmpEntries` is antisymmetric except
on two deleted entries. -/
theorem cmpEntries_antisymm_le (env : Env) (o : Options) (a b : sDirEntryList) (c2 : Int)
    (hlist : o.OPT_LIST = false) (hrand : o.OPT_RANDOM = false)
    (hcase : o.OPT_IGNORE_CASE = false) (hnat : o.OPT_NATURAL_SORT = false)
    (hdel : ¬ (isDeleted a = true ∧ isDeleted b = true))
    (h : cmpEntries env o b a = some c2) (hc : 0 ≤ c2) :
    ∃ c1, cmpEntries env o a b = some c1 ∧ c1 ≤ 0 := by
  have ha := rank_le a
  have hb := rank_le b
  have hd : ¬ (rank a = 4 ∧ rank b = 4) := fun h4 =>
    hdel ⟨isDeleted_of_rank_four a h4.1, isDeleted_of_rank_four b h4.2⟩
  rw [cmpEntries_eq] at h
  rw [cmpEntries_eq]
  split_ifs at h with h1 h2 h3 h4
  · simp at h
    omega
  · have g : rank a < 3 ∧ rank a ≤ rank b := by omega
    exact ⟨-1, by rw [if_pos g], by omega⟩
  · have g1 : ¬ (rank a < 3 ∧ rank a ≤ rank b) := by omega
    have g2 : ¬ rank b < 3 := by omega
    have g3 : ¬ rank a = 4 := by omega
    exact ⟨-1, by rw [if_neg g1, if_neg g2, if_neg g3, if_pos h3], by omega⟩
  · simp at h
    omega
  · have g1 : ¬ (rank a < 3 ∧ rank a ≤ rank b) := by omega
    have g2 : ¬ rank b < 3 := by omega
    have g3 : ¬ rank a = 4 := by omega
    have g4 : ¬ rank b = 4 := by omega
    refine ⟨- c2, ?_, by omega⟩
    rw [if_neg g1, if_neg g2, if_neg g3, if_neg g4]
    exact cmpOrdinary_antisymm env o a b c2 hlist hrand hcase hnat h

theorem adjacentOrdered_of_chain (env : Env) (o : Options) (l : List sDirEntryList)
    (h : l.Chain' (InsertedInOrder env o)) : AdjacentOrdered env o l := by
  intro pre a b post hl
  subst hl
  have hab : InsertedInOrder env o a b := (List.chain'_append_cons_cons.mp h).2.1
  refine ⟨hab, ?_⟩
  intro hlist hrand hcase hnat hdel
  rcases hab with ⟨c, hc, hlt⟩ | ⟨c, hc, hge⟩
  · exact ⟨c, hc, by omega⟩
  · exact cmpEntries_antisymm_le env o a b c hlist hrand hcase hnat hdel hc hge

/-! ## Directories first, names descending -/

theorem byteOrderMode_of_ascii (env : Env) (o : Options) (hascii : o.OPT_ASCII = true)
    (hnat : o.OPT_NATURAL_SORT = false) (hcase : o.OPT_IGNORE_CASE = false)
    (hpre : o.OPT_IGNORE_PREFIXES_LIST = []) : ByteOrderMode env o := by
  intro a b
  refine ⟨strcmp (displayName a) (displayName b) * o.OPT_REVERSE, ?_, Iff.rfl, Iff.rfl⟩
  simp [cmpByName, strippedName, hascii, hnat, hcase, hpre]

theorem DirsFirstRevLe.trans {a b c : sDirEntryList} (h1 : DirsFirstRevLe a b)
    (h2 : DirsFirstRevLe b c) : DirsFirstRevLe a c := by
  rcases h1 with h1 | ⟨e1, k1⟩
  · rcases h2 with h2 | ⟨e2, _⟩
    · exact Or.inl (by omega)
    · exact Or.inl (by omega)
  · rcases h2 with h2 | ⟨e2, k2⟩
    · exact Or.inl (by omega)
    · refine Or.inr ⟨by omega, ?_⟩
      intro h3
      rcases k1 h3 with ⟨d1, d2⟩ | ⟨d1, s1⟩
      · rcases k2 (by omega) with ⟨d3, d4⟩ | ⟨d3, _⟩
        · rw [d2] at d3
          simp at d3
        · exact Or.inl ⟨d1, by rw [← d3]; exact d2⟩
      · rcases k2 (by omega) with ⟨d3, d4⟩ | ⟨d3, s2⟩
        · exact Or.inl ⟨by rw [d1]; exact d3, d4⟩
        · exact Or.inr ⟨d1.trans d3, strcmp_trans_nonneg _ _ _ s1 s2⟩

theorem cmpOrdinary_dirsFirst (env : Env) (o : Options) (a b : sDirEntryList)
    (hlist : o.OPT_LIST = false) (hrand : o.OPT_RANDOM = false)
    (hmod : o.OPT_MODIFICATION = false) (horder : o.OPT_ORDER = 0) :
    cmpOrdinary env o a b =
      if isDirectory a = true ∧ isDirectory b = false then some (-1)
      else if isDirectory a = false ∧ isDirectory b = true then some 1
      else cmpByName env o a b := by
  unfold cmpOrdinary
  cases isDirectory a <;> cases isDirectory b <;> simp [hlist, hrand, hmod, horder]

theorem cmpEntries_pass_dirsFirst (env : Env) (o : Options)
    (hlist : o.OPT_LIST = false) (hrand : o.OPT_RANDOM = false)
    (hmod : o.OPT_MODIFICATION = false) (horder : o.OPT_ORDER = 0)
    (hrev : o.OPT_REVERSE = -1) (hbyte : ByteOrderMode env o)
    (a b : sDirEntryList) (c : Int) (h : cmpEntries env o a b = some c) (hc : c ≥ 0) :
    DirsFirstRevLe b a := by
  have hr := cmpEntries_pass_rank env o a b c h hc
  by_cases hlt : rank b < rank a
  · exact Or.inl hlt
  · have heq : rank b = rank a := by omega
    refine Or.inr ⟨heq, ?_⟩
    intro h3
    rw [cmpEntries_eq] at h
    have g1 : ¬ (rank a < 3 ∧ rank a ≤ rank b) := by omega
    have g2 : ¬ rank b < 3 := by omega
    have g3 : ¬ rank a = 4 := by omega
    have g4 : ¬ rank b = 4 := by omega
    rw [if_neg g1, if_neg g2, if_neg g3, if_neg g4,
      cmpOrdinary_dirsFirst env o a b hlist hrand hmod horder] at h
    obtain ⟨c', hc', hneg, hpos⟩ := hbyte a b
    have hanti := strcmp_antisymm (displayName a) (displayName b)
    rw [hrev] at hneg hpos
    cases hda : isDirectory a <;> cases hdb : isDirectory b <;>
      simp only [hda, hdb, and_self, and_true, and_false, true_and, false_and,
        Bool.false_eq_true, Bool.true_eq_false, if_true, if_false, Option.some.injEq] at h
    · rw [hc'] at h
      simp only [Option.some.injEq] at h
      subst h
      right
      refine ⟨rfl, ?_⟩
      have : ¬ c' < 0 := by omega
      rw [hneg] at this
      omega
    · left
      exact ⟨rfl, rfl⟩
    · omega
    · rw [hc'] at h
      simp only [Option.some.injEq] at h
      subst h
      right
      refine ⟨rfl, ?_⟩
      have : ¬ c' < 0 := by omega
      rw [hneg] at this
      omega

theorem cmpEntries_stop_dirsFirst (env : Env) (o : Options)
    (hlist : o.OPT_LIST = false) (hrand : o.OPT_RANDOM = false)
    (hmod : o.OPT_MODIFICATION = false) (horder : o.OPT_ORDER = 0)
    (hrev : o.OPT_REVERSE = -1) (hbyte : ByteOrderMode env o)
    (a b : sDirEntryList) (c : Int) (h : cmpEntries env o a b = some c) (hc : c < 0) :
    DirsFirstRevLe a b := by
  have hr := cmpEntries_stop_rank env o a b c h hc
  by_cases hlt : rank a < rank b
  · exact Or.inl hlt
  · have heq : rank a = rank b := by omega
    refine Or.inr ⟨heq, ?_⟩
    intro h3
    rw [cmpEntries_eq] at h
    have g1 : ¬ (rank a < 3 ∧ rank a ≤ rank b) := by omega
    have g2 : ¬ rank b < 3 := by omega
    have g3 : ¬ rank a = 4 := by omega
    have g4 : ¬ rank b = 4 := by omega
    rw [if_neg g1, if_neg g2, if_neg g3, if_neg g4,
      cmpOrdinary_dirsFirst env o a b hlist hrand hmod horder] at h
    obtain ⟨c', hc', hneg, hpos⟩ := hbyte a b
    rw [hrev] at hneg hpos
    cases hda : isDirectory a <;> cases hdb : isDirectory b <;>
      simp only [hda, hdb, and_self, and_true, and_false, true_and, false_and,
        Bool.false_eq_true, Bool.true_eq_false, if_true, if_false, Option.some.injEq] at h
    · rw [hc'] at h
      simp only [Option.some.injEq] at h
      subst h
      right
      refine ⟨rfl, ?_⟩
      have := hneg.mp hc
      omega
    · omega
    · left
      exact ⟨rfl, rfl⟩
    · rw [hc'] at h
      simp only [Option.some.injEq] at h
      subst h
      right
      refine ⟨rfl, ?_⟩
      have := hneg.mp hc
      omega

theorem dirsFirstDescending_of_pairwise (l : List sDirEntryList)
    (h : l.Pairwise DirsFirstRevLe) : DirsFirstDescending l := by
  refine List.Pairwise.imp ?_ h
  intro a b hab la lb
  have ra := (isLive_iff a).mp la
  have rb := (isLive_iff b).mp lb
  rcases hab with hlt | ⟨_, k⟩
  · omega
  · rcases k ra with ⟨d1, d2⟩ | ⟨d1, s1⟩
    · refine ⟨fun hb => ?_, fun he => ?_⟩
      · exact d1
      · rw [d1, d2] at he
        simp at he
    · exact ⟨fun hb => by rw [d1]; exact hb, fun _ => s1⟩

theorem cmpOrdinary_reverse_irrelevant (env : Env) (o : Options) (r : Int)
    (a b : sDirEntryList) (horder : o.OPT_ORDER = 0 ∨ o.OPT_ORDER = 1)
    (hkind : isDirectory a ≠ isDirectory b) :
    cmpOrdinary env { o with OPT_REVERSE := r } a b = cmpOrdinary env o a b := by
  unfold cmpOrdinary
  by_cases hl : o.OPT_LIST = true ∨ o.OPT_RANDOM = true
  · simp only [hl, if_true]
  · simp only [hl, if_false]
    rcases horder with h0 | h1
    · have h1 : ¬ o.OPT_ORDER = 1 := by omega
      cases hda : isDirectory a <;> cases hdb : isDirectory b <;>
        first
        | (rw [hda, hdb] at hkind; exact absurd rfl hkind)
        | simp [h0]
    · have h0 : ¬ o.OPT_ORDER = 0 := by omega
      cases hda : isDirectory a <;> cases hdb : isDirectory b <;>
        first
        | (rw [hda, hdb] at hkind; exact absurd rfl hkind)
        | simp [h1]

theorem cmpEntries_reverse_irrelevant (env : Env) (o : Options) (r : Int)
    (a b : sDirEntryList) (horder : o.OPT_ORDER = 0 ∨ o.OPT_ORDER = 1)
    (hkind : isDirectory a ≠ isDirectory b) :
    cmpEntries env { o with OPT_REVERSE := r } a b = cmpEntries env o a b := by
  unfold cmpEntries
  rw [cmpOrdinary_reverse_irrelevant env o r a b horder hkind]

/-! ## The checks of `check_bootsector` and `openFileSystem` -/

theorem ite_neg_one_values (c : Prop) [Decidable c] (x : Int) (h : x = 0 ∨ x = -1) :
    (if c then (-1 : Int) else x) = 0 ∨ (if c then (-1 : Int) else x) = -1 := by
  by_cases hc : c
  · rw [if_pos hc]
    exact Or.inr rfl
  · rw [if_neg hc]
    exact h

/-- The return value of `check_bootsector` is 0 or -1. -/
theorem check_bootsector_values (bs : sBootSector) :
    check_bootsector bs = 0 ∨ check_bootsector bs = -1 := by
  unfold check_bootsector
  iterate 9 apply ite_neg_one_values
  exact Or.inl rfl

/-- The value of `getCountOfClusters` is -1 or positive. -/
theorem getCountOfClusters_values (bs : sBootSector) :
    getCountOfClusters bs = -1 ∨ 0 < getCountOfClusters bs := by
  unfold getCountOfClusters
  dsimp only
  generalize toInt32 _ = r
  by_cases h : r ≤ 0
  · rw [if_pos h]
    exact Or.inl rfl
  · rw [if_neg h]
    exact Or.inr (not_le.mp h)

/-- The value of `getFATType` is -1 (exactly when `getCountOfClusters` fails) or one of the
three FAT types. -/
theorem getFATType_values (bs : sBootSector) :
    (getFATType bs = -1 ∧ getCountOfClusters bs = -1) ∨
    (getCountOfClusters bs ≠ -1 ∧
      (getFATType bs = FATTYPE_FAT12 ∨ getFATType bs = FATTYPE_FAT16 ∨
        getFATType bs = FATTYPE_FAT32)) := by
  simp only [getFATType]
  split_ifs with h1 h2 h3
  · exact Or.inl ⟨rfl, h1⟩
  · exact Or.inr ⟨h1, Or.inl rfl⟩
  · exact Or.inr ⟨h1, Or.inr (Or.inl rfl)⟩
  · exact Or.inr ⟨h1, Or.inr (Or.inr rfl)⟩

/-- The checks that a boot sector has passed when `openFileSystem` succeeds. -/
theorem openFileSystem_checks (bs : sBootSector) (fs : sFileSystem)
    (hopen : openFileSystem bs = some fs) :
    fs.totalSectors = (if bs.BS_TotSec16 ≠ 0 then bs.BS_TotSec16 else bs.BS_TotSec32) ∧
    fs.totalSectors ≠ 0 ∧
    getFATType bs ≠ -1 ∧
    ¬ (getFATType bs = FATTYPE_FAT32 ∧ bs.BS_FATSz32 = 0) ∧
    ¬ ((getFATType bs = FATTYPE_FAT12 ∨ getFATType bs = FATTYPE_FAT16) ∧ bs.BS_FATSz16 = 0) ∧
    ¬ ((getFATType bs = FATTYPE_FAT16 ∨ getFATType bs = FATTYPE_FAT12) ∧ bs.BS_RootEntCnt = 0) ∧
    ¬ (getFATType bs = FATTYPE_FAT32 ∧ bs.BS_RootEntCnt ≠ 0) ∧
    getCountOfClusters bs ≠ -1 ∧
    ¬ getCountOfClusters bs > 268435445 := by
  dsimp only [openFileSystem] at hopen
  by_cases h1 : check_bootsector bs ≠ 0
  · rw [if_pos h1] at hopen
    cases hopen
  rw [if_neg h1] at hopen
  by_cases h2 : (if bs.BS_TotSec16 ≠ 0 then bs.BS_TotSec16 else bs.BS_TotSec32) = 0
  · rw [if_pos h2] at hopen
    cases hopen
  rw [if_neg h2] at hopen
  by_cases h3 : getFATType bs = -1
  · rw [if_pos h3] at hopen
    cases hopen
  rw [if_neg h3] at hopen
  by_cases h4 : getFATType bs = FATTYPE_FAT32 ∧ bs.BS_FATSz32 = 0
  · rw [if_pos h4] at hopen
    cases hopen
  rw [if_neg h4] at hopen
  by_cases h5 : (getFATType bs = FATTYPE_FAT12 ∨ getFATType bs = FATTYPE_FAT16) ∧ bs.BS_FATSz16 = 0
  · rw [if_pos h5] at hopen
    cases hopen
  rw [if_neg h5] at hopen
  by_cases h6 : (getFATType bs = FATTYPE_FAT16 ∨ getFATType bs = FATTYPE_FAT12) ∧ bs.BS_RootEntCnt = 0
  · rw [if_pos h6] at hopen
    cases hopen
  rw [if_neg h6] at hopen
  by_cases h7 : getFATType bs = FATTYPE_FAT32 ∧ bs.BS_RootEntCnt ≠ 0
  · rw [if_pos h7] at hopen
    cases hopen
  rw [if_neg h7] at hopen
  by_cases h8 : getCountOfClusters bs = -1
  · rw [if_pos h8] at hopen
    cases hopen
  rw [if_neg h8] at hopen
  by_cases h9 : getCountOfClusters bs > 268435445
  · rw [if_pos h9] at hopen
    cases hopen
  rw [if_neg h9] at hopen
  have hfs := Option.some.inj hopen
  subst hfs
  exact ⟨rfl, h2, h3, h4, h5, h6, h7, h8, h9⟩

/-- What `check_bootsector` has tested when it returns 0. -/
theorem check_bootsector_eq_zero_iff (bs : sBootSector) :
    check_bootsector bs = 0 ↔
      ((bs.BS_JmpBoot0 = 0xeb ∧ bs.BS_JmpBoot2 = 0x90) ∨ bs.BS_JmpBoot0 = 0xe9) ∧
      bs.BS_EndOfBS = 0xaa55 ∧
      bs.BS_BytesPerSec ≠ 0 ∧ bs.BS_BytesPerSec % 512 = 0 ∧
      bs.BS_SecPerClus ≠ 0 ∧
      bs.BS_SecPerClus * bs.BS_BytesPerSec ≤ 65536 ∧
      bs.BS_RsvdSecCnt ≠ 0 ∧
      bs.BS_NumFATs ≠ 0 ∧
      bs.BS_RootEntCnt % 32 = 0 := by
  unfold check_bootsector MAX_CLUSTER_SIZE DIR_ENTRY_SIZE
  by_cases h1 : ¬ (bs.BS_JmpBoot0 = 0xeb ∧ bs.BS_JmpBoot2 = 0x90) ∧ ¬ (bs.BS_JmpBoot0 = 0xe9)
  · rw [if_pos h1]
    refine ⟨fun h => absurd h (by decide), fun h => ?_⟩
    rcases h.1 with h0 | h0
    · exact absurd h0 h1.1
    · exact absurd h0 h1.2
  rw [if_neg h1]
  have g1 : (bs.BS_JmpBoot0 = 0xeb ∧ bs.BS_JmpBoot2 = 0x90) ∨ bs.BS_JmpBoot0 = 0xe9 := by
    by_contra hc
    exact h1 ⟨fun h => hc (Or.inl h), fun h => hc (Or.inr h)⟩
  by_cases h2 : bs.BS_EndOfBS ≠ 0xaa55
  · rw [if_pos h2]
    exact ⟨fun h => absurd h (by decide), fun h => absurd h.2.1 h2⟩
  rw [if_neg h2]
  by_cases h3 : bs.BS_BytesPerSec = 0
  · rw [if_pos h3]
    exact ⟨fun h => absurd h (by decide), fun h => absurd h3 h.2.2.1⟩
  rw [if_neg h3]
  by_cases h4 : bs.BS_BytesPerSec % 512 ≠ 0
  · rw [if_pos h4]
    exact ⟨fun h => absurd h (by decide), fun h => absurd h.2.2.2.1 h4⟩
  rw [if_neg h4]
  by_cases h5 : bs.BS_SecPerClus = 0
  · rw [if_pos h5]
    exact ⟨fun h => absurd h (by decide), fun h => absurd h5 h.2.2.2.2.1⟩
  rw [if_neg h5]
  by_cases h6 : bs.BS_SecPerClus * bs.BS_BytesPerSec > 65536
  · rw [if_pos h6]
    exact ⟨fun h => absurd h (by decide), fun h => absurd h.2.2.2.2.2.1 (not_le.mpr h6)⟩
  rw [if_neg h6]
  by_cases h7 : bs.BS_RsvdSecCnt = 0
  · rw [if_pos h7]
    exact ⟨fun h => absurd h (by decide), fun h => absurd h7 h.2.2.2.2.2.2.1⟩
  rw [if_neg h7]
  by_cases h8 : bs.BS_NumFATs = 0
  · rw [if_pos h8]
    exact ⟨fun h => absurd h (by decide), fun h => absurd h8 h.2.2.2.2.2.2.2.1⟩
  rw [if_neg h8]
  by_cases h9 : bs.BS_RootEntCnt % 32 ≠ 0
  · rw [if_pos h9]
    exact ⟨fun h => absurd h (by decide), fun h => absurd h.2.2.2.2.2.2.2.2 h9⟩
  rw [if_neg h9]
  exact ⟨fun _ => ⟨g1, not_not.mp h2, h3, not_not.mp h4, h5, not_lt.mp h6, h7, h8,
    not_not.mp h9⟩, fun _ => rfl⟩

/-! ## Modification time -/

theorem byteAt_lt (e : List Nat) (h : IsBytes e) (i : Nat) : byteAt e i < 256 := by
  unfold byteAt
  rw [List.getD_eq_getElem?_getD]
  cases hi : e[i]? with
  | none => simp
  | some x =>
    simp only [Option.getD_some]
    exact h x (List.getElem?_mem hi)

theorem le16_lt (e : List Nat) (h : IsBytes e) (i : Nat) : le16 e i < 65536 := by
  unfold le16
  have h1 := byteAt_lt e h i
  have h2 := byteAt_lt e h (i + 1)
  omega

/-- The key of modification-time mode is `date * 65536 + time`. -/
theorem modKey_eq (de : sDirEntryList) (h : IsBytes de.sde) :
    modKey de = DIR_WrtDate de.sde * 65536 + DIR_WrtTime de.sde := by
  have hd : DIR_WrtDate de.sde < 65536 := le16_lt _ h 24
  have ht : DIR_WrtTime de.sde < 65536 := le16_lt _ h 22
  unfold modKey u32
  rw [Nat.shiftLeft_eq, Nat.mul_comm,
    ← Nat.mul_add_lt_is_or (show DIR_WrtTime de.sde < 2 ^ 16 from ht)]
  omega

theorem lexCompare_cons (a b : Nat) (as bs : List Nat) :
    lexCompare (a :: as) (b :: bs)
      = if a < b then .lt else if b < a then .gt else lexCompare as bs := rfl

/-- One more leading digit: when the tails compare as the numbers `A` and `B` below `M`, the
lists compare as `a * M + A` and `b * M + B`. -/
theorem lexCompare_digit (M a b A B : Nat) (as bs : List Nat) (hA : A < M) (hB : B < M)
    (h : lexCompare as bs = compare A B) :
    lexCompare (a :: as) (b :: bs) = compare (a * M + A) (b * M + B) := by
  rw [lexCompare_cons]
  rcases Nat.lt_trichotomy a b with hab | hab | hab
  · rw [if_pos hab]
    have h1 : (a + 1) * M ≤ b * M := Nat.mul_le_mul_right M hab
    have h2 : a * M + A < b * M + B := by
      rw [Nat.add_mul, Nat.one_mul] at h1
      omega
    exact (Nat.compare_eq_lt.mpr h2).symm
  · subst hab
    rw [if_neg (Nat.lt_irrefl a), if_neg (Nat.lt_irrefl a), h, Nat.compare_def_lt,
      Nat.compare_def_lt]
    simp only [Nat.add_lt_add_iff_left]
  · rw [if_neg (Nat.lt_asymm hab), if_pos hab]
    have h1 : (b + 1) * M ≤ a * M := Nat.mul_le_mul_right M hab
    have h2 : b * M + B < a * M + A := by
      rw [Nat.add_mul, Nat.one_mul] at h1
      omega
    exact (Nat.compare_eq_gt.mpr h2).symm

/-- The numeric order of `date * 65536 + time` is the lexicographic order of the decoded
timestamps. -/
theorem lexCompare_specTimestamp (d t d1 t1 : Nat)
    (hd : d < 65536) (ht : t < 65536) (hd1 : d1 < 65536) (ht1 : t1 < 65536) :
    lexCompare (specTimestamp d t) (specTimestamp d1 t1)
      = compare (d * 65536 + t) (d1 * 65536 + t1) := by
  unfold specTimestamp
  have e0 : lexCompare [] [] = compare 0 0 := rfl
  have e1 := lexCompare_digit 1 (t % 32) (t1 % 32) 0 0 [] [] (by omega) (by omega) e0
  have e2 := lexCompare_digit 32 (t / 32 % 64) (t1 / 32 % 64) _ _ _ _
    (by omega) (by omega) e1
  have e3 := lexCompare_digit 2048 (t / 2048 % 32) (t1 / 2048 % 32) _ _ _ _
    (by omega) (by omega) e2
  have e4 := lexCompare_digit 65536 (d % 32) (d1 % 32) _ _ _ _ (by omega) (by omega) e3
  have e5 := lexCompare_digit 2097152 (d / 32 % 16) (d1 / 32 % 16) _ _ _ _
    (by omega) (by omega) e4
  have e6 := lexCompare_digit 33554432 (1980 + d / 512 % 128) (1980 + d1 / 512 % 128) _ _ _ _
    (by omega) (by omega) e5
  rw [e6, Nat.compare_def_lt, Nat.compare_def_lt]
  have k : ∀ x u : Nat, x < 65536 → u < 65536 →
      (1980 + x / 512 % 128) * 33554432 + (x / 32 % 16 * 2097152 + (x % 32 * 65536
        + (u / 2048 % 32 * 2048 + (u / 32 % 64 * 32 + (u % 32 * 1 + 0)))))
      = 1980 * 33554432 + (x * 65536 + u) := by
    intro x u hx hu
    omega
  rw [k d t hd ht, k d1 t1 hd1 ht1]
  generalize 1980 * 33554432 = c
  generalize d * 65536 + t = x
  generalize d1 * 65536 + t1 = y
  simp only [Nat.add_lt_add_iff_left]

/-- Behind the special entries and outside list and random mode, two live records that the
directory-versus-file rule does not separate are compared by their keys in modification-time
mode. -/
theorem cmpEntries_by_time (env : Env) (o : Options) (a b : sDirEntryList)
    (hlist : o.OPT_LIST = false) (hrand : o.OPT_RANDOM = false)
    (hmod : o.OPT_MODIFICATION = true)
    (ha : isLive a = true) (hb : isLive b = true)
    (hsep : o.OPT_ORDER = 0 ∨ o.OPT_ORDER = 1 → isDirectory a = isDirectory b) :
    cmpEntries env o a b =
      if modKey a < modKey b then some (- o.OPT_REVERSE)
      else if modKey a > modKey b then some o.OPT_REVERSE
      else some 0 := by
  have ra := (isLive_iff a).mp ha
  have rb := (isLive_iff b).mp hb
  rw [cmpEntries_eq, if_neg (by omega), if_neg (by omega), if_neg (by omega),
    if_neg (by omega)]
  unfold cmpOrdinary
  rw [if_neg (by rw [hlist, hrand]; decide),
    if_neg (fun h => h.2.2 (hsep (Or.inl h.1) ▸ h.2.1)),
    if_neg (fun h => h.2.1 ((hsep (Or.inl h.1)).symm ▸ h.2.2)),
    if_neg (fun h => h.2.2 (hsep (Or.inr h.1) ▸ h.2.1)),
    if_neg (fun h => h.2.1 ((hsep (Or.inr h.1)).symm ▸ h.2.2)),
    if_pos hmod]

/-! ## The FAT type without wrap-around -/

/-- For natural numbers the ceiling of `a / b` is `(a + (b - 1)) / b`. -/
theorem ceilDiv_natCast (a b : Nat) (hb : 0 < b) :
    ceilDiv (a : Int) (b : Int) = (((a + (b - 1)) / b : Nat) : Int) := by
  unfold ceilDiv
  have hbz : (0 : Int) < (b : Int) := by exact_mod_cast hb
  have h1 : (-(a : Int)) / b * b ≤ -(a : Int) := Int.ediv_mul_le _ (ne_of_gt hbz)
  have h2 : -(a : Int) < ((-(a : Int)) / b + 1) * b := Int.lt_ediv_add_one_mul_self _ hbz
  have h3 := Nat.div_add_mod (a + (b - 1)) b
  have h4 := Nat.mod_lt (a + (b - 1)) hb
  generalize (-(a : Int)) / b = z at h1 h2 ⊢
  generalize (a + (b - 1)) / b = q at h3 ⊢
  generalize (a + (b - 1)) % b = r at h3 h4
  have h5 : (b : Int) * q + r = a + (b - 1) := by
    have : ((b * q + r : Nat) : Int) = ((a + (b - 1) : Nat) : Int) := by rw [h3]
    push_cast [Nat.cast_sub (Nat.succ_le_of_lt hb)] at this
    exact this
  have h6 : (r : Int) < b := by exact_mod_cast h4
  have h7 : (0 : Int) ≤ r := Int.ofNat_nonneg r
  have u1 : (z + q) * b < 1 * b := by nlinarith
  have u2 : (-1) * (b : Int) < (z + q) * b := by nlinarith
  have v1 : z + q < 1 := lt_of_mul_lt_mul_right u1 (le_of_lt hbz)
  have v2 : -1 < z + q := lt_of_mul_lt_mul_right u2 (le_of_lt hbz)
  omega

theorem toInt32_of_lt (n : Nat) (h : n < 2 ^ 31) : toInt32 n = (n : Int) := by
  unfold toInt32
  rw [Nat.mod_eq_of_lt (by omega), if_pos h]

/-- When the metadata regions fit into the volume and the cluster count is below 2^31, no
32-bit operation of `getCountOfClusters` wraps around, and it returns the cluster count of the
specification, or -1 when that count is zero. -/
theorem getCountOfClusters_eq_spec (bs : sBootSector) (hchk : check_bootsector bs = 0)
    (hroot : bs.BS_RootEntCnt < 65536) (htot : specTotalSectors bs < 2 ^ 32)
    (hfit : 0 ≤ specDataSectors bs) (hcount : specClusterCount bs < 2 ^ 31) :
    getCountOfClusters bs = if specClusterCount bs ≤ 0 then -1 else specClusterCount bs := by
  obtain ⟨_, _, hb0, _, hs0, hle, _, _, _⟩ := (check_bootsector_eq_zero_iff bs).mp hchk
  have hbpos : 0 < bs.BS_BytesPerSec := Nat.pos_of_ne_zero hb0
  have hspos : 0 < bs.BS_SecPerClus := Nat.pos_of_ne_zero hs0
  have hB : bs.BS_BytesPerSec ≤ 65536 :=
    Nat.le_trans (Nat.le_mul_of_pos_left _ hspos) hle
  -- the selected fields
  have hT : specTotalSectors bs
      = ((if bs.BS_TotSec16 ≠ 0 then bs.BS_TotSec16 else bs.BS_TotSec32 : Nat) : Int) := by
    unfold specTotalSectors
    split_ifs <;> rfl
  have hF : specFATSize bs
      = ((if bs.BS_FATSz16 ≠ 0 then bs.BS_FATSz16 else bs.BS_FATSz32 : Nat) : Int) := by
    unfold specFATSize
    split_ifs <;> rfl
  have hR : specRootDirSectors bs
      = (((bs.BS_RootEntCnt * 32 + (bs.BS_BytesPerSec - 1)) / bs.BS_BytesPerSec : Nat) : Int) := by
    unfold specRootDirSectors
    rw [← ceilDiv_natCast _ _ hbpos]
    push_cast
    rfl
  unfold specClusterCount at hcount ⊢
  unfold specDataSectors at hfit hcount ⊢
  rw [hT] at htot
  rw [hT, hF, hR] at hfit hcount ⊢
  unfold getCountOfClusters DIR_ENTRY_SIZE
  dsimp only
  generalize (if bs.BS_TotSec16 ≠ 0 then bs.BS_TotSec16 else bs.BS_TotSec32) = T
    at htot hfit hcount ⊢
  generalize (if bs.BS_FATSz16 ≠ 0 then bs.BS_FATSz16 else bs.BS_FATSz32) = F
    at hfit hcount ⊢
  have e3 : ∀ n, n < 2 ^ 32 → u32 n = n := fun n hn => Nat.mod_eq_of_lt hn
  rw [e3 (bs.BS_RootEntCnt * 32 + (bs.BS_BytesPerSec - 1)) (by omega)]
  generalize (bs.BS_RootEntCnt * 32 + (bs.BS_BytesPerSec - 1)) / bs.BS_BytesPerSec = rds
    at hfit hcount ⊢
  have hTn : T < 2 ^ 32 := by exact_mod_cast htot
  have hov : bs.BS_RsvdSecCnt + bs.BS_NumFATs * F + rds ≤ T := by
    have : ((bs.BS_RsvdSecCnt + bs.BS_NumFATs * F + rds : Nat) : Int) ≤ (T : Int) := by
      push_cast
      omega
    exact_mod_cast this
  generalize hm : bs.BS_NumFATs * F = m at hov
  have hmz : (bs.BS_NumFATs : Int) * (F : Int) = (m : Int) := by
    rw [← hm]
    push_cast
    rfl
  rw [hmz] at hfit hcount ⊢
  rw [e3 m (by omega), e3 (bs.BS_RsvdSecCnt + m) (by omega),
    e3 (bs.BS_RsvdSecCnt + m + rds) (by omega)]
  have hsub : sub32 T (bs.BS_RsvdSecCnt + m + rds) = T - (bs.BS_RsvdSecCnt + m + rds) := by
    unfold sub32
    omega
  rw [hsub]
  have hq : ((T : Int) - ((bs.BS_RsvdSecCnt : Int) + (m : Int) + (rds : Int)))
      / (bs.BS_SecPerClus : Int)
      = (((T - (bs.BS_RsvdSecCnt + m + rds)) / bs.BS_SecPerClus : Nat) : Int) := by
    rw [Int.natCast_div, Nat.cast_sub hov]
    push_cast
    rfl
  rw [hq] at hcount ⊢
  generalize (T - (bs.BS_RsvdSecCnt + m + rds)) / bs.BS_SecPerClus = q at hcount ⊢
  rw [toInt32_of_lt q (by exact_mod_cast hcount)]

/-- Without wrap-around `getFATType` classifies the volume as the specification states. -/
theorem getFATType_eq_spec (bs : sBootSector) (hchk : check_bootsector bs = 0)
    (hroot : bs.BS_RootEntCnt < 65536) (htot : specTotalSectors bs < 2 ^ 32)
    (hfit : 0 ≤ specDataSectors bs) (hcount : specClusterCount bs < 2 ^ 31) :
    getFATType bs = specFATType bs := by
  unfold getFATType specFATType
  dsimp only
  rw [getCountOfClusters_eq_spec bs hchk hroot htot hfit hcount]
  by_cases h : specClusterCount bs ≤ 0
  · rw [if_pos h, if_pos h, if_pos rfl]
  · rw [if_neg h, if_neg h, if_neg (by omega)]

/-- The chain length limit that `openFileSystem` stores is `(2^32 - 1) / clusterSize`: one
less than `2^32 / clusterSize` when the cluster size divides 2^32, and equal to it otherwise. -/
theorem maxClusterChainLength_eq (bs : sBootSector) (fs : sFileSystem)
    (hopen : openFileSystem bs = some fs) :
    fs.maxClusterChainLength = (2 ^ 32 - 1) / fs.clusterSize ∧
    (fs.clusterSize ∣ 2 ^ 32 → fs.maxClusterChainLength + 1 = 2 ^ 32 / fs.clusterSize) ∧
    (¬ fs.clusterSize ∣ 2 ^ 32 → fs.maxClusterChainLength = 2 ^ 32 / fs.clusterSize) := by
  obtain ⟨_, _, _, hcs, _, hmc, _⟩ := openFileSystem_geometry bs fs hopen
  rw [← hcs] at hmc
  have hs : (2 ^ 32 : Nat) / fs.clusterSize
      = (2 ^ 32 - 1) / fs.clusterSize + if fs.clusterSize ∣ 2 ^ 32 then 1 else 0 :=
    Nat.succ_div (2 ^ 32 - 1) fs.clusterSize
  have hm : fs.maxClusterChainLength = (2 ^ 32 - 1) / fs.clusterSize := by
    rw [hmc]
    rfl
  refine ⟨hm, fun hd => ?_, fun hd => ?_⟩
  · rw [hs, if_pos hd, hm]
  · rw [hs, if_neg hd, hm]
    rfl

/-! ## FAT entries -/

theorem fs_read_seek_eq (f : File) (off n : Nat) (hn : n ≠ 0) (h : off + n ≤ f.size) :
    ∃ f1, fs_read (fs_seek f off) n = some (bytesAt f off n, f1) := by
  unfold fs_read fs_seek
  simp only []
  rw [if_neg hn, if_pos h]
  exact ⟨_, rfl⟩

theorem fs_read_seek_none (f : File) (off n : Nat) (h : ¬ off + n ≤ f.size) :
    fs_read (fs_seek f off) n = none := by
  unfold fs_read fs_seek
  simp only []
  split_ifs
  · rfl
  · rfl

theorem leValue_bytesAt_two (f : File) (off : Nat) :
    leValue (bytesAt f off 2) = f.data off + 256 * f.data (off + 1) := by
  simp [bytesAt, leValue, List.range_succ]

theorem leValue_bytesAt_four (f : File) (off : Nat) :
    leValue (bytesAt f off 4)
      = f.data off + 256 * (f.data (off + 1) + 256 * (f.data (off + 2)
          + 256 * f.data (off + 3))) := by
  simp [bytesAt, leValue, List.range_succ]

theorem specBit_eq (f : File) (base i b k : Nat) (hb : i / 8 = b) (hk : i % 8 = k) :
    specBit f base i = f.data (base + b) / 2 ^ k % 2 := by
  unfold specBit
  rw [hb, hk]

/-- The twelve bits at bit offset `12 * c`, for even `c`: the low twelve bits of the two bytes
at `c + c / 2`. -/
theorem specBits_even (f : File) (hf : f.IsBytes) (base c : Nat) (hc : c % 2 = 0) :
    specBits f base (12 * c) 12
      = (f.data (base + (c + c / 2)) + 256 * f.data (base + (c + c / 2) + 1)) % 4096 := by
  have hr : List.range 12 = [0, 1, 2, 3, 4, 5, 6, 7, 8, 9, 10, 11] := by decide
  unfold specBits
  rw [hr]
  simp only [List.map, List.sum_cons, List.sum_nil]
  rw [specBit_eq f base (12 * c + 0) (c + c / 2) 0 (by omega) (by omega),
    specBit_eq f base (12 * c + 1) (c + c / 2) 1 (by omega) (by omega),
    specBit_eq f base (12 * c + 2) (c + c / 2) 2 (by omega) (by omega),
    specBit_eq f base (12 * c + 3) (c + c / 2) 3 (by omega) (by omega),
    specBit_eq f base (12 * c + 4) (c + c / 2) 4 (by omega) (by omega),
    specBit_eq f base (12 * c + 5) (c + c / 2) 5 (by omega) (by omega),
    specBit_eq f base (12 * c + 6) (c + c / 2) 6 (by omega) (by omega),
    specBit_eq f base (12 * c + 7) (c + c / 2) 7 (by omega) (by omega),
    specBit_eq f base (12 * c + 8) (c + c / 2 + 1) 0 (by omega) (by omega),
    specBit_eq f base (12 * c + 9) (c + c / 2 + 1) 1 (by omega) (by omega),
    specBit_eq f base (12 * c + 10) (c + c / 2 + 1) 2 (by omega) (by omega),
    specBit_eq f base (12 * c + 11) (c + c / 2 + 1) 3 (by omega) (by omega)]
  have h0 := hf (base + (c + c / 2))
  have h1 := hf (base + (c + c / 2) + 1)
  rw [← Nat.add_assoc base (c + c / 2) 1]
  generalize f.data (base + (c + c / 2)) = b0 at h0 ⊢
  generalize f.data (base + (c + c / 2) + 1) = b1 at h1 ⊢
  norm_num
  omega

/-- The twelve bits at bit offset `12 * c`, for odd `c`: the high twelve bits of the two bytes
at `c + c / 2`. -/
theorem specBits_odd (f : File) (hf : f.IsBytes) (base c : Nat) (hc : c % 2 = 1) :
    specBits f base (12 * c) 12
      = (f.data (base + (c + c / 2)) + 256 * f.data (base + (c + c / 2) + 1)) / 16 := by
  have hr : List.range 12 = [0, 1, 2, 3, 4, 5, 6, 7, 8, 9, 10, 11] := by decide
  unfold specBits
  rw [hr]
  simp only [List.map, List.sum_cons, List.sum_nil]
  rw [specBit_eq f base (12 * c + 0) (c + c / 2) 4 (by omega) (by omega),
    specBit_eq f base (12 * c + 1) (c + c / 2) 5 (by omega) (by omega),
    specBit_eq f base (12 * c + 2) (c + c / 2) 6 (by omega) (by omega),
    specBit_eq f base (12 * c + 3) (c + c / 2) 7 (by omega) (by omega),
    specBit_eq f base (12 * c + 4) (c + c / 2 + 1) 0 (by omega) (by omega),
    specBit_eq f base (12 * c + 5) (c + c / 2 + 1) 1 (by omega) (by omega),
    specBit_eq f base (12 * c + 6) (c + c / 2 + 1) 2 (by omega) (by omega),
    specBit_eq f base (12 * c + 7) (c + c / 2 + 1) 3 (by omega) (by omega),
    specBit_eq f base (12 * c + 8) (c + c / 2 + 1) 4 (by omega) (by omega),
    specBit_eq f base (12 * c + 9) (c + c / 2 + 1) 5 (by omega) (by omega),
    specBit_eq f base (12 * c + 10) (c + c / 2 + 1) 6 (by omega) (by omega),
    specBit_eq f base (12 * c + 11) (c + c / 2 + 1) 7 (by omega) (by omega)]
  have h0 := hf (base + (c + c / 2))
  have h1 := hf (base + (c + c / 2) + 1)
  rw [← Nat.add_assoc base (c + c / 2) 1]
  generalize f.data (base + (c + c / 2)) = b0 at h0 ⊢
  generalize f.data (base + (c + c / 2) + 1) = b1 at h1 ⊢
  norm_num
  omega

/-- What `getFATEntry` returns on FAT12 when the two bytes it reads lie inside the image. -/
theorem getFATEntry_fat12 (fs : sFileSystem) (f : File) (c : Nat)
    (hty : fs.FATType = FATTYPE_FAT12)
    (hin : fs.bs.BS_RsvdSecCnt * fs.bs.BS_BytesPerSec + (c + c / 2) + 2 ≤ f.size) :
    getFATEntry fs f c = some
      (if c % 2 = 1 then
        (f.data (fs.bs.BS_RsvdSecCnt * fs.bs.BS_BytesPerSec + (c + c / 2))
          + 256 * f.data (fs.bs.BS_RsvdSecCnt * fs.bs.BS_BytesPerSec + (c + c / 2) + 1)) / 16
      else
        (f.data (fs.bs.BS_RsvdSecCnt * fs.bs.BS_BytesPerSec + (c + c / 2))
          + 256 * f.data (fs.bs.BS_RsvdSecCnt * fs.bs.BS_BytesPerSec + (c + c / 2) + 1))
          % 4096) := by
  unfold getFATEntry
  simp only []
  rw [if_neg (by rw [hty]; decide), if_neg (by rw [hty]; decide), if_pos hty]
  obtain ⟨f1, h⟩ := fs_read_seek_eq f _ 2 (by decide) hin
  rw [h]
  simp only []
  rw [leValue_bytesAt_two, Nat.and_one_is_mod, Nat.shiftRight_eq_div_pow,
    show (0x0FFF : Nat) = 2 ^ 12 - 1 from rfl, Nat.and_pow_two_sub_one_eq_mod]
  by_cases hc : c % 2 = 1
  · rw [if_pos (by omega), if_pos hc]
  · rw [if_neg (by omega), if_neg hc]

/-- What `getFATEntry` returns on FAT16 when the two bytes it reads lie inside the image. -/
theorem getFATEntry_fat16 (fs : sFileSystem) (f : File) (c : Nat)
    (hty : fs.FATType = FATTYPE_FAT16)
    (hin : fs.bs.BS_RsvdSecCnt * fs.bs.BS_BytesPerSec + c * 2 + 2 ≤ f.size) :
    getFATEntry fs f c = some
      (f.data (fs.bs.BS_RsvdSecCnt * fs.bs.BS_BytesPerSec + c * 2)
        + 256 * f.data (fs.bs.BS_RsvdSecCnt * fs.bs.BS_BytesPerSec + c * 2 + 1)) := by
  unfold getFATEntry
  simp only []
  rw [if_neg (by rw [hty]; decide), if_pos hty]
  obtain ⟨f1, h⟩ := fs_read_seek_eq f _ 2 (by decide) hin
  rw [h]
  simp only []
  rw [leValue_bytesAt_two]

/-- What `getFATEntry` returns on FAT32 when the four bytes it reads lie inside the image. -/
theorem getFATEntry_fat32 (fs : sFileSystem) (f : File) (c : Nat)
    (hty : fs.FATType = FATTYPE_FAT32)
    (hin : fs.bs.BS_RsvdSecCnt * fs.bs.BS_BytesPerSec + c * 4 + 4 ≤ f.size) :
    getFATEntry fs f c = some
      ((f.data (fs.bs.BS_RsvdSecCnt * fs.bs.BS_BytesPerSec + c * 4)
        + 256 * (f.data (fs.bs.BS_RsvdSecCnt * fs.bs.BS_BytesPerSec + c * 4 + 1)
        + 256 * (f.data (fs.bs.BS_RsvdSecCnt * fs.bs.BS_BytesPerSec + c * 4 + 2)
        + 256 * f.data (fs.bs.BS_RsvdSecCnt * fs.bs.BS_BytesPerSec + c * 4 + 3)))) % 2 ^ 28) := by
  unfold getFATEntry
  simp only []
  rw [if_pos hty]
  obtain ⟨f1, h⟩ := fs_read_seek_eq f _ 4 (by decide) hin
  rw [h]
  simp only []
  rw [leValue_bytesAt_four, show (0x0fffffff : Nat) = 2 ^ 28 - 1 from rfl,
    Nat.and_pow_two_sub_one_eq_mod]

theorem specLE_two (f : File) (off : Nat) :
    specLE f off 2 = f.data off + 256 * f.data (off + 1) := by
  simp [specLE]

theorem specLE_four (f : File) (off : Nat) :
    specLE f off 4 = f.data off + 256 * (f.data (off + 1) + 256 * (f.data (off + 2)
      + 256 * f.data (off + 3))) := by
  simp [specLE]

theorem fs_write_isBytes (f : File) (buf : List Nat) (hf : f.IsBytes) (hb : ∀ x ∈ buf, x < 256) :
    (fs_write f buf).IsBytes := by
  intro off
  unfold fs_write
  simp only []
  split_ifs with h
  · rw [List.getD_eq_getElem?_getD]
    cases hi : buf[off - f.pos]? with
    | none => simp
    | some x =>
      simp only [Option.getD_some]
      exact hb x (List.getElem?_mem hi)
  · exact hf off

theorem imgWithFATs_isBytes (fat : List Nat) (hb : ∀ x ∈ fat, x < 256) :
    (imgWithFATs fat).IsBytes := by
  unfold imgWithFATs
  apply fs_write_isBytes _ _ _ hb
  apply fs_write_isBytes _ _ _ hb
  intro off
  show (0 : Nat) < 256
  decide

/-! ## The chain walker -/

/-- One pass of the loop of `getClusterChain`. -/
theorem getClusterChainLoop_succ (fs : sFileSystem) (f : File) (fuel i : Nat) (cluster : Int)
    (chain : List Nat) :
    getClusterChainLoop fs f (fuel + 1) i cluster chain =
      if i = fs.maxClusterChainLength then none
      else if walkInRange fs cluster = false then none
      else
        match getFATEntry fs f (ofInt32 cluster) with
        | none => none
        | some data =>
          if walkFree fs data = true then none
          else if walkContinues fs data = true then
            getClusterChainLoop fs f fuel (i + 1) (toInt32 data)
              (insertCluster chain (ofInt32 cluster))
          else some (i + 1, insertCluster chain (ofInt32 cluster)) := by
  rw [getClusterChainLoop]
  unfold walkInRange walkFree walkContinues
  by_cases h32 : fs.FATType = FATTYPE_FAT32
  · simp only [h32, if_true, ge_iff_le, decide_eq_false_iff_not, not_lt, beq_iff_eq,
      decide_eq_true_eq]
  · simp only [h32, if_false, ge_iff_le, decide_eq_false_iff_not, not_lt, beq_iff_eq,
      decide_eq_true_eq]

/-- More fuel than `maxClusterChainLength + 1 - i` does not change the result of the loop: the
pass with `i == maxClusterChainLength` ends every walk. -/
theorem getClusterChainLoop_fuel (fs : sFileSystem) (f : File) (extra : Nat) :
    ∀ (fuel i : Nat) (cluster : Int) (chain : List Nat),
      i ≤ fs.maxClusterChainLength → fs.maxClusterChainLength + 1 ≤ fuel + i →
      getClusterChainLoop fs f (fuel + extra) i cluster chain
        = getClusterChainLoop fs f fuel i cluster chain := by
  intro fuel
  induction fuel with
  | zero =>
    intro i cluster chain h1 h2
    omega
  | succ fuel ih =>
    intro i cluster chain h1 h2
    rw [show fuel + 1 + extra = (fuel + extra) + 1 by omega, getClusterChainLoop_succ,
      getClusterChainLoop_succ]
    by_cases hi : i = fs.maxClusterChainLength
    · rw [if_pos hi, if_pos hi]
    · rw [if_neg hi, if_neg hi]
      by_cases hr : walkInRange fs cluster = false
      · rw [if_pos hr, if_pos hr]
      · rw [if_neg hr, if_neg hr]
        cases getFATEntry fs f (ofInt32 cluster) with
        | none => rfl
        | some data =>
          simp only []
          rw [ih (i + 1) (toInt32 data) _ (by omega) (by omega)]

/-- A successful walk has added one cluster per pass and has not passed the limit. -/
theorem getClusterChainLoop_length (fs : sFileSystem) (f : File) :
    ∀ (fuel i : Nat) (cluster : Int) (chain : List Nat) (n : Nat) (chain1 : List Nat),
      i ≤ fs.maxClusterChainLength →
      getClusterChainLoop fs f fuel i cluster chain = some (n, chain1) →
      i < n ∧ n ≤ fs.maxClusterChainLength ∧ chain1.length = chain.length + (n - i) := by
  intro fuel
  induction fuel with
  | zero =>
    intro i cluster chain n chain1 _ h
    rw [getClusterChainLoop] at h
    cases h
  | succ fuel ih =>
    intro i cluster chain n chain1 hle h
    rw [getClusterChainLoop_succ] at h
    by_cases hi : i = fs.maxClusterChainLength
    · rw [if_pos hi] at h
      cases h
    rw [if_neg hi] at h
    by_cases hr : walkInRange fs cluster = false
    · rw [if_pos hr] at h
      cases h
    rw [if_neg hr] at h
    cases hd : getFATEntry fs f (ofInt32 cluster) with
    | none =>
      rw [hd] at h
      cases h
    | some data =>
      rw [hd] at h
      simp only [] at h
      by_cases hfree : walkFree fs data = true
      · rw [if_pos hfree] at h
        cases h
      rw [if_neg hfree] at h
      by_cases hc : walkContinues fs data = true
      · rw [if_pos hc] at h
        obtain ⟨h1, h2, h4⟩ := ih _ _ _ _ _ (by omega) h
        refine ⟨by omega, h2, ?_⟩
        rw [h4]
        simp only [insertCluster, List.length_append, List.length_singleton]
        omega
      · rw [if_neg hc] at h
        simp only [Option.some.injEq, Prod.mk.injEq] at h
        obtain ⟨rfl, rfl⟩ := h
        refine ⟨by omega, by omega, ?_⟩
        simp only [insertCluster, List.length_append, List.length_singleton]
        omega

/-- A walk inside a set of clusters whose FAT entries all point into the set again (a cycle,
for instance) returns -1. -/
theorem getClusterChainLoop_closed (fs : sFileSystem) (f : File) (P : Int → Prop)
    (hP : ∀ c, P c → ∀ data, getFATEntry fs f (ofInt32 c) = some data →
      walkContinues fs data = true ∧ P (toInt32 data)) :
    ∀ (fuel i : Nat) (cluster : Int) (chain : List Nat), P cluster →
      getClusterChainLoop fs f fuel i cluster chain = none := by
  intro fuel
  induction fuel with
  | zero =>
    intro i cluster chain _
    rw [getClusterChainLoop]
  | succ fuel ih =>
    intro i cluster chain hc
    rw [getClusterChainLoop_succ]
    split_ifs with h1 h2
    · rfl
    · rfl
    · cases hd : getFATEntry fs f (ofInt32 cluster) with
      | none => rfl
      | some data =>
        simp only []
        obtain ⟨hgo, hnext⟩ := hP cluster hc data hd
        rw [if_pos hgo, ih _ _ _ hnext]
        split_ifs <;> rfl

/-- Every cluster that a successful walk has put into the chain has passed the range test. -/
theorem getClusterChainLoop_members (fs : sFileSystem) (f : File) :
    ∀ (fuel i : Nat) (cluster : Int) (chain : List Nat) (n : Nat) (chain1 : List Nat),
      getClusterChainLoop fs f fuel i cluster chain = some (n, chain1) →
      ∀ c ∈ chain1, c ∈ chain ∨ ∃ k : Int, c = ofInt32 k ∧ walkInRange fs k = true := by
  intro fuel
  induction fuel with
  | zero =>
    intro i cluster chain n chain1 h
    rw [getClusterChainLoop] at h
    cases h
  | succ fuel ih =>
    intro i cluster chain n chain1 h
    rw [getClusterChainLoop_succ] at h
    by_cases hi : i = fs.maxClusterChainLength
    · rw [if_pos hi] at h
      cases h
    rw [if_neg hi] at h
    by_cases hr : walkInRange fs cluster = false
    · rw [if_pos hr] at h
      cases h
    rw [if_neg hr] at h
    have hr1 : walkInRange fs cluster = true := by simpa using hr
    cases hd : getFATEntry fs f (ofInt32 cluster) with
    | none =>
      rw [hd] at h
      cases h
    | some data =>
      rw [hd] at h
      simp only [] at h
      by_cases hfree : walkFree fs data = true
      · rw [if_pos hfree] at h
        cases h
      rw [if_neg hfree] at h
      have hmem : ∀ c ∈ insertCluster chain (ofInt32 cluster),
          c ∈ chain ∨ ∃ k : Int, c = ofInt32 k ∧ walkInRange fs k = true := by
        intro c hc
        simp only [insertCluster, List.mem_append, List.mem_singleton] at hc
        rcases hc with hc | hc
        · exact Or.inl hc
        · exact Or.inr ⟨cluster, hc, hr1⟩
      by_cases hc : walkContinues fs data = true
      · rw [if_pos hc] at h
        intro c hcm
        rcases ih _ _ _ _ _ h c hcm with h1 | h1
        · exact hmem c h1
        · exact Or.inr h1
      · rw [if_neg hc] at h
        simp only [Option.some.injEq, Prod.mk.injEq] at h
        obtain ⟨_, rfl⟩ := h
        exact hmem

/-- Every cluster of a chain that `getClusterChain` returns has passed the range test of the
walk. -/
theorem getClusterChain_members_in_range (fs : sFileSystem) (f : File) (startCluster n : Nat)
    (chain : List Nat) (h : getClusterChain fs f startCluster = some (n, chain)) :
    ∀ c ∈ chain, ∃ k : Int, c = ofInt32 k ∧ walkInRange fs k = true := by
  unfold getClusterChain at h
  split_ifs at h
  intro c hc
  rcases getClusterChainLoop_members fs f _ _ _ _ _ _ h c hc with h1 | h1
  · cases h1
  · exact h1

/-- For a cluster number below 2^28 the range test of the walk is the plain comparison with
`clusters + 2`. -/
theorem walkInRange_of_small (fs : sFileSystem) (cluster : Int) (h0 : 0 ≤ cluster)
    (h1 : cluster < 2 ^ 28) :
    walkInRange fs cluster = decide (cluster < fs.clusters + 2) := by
  unfold walkInRange
  split_ifs
  · have e : ((ofInt32 cluster &&& 0x0fffffff : Nat) : Int) = cluster := by
      rw [show (0x0fffffff : Nat) = 2 ^ 28 - 1 from rfl, Nat.and_pow_two_sub_one_eq_mod]
      unfold ofInt32
      omega
    rw [e]
  · rfl

/-! ## The checksum of a short name -/

theorem foldl_range_byteAt (g : Nat → Nat → Nat) (l : List Nat) (a : Nat) :
    ∀ n, n ≤ l.length →
      (List.range n).foldl (fun s i => g s (byteAt l i)) a = (l.take n).foldl g a := by
  intro n
  induction n with
  | zero =>
    intro _
    rfl
  | succ n ih =>
    intro hn
    have hlt : n < l.length := by omega
    rw [List.range_succ, List.foldl_append, ih (by omega), List.take_succ, List.foldl_append,
      List.getElem?_eq_getElem hlt]
    simp only [List.foldl_cons, List.foldl_nil, Option.toList_some, byteAt]
    rw [List.getD_eq_getElem?_getD, List.getElem?_eq_getElem hlt]
    rfl

theorem checksum_step (s b : Nat) :
    ((if s &&& 1 ≠ 0 then 0x80 else 0) + (s >>> 1) + b) % 256 = (rotr8 s + b) % 256 := by
  unfold rotr8
  rw [Nat.and_one_is_mod, Nat.shiftRight_eq_div_pow]
  split_ifs <;> omega

theorem checksum_step_signed (s b : Nat) :
    Int.toNat
        (((((if s &&& 1 ≠ 0 then 0x80 else 0) + (s >>> 1) : Nat) : Int) + scharValue b) % 256)
      = ((if s &&& 1 ≠ 0 then 0x80 else 0) + (s >>> 1) + b) % 256 := by
  unfold scharValue
  generalize (if s &&& 1 ≠ 0 then 0x80 else 0) + (s >>> 1) = t
  split_ifs <;> omega

theorem calculateChecksum_eq_spec (sname : List Nat) (hlen : sname.length = 11) :
    calculateChecksum sname = specChecksum sname := by
  unfold calculateChecksum specChecksum
  rw [foldl_range_byteAt (fun s b => ((if s &&& 1 ≠ 0 then 0x80 else 0) + (s >>> 1) + b) % 256)
    sname 0 11 (by omega), List.take_of_length_le (by omega)]
  congr 1
  funext s b
  exact checksum_step s b

theorem calculateChecksumSigned_eq (sname : List Nat) :
    calculateChecksumSigned sname = calculateChecksum sname := by
  unfold calculateChecksumSigned calculateChecksum
  congr 1
  funext s i
  exact checksum_step_signed s (byteAt sname i)

theorem calculateChecksum_lt (sname : List Nat) : calculateChecksum sname < 256 := by
  unfold calculateChecksum
  rw [show (11 : Nat) = 10 + 1 from rfl, List.range_succ, List.foldl_append]
  simp only [List.foldl_cons, List.foldl_nil]
  exact Nat.mod_lt _ (by decide)

/-! ## The check of the long entries -/

set_option maxRecDepth 1000000 in
theorem and_not_last_long_eq (ord : Nat) (h : ord < 256) :
    ord &&& 0xffffffbf = clearBit40 ord := by
  revert ord
  unfold clearBit40
  decide

set_option maxRecDepth 1000000 in
theorem and_last_long_eq_zero_iff (ord : Nat) (h : ord < 256) :
    ord &&& LAST_LONG_ENTRY = 0 ↔ hasBit40 ord = false := by
  revert ord
  unfold hasBit40 LAST_LONG_ENTRY
  decide

/-- The loop of `checkLongDirEntries` over the whole fragment list returns 0 or -1, and it
returns 0 exactly when every fragment that is not deleted has the expected ordinal and the
checksum `chk`. -/
theorem checkLongLoop_eq (entries chk : Nat) :
    ∀ (l : List (List Nat)) (i : Nat), (∀ lde ∈ l, IsBytes lde) →
      (checkLongLoop entries chk l.length i l = some 0 ∨
        checkLongLoop entries chk l.length i l = some (-1)) ∧
      (checkLongLoop entries chk l.length i l = some 0 ↔
        ∀ (j : Nat) (lde : List Nat), l[j]? = some lde → LDIR_Ord lde ≠ 0xe5 →
          clearBit40 (LDIR_Ord lde) = entries - 1 - (i + j) ∧ LDIR_Checksum lde = chk) := by
  intro l
  induction l with
  | nil =>
    intro i _
    refine ⟨Or.inl rfl, fun _ => ?_, fun _ => rfl⟩
    intro j lde h
    simp at h
  | cons lde tmp ih =>
    intro i hb
    have hord : LDIR_Ord lde < 256 := byteAt_lt lde (hb lde (List.mem_cons_self _ _)) 0
    obtain ⟨ih1, ih2⟩ := ih (i + 1) (fun x hx => hb x (List.mem_cons_of_mem _ hx))
    have htail : (∀ (j : Nat) (x : List Nat), tmp[j]? = some x → LDIR_Ord x ≠ 0xe5 →
          clearBit40 (LDIR_Ord x) = entries - 1 - (i + 1 + j) ∧ LDIR_Checksum x = chk) ↔
        (∀ (j : Nat) (x : List Nat), (lde :: tmp)[j + 1]? = some x → LDIR_Ord x ≠ 0xe5 →
          clearBit40 (LDIR_Ord x) = entries - 1 - (i + (j + 1)) ∧ LDIR_Checksum x = chk) := by
      constructor
      · intro h j x hx hne
        rw [List.getElem?_cons_succ] at hx
        rw [show i + (j + 1) = i + 1 + j by omega]
        exact h j x hx hne
      · intro h j x hx hne
        rw [show i + 1 + j = i + (j + 1) by omega]
        exact h j x (by rw [List.getElem?_cons_succ]; exact hx) hne
    have hsplit : (∀ (j : Nat) (x : List Nat), (lde :: tmp)[j]? = some x → LDIR_Ord x ≠ 0xe5 →
          clearBit40 (LDIR_Ord x) = entries - 1 - (i + j) ∧ LDIR_Checksum x = chk) ↔
        ((LDIR_Ord lde ≠ 0xe5 →
          clearBit40 (LDIR_Ord lde) = entries - 1 - i ∧ LDIR_Checksum lde = chk) ∧
        (∀ (j : Nat) (x : List Nat), (lde :: tmp)[j + 1]? = some x → LDIR_Ord x ≠ 0xe5 →
          clearBit40 (LDIR_Ord x) = entries - 1 - (i + (j + 1)) ∧ LDIR_Checksum x = chk)) := by
      constructor
      · intro h
        exact ⟨fun hne => h 0 lde (List.getElem?_cons_zero) hne,
          fun j x hx hne => h (j + 1) x hx hne⟩
      · intro h j x hx hne
        cases j with
        | zero =>
          simp only [List.getElem?_cons_zero, Option.some.injEq] at hx
          subst hx
          exact h.1 hne
        | succ j => exact h.2 j x hx hne
    rw [hsplit, ← htail, ← ih2]
    simp only [List.length_cons]
    rw [checkLongLoop]
    unfold DE_FREE
    by_cases hdel : LDIR_Ord lde ≠ 0xe5
    · rw [if_pos hdel]
      simp only []
      rw [and_not_last_long_eq _ hord]
      by_cases hnr : clearBit40 (LDIR_Ord lde) ≠ entries - 1 - i
      · rw [if_pos hnr]
        exact ⟨Or.inr rfl, fun h => absurd h (by decide), fun h => absurd (h.1 hdel).1 hnr⟩
      · rw [if_neg hnr]
        by_cases hck : LDIR_Checksum lde ≠ chk
        · rw [if_pos hck]
          exact ⟨Or.inr rfl, fun h => absurd h (by decide), fun h => absurd (h.1 hdel).2 hck⟩
        · rw [if_neg hck]
          exact ⟨ih1, fun h => ⟨fun _ => ⟨not_not.mp hnr, not_not.mp hck⟩, h⟩, fun h => h.2⟩
    · rw [if_neg hdel]
      exact ⟨ih1, fun h => ⟨fun h1 => absurd h1 hdel, h⟩, fun h => h.2⟩

/-- For a record with `entries = 1 + number of fragments` whose fragments are made of bytes,
`checkLongDirEntries` returns 0 or -1, and 0 exactly when the fragments are as
`FragmentsOk` states. -/
theorem checkLongDirEntries_eq (r : sDirEntryList) (hent : r.entries = r.ldel.length + 1)
    (hb : ∀ lde ∈ r.ldel, IsBytes lde) :
    (checkLongDirEntries r = some 0 ∨ checkLongDirEntries r = some (-1)) ∧
    (checkLongDirEntries r = some 0 ↔
      FragmentsOk r.ldel (calculateChecksum (DIR_Name r.sde))) := by
  unfold checkLongDirEntries FragmentsOk
  cases hl : r.ldel with
  | nil =>
    rw [hl] at hent
    rw [if_neg (by rw [hent]; decide)]
    refine ⟨Or.inl rfl, fun _ => ?_, fun _ => rfl⟩
    intro i lde h
    simp at h
  | cons lde tmp =>
    rw [hl] at hent hb
    rw [if_pos (by rw [hent]; simp)]
    simp only []
    have hord : LDIR_Ord lde < 256 := byteAt_lt lde (hb lde (List.mem_cons_self _ _)) 0
    obtain ⟨l1, l2⟩ := checkLongLoop_eq r.entries (calculateChecksum (DIR_Name r.sde))
      (lde :: tmp) 0 hb
    have hn : r.entries - 1 = (lde :: tmp).length := by
      rw [hent]
      rfl
    rw [hn]
    unfold DE_FREE
    by_cases hfirst : LDIR_Ord lde ≠ 0xe5 ∧ LDIR_Ord lde &&& LAST_LONG_ENTRY = 0
    · rw [if_pos hfirst]
      refine ⟨Or.inr rfl, fun h => absurd h (by decide), fun h => ?_⟩
      rcases (h 0 lde (List.getElem?_cons_zero)).1 rfl with h1 | h1
      · exact absurd h1 hfirst.1
      · rw [(and_last_long_eq_zero_iff _ hord).mp hfirst.2] at h1
        cases h1
    · rw [if_neg hfirst]
      refine ⟨l1, ?_⟩
      rw [l2]
      have hf : LDIR_Ord lde = 0xe5 ∨ hasBit40 (LDIR_Ord lde) = true := by
        by_cases h1 : LDIR_Ord lde = 0xe5
        · exact Or.inl h1
        · right
          by_contra h2
          exact hfirst ⟨h1, (and_last_long_eq_zero_iff _ hord).mpr (by simpa using h2)⟩
      constructor
      · intro h i x hx
        refine ⟨fun hi => ?_, fun hne => ?_⟩
        · subst hi
          simp only [List.getElem?_cons_zero, Option.some.injEq] at hx
          subst hx
          exact hf
        · have := h i x hx hne
          rw [hent, Nat.zero_add] at this
          exact this
      · intro h j x hx hne
        have := (h j x hx).2 hne
        rw [hent, Nat.zero_add]
        exact this

/-! ## Short names -/

theorem cstr_of_isCStr (s : List Nat) (h : IsCStr s) : cstr s = s := by
  unfold cstr
  rw [List.takeWhile_eq_self_iff]
  intro c hc
  simpa using h c hc

theorem takeWhile_append_replicate (b : List Nat) (n : Nat) (hb : ∀ c ∈ b, c ≠ 32) :
    (b ++ List.replicate n 32).takeWhile (fun c => c ≠ 32) = b := by
  induction b with
  | nil =>
    cases n with
    | zero => rfl
    | succ n => simp [List.replicate_succ]
  | cons c t ih =>
    rw [List.cons_append, List.takeWhile_cons,
      if_pos (by simpa using hb c (List.mem_cons_self _ _)),
      ih (fun x hx => hb x (List.mem_cons_of_mem _ hx))]

/-- What `parseShortFilename` makes of a padded 8.3 name: the base alone when the extension is
blank, and otherwise base, dot and the three extension bytes with their padding spaces. -/
theorem parseShortFilename_padded (sde b e : List Nat)
    (hname : DIR_Name sde
      = b ++ List.replicate (8 - b.length) 32 ++ (e ++ List.replicate (3 - e.length) 32))
    (hb8 : b.length ≤ 8) (he3 : e.length ≤ 3)
    (hb : ∀ c ∈ b, c ≠ 32 ∧ c ≠ 0) (he : ∀ c ∈ e, c ≠ 32 ∧ c ≠ 0) :
    parseShortFilename sde
      = if e = [] then b else b ++ str "." ++ e ++ List.replicate (3 - e.length) 32 := by
  have hlen8 : (b ++ List.replicate (8 - b.length) 32).length = 8 := by
    simp only [List.length_append, List.length_replicate]
    omega
  have htake : (DIR_Name sde).take 8 = b ++ List.replicate (8 - b.length) 32 := by
    rw [hname, List.take_append_of_le_length (by omega), List.take_of_length_le (by omega)]
  have hdrop : ((DIR_Name sde).drop 8).take 3 = e ++ List.replicate (3 - e.length) 32 := by
    rw [hname, List.drop_append_of_le_length (by omega), List.drop_of_length_le (by omega),
      List.nil_append, List.take_of_length_le]
    simp only [List.length_append, List.length_replicate]
    omega
  have hc1 : IsCStr (b ++ List.replicate (8 - b.length) 32) := by
    intro c hc
    rcases List.mem_append.mp hc with h | h
    · exact (hb c h).2
    · rw [(List.mem_replicate.mp h).2]
      decide
  have hc2 : IsCStr (e ++ List.replicate (3 - e.length) 32) := by
    intro c hc
    rcases List.mem_append.mp hc with h | h
    · exact (he c h).2
    · rw [(List.mem_replicate.mp h).2]
      decide
  have h8 : byteAt sde 8 = (e ++ List.replicate (3 - e.length) 32).getD 0 0 := by
    have h1 : byteAt sde 8 = (DIR_Name sde).getD 8 0 := by
      unfold byteAt DIR_Name
      rw [List.getD_eq_getElem?_getD, List.getD_eq_getElem?_getD, List.getElem?_take]
      simp
    rw [h1, hname, List.getD_eq_getElem?_getD, List.getD_eq_getElem?_getD,
      List.getElem?_append_right (by omega), hlen8]
  unfold parseShortFilename
  simp only []
  rw [htake, hdrop, cstr_of_isCStr _ hc1, cstr_of_isCStr _ hc2,
    takeWhile_append_replicate b _ (fun c hc => (hb c hc).1), h8]
  cases e with
  | nil =>
    rw [if_neg (by simp), if_pos rfl]
  | cons c t =>
    have hc32 : (c :: t ++ List.replicate (3 - (c :: t).length) 32).getD 0 0 ≠ 32 := by
      simpa using (he c (List.mem_cons_self _ _)).1
    have hl : (b ++ str "." ++ (c :: t ++ List.replicate (3 - (c :: t).length) 32)).length
        ≤ 12 := by
      simp only [List.length_append, List.length_replicate, List.length_cons, str,
        String.toList, List.length_map, List.length_nil] at he3 ⊢
      omega
    rw [if_pos hc32, if_neg (List.cons_ne_nil _ _), List.take_of_length_le hl]
    simp only [List.append_assoc]

/-- The result of `parseShortFilename` has at most 12 bytes. -/
theorem parseShortFilename_length (sde : List Nat) : (parseShortFilename sde).length ≤ 12 := by
  unfold parseShortFilename
  simp only []
  split_ifs
  · rw [List.length_take]
    omega
  · refine Nat.le_trans (List.takeWhile_sublist _).length_le ?_
    unfold cstr
    refine Nat.le_trans (List.takeWhile_sublist _).length_le ?_
    rw [List.length_take]
    omega
/-! ## Free, bad and end-of-chain values -/

theorem and_mask28 (v : Nat) : v &&& 0x0FFFFFFF = v % 2 ^ 28 := by
  rw [show (0x0FFFFFFF : Nat) = 2 ^ 28 - 1 from rfl, Nat.and_pow_two_sub_one_eq_mod]

/-- The counters of `printFSInfo` count the clusters whose value is not free and the clusters
whose value is the bad-cluster mark. -/
theorem countClustersLoop_eq (fs : sFileSystem) (f : File) :
    ∀ (n i used bad : Nat),
      countClustersLoop fs f n i (used, bad)
        = (used + (List.range' i n).countP (fun j => !isFreeCluster (fatValue fs f j)),
           bad + (List.range' i n).countP (fun j => isBadCluster fs (fatValue fs f j))) := by
  intro n
  induction n with
  | zero =>
    intro i used bad
    simp [countClustersLoop]
  | succ n ih =>
    intro i used bad
    rw [countClustersLoop]
    rw [ih, List.range'_succ, List.countP_cons, List.countP_cons]
    have hu : (if fatValue fs f i &&& 0x0FFFFFFF ≠ 0 then used + 1 else used)
        = used + (if (!isFreeCluster (fatValue fs f i)) = true then 1 else 0) := by
      unfold isFreeCluster
      by_cases h : fatValue fs f i &&& 0x0FFFFFFF = 0
      · simp [h]
      · simp [h]
    have hb : (if fs.FATType = FATTYPE_FAT32 then
          (if fatValue fs f i &&& 0x0FFFFFFF = 0x0FFFFFF7 then bad + 1 else bad)
        else if fs.FATType = FATTYPE_FAT16 then
          (if fatValue fs f i = 0x0000FFF7 then bad + 1 else bad)
        else if fs.FATType = FATTYPE_FAT12 then
          (if fatValue fs f i = 0x00000FF7 then bad + 1 else bad)
        else bad)
        = bad + (if isBadCluster fs (fatValue fs f i) = true then 1 else 0) := by
      unfold isBadCluster
      generalize fatValue fs f i = v
      by_cases h32 : fs.FATType = FATTYPE_FAT32
      · have h12 : fs.FATType ≠ FATTYPE_FAT12 := by rw [h32]; decide
        have h16 : fs.FATType ≠ FATTYPE_FAT16 := by rw [h32]; decide
        rw [if_pos h32, if_neg h12, if_neg h16, if_pos h32]
        by_cases h : v &&& 0x0FFFFFFF = 0x0FFFFFF7
        · simp [h]
        · simp [h]
      · rw [if_neg h32]
        by_cases h16 : fs.FATType = FATTYPE_FAT16
        · have h12 : fs.FATType ≠ FATTYPE_FAT12 := by rw [h16]; decide
          rw [if_pos h16, if_neg h12, if_pos h16]
          by_cases h : v = 0x0000FFF7
          · simp [h]
          · simp [h]
        · rw [if_neg h16]
          by_cases h12 : fs.FATType = FATTYPE_FAT12
          · rw [if_pos h12, if_pos h12]
            by_cases h : v = 0x00000FF7
            · simp [h]
            · simp [h]
          · rw [if_neg h12, if_neg h12, if_neg h16, if_neg h32]
            simp
    rw [hu, hb]
    simp only [Prod.mk.injEq]
    constructor <;> omega

/-- A value that is the bad-cluster mark is not free. -/
theorem not_isFreeCluster_of_isBadCluster (fs : sFileSystem) (v : Nat)
    (h : isBadCluster fs v = true) : (!isFreeCluster v) = true := by
  unfold isBadCluster at h
  unfold isFreeCluster
  rw [and_mask28] at *
  split_ifs at h <;> simp at h ⊢ <;> omega

/-- The values that `getFATEntry` returns have 12, 16 and 28 bits on the three types. -/
theorem getFATEntry_range (fs : sFileSystem) (f : File) (c v : Nat) (hf : f.IsBytes)
    (h : getFATEntry fs f c = some v) :
    (fs.FATType = FATTYPE_FAT12 → v < 2 ^ 12) ∧ (fs.FATType = FATTYPE_FAT16 → v < 2 ^ 16) ∧
    (fs.FATType = FATTYPE_FAT32 → v < 2 ^ 28) := by
  refine ⟨fun hty => ?_, fun hty => ?_, fun hty => ?_⟩
  · by_cases hin : fs.bs.BS_RsvdSecCnt * fs.bs.BS_BytesPerSec + (c + c / 2) + 2 ≤ f.size
    · rw [getFATEntry_fat12 fs f c hty hin] at h
      have h0 := hf (fs.bs.BS_RsvdSecCnt * fs.bs.BS_BytesPerSec + (c + c / 2))
      have h1 := hf (fs.bs.BS_RsvdSecCnt * fs.bs.BS_BytesPerSec + (c + c / 2) + 1)
      simp only [Option.some.injEq] at h
      subst h
      split_ifs <;> omega
    · unfold getFATEntry at h
      simp only [] at h
      rw [if_neg (by rw [hty]; decide), if_neg (by rw [hty]; decide), if_pos hty,
        fs_read_seek_none f _ 2 (by omega)] at h
      cases h
  · by_cases hin : fs.bs.BS_RsvdSecCnt * fs.bs.BS_BytesPerSec + c * 2 + 2 ≤ f.size
    · rw [getFATEntry_fat16 fs f c hty hin] at h
      have h0 := hf (fs.bs.BS_RsvdSecCnt * fs.bs.BS_BytesPerSec + c * 2)
      have h1 := hf (fs.bs.BS_RsvdSecCnt * fs.bs.BS_BytesPerSec + c * 2 + 1)
      simp only [Option.some.injEq] at h
      subst h
      omega
    · unfold getFATEntry at h
      simp only [] at h
      rw [if_neg (by rw [hty]; decide), if_pos hty,
        fs_read_seek_none f _ 2 (by omega)] at h
      cases h
  · by_cases hin : fs.bs.BS_RsvdSecCnt * fs.bs.BS_BytesPerSec + c * 4 + 4 ≤ f.size
    · rw [getFATEntry_fat32 fs f c hty hin] at h
      simp only [Option.some.injEq] at h
      subst h
      exact Nat.mod_lt _ (by decide)
    · unfold getFATEntry at h
      simp only [] at h
      rw [if_pos hty, fs_read_seek_none f _ 4 (by omega)] at h
      cases h

/-- On a volume of one of the three types, a value in the range of the type is at most one of
free, bad and end-of-chain. -/
theorem cluster_classes_disjoint (fs : sFileSystem) (v : Nat)
    (h12 : fs.FATType = FATTYPE_FAT12 → v < 2 ^ 12)
    (h16 : fs.FATType = FATTYPE_FAT16 → v < 2 ^ 16)
    (h32 : fs.FATType = FATTYPE_FAT32 → v < 2 ^ 28) :
    ¬ (isFreeCluster v = true ∧ isBadCluster fs v = true) ∧
    ¬ (isFreeCluster v = true ∧ isEOC fs v = true) ∧
    ¬ (isBadCluster fs v = true ∧ isEOC fs v = true) := by
  unfold isFreeCluster isBadCluster isEOC
  rw [and_mask28]
  by_cases t12 : fs.FATType = FATTYPE_FAT12
  · have := h12 t12
    simp only [if_pos t12, beq_iff_eq, decide_eq_true_eq]
    omega
  · by_cases t16 : fs.FATType = FATTYPE_FAT16
    · have := h16 t16
      simp only [if_neg t12, if_pos t16, beq_iff_eq, decide_eq_true_eq]
      omega
    · by_cases t32 : fs.FATType = FATTYPE_FAT32
      · have := h32 t32
        simp only [if_neg t12, if_neg t16, if_pos t32, beq_iff_eq, decide_eq_true_eq]
        omega
      · simp [if_neg t12, if_neg t16, if_neg t32]

/-- The three predicates in closed form. -/
theorem cluster_classes_iff (fs : sFileSystem) (v : Nat) :
    (isFreeCluster v = true ↔ v &&& 0x0FFFFFFF = 0) ∧
    (isBadCluster fs v = true ↔
      (fs.FATType = FATTYPE_FAT12 ∧ v = 0xFF7) ∨ (fs.FATType = FATTYPE_FAT16 ∧ v = 0xFFF7) ∨
      (fs.FATType = FATTYPE_FAT32 ∧ v &&& 0x0FFFFFFF = 0x0FFFFFF7)) ∧
    (isEOC fs v = true ↔
      (fs.FATType = FATTYPE_FAT12 ∧ v ≥ 0xFF8) ∨ (fs.FATType = FATTYPE_FAT16 ∧ v ≥ 0xFFF8) ∨
      (fs.FATType = FATTYPE_FAT32 ∧ v &&& 0x0FFFFFFF ≥ 0x0FFFFFF8)) := by
  have d1 : FATTYPE_FAT12 ≠ FATTYPE_FAT16 := by decide
  have d2 : FATTYPE_FAT12 ≠ FATTYPE_FAT32 := by decide
  have d3 : FATTYPE_FAT16 ≠ FATTYPE_FAT32 := by decide
  unfold isFreeCluster isBadCluster isEOC
  refine ⟨by simp, ?_, ?_⟩
  · by_cases t12 : fs.FATType = FATTYPE_FAT12
    · simp [t12, d1, d2]
    · by_cases t16 : fs.FATType = FATTYPE_FAT16
      · simp [t16, d1.symm, d3]
      · by_cases t32 : fs.FATType = FATTYPE_FAT32
        · simp [t32, d2.symm, d3.symm]
        · simp [t12, t16, t32]
  · by_cases t12 : fs.FATType = FATTYPE_FAT12
    · simp [t12, d1, d2]
    · by_cases t16 : fs.FATType = FATTYPE_FAT16
      · simp [t16, d1.symm, d3]
      · by_cases t32 : fs.FATType = FATTYPE_FAT32
        · simp [t32, d2.symm, d3.symm]
        · simp [t12, t16, t32]

theorem countP_range_le (p q : Nat → Bool) (i n : Nat) (hpq : ∀ j, p j = true → q j = true) :
    (List.range' i n).countP p ≤ (List.range' i n).countP q ∧
    (List.range' i n).countP q ≤ n := by
  constructor
  · exact List.countP_mono_left (fun j _ => hpq j) 
  · have := List.countP_le_length q (l := List.range' i n)
    simpa using this
/-! ## The shuffle as a bijection -/

theorem randomizeLoop_congr (g h : Nat → Nat) :
    ∀ (n i : Nat) (done rest : List sDirEntryList),
      (∀ k, i ≤ k → k < i + n → g k = h k) →
      randomizeLoop g n i done rest = randomizeLoop h n i done rest := by
  intro n
  induction n with
  | zero =>
    intro i done rest _
    rfl
  | succ n ih =>
    intro i done rest hk
    unfold randomizeLoop
    rw [hk i (Nat.le_refl _) (by omega)]
    cases rest[h i]? with
    | none => rfl
    | some d =>
      exact ih (i + 1) _ _ (fun k h1 h2 => hk k (by omega) (by omega))

theorem randomizeLoop_picks_cons (j : Nat) (picks : List Nat) (n i : Nat)
    (done rest : List sDirEntryList) :
    randomizeLoop (picksFrom i (j :: picks)) (n + 1) i done rest
      = match rest[j]? with
        | none => none
        | some d =>
          randomizeLoop (picksFrom (i + 1) picks) n (i + 1) (done ++ [d]) (rest.eraseIdx j) := by
  have h0 : picksFrom i (j :: picks) i = j := by
    unfold picksFrom
    rw [Nat.sub_self]
    rfl
  rw [randomizeLoop, h0]
  cases rest[j]? with
  | none => rfl
  | some d =>
    apply randomizeLoop_congr
    intro k h1 h2
    unfold picksFrom
    have : k - i = (k - (i + 1)) + 1 := by omega
    rw [this]
    rfl

theorem validPicks_cons (m j : Nat) (picks : List Nat) :
    ValidPicks (m + 1) (j :: picks) ↔ j ≤ m ∧ ValidPicks m picks := by
  unfold ValidPicks
  constructor
  · rintro ⟨hl, hv⟩
    refine ⟨?_, ?_, ?_⟩
    · have := hv 0 (Nat.succ_pos _)
      simpa using this
    · simpa using hl
    · intro k hk
      have := hv (k + 1) (by omega)
      simp only [List.getD_cons_succ] at this
      omega
  · rintro ⟨hj, hl, hv⟩
    refine ⟨by simp [hl], ?_⟩
    intro k hk
    cases k with
    | zero => simpa using hj
    | succ k =>
      have := hv k (by omega)
      simp only [List.getD_cons_succ]
      omega

/-- Every arrangement of the records behind `done` is the result of a valid pick sequence. -/
theorem randomizeLoop_surjective :
    ∀ (p rest : List sDirEntryList), p.Perm rest → ∀ (i : Nat) (done : List sDirEntryList),
      ∃ picks, ValidPicks p.length picks ∧
        randomizeLoop (picksFrom i picks) p.length i done rest = some (done ++ p) := by
  intro p
  induction p with
  | nil =>
    intro rest hp i done
    have : rest = [] := List.perm_nil.mp hp.symm |> fun h => h
    subst this
    exact ⟨[], ⟨rfl, fun j hj => absurd hj (Nat.not_lt_zero _)⟩, rfl⟩
  | cons d p ih =>
    intro rest hp i done
    have hmem : d ∈ rest := hp.subset (List.mem_cons_self _ _)
    obtain ⟨j, hj⟩ := List.mem_iff_getElem?.mp hmem
    have hp1 : p.Perm (rest.eraseIdx j) :=
      List.Perm.cons_inv (hp.trans (perm_cons_eraseIdx rest j d hj).symm)
    obtain ⟨picks, hv, hr⟩ := ih (rest.eraseIdx j) hp1 (i + 1) (done ++ [d])
    refine ⟨j :: picks, ?_, ?_⟩
    · rw [List.length_cons, validPicks_cons]
      refine ⟨?_, hv⟩
      have hlt : j < rest.length := by
        by_contra hge
        rw [List.getElem?_eq_none (by omega)] at hj
        cases hj
      have := hp.length_eq
      simp only [List.length_cons] at this
      omega
    · rw [List.length_cons, randomizeLoop_picks_cons, hj]
      simp only []
      rw [hr, List.append_assoc]
      rfl

/-- Two valid pick sequences that give the same arrangement of pairwise distinct records are
equal. -/
theorem randomizeLoop_injective :
    ∀ (n : Nat) (rest : List sDirEntryList), rest.Nodup → rest.length = n →
      ∀ (picks1 picks2 : List Nat) (i : Nat) (done r : List sDirEntryList),
        ValidPicks n picks1 → ValidPicks n picks2 →
        randomizeLoop (picksFrom i picks1) n i done rest = some r →
        randomizeLoop (picksFrom i picks2) n i done rest = some r → picks1 = picks2 := by
  intro n
  induction n with
  | zero =>
    intro rest _ _ picks1 picks2 i done r h1 h2 _ _
    rw [List.length_eq_zero.mp h1.1, List.length_eq_zero.mp h2.1]
  | succ n ih =>
    intro rest hnd hlen picks1 picks2 i done r h1 h2 e1 e2
    cases picks1 with
    | nil => cases h1.1
    | cons j1 ps1 =>
      cases picks2 with
      | nil => cases h2.1
      | cons j2 ps2 =>
        rw [validPicks_cons] at h1 h2
        have hj1 : j1 < rest.length := by omega
        have hj2 : j2 < rest.length := by omega
        rw [randomizeLoop_picks_cons, List.getElem?_eq_getElem hj1] at e1
        rw [randomizeLoop_picks_cons, List.getElem?_eq_getElem hj2] at e2
        simp only [] at e1 e2
        obtain ⟨r1, hr1, _⟩ := randomizeLoop_perm _ _ _ _ _ _ e1
        obtain ⟨r2, hr2, _⟩ := randomizeLoop_perm _ _ _ _ _ _ e2
        have heq : done ++ (rest[j1] :: r1) = done ++ (rest[j2] :: r2) := by
          have e := hr1.symm.trans hr2
          simpa [List.append_assoc] using e
        have hd : rest[j1] = rest[j2] := by
          have := List.append_cancel_left heq
          exact (List.cons.inj this).1
        have hj : j1 = j2 := (List.Nodup.getElem_inj_iff hnd).mp hd
        subst hj
        have := ih (rest.eraseIdx j1) (hnd.sublist (List.eraseIdx_sublist _ _))
          (by rw [List.length_eraseIdx, if_pos hj1, hlen]; rfl) ps1 ps2 (i + 1) _ r h1.2 h2.2 e1 e2
        rw [this]
/-! ## Stable insertion -/

/-- Where `insertDirEntryList` puts the new record: behind a front part whose records all
compare as not above it, and in front of a record that compares above it. -/
theorem insertDirEntryList_split (env : Env) (o : Options) (new : sDirEntryList) :
    ∀ (l l1 : List sDirEntryList), insertDirEntryList env o new l = some l1 →
      ∃ pre post, l = pre ++ post ∧ l1 = pre ++ new :: post ∧
        (∀ x ∈ pre, ∃ c, cmpEntries env o new x = some c ∧ 0 ≤ c) ∧
        (∀ y ∈ post.head?, ∃ c, cmpEntries env o new y = some c ∧ c < 0) := by
  intro l
  induction l with
  | nil =>
    intro l1 h
    simp only [insertDirEntryList, Option.some.injEq] at h
    subst h
    exact ⟨[], [], rfl, rfl, fun x hx => absurd hx (List.not_mem_nil _),
      fun y hy => by simp at hy⟩
  | cons x rest ih =>
    intro l1 h
    unfold insertDirEntryList at h
    cases hc : cmpEntries env o new x with
    | none => simp [hc] at h
    | some c =>
      simp only [hc] at h
      by_cases hge : c ≥ 0
      · rw [if_pos hge] at h
        cases hr : insertDirEntryList env o new rest with
        | none => simp [hr] at h
        | some l2 =>
          simp only [hr, Option.map_some', Option.some.injEq] at h
          subst h
          obtain ⟨pre, post, h1, h2, h3, h4⟩ := ih l2 hr
          refine ⟨x :: pre, post, by rw [h1]; rfl, by rw [h2]; rfl, ?_, h4⟩
          intro y hy
          rcases List.mem_cons.mp hy with rfl | hy
          · exact ⟨c, hc, hge⟩
          · exact h3 y hy
      · rw [if_neg hge] at h
        simp only [Option.some.injEq] at h
        subst h
        refine ⟨[], x :: rest, rfl, rfl, fun y hy => absurd hy (List.not_mem_nil _), ?_⟩
        intro y hy
        simp only [List.head?_cons, Option.mem_def, Option.some.injEq] at hy
        subst hy
        exact ⟨c, hc, by omega⟩

/-- Insertion walks past a front part whose records all compare as not above the new one. -/
theorem insertDirEntryList_pass (env : Env) (o : Options) (new : sDirEntryList) :
    ∀ (A B : List sDirEntryList), (∀ x ∈ A, ∃ c, cmpEntries env o new x = some c ∧ 0 ≤ c) →
      insertDirEntryList env o new (A ++ B)
        = (insertDirEntryList env o new B).map (fun l => A ++ l) := by
  intro A
  induction A with
  | nil =>
    intro B _
    simp
  | cons x A ih =>
    intro B hA
    obtain ⟨c, hc, hge⟩ := hA x (List.mem_cons_self _ _)
    rw [List.cons_append, insertDirEntryList]
    simp only [hc]
    rw [if_pos hge, ih B (fun y hy => hA y (List.mem_cons_of_mem _ hy))]
    cases insertDirEntryList env o new B <;> rfl

/-- Insertion stops in front of a record that compares above the new one, and at the end of
the list. -/
theorem insertDirEntryList_stop (env : Env) (o : Options) (new : sDirEntryList)
    (B : List sDirEntryList)
    (hB : ∀ y ∈ B.head?, ∃ c, cmpEntries env o new y = some c ∧ c < 0) :
    insertDirEntryList env o new B = some (new :: B) := by
  cases B with
  | nil => rfl
  | cons y B =>
    obtain ⟨c, hc, hlt⟩ := hB y (by simp)
    rw [insertDirEntryList]
    simp only [hc]
    rw [if_neg (by omega)]

theorem insertAll_pairwise (env : Env) (o : Options)
    (R : sDirEntryList → sDirEntryList → Prop)
    (htrans : ∀ a b c, R a b → R b c → R a c)
    (hpass : ∀ a b c, cmpEntries env o a b = some c → c ≥ 0 → R b a)
    (hstop : ∀ a b c, cmpEntries env o a b = some c → c < 0 → R a b) :
    ∀ (recs l l1 : List sDirEntryList), l.Pairwise R → insertAll env o recs l = some l1 →
      l1.Pairwise R := by
  intro recs
  induction recs with
  | nil =>
    intro l l1 hl h
    simp only [insertAll, Option.some.injEq] at h
    subst h
    exact hl
  | cons r recs ih =>
    intro l l1 hl h
    rw [insertAll] at h
    cases hi : insertDirEntryList env o r l with
    | none => simp [hi] at h
    | some l2 =>
      simp only [hi] at h
      exact ih l2 l1 (insertDirEntryList_pairwise env o R htrans hpass hstop r l l2 hl hi) h

/-- The order that a consistent comparison induces on all records: by class, and within the
live records by the relation `R`. -/
theorem consistent_order (env : Env) (o : Options)
    (R : sDirEntryList → sDirEntryList → Prop)
    (htotal : ∀ a b, isLive a = true → isLive b = true → R a b ∨ R b a)
    (htrans : ∀ a b c, isLive a = true → isLive b = true → isLive c = true →
      R a b → R b c → R a c)
    (hR : ∀ a b c, isLive a = true → isLive b = true → cmpEntries env o a b = some c →
      (0 ≤ c ↔ R b a)) :
    (∀ a b c : sDirEntryList,
      (rank a < rank b ∨ (rank a = rank b ∧ (rank a = 3 → R a b))) →
      (rank b < rank c ∨ (rank b = rank c ∧ (rank b = 3 → R b c))) →
      (rank a < rank c ∨ (rank a = rank c ∧ (rank a = 3 → R a c)))) ∧
    (∀ a b c, cmpEntries env o a b = some c → c ≥ 0 →
      (rank b < rank a ∨ (rank b = rank a ∧ (rank b = 3 → R b a)))) ∧
    (∀ a b c, cmpEntries env o a b = some c → c < 0 →
      (rank a < rank b ∨ (rank a = rank b ∧ (rank a = 3 → R a b)))) := by
  refine ⟨?_, ?_, ?_⟩
  · intro a b c hab hbc
    rcases hab with hab | ⟨hab, rab⟩
    · rcases hbc with hbc | ⟨hbc, _⟩
      · exact Or.inl (by omega)
      · exact Or.inl (by omega)
    · rcases hbc with hbc | ⟨hbc, rbc⟩
      · exact Or.inl (by omega)
      · exact Or.inr ⟨by omega, fun h3 =>
          htrans a b c ((isLive_iff a).mpr h3) ((isLive_iff b).mpr (by omega))
            ((isLive_iff c).mpr (by omega)) (rab h3) (rbc (by omega))⟩
  · intro a b c h hc
    have hle := cmpEntries_pass_rank env o a b c h hc
    rcases Nat.lt_or_eq_of_le hle with hlt | heq
    · exact Or.inl hlt
    · exact Or.inr ⟨heq, fun h3 =>
        (hR a b c ((isLive_iff a).mpr (by omega)) ((isLive_iff b).mpr h3) h).mp hc⟩
  · intro a b c h hc
    have hle := cmpEntries_stop_rank env o a b c h hc
    rcases Nat.lt_or_eq_of_le hle with hlt | heq
    · exact Or.inl hlt
    · refine Or.inr ⟨heq, fun h3 => ?_⟩
      have hb : isLive b = true := (isLive_iff b).mpr (by omega)
      have ha : isLive a = true := (isLive_iff a).mpr h3
      rcases htotal a b ha hb with hab | hba
      · exact hab
      · have := (hR a b c ha hb h).mpr hba
        omega

/-- With a consistent comparison, a record that compares as equal to the new one is never
behind the place where the new one is put. -/
theorem insertDirEntryList_stable (env : Env) (o : Options) (hcons : Consistent env o)
    (recs list list1 : List sDirEntryList) (new : sDirEntryList)
    (hbuilt : insertAll env o recs [] = some list)
    (hins : insertDirEntryList env o new list = some list1) :
    ∃ pre post, list = pre ++ post ∧ list1 = pre ++ new :: post ∧
      ∀ x ∈ post, cmpEntries env o new x ≠ some 0 := by
  obtain ⟨R, htotal, htrans, hR⟩ := hcons
  obtain ⟨t1, t2, t3⟩ := consistent_order env o R htotal htrans hR
  have hpw := insertAll_pairwise env o _ t1 t2 t3 recs [] list List.Pairwise.nil hbuilt
  obtain ⟨pre, post, h1, h2, _, h4⟩ := insertDirEntryList_split env o new list list1 hins
  refine ⟨pre, post, h1, h2, ?_⟩
  intro x hx hx0
  cases post with
  | nil => exact absurd hx (List.not_mem_nil _)
  | cons y post =>
    obtain ⟨c, hc, hlt⟩ := h4 y (by simp)
    have hnx : rank new = 3 ∧ rank x = 3 := by
      have h := hx0
      rw [cmpEntries_eq] at h
      have ha := rank_le new
      have hb := rank_le x
      split_ifs at h with i1 i2 i3 i4
      · simp at h
      · simp at h
      · simp at h
      · simp at h
      · omega
    have hlnew : isLive new = true := (isLive_iff new).mpr hnx.1
    have hlx : isLive x = true := (isLive_iff x).mpr hnx.2
    have hRx : R x new := (hR new x 0 hlnew hlx hx0).mp (le_refl _)
    rcases List.mem_cons.mp hx with rfl | hxp
    · rw [hc] at hx0
      simp only [Option.some.injEq] at hx0
      omega
    · rw [h1] at hpw
      have hyx := List.rel_of_pairwise_cons (List.pairwise_append.mp hpw).2.1 hxp
      have hy3 : rank y = 3 := by
        have h5 := cmpEntries_stop_rank env o new y c hc hlt
        rcases hyx with h6 | ⟨h6, _⟩ <;> omega
      have hly : isLive y = true := (isLive_iff y).mpr hy3
      have hRy : R y x := by
        rcases hyx with h6 | ⟨_, h6⟩
        · omega
        · exact h6 hy3
      have := (hR new y c hlnew hly hc).mpr (htrans y x new hly hlx hlnew hRy hRx)
      omega

/-! ## The list of list mode and random mode -/

theorem cmpEntries_listMode (env : Env) (o : Options)
    (hmode : o.OPT_LIST = true ∨ o.OPT_RANDOM = true) (a b : sDirEntryList) :
    cmpEntries env o a b =
      if rank a < 3 ∧ rank a ≤ rank b then some (-1)
      else if rank b < 3 then some 1
      else if rank a = 4 then some 1
      else if rank b = 4 then some (-1)
      else some 1 := by
  rw [cmpEntries_eq]
  have : cmpOrdinary env o a b = some 1 := by
    unfold cmpOrdinary
    rw [if_pos hmode]
  rw [this]

/-- In list mode and random mode a live record goes behind the live records, a deleted record
goes to the end, and a volume label, "." or ".." goes in front of the live records. -/
theorem insertDirEntryList_listMode (env : Env) (o : Options)
    (hmode : o.OPT_LIST = true ∨ o.OPT_RANDOM = true) (new : sDirEntryList)
    (S L D : List sDirEntryList) (hS : ∀ x ∈ S, rank x < 3) (hL : ∀ x ∈ L, rank x = 3)
    (hD : ∀ x ∈ D, rank x = 4) :
    ∃ S1, (∀ x ∈ S1, rank x < 3) ∧
      insertDirEntryList env o new (S ++ (L ++ D))
        = some (S1 ++ ((L ++ (if rank new = 3 then [new] else []))
            ++ (D ++ (if rank new = 4 then [new] else [])))) := by
  have hrn := rank_le new
  by_cases h3 : rank new = 3
  · refine ⟨S, hS, ?_⟩
    rw [if_pos h3, if_neg (by omega), List.append_nil, ← List.append_assoc,
      insertDirEntryList_pass env o new (S ++ L) D, insertDirEntryList_stop env o new D]
    · simp
    · intro y hy
      have hy4 : rank y = 4 := hD y (List.mem_of_mem_head? hy)
      exact ⟨-1, by rw [cmpEntries_listMode env o hmode, if_neg (by omega), if_neg (by omega),
        if_neg (by omega), if_pos hy4], by decide⟩
    · intro x hx
      refine ⟨1, ?_, by decide⟩
      rw [cmpEntries_listMode env o hmode, if_neg (by omega)]
      rcases List.mem_append.mp hx with hx | hx
      · rw [if_pos (hS x hx)]
      · rw [if_neg (by have := hL x hx; omega), if_neg (by omega),
          if_neg (by have := hL x hx; omega)]
  · by_cases h4 : rank new = 4
    · refine ⟨S, hS, ?_⟩
      rw [if_neg h3, if_pos h4, List.append_nil]
      have e := insertDirEntryList_pass env o new (S ++ (L ++ D)) [] (fun x _ => by
        refine ⟨1, ?_, by decide⟩
        rw [cmpEntries_listMode env o hmode, if_neg (by omega)]
        by_cases hx3 : rank x < 3
        · rw [if_pos hx3]
        · rw [if_neg hx3, if_pos h4])
      rw [List.append_nil] at e
      rw [e, insertDirEntryList_stop env o new [] (fun y hy => by simp at hy)]
      simp
    · rw [if_neg h3, if_neg h4, List.append_nil, List.append_nil]
      have hnew : rank new < 3 := by omega
      clear h3 h4
      induction S with
      | nil =>
        refine ⟨[new], fun x hx => by rw [List.mem_singleton.mp hx]; exact hnew, ?_⟩
        rw [List.nil_append, insertDirEntryList_stop env o new (L ++ D)]
        · rfl
        · intro y hy
          have hy3 : 3 ≤ rank y := by
            rcases List.mem_append.mp (List.mem_of_mem_head? hy) with h | h
            · exact (hL y h).ge
            · have := hD y h
              omega
          exact ⟨-1, by rw [cmpEntries_listMode env o hmode, if_pos ⟨hnew, by omega⟩],
            by decide⟩
      | cons s S ih =>
        obtain ⟨S1, hS1, hins⟩ := ih (fun x hx => hS x (List.mem_cons_of_mem _ hx))
        have hs := hS s (List.mem_cons_self _ _)
        rw [List.cons_append, insertDirEntryList, cmpEntries_listMode env o hmode]
        by_cases hle : rank new ≤ rank s
        · refine ⟨new :: s :: S, ?_, ?_⟩
          · intro x hx
            rcases List.mem_cons.mp hx with rfl | hx
            · exact hnew
            · exact hS x hx
          · rw [if_pos ⟨hnew, hle⟩]
            simp
        · refine ⟨s :: S1, ?_, ?_⟩
          · intro x hx
            rcases List.mem_cons.mp hx with rfl | hx
            · exact hs
            · exact hS1 x hx
          · rw [if_neg (by omega), if_pos hs]
            simp only []
            rw [if_pos (by decide), hins]
            rfl

theorem insertAll_listMode (env : Env) (o : Options)
    (hmode : o.OPT_LIST = true ∨ o.OPT_RANDOM = true) :
    ∀ (recs S L D : List sDirEntryList), (∀ x ∈ S, rank x < 3) → (∀ x ∈ L, rank x = 3) →
      (∀ x ∈ D, rank x = 4) →
      ∃ S1, (∀ x ∈ S1, rank x < 3) ∧
        insertAll env o recs (S ++ (L ++ D))
          = some (S1 ++ ((L ++ recs.filter (fun r => decide (rank r = 3)))
              ++ (D ++ recs.filter (fun r => decide (rank r = 4))))) := by
  intro recs
  induction recs with
  | nil =>
    intro S L D hS _ _
    exact ⟨S, hS, by simp [insertAll]⟩
  | cons r recs ih =>
    intro S L D hS hL hD
    obtain ⟨S1, hS1, h1⟩ := insertDirEntryList_listMode env o hmode r S L D hS hL hD
    obtain ⟨S2, hS2, h2⟩ := ih S1 (L ++ (if rank r = 3 then [r] else []))
      (D ++ (if rank r = 4 then [r] else [])) hS1
      (fun x hx => by
        rcases List.mem_append.mp hx with h | h
        · exact hL x h
        · split_ifs at h with h3
          · rw [List.mem_singleton.mp h]
            exact h3
          · exact absurd h (List.not_mem_nil _))
      (fun x hx => by
        rcases List.mem_append.mp hx with h | h
        · exact hD x h
        · split_ifs at h with h4
          · rw [List.mem_singleton.mp h]
            exact h4
          · exact absurd h (List.not_mem_nil _))
    refine ⟨S2, hS2, ?_⟩
    rw [insertAll, h1]
    simp only []
    rw [h2]
    by_cases h3 : rank r = 3
    · simp [h3, List.filter_cons]
    · by_cases h4 : rank r = 4
      · simp [h3, h4, List.filter_cons]
      · simp [h3, h4, List.filter_cons]

theorem consistent_listMode (env : Env) (o : Options)
    (hmode : o.OPT_LIST = true ∨ o.OPT_RANDOM = true) : Consistent env o := by
  refine ⟨fun _ _ => True, fun _ _ _ _ => Or.inl trivial, fun _ _ _ _ _ _ _ _ => trivial, ?_⟩
  intro a b c ha hb h
  rw [cmpEntries_listMode env o hmode, if_neg (by rw [(isLive_iff a).mp ha]; omega),
    if_neg (by rw [(isLive_iff b).mp hb]; omega),
    if_neg (by rw [(isLive_iff a).mp ha]; omega),
    if_neg (by rw [(isLive_iff b).mp hb]; omega)] at h
  simp only [Option.some.injEq] at h
  subst h
  simp

/-! ## Consistent comparisons outside list mode and random mode -/

/-- Outside list mode and random mode the comparison of two live records: the
directory-versus-file rule when it separates them, else the key of modification-time mode or
the names. -/
theorem cmpEntries_live (env : Env) (o : Options) (a b : sDirEntryList)
    (hlist : o.OPT_LIST = false) (hrand : o.OPT_RANDOM = false)
    (ha : isLive a = true) (hb : isLive b = true) :
    cmpEntries env o a b =
      if kindKey o a < kindKey o b then some (-1)
      else if kindKey o b < kindKey o a then some 1
      else if o.OPT_MODIFICATION = true then
        (if modKey a < modKey b then some (- o.OPT_REVERSE)
          else if modKey a > modKey b then some o.OPT_REVERSE else some 0)
      else cmpByName env o a b := by
  have ra := (isLive_iff a).mp ha
  have rb := (isLive_iff b).mp hb
  rw [cmpEntries_eq, if_neg (by omega), if_neg (by omega), if_neg (by omega),
    if_neg (by omega)]
  unfold cmpOrdinary kindKey
  rw [if_neg (by rw [hlist, hrand]; decide)]
  by_cases h0 : o.OPT_ORDER = 0
  · have h1 : ¬ o.OPT_ORDER = 1 := by omega
    cases isDirectory a <;> cases isDirectory b <;> simp [h0]
  · by_cases h1 : o.OPT_ORDER = 1
    · cases isDirectory a <;> cases isDirectory b <;> simp [h1]
    · simp [h0, h1]

/-- A comparison is consistent when the comparison behind the directory-versus-file rule is. -/
theorem consistent_of_secondary (env : Env) (o : Options)
    (hlist : o.OPT_LIST = false) (hrand : o.OPT_RANDOM = false)
    (le2 : sDirEntryList → sDirEntryList → Prop)
    (htotal : ∀ a b, le2 a b ∨ le2 b a) (htrans : ∀ a b c, le2 a b → le2 b c → le2 a c)
    (hsec : ∀ a b c,
      (if o.OPT_MODIFICATION = true then
        (if modKey a < modKey b then some (- o.OPT_REVERSE)
          else if modKey a > modKey b then some o.OPT_REVERSE else some 0)
        else cmpByName env o a b) = some c → (0 ≤ c ↔ le2 b a)) :
    Consistent env o := by
  refine ⟨fun a b => kindKey o a < kindKey o b ∨ (kindKey o a = kindKey o b ∧ le2 a b),
    ?_, ?_, ?_⟩
  · intro a b _ _
    rcases Nat.lt_trichotomy (kindKey o a) (kindKey o b) with h | h | h
    · exact Or.inl (Or.inl h)
    · rcases htotal a b with h2 | h2
      · exact Or.inl (Or.inr ⟨h, h2⟩)
      · exact Or.inr (Or.inr ⟨h.symm, h2⟩)
    · exact Or.inr (Or.inl h)
  · intro a b c _ _ _ hab hbc
    rcases hab with hab | ⟨hab, lab⟩
    · rcases hbc with hbc | ⟨hbc, _⟩
      · exact Or.inl (by omega)
      · exact Or.inl (by omega)
    · rcases hbc with hbc | ⟨hbc, lbc⟩
      · exact Or.inl (by omega)
      · exact Or.inr ⟨by omega, htrans a b c lab lbc⟩
  · intro a b c ha hb h
    rw [cmpEntries_live env o a b hlist hrand ha hb] at h
    by_cases h1 : kindKey o a < kindKey o b
    · rw [if_pos h1] at h
      simp only [Option.some.injEq] at h
      subst h
      constructor
      · intro hc
        omega
      · rintro (h2 | ⟨h2, _⟩) <;> omega
    · rw [if_neg h1] at h
      by_cases h2 : kindKey o b < kindKey o a
      · rw [if_pos h2] at h
        simp only [Option.some.injEq] at h
        subst h
        exact ⟨fun _ => Or.inl h2, fun _ => by decide⟩
      · rw [if_neg h2] at h
        have := hsec a b c h
        constructor
        · intro hc
          exact Or.inr ⟨by omega, this.mp hc⟩
        · rintro (h3 | ⟨_, h3⟩)
          · omega
          · exact this.mpr h3

/-- In modification-time mode the comparison is consistent. -/
theorem consistent_timeMode (env : Env) (o : Options)
    (hlist : o.OPT_LIST = false) (hrand : o.OPT_RANDOM = false)
    (hmod : o.OPT_MODIFICATION = true) (hrev : o.OPT_REVERSE = 1 ∨ o.OPT_REVERSE = -1) :
    Consistent env o := by
  apply consistent_of_secondary env o hlist hrand
    (fun a b => 0 ≤ ((modKey b : Int) - (modKey a : Int)) * o.OPT_REVERSE)
  · intro a b
    rcases hrev with h | h <;> rw [h] <;> omega
  · intro a b c
    rcases hrev with h | h <;> rw [h] <;> omega
  · intro a b c h
    rw [if_pos hmod] at h
    by_cases h1 : modKey a < modKey b
    · rw [if_pos h1] at h
      simp only [Option.some.injEq] at h
      subst h
      rcases hrev with h | h <;> rw [h] <;> omega
    · rw [if_neg h1] at h
      by_cases h2 : modKey a > modKey b
      · rw [if_pos h2] at h
        simp only [Option.some.injEq] at h
        subst h
        rcases hrev with h | h <;> rw [h] <;> omega
      · rw [if_neg h2] at h
        simp only [Option.some.injEq] at h
        subst h
        have : modKey a = modKey b := by omega
        rw [this]
        simp

/-- With a name comparison that follows byte order the comparison is consistent. -/
theorem consistent_byteOrder (env : Env) (o : Options)
    (hlist : o.OPT_LIST = false) (hrand : o.OPT_RANDOM = false)
    (hmod : o.OPT_MODIFICATION = false) (hrev : o.OPT_REVERSE = 1 ∨ o.OPT_REVERSE = -1)
    (hbyte : ByteOrderMode env o) : Consistent env o := by
  apply consistent_of_secondary env o hlist hrand
    (fun a b => 0 ≤ strcmp (displayName b) (displayName a) * o.OPT_REVERSE)
  · intro a b
    have := strcmp_antisymm (displayName a) (displayName b)
    rcases hrev with h | h <;> rw [h] <;> omega
  · intro a b c h1 h2
    rcases hrev with h | h
    · rw [h] at h1 h2 ⊢
      have := strcmp_trans_nonneg (displayName c) (displayName b) (displayName a)
        (by omega) (by omega)
      omega
    · rw [h] at h1 h2 ⊢
      have e1 := strcmp_antisymm (displayName a) (displayName b)
      have e2 := strcmp_antisymm (displayName b) (displayName c)
      have e3 := strcmp_antisymm (displayName a) (displayName c)
      have := strcmp_trans_nonneg (displayName a) (displayName b) (displayName c)
        (by omega) (by omega)
      omega
  · intro a b c h
    rw [if_neg (by rw [hmod]; decide)] at h
    obtain ⟨c1, hc1, hlt, _⟩ := hbyte a b
    rw [hc1] at h
    simp only [Option.some.injEq] at h
    subst h
    constructor
    · intro hc
      by_contra hn
      have := hlt.mpr (by omega)
      omega
    · intro hc
      by_contra hn
      have := hlt.mp (by omega)
      omega

theorem isDeletedRecord_iff (de : sDirEntryList) : isDeletedRecord de = true ↔ rank de = 4 := by
  have h1 : ¬ (str ".").head?.getD 0 = DE_FREE := by decide
  have h2 : ¬ (str "..").head?.getD 0 = DE_FREE := by decide
  rcases rank_spec de with ⟨h, f⟩ | ⟨h, f, g⟩ | ⟨h, f, _, g⟩ | ⟨h, f, _, _, g⟩ | ⟨h, f, _, _, g⟩
  · simp [isDeletedRecord, h, f]
  · simp [isDeletedRecord, isDeleted, h, f, g, h1]
  · simp [isDeletedRecord, isDeleted, h, f, g, h2]
  · simp [isDeletedRecord, h, f, g]
  · simp [isDeletedRecord, h, f, g]

/-! ## The driver writes only matching directories -/

theorem sameBytes_refl (f : File) : f.SameBytes f := ⟨rfl, rfl⟩

theorem sameBytes_trans {f g h : File} (h1 : f.SameBytes g) (h2 : g.SameBytes h) :
    f.SameBytes h := ⟨h2.1.trans h1.1, h2.2.trans h1.2⟩

theorem parseEntry_sameBytes (f f1 : File) (ret : Int) (de : List Nat)
    (h : parseEntry f = some (ret, de, f1)) : f.SameBytes f1 := by
  unfold parseEntry at h
  cases hr : fs_read f DIR_ENTRY_SIZE with
  | none => simp [hr] at h
  | some r =>
    obtain ⟨de1, f2⟩ := r
    have hk := fs_read_keeps f f2 _ de1 hr
    simp only [hr] at h
    split_ifs at h <;>
    · simp only [Option.some.injEq, Prod.mk.injEq] at h
      obtain ⟨_, _, rfl⟩ := h
      exact hk

theorem parseSlot_sameBytes (env : Env) (iconv : List Nat → List Nat) (o : Options)
    (s : ParseState) : s.f.SameBytes ((parseSlot env iconv o s).file s.f) := by
  unfold parseSlot
  cases hpe : parseEntry s.f with
  | none => exact sameBytes_refl _
  | some r =>
    obtain ⟨ret, de, f1⟩ := r
    have hk := parseEntry_sameBytes s.f f1 ret de hpe
    simp only []
    split_ifs
    · exact hk
    · exact hk
    · cases checkLongDirEntries _ with
      | none => exact sameBytes_refl _
      | some chk =>
        simp only []
        split_ifs
        · exact hk
        · cases insertDirEntryList env o _ s.list with
          | none => exact sameBytes_refl _
          | some l => exact hk
    · exact hk

theorem parseSlots_sameBytes (env : Env) (iconv : List Nat → List Nat) (o : Options) :
    ∀ (n : Nat) (s : ParseState), s.f.SameBytes ((parseSlots env iconv o n s).file s.f) := by
  intro n
  induction n with
  | zero =>
    intro s
    exact sameBytes_refl _
  | succ n ih =>
    intro s
    rw [parseSlots]
    have h1 := parseSlot_sameBytes env iconv o s
    cases hp : parseSlot env iconv o s with
    | cont s1 =>
      rw [hp] at h1
      simp only []
      have h2 := ih s1
      cases hq : parseSlots env iconv o n s1 with
      | cont s2 =>
        rw [hq] at h2
        exact sameBytes_trans h1 h2
      | ret c s2 =>
        rw [hq] at h2
        exact sameBytes_trans h1 h2
      | exit => exact sameBytes_refl _
    | ret c s1 =>
      rw [hp] at h1
      exact h1
    | exit => exact sameBytes_refl _

theorem parseChainLoop_sameBytes (env : Env) (iconv : List Nat → List Nat) (o : Options)
    (fs : sFileSystem) :
    ∀ (chain : List Nat) (s : ParseState),
      s.f.SameBytes ((parseChainLoop env iconv o fs chain s).file s.f) := by
  intro chain
  induction chain with
  | nil =>
    intro s
    exact sameBytes_refl _
  | cons cluster chain ih =>
    intro s
    rw [parseChainLoop]
    have h1 := parseSlots_sameBytes env iconv o fs.maxDirEntriesPerCluster
      { s with f := fs_seek s.f (getClusterOffset fs cluster) }
    have h0 : s.f.SameBytes (fs_seek s.f (getClusterOffset fs cluster)) := ⟨rfl, rfl⟩
    cases hp : parseSlots env iconv o fs.maxDirEntriesPerCluster
        { s with f := fs_seek s.f (getClusterOffset fs cluster) } with
    | cont s1 =>
      rw [hp] at h1
      simp only []
      have h2 := ih s1
      cases hq : parseChainLoop env iconv o fs chain s1 with
      | cont s2 =>
        rw [hq] at h2
        exact sameBytes_trans h0 (sameBytes_trans h1 h2)
      | ret c s2 =>
        rw [hq] at h2
        exact sameBytes_trans h0 (sameBytes_trans h1 h2)
      | exit => exact sameBytes_refl _
    | ret c s1 =>
      rw [hp] at h1
      exact sameBytes_trans h0 h1
    | exit => exact sameBytes_refl _

theorem parseFinish_file (f0 : File) (r : ParseStep) : (parseFinish r).file f0 = r.file f0 := by
  cases r with
  | cont s =>
    simp only [parseFinish]
    split_ifs <;> rfl
  | ret c s => rfl
  | exit => rfl

/-- Parsing a directory of a cluster chain leaves the bytes of the device as they are. -/
theorem parseClusterChain_sameBytes (env : Env) (iconv : List Nat → List Nat) (o : Options)
    (fs : sFileSystem) (f : File) (chain : List Nat) :
    f.SameBytes ((parseClusterChain env iconv o fs f chain).file f) := by
  unfold parseClusterChain
  rw [parseFinish_file]
  exact parseChainLoop_sameBytes env iconv o fs chain (parseInit f)

/-- Parsing the root directory leaves the bytes of the device as they are. -/
theorem parseFAT1xRootDirEntries_sameBytes (env : Env) (iconv : List Nat → List Nat)
    (o : Options) (fs : sFileSystem) (f : File) :
    f.SameBytes ((parseFAT1xRootDirEntries env iconv o fs f).file f) := by
  unfold parseFAT1xRootDirEntries
  rw [parseFinish_file]
  have h := parseSlots_sameBytes env iconv o fs.bs.BS_RootEntCnt
    (parseInit (fs_seek f (rootDirOffset fs)))
  have h0 : f.SameBytes (fs_seek f (rootDirOffset fs)) := ⟨rfl, rfl⟩
  cases hp : parseSlots env iconv o fs.bs.BS_RootEntCnt
      (parseInit (fs_seek f (rootDirOffset fs))) with
  | cont s1 =>
    rw [hp] at h
    exact sameBytes_trans h0 h
  | ret c s1 =>
    rw [hp] at h
    exact sameBytes_trans h0 h
  | exit => exact sameBytes_refl _

theorem writesOnlyMatches_refl (o : Options) (matchOf : List Nat → Bool) (s : SortState) :
    WritesOnlyMatches o matchOf s s :=
  ⟨[], (List.append_nil _).symm, fun _ hp => absurd hp (List.not_mem_nil _),
    fun _ => sameBytes_refl _⟩

theorem writesOnlyMatches_trans {o : Options} {matchOf : List Nat → Bool}
    {s0 s1 s2 : SortState} (h1 : WritesOnlyMatches o matchOf s0 s1)
    (h2 : WritesOnlyMatches o matchOf s1 s2) : WritesOnlyMatches o matchOf s0 s2 := by
  obtain ⟨w1, e1, m1, d1⟩ := h1
  obtain ⟨w2, e2, m2, d2⟩ := h2
  refine ⟨w1 ++ w2, by rw [e2, e1, List.append_assoc], ?_, ?_⟩
  · intro p hp
    rcases List.mem_append.mp hp with h | h
    · exact m1 p h
    · exact m2 p h
  · intro hw
    obtain ⟨hw1, hw2⟩ := List.append_eq_nil.mp hw
    exact sameBytes_trans (d1 hw1) (d2 hw2)

/-- A step that keeps the log and the bytes of the device. -/
theorem writesOnlyMatches_of_sameBytes (o : Options) (matchOf : List Nat → Bool)
    (s0 s : SortState) (hw : s.written = s0.written) (hf : s0.f.SameBytes s.f) :
    WritesOnlyMatches o matchOf s0 s :=
  ⟨[], by rw [hw, List.append_nil], fun _ hp => absurd hp (List.not_mem_nil _), fun _ => hf⟩

/-- A step that writes the directory `path`, which matches, outside list mode. -/
theorem writesOnlyMatches_of_write (o : Options) (matchOf : List Nat → Bool)
    (s0 s : SortState) (path : List Nat) (hm : matchOf path = true) (hl : o.OPT_LIST = false)
    (hw : s.written = s0.written ++ [path]) : WritesOnlyMatches o matchOf s0 s :=
  ⟨[path], hw, fun p hp => by rw [List.mem_singleton.mp hp]; exact ⟨hm, hl⟩,
    fun h => absurd h (List.cons_ne_nil _ _)⟩

theorem sortSubdirectoriesLoop_writes (o : Options) (matchOf : List Nat → Bool)
    (fs : sFileSystem) (sortDir : Nat → List Nat → SortState → Run)
    (hdir : ∀ c p s, WritesOnlyMatches o matchOf s (sortDir c p s).s) (path : List Nat) :
    ∀ (list : List sDirEntryList) (newpath : List Nat) (s : SortState),
      WritesOnlyMatches o matchOf s (sortSubdirectoriesLoop fs sortDir path list newpath s).s := by
  intro list
  induction list with
  | nil =>
    intro newpath s
    exact writesOnlyMatches_refl o matchOf s
  | cons p rest ih =>
    intro newpath s
    rw [sortSubdirectoriesLoop]
    split_ifs with hsub
    · simp only []
      cases getFATEntry fs s.f (u32 (DIR_FstClusHI p.sde * 65536 + DIR_FstClusLO p.sde)) with
      | none => exact writesOnlyMatches_refl o matchOf s
      | some v =>
        simp only []
        have h1 := hdir (u32 (DIR_FstClusHI p.sde * 65536 + DIR_FstClusLO p.sde))
          (cstr (nextPath newpath path p)) s
        cases hout : (sortDir (u32 (DIR_FstClusHI p.sde * 65536 + DIR_FstClusLO p.sde))
            (cstr (nextPath newpath path p)) s).out with
        | ret code =>
          simp only []
          split_ifs
          · exact h1
          · exact writesOnlyMatches_trans h1 (ih _ _)
        | exit => exact h1
        | deep => exact h1
    · exact ih newpath s

theorem sortSubdirectories_writes (o : Options) (matchOf : List Nat → Bool)
    (fs : sFileSystem) (sortDir : Nat → List Nat → SortState → Run)
    (hdir : ∀ c p s, WritesOnlyMatches o matchOf s (sortDir c p s).s) (path : List Nat)
    (list : List sDirEntryList) (s : SortState) :
    WritesOnlyMatches o matchOf s (sortSubdirectories fs sortDir path list s).s := by
  unfold sortSubdirectories
  have h := sortSubdirectoriesLoop_writes o matchOf fs sortDir hdir path list
    (List.replicate (MAX_PATH_LEN + 1) 0) s
  simp only []
  cases (sortSubdirectoriesLoop fs sortDir path list
    (List.replicate (MAX_PATH_LEN + 1) 0) s).out with
  | ret code => exact h
  | exit => exact h
  | deep => exact h

theorem sortClusterChain_writes (env : Env) (iconv : List Nat → List Nat) (o : Options)
    (matchOf : List Nat → Bool) (irand : Nat → Nat → Nat) (fs : sFileSystem) :
    ∀ (fuel cluster : Nat) (path : List Nat) (s : SortState),
      WritesOnlyMatches o matchOf s
        (sortClusterChain env iconv o matchOf irand fs fuel cluster path s).s := by
  intro fuel
  induction fuel with
  | zero =>
    intro cluster path s
    exact writesOnlyMatches_refl o matchOf s
  | succ fuel ih =>
    intro cluster path s
    rw [sortClusterChain]
    cases getClusterChain fs s.f cluster with
    | none => exact writesOnlyMatches_refl o matchOf s
    | some r =>
      obtain ⟨clen, chain⟩ := r
      simp only []
      have hp := parseClusterChain_sameBytes env iconv o fs s.f chain
      cases hpc : parseClusterChain env iconv o fs s.f chain with
      | exit => exact writesOnlyMatches_refl o matchOf s
      | cont p =>
        rw [hpc] at hp
        exact writesOnlyMatches_of_sameBytes o matchOf _ _ rfl hp
      | ret code p =>
        rw [hpc] at hp
        simp only []
        split_ifs with h1 h2
        · exact writesOnlyMatches_of_sameBytes o matchOf _ _ rfl hp
        · cases randomizeStep o irand p.list p.direntries s.calls with
          | none => exact writesOnlyMatches_of_sameBytes o matchOf _ _ rfl hp
          | some r =>
            obtain ⟨list1, calls1⟩ := r
            simp only []
            have hw : ∀ f1, WritesOnlyMatches o matchOf s
                { f := f1, calls := calls1, written := s.written ++ [path] } :=
              fun f1 => writesOnlyMatches_of_write o matchOf _ _ path h2.2
                (by simpa using h2.1) rfl
            cases writeClusterChain fs list1 chain p.f with
            | none => exact hw _
            | some f1 =>
              exact writesOnlyMatches_trans (hw f1) (sortSubdirectories_writes o matchOf fs _
                (fun c q t => ih c q t) path list1 _)
        · exact writesOnlyMatches_trans
            (writesOnlyMatches_of_sameBytes o matchOf s { s with f := p.f } rfl hp)
            (sortSubdirectories_writes o matchOf fs _ (fun c q t => ih c q t) path p.list _)

theorem sortFAT1xRootDirectory_writes (env : Env) (iconv : List Nat → List Nat) (o : Options)
    (matchOf : List Nat → Bool) (irand : Nat → Nat → Nat) (fs : sFileSystem) (fuel : Nat)
    (s : SortState) :
    WritesOnlyMatches o matchOf s
      (sortFAT1xRootDirectory env iconv o matchOf irand fs fuel s).s := by
  unfold sortFAT1xRootDirectory
  have hp := parseFAT1xRootDirEntries_sameBytes env iconv o fs s.f
  cases hpc : parseFAT1xRootDirEntries env iconv o fs s.f with
  | exit => exact writesOnlyMatches_refl o matchOf s
  | cont p =>
    rw [hpc] at hp
    exact writesOnlyMatches_of_sameBytes o matchOf _ _ rfl hp
  | ret code p =>
    rw [hpc] at hp
    simp only []
    split_ifs with h1 h2
    · exact writesOnlyMatches_of_sameBytes o matchOf _ _ rfl hp
    · cases randomizeStep o irand p.list p.direntries s.calls with
      | none => exact writesOnlyMatches_of_sameBytes o matchOf _ _ rfl hp
      | some r =>
        obtain ⟨list1, calls1⟩ := r
        simp only []
        exact writesOnlyMatches_trans (writesOnlyMatches_of_write o matchOf s _ (str "/") h2.2
          (by simpa using h2.1) rfl)
          (sortSubdirectories_writes o matchOf fs _
            (fun c q t => sortClusterChain_writes env iconv o matchOf irand fs fuel c q t)
            (str "/") list1 _)
    · exact writesOnlyMatches_trans
        (writesOnlyMatches_of_sameBytes o matchOf s { s with f := p.f } rfl hp)
        (sortSubdirectories_writes o matchOf fs _
          (fun c q t => sortClusterChain_writes env iconv o matchOf irand fs fuel c q t)
          (str "/") p.list _)

theorem sortFileSystem_writes (env : Env) (iconv : List Nat → List Nat) (o : Options)
    (matchOf : List Nat → Bool) (irand : Nat → Nat → Nat) (fuel : Nat) (bs : sBootSector)
    (f : File) :
    WritesOnlyMatches o matchOf { f := f, calls := 0, written := [] }
      (sortFileSystem env iconv o matchOf irand fuel bs f).s := by
  unfold sortFileSystem
  simp only []
  cases openFileSystem bs with
  | none => exact writesOnlyMatches_refl o matchOf _
  | some fs =>
    simp only []
    split_ifs with h1 h2 h3
    · exact writesOnlyMatches_refl o matchOf _
    · have h := sortFAT1xRootDirectory_writes env iconv o matchOf irand fs fuel
        { f := f, calls := 0, written := [] }
      cases (sortFAT1xRootDirectory env iconv o matchOf irand fs fuel
        { f := f, calls := 0, written := [] }).out with
      | ret code => exact h
      | exit => exact h
      | deep => exact h
    · have h := sortClusterChain_writes env iconv o matchOf irand fs fuel fs.bs.BS_RootClus
        (str "/") { f := f, calls := 0, written := [] }
      cases (sortClusterChain env iconv o matchOf irand fs fuel fs.bs.BS_RootClus (str "/")
        { f := f, calls := 0, written := [] }).out with
      | ret code => exact h
      | exit => exact h
      | deep => exact h
    · exact writesOnlyMatches_refl o matchOf _
/-! ## The parse loops on a sequence of slots -/

theorem parseEntry_eq (f : File) (h : f.pos + DIR_ENTRY_SIZE ≤ f.size) :
    parseEntry f = some
      (if byteAt (bytesAt f f.pos DIR_ENTRY_SIZE) 0 = DE_FOLLOWING_FREE then 0
        else if LDIR_Attr (bytesAt f f.pos DIR_ENTRY_SIZE) &&& ATTR_LONG_NAME_MASK
            = ATTR_LONG_NAME then 2
        else 1,
       bytesAt f f.pos DIR_ENTRY_SIZE, { f with pos := f.pos + DIR_ENTRY_SIZE }) := by
  unfold parseEntry fs_read
  rw [if_neg (by decide), if_pos h]
  simp only []
  split_ifs <;> rfl

/-- One pass of the slot loop: the outcome on the variables is that of `scanSlot` on the 32
bytes at the position of the stream. -/
theorem parseSlot_scan (env : Env) (iconv : List Nat → List Nat) (o : Options)
    (s : ParseState) (h : s.f.pos + DIR_ENTRY_SIZE ≤ s.f.size) :
    (parseSlot env iconv o s).scan
      = scanSlot env iconv o s.scan (bytesAt s.f s.f.pos DIR_ENTRY_SIZE) ∧
    (∀ s1, parseSlot env iconv o s = .cont s1 →
      s1.f = { s.f with pos := s.f.pos + DIR_ENTRY_SIZE }) := by
  unfold parseSlot scanSlot
  rw [parseEntry_eq s.f h]
  simp only [ParseState.scan]
  by_cases h0 : byteAt (bytesAt s.f s.f.pos DIR_ENTRY_SIZE) 0 = DE_FOLLOWING_FREE
  · rw [if_pos h0, if_pos rfl, if_pos h0]
    constructor
    · split_ifs <;> rfl
    · intro s1 h1
      split_ifs at h1
  · rw [if_neg h0, if_neg h0]
    by_cases hl : LDIR_Attr (bytesAt s.f s.f.pos DIR_ENTRY_SIZE) &&& ATTR_LONG_NAME_MASK
        = ATTR_LONG_NAME
    · rw [if_pos hl, if_neg (by decide), if_neg (by decide), if_pos hl]
      constructor
      · rfl
      · intro s1 h1
        simp only [ParseStep.cont.injEq] at h1
        rw [← h1]
    · rw [if_neg hl, if_neg (by decide), if_pos rfl, if_neg hl]
      cases checkLongDirEntries _ with
      | none => exact ⟨rfl, fun s1 h1 => by cases h1⟩
      | some chk =>
        simp only []
        by_cases hc : chk ≠ 0
        · rw [if_pos hc, if_pos hc]
          exact ⟨rfl, fun s1 h1 => by cases h1⟩
        · rw [if_neg hc, if_neg hc]
          cases insertDirEntryList env o _ s.list with
          | none => exact ⟨rfl, fun s1 h1 => by cases h1⟩
          | some l =>
            refine ⟨rfl, fun s1 h1 => ?_⟩
            simp only [ParseStep.cont.injEq] at h1
            rw [← h1]

theorem readSlots_congr (f g : File) (h : f.data = g.data) :
    ∀ (n off : Nat), readSlots f off n = readSlots g off n := by
  intro n
  induction n with
  | zero =>
    intro off
    rfl
  | succ n ih =>
    intro off
    rw [readSlots, readSlots, ih]
    unfold bytesAt
    rw [h]

theorem chainSlots_congr (fs : sFileSystem) (f g : File) (h : f.data = g.data) :
    ∀ chain, chainSlots fs f chain = chainSlots fs g chain := by
  intro chain
  induction chain with
  | nil => rfl
  | cons c chain ih => rw [chainSlots, chainSlots, ih, readSlots_congr f g h]

theorem readSlots_length (f : File) : ∀ (n off : Nat), (readSlots f off n).length = n := by
  intro n
  induction n with
  | zero =>
    intro off
    rfl
  | succ n ih =>
    intro off
    rw [readSlots, List.length_cons, ih]

theorem scanSlots_append (env : Env) (iconv : List Nat → List Nat) (o : Options) :
    ∀ (a b : List (List Nat)) (s : Scan),
      scanSlots env iconv o (a ++ b) s
        = match scanSlots env iconv o a s with
          | .cont s1 => scanSlots env iconv o b s1
          | r => r := by
  intro a
  induction a with
  | nil =>
    intro b s
    rfl
  | cons de a ih =>
    intro b s
    rw [List.cons_append, scanSlots, scanSlots]
    cases scanSlot env iconv o s de with
    | cont s1 => exact ih b s1
    | ret c s1 => rfl
    | exit => rfl

/-- The slot loop on `n` slots that lie inside the device is the loop on the sequence of these
slots. -/
theorem parseSlots_scan (env : Env) (iconv : List Nat → List Nat) (o : Options) :
    ∀ (n : Nat) (s : ParseState), s.f.pos + DIR_ENTRY_SIZE * n ≤ s.f.size →
      (parseSlots env iconv o n s).scan
        = scanSlots env iconv o (readSlots s.f s.f.pos n) s.scan := by
  intro n
  induction n with
  | zero =>
    intro s _
    rfl
  | succ n ih =>
    intro s h
    have e0 : DIR_ENTRY_SIZE * (n + 1) = DIR_ENTRY_SIZE * n + DIR_ENTRY_SIZE := Nat.mul_succ _ _
    obtain ⟨h1, h2⟩ := parseSlot_scan env iconv o s (by omega)
    rw [parseSlots, readSlots, scanSlots, ← h1]
    cases hp : parseSlot env iconv o s with
    | cont s1 =>
      have hf := h2 s1 hp
      have hpos : s1.f.pos = s.f.pos + DIR_ENTRY_SIZE := by rw [hf]
      have hsize : s1.f.size = s.f.size := by rw [hf]
      have hdata : s1.f.data = s.f.data := by rw [hf]
      show (parseSlots env iconv o n s1).scan = _
      rw [ih s1 (by omega), hpos, readSlots_congr s1.f s.f hdata]
      rfl
    | ret c s1 => rfl
    | exit => rfl

theorem parseChainLoop_scan (env : Env) (iconv : List Nat → List Nat) (o : Options)
    (fs : sFileSystem) :
    ∀ (chain : List Nat) (s : ParseState),
      (∀ c ∈ chain,
        getClusterOffset fs c + DIR_ENTRY_SIZE * fs.maxDirEntriesPerCluster ≤ s.f.size) →
      (parseChainLoop env iconv o fs chain s).scan
        = scanSlots env iconv o (chainSlots fs s.f chain) s.scan := by
  intro chain
  induction chain with
  | nil =>
    intro s _
    rfl
  | cons cluster chain ih =>
    intro s h
    have h1 : (parseSlots env iconv o fs.maxDirEntriesPerCluster
        { s with f := fs_seek s.f (getClusterOffset fs cluster) }).scan
        = scanSlots env iconv o
            (readSlots s.f (getClusterOffset fs cluster) fs.maxDirEntriesPerCluster) s.scan := by
      rw [parseSlots_scan env iconv o fs.maxDirEntriesPerCluster
        { s with f := fs_seek s.f (getClusterOffset fs cluster) }
        (h cluster (List.mem_cons_self _ _))]
      show scanSlots env iconv o (readSlots (fs_seek s.f (getClusterOffset fs cluster))
        (getClusterOffset fs cluster) fs.maxDirEntriesPerCluster) s.scan = _
      rw [readSlots_congr (fs_seek s.f (getClusterOffset fs cluster)) s.f rfl]
    have h2 := parseSlots_sameBytes env iconv o fs.maxDirEntriesPerCluster
      { s with f := fs_seek s.f (getClusterOffset fs cluster) }
    rw [parseChainLoop, chainSlots, scanSlots_append, ← h1]
    cases hp : parseSlots env iconv o fs.maxDirEntriesPerCluster
        { s with f := fs_seek s.f (getClusterOffset fs cluster) } with
    | cont s1 =>
      rw [hp] at h2
      simp only [ParseStep.file] at h2
      have hs : s1.f.size = s.f.size := h2.1
      have hd : s1.f.data = s.f.data := h2.2
      show (parseChainLoop env iconv o fs chain s1).scan = _
      rw [ih s1 (fun c hc => by rw [hs]; exact h c (List.mem_cons_of_mem _ hc)),
        chainSlots_congr fs s1.f s.f hd]
      rfl
    | ret c s1 => rfl
    | exit => rfl

theorem parseFinish_scan (r : ParseStep) : (parseFinish r).scan = scanFinish r.scan := by
  cases r with
  | cont s =>
    simp only [parseFinish, ParseStep.scan, scanFinish]
    have : s.scan.llist = s.llist := rfl
    rw [this]
    split_ifs <;> rfl
  | ret c s => rfl
  | exit => rfl

/-- Parsing a cluster chain whose clusters lie inside the device is the slot loop on the slots of
the chain. -/
theorem parseClusterChain_scan (env : Env) (iconv : List Nat → List Nat) (o : Options)
    (fs : sFileSystem) (f : File) (chain : List Nat)
    (hin : ∀ c ∈ chain,
      getClusterOffset fs c + DIR_ENTRY_SIZE * fs.maxDirEntriesPerCluster ≤ f.size) :
    (parseClusterChain env iconv o fs f chain).scan
      = scanFinish (scanSlots env iconv o (chainSlots fs f chain) scanInit) := by
  unfold parseClusterChain
  rw [parseFinish_scan, parseChainLoop_scan env iconv o fs chain (parseInit f) hin]
  rfl

/-- Parsing a root directory that lies inside the device is the slot loop on its slots. -/
theorem parseFAT1xRootDirEntries_scan (env : Env) (iconv : List Nat → List Nat) (o : Options)
    (fs : sFileSystem) (f : File)
    (hin : rootDirOffset fs + DIR_ENTRY_SIZE * fs.bs.BS_RootEntCnt ≤ f.size) :
    (parseFAT1xRootDirEntries env iconv o fs f).scan
      = scanFinish (scanSlots env iconv o (rootSlots fs f) scanInit) := by
  unfold parseFAT1xRootDirEntries rootSlots
  rw [parseFinish_scan, parseSlots_scan env iconv o _ _ hin]
  have : readSlots (parseInit (fs_seek f (rootDirOffset fs))).f
      (parseInit (fs_seek f (rootDirOffset fs))).f.pos fs.bs.BS_RootEntCnt
      = readSlots f (rootDirOffset fs) fs.bs.BS_RootEntCnt :=
    readSlots_congr (fs_seek f (rootDirOffset fs)) f rfl _ _
  rw [this]
  rfl

/-! ## Records of a sequence of slots -/

theorem isEntry_iff (de : List Nat) : isEntry de = true ↔ byteAt de 0 ≠ DE_FOLLOWING_FREE := by
  simp [isEntry]

theorem isLongSlot_iff (de : List Nat) :
    isLongSlot de = true ↔ LDIR_Attr de &&& ATTR_LONG_NAME_MASK = ATTR_LONG_NAME := by
  simp [isLongSlot]

theorem upToTerminator_cons (de : List Nat) (rest : List (List Nat)) :
    upToTerminator (de :: rest) = if isEntry de = true then de :: upToTerminator rest else [de] := by
  unfold upToTerminator
  by_cases h : isEntry de = true
  · rw [if_pos h, List.takeWhile_cons, if_pos h]
    rfl
  · rw [if_neg h, List.takeWhile_cons, if_neg h]
    rfl

/-- At a slot whose byte 0 is 0x00 the loop returns: -1 with pending fragments, 0 without. -/
theorem scanSlot_terminator (env : Env) (iconv : List Nat → List Nat) (o : Options) (s : Scan)
    (de : List Nat) (h : isEntry de = false) :
    scanSlot env iconv o s de
      = .ret (if s.llist ≠ [] then -1 else 0) { s with entries := u32 (s.entries + 1) } := by
  have h0 : byteAt de 0 = DE_FOLLOWING_FREE := by
    by_contra hn
    rw [(isEntry_iff de).mpr hn] at h
    cases h
  unfold scanSlot
  simp only []
  rw [if_pos h0]
  split_ifs <;> rfl

/-- The slot loop does not look at the slots behind the first slot whose byte 0 is 0x00. -/
theorem scanSlots_upToTerminator (env : Env) (iconv : List Nat → List Nat) (o : Options) :
    ∀ (stream : List (List Nat)) (s : Scan),
      scanSlots env iconv o stream s = scanSlots env iconv o (upToTerminator stream) s := by
  intro stream
  induction stream with
  | nil =>
    intro s
    rfl
  | cons de rest ih =>
    intro s
    rw [upToTerminator_cons]
    by_cases h : isEntry de = true
    · rw [if_pos h, scanSlots, scanSlots]
      cases scanSlot env iconv o s de with
      | cont s1 => exact ih s1
      | ret c s1 => rfl
      | exit => rfl
    · rw [if_neg h, scanSlots, scanSlots,
        scanSlot_terminator env iconv o s de (by simpa using h)]

theorem lnameOf_append (iconv : List Nat → List Nat) (frags : List (List Nat)) (de : List Nat) :
    lnameOf iconv (frags ++ [de])
      = (parseLongFilenamePart iconv de ++ lnameOf iconv frags).take MAX_PATH_LEN := by
  unfold lnameOf
  rw [List.foldl_append]
  rfl

theorem groupSlots_long (env : Env) (iconv : List Nat → List Nat) (de : List Nat) (rest pending : List (List Nat))
    (h : isLongSlot de = true) :
    groupSlots env iconv (de :: rest) pending = groupSlots env iconv rest (pending ++ [de]) := by
  rw [groupSlots, if_pos h]

theorem groupSlots_short (env : Env) (iconv : List Nat → List Nat) (de : List Nat)
    (rest pending : List (List Nat)) (h : ¬ isLongSlot de = true) :
    groupSlots env iconv (de :: rest) pending
      = (recordOf env iconv pending de :: (groupSlots env iconv rest []).1,
          (groupSlots env iconv rest []).2) := by
  rw [groupSlots, if_neg h]

/-- The step of the slot loop at a long-name fragment. -/
theorem scanSlot_long (env : Env) (iconv : List Nat → List Nat) (o : Options) (s : Scan)
    (de : List Nat) (he : isEntry de = true) (hl : isLongSlot de = true) :
    scanSlot env iconv o s de
      = .cont { s with
          entries := u32 (s.entries + 1), llist := s.llist ++ [de],
          lname := (parseLongFilenamePart iconv de ++ s.lname).take MAX_PATH_LEN } := by
  unfold scanSlot
  simp only []
  rw [if_neg ((isEntry_iff de).mp he), if_pos ((isLongSlot_iff de).mp hl)]

/-- The step of the slot loop at a short entry. -/
theorem scanSlot_short (env : Env) (iconv : List Nat → List Nat) (o : Options) (s : Scan)
    (de : List Nat) (he : isEntry de = true) (hl : ¬ isLongSlot de = true)
    (hent : s.entries = s.llist.length) (hname : s.lname = lnameOf iconv s.llist)
    (hlen : s.llist.length + 1 < 2 ^ 32) :
    scanSlot env iconv o s de
      = match checkLongDirEntries (recordOf env iconv s.llist de) with
        | none => .exit
        | some chk =>
          if chk ≠ 0 then .ret (-1) { s with entries := u32 (s.entries + 1) }
          else
            match insertDirEntryList env o (recordOf env iconv s.llist de) s.list with
            | none => .exit
            | some list1 =>
              .cont { list := list1, direntries := u32 (s.direntries + 1), entries := 0,
                      llist := [], lname := [] } := by
  have hrec : sDirEntryList.mk (parseShortFilename de) (heldLname env s.lname) de s.llist
      (u32 (s.entries + 1)) = recordOf env iconv s.llist de := by
    unfold recordOf
    rw [hname, hent]
    unfold u32
    rw [Nat.mod_eq_of_lt hlen]
  unfold scanSlot
  simp only []
  rw [if_neg ((isEntry_iff de).mp he), if_neg (fun h => hl ((isLongSlot_iff de).mpr h)), hrec]

/-- The slot loop on slots without end mark, when every record passes the check of its long
entries and the insertions do not end the process: the list is the result of inserting the
records in stream order, and the pending fragments are those behind the last short entry. -/
theorem scanSlots_records (env : Env) (iconv : List Nat → List Nat) (o : Options) :
    ∀ (pre : List (List Nat)) (s : Scan), (∀ de ∈ pre, isEntry de = true) →
      s.entries = s.llist.length → s.lname = lnameOf iconv s.llist →
      s.llist.length + pre.length < 2 ^ 32 → s.direntries + pre.length < 2 ^ 32 →
      (∀ r ∈ (groupSlots env iconv pre s.llist).1, checkLongDirEntries r = some 0) →
      ∀ list1, insertAll env o (groupSlots env iconv pre s.llist).1 s.list = some list1 →
      scanSlots env iconv o pre s
        = .cont { list := list1,
                  direntries := s.direntries + (groupSlots env iconv pre s.llist).1.length,
                  entries := (groupSlots env iconv pre s.llist).2.length,
                  llist := (groupSlots env iconv pre s.llist).2,
                  lname := lnameOf iconv (groupSlots env iconv pre s.llist).2 } := by
  intro pre
  induction pre with
  | nil =>
    intro s _ hent hname _ _ _ list1 hins
    simp only [groupSlots, insertAll, Option.some.injEq] at hins ⊢
    subst hins
    rw [scanSlots, ← hent, ← hname]
    rfl
  | cons de rest ih =>
    intro s hpre hent hname hl1 hl2 hchk list1 hins
    have he := hpre de (List.mem_cons_self _ _)
    have hrest : ∀ d ∈ rest, isEntry d = true := fun d hd => hpre d (List.mem_cons_of_mem _ hd)
    simp only [List.length_cons] at hl1 hl2
    rw [scanSlots]
    by_cases hlong : isLongSlot de = true
    · rw [scanSlot_long env iconv o s de he hlong]
      rw [groupSlots_long env iconv de rest s.llist hlong] at hchk hins ⊢
      simp only []
      have := ih (Scan.mk s.list s.direntries (u32 (s.entries + 1)) (s.llist ++ [de])
          ((parseLongFilenamePart iconv de ++ s.lname).take MAX_PATH_LEN)) hrest
        (by
          simp only [List.length_append, List.length_singleton]
          unfold u32
          rw [hent, Nat.mod_eq_of_lt (by omega)])
        (by
          simp only []
          rw [lnameOf_append, hname])
        (by simp only [List.length_append, List.length_singleton]; omega)
        (by simp only []; omega) hchk list1 hins
      rw [this]
    · rw [scanSlot_short env iconv o s de he hlong hent hname (by omega)]
      rw [groupSlots_short env iconv de rest s.llist hlong] at hchk hins ⊢
      simp only [] at hchk hins ⊢
      rw [hchk _ (List.mem_cons_self _ _)]
      simp only []
      rw [if_neg (by simp)]
      rw [insertAll] at hins
      cases hi : insertDirEntryList env o (recordOf env iconv s.llist de) s.list with
      | none => simp [hi] at hins
      | some l1 =>
        simp only [hi] at hins ⊢
        have := ih (Scan.mk l1 (u32 (s.direntries + 1)) 0 [] []) hrest rfl rfl
          (by simp only [List.length_nil]; omega)
          (by
            simp only []
            unfold u32
            rw [Nat.mod_eq_of_lt (by omega)]
            omega)
          (fun r hr => hchk r (List.mem_cons_of_mem _ hr)) list1 hins
        rw [this]
        simp only [List.length_cons]
        unfold u32
        rw [Nat.mod_eq_of_lt (by omega)]
        congr 2
        omega

/-- When the slot loop gets through slots without end mark, every record has passed the check
of its long entries and the list is the result of inserting the records in stream order. -/
theorem scanSlots_cont (env : Env) (iconv : List Nat → List Nat) (o : Options) :
    ∀ (pre : List (List Nat)) (s s1 : Scan), (∀ de ∈ pre, isEntry de = true) →
      s.entries = s.llist.length → s.lname = lnameOf iconv s.llist →
      s.llist.length + pre.length < 2 ^ 32 →
      scanSlots env iconv o pre s = .cont s1 →
      (∀ r ∈ (groupSlots env iconv pre s.llist).1, checkLongDirEntries r = some 0) ∧
      insertAll env o (groupSlots env iconv pre s.llist).1 s.list = some s1.list := by
  intro pre
  induction pre with
  | nil =>
    intro s s1 _ _ _ _ h
    simp only [scanSlots, ScanStep.cont.injEq] at h
    subst h
    exact ⟨fun r hr => by simp [groupSlots] at hr, rfl⟩
  | cons de rest ih =>
    intro s s1 hpre hent hname hl1 h
    have he := hpre de (List.mem_cons_self _ _)
    have hrest : ∀ d ∈ rest, isEntry d = true := fun d hd => hpre d (List.mem_cons_of_mem _ hd)
    simp only [List.length_cons] at hl1
    rw [scanSlots] at h
    by_cases hlong : isLongSlot de = true
    · rw [scanSlot_long env iconv o s de he hlong] at h
      rw [groupSlots_long env iconv de rest s.llist hlong]
      simp only [] at h
      exact ih _ s1 hrest
        (by
          simp only [List.length_append, List.length_singleton]
          unfold u32
          rw [hent, Nat.mod_eq_of_lt (by omega)])
        (by
          simp only []
          rw [lnameOf_append, hname])
        (by simp only [List.length_append, List.length_singleton]; omega) h
    · rw [scanSlot_short env iconv o s de he hlong hent hname (by omega)] at h
      rw [groupSlots_short env iconv de rest s.llist hlong]
      simp only []
      cases hc : checkLongDirEntries (recordOf env iconv s.llist de) with
      | none => simp [hc] at h
      | some chk =>
        simp only [hc] at h
        by_cases hchk : chk ≠ 0
        · rw [if_pos hchk] at h
          cases h
        · rw [if_neg hchk] at h
          have hchk0 : chk = 0 := by simpa using hchk
          subst hchk0
          cases hi : insertDirEntryList env o (recordOf env iconv s.llist de) s.list with
          | none => simp [hi] at h
          | some l1 =>
            simp only [hi] at h
            obtain ⟨h1, h2⟩ := ih _ s1 hrest rfl rfl
              (by simp only [List.length_nil]; omega) h
            refine ⟨?_, ?_⟩
            · intro r hr
              rcases List.mem_cons.mp hr with rfl | hr
              · exact hc
              · exact h1 r hr
            · rw [insertAll, hi]
              exact h2

/-! ## The outcome of a parse -/

theorem insertDirEntryList_perm (env : Env) (o : Options) (new : sDirEntryList)
    (l l1 : List sDirEntryList) (h : insertDirEntryList env o new l = some l1) :
    l1.Perm (new :: l) := by
  obtain ⟨pre, post, h1, h2, _, _⟩ := insertDirEntryList_split env o new l l1 h
  rw [h1, h2]
  exact List.perm_middle

theorem insertAll_perm (env : Env) (o : Options) :
    ∀ (recs l l1 : List sDirEntryList), insertAll env o recs l = some l1 →
      l1.Perm (recs ++ l) := by
  intro recs
  induction recs with
  | nil =>
    intro l l1 h
    simp only [insertAll, Option.some.injEq] at h
    subst h
    exact List.Perm.refl _
  | cons r recs ih =>
    intro l l1 h
    rw [insertAll] at h
    cases hi : insertDirEntryList env o r l with
    | none => simp [hi] at h
    | some l2 =>
      simp only [hi] at h
      have h1 := ih l2 l1 h
      have h2 := insertDirEntryList_perm env o r l l2 hi
      exact h1.trans ((List.Perm.append_left recs h2).trans List.perm_middle)

theorem ParseStep.code_of_scan (r : ParseStep) (c : Int) (s : Scan)
    (h : r.scan = .ret c s) :
    r.code = some c ∧ r.list = s.list ∧ r.direntries = s.direntries := by
  cases r with
  | cont p => cases h
  | ret c1 p =>
    simp only [ParseStep.scan, ScanStep.ret.injEq] at h
    obtain ⟨rfl, rfl⟩ := h
    exact ⟨rfl, rfl, rfl⟩
  | exit => cases h

/-- The outcome of the slot loop and the code behind it on the slots of a directory whose
records all pass the check of their long entries. -/
theorem scanFinish_records (env : Env) (iconv : List Nat → List Nat) (o : Options)
    (stream : List (List Nat)) (recs : List sDirEntryList) (pend : List (List Nat))
    (list : List sDirEntryList)
    (hg : groupSlots env iconv (stream.takeWhile isEntry) [] = (recs, pend))
    (hchk : ∀ x ∈ recs, checkLongDirEntries x = some 0)
    (hins : insertAll env o recs [] = some list) (hlen : stream.length < 2 ^ 32) :
    ∃ s1, scanFinish (scanSlots env iconv o stream scanInit)
        = .ret (if pend = [] then 0 else -1) s1 ∧
      s1.list = list ∧ s1.direntries = recs.length := by
  have hsplit : stream.takeWhile isEntry ++ stream.dropWhile isEntry = stream :=
    List.takeWhile_append_dropWhile _ _
  have hpl : (stream.takeWhile isEntry).length ≤ stream.length :=
    (List.takeWhile_sublist _).length_le
  have hrec := scanSlots_records env iconv o (stream.takeWhile isEntry) scanInit
    (fun de hde => (List.mem_takeWhile_imp hde)) rfl rfl
    (by show 0 + _ < _; omega) (by show 0 + _ < _; omega)
    (by
      show ∀ r ∈ (groupSlots env iconv (stream.takeWhile isEntry) []).1, _
      rw [hg]
      exact hchk)
    list
    (by
      show insertAll env o (groupSlots env iconv (stream.takeWhile isEntry) []).1 [] = _
      rw [hg]
      exact hins)
  have hg1 : (groupSlots env iconv (stream.takeWhile isEntry) scanInit.llist) = (recs, pend) := hg
  rw [hg1] at hrec
  simp only [] at hrec
  rw [← hsplit, scanSlots_append, hrec]
  simp only []
  cases htail : stream.dropWhile isEntry with
  | nil =>
    rw [scanSlots, scanFinish]
    simp only []
    by_cases hp : pend = []
    · rw [if_neg (by simpa using hp), if_pos hp]
      exact ⟨_, rfl, rfl, by show 0 + _ = _; omega⟩
    · rw [if_pos hp, if_neg hp]
      exact ⟨_, rfl, rfl, by show 0 + _ = _; omega⟩
  | cons t rest =>
    have ht : isEntry t = false := by
      have := List.head_dropWhile_not isEntry stream (by rw [htail]; exact List.cons_ne_nil _ _)
      simpa [htail] using this
    rw [scanSlots, scanSlot_terminator env iconv o _ t ht]
    simp only [scanFinish]
    by_cases hp : pend = []
    · rw [if_neg (by simpa using hp), if_pos hp]
      exact ⟨_, rfl, rfl, by show 0 + _ = _; omega⟩
    · rw [if_pos hp, if_neg hp]
      exact ⟨_, rfl, rfl, by show 0 + _ = _; omega⟩

/-- A parse whose outcome is that of the slot loop on `stream` stops at the first end mark. -/
theorem stopsAtTerminator_of_scan (env : Env) (iconv : List Nat → List Nat) (o : Options)
    (stream : List (List Nat)) (r : ParseStep)
    (h : r.scan = scanFinish (scanSlots env iconv o stream scanInit)) :
    StopsAtTerminator env iconv o stream r := by
  refine ⟨by rw [h, scanSlots_upToTerminator], ?_⟩
  intro recs pend list hg hchk hins hlen
  obtain ⟨s1, h1, h2, h3⟩ := scanFinish_records env iconv o stream recs pend list hg hchk hins hlen
  obtain ⟨c1, c2, c3⟩ := ParseStep.code_of_scan r _ s1 (h.trans h1)
  have hperm : list.Perm recs := by
    have := insertAll_perm env o recs [] list hins
    rwa [List.append_nil] at this
  exact ⟨c1, c2.trans h2, hperm, by rw [c3, h3, hperm.length_eq]⟩

/-! ## The layout that `writeClusterChain` produces -/

theorem fs_seek_pos (f : File) : fs_seek f f.pos = f := by
  cases f
  rfl

theorem fs_seek_seek (f : File) (x y : Nat) : fs_seek (fs_seek f x) y = fs_seek f y := rfl

theorem entryBytes_length (e : List Nat) : (entryBytes e).length = DIR_ENTRY_SIZE := by
  unfold entryBytes
  rw [List.length_map, List.length_range]

theorem fs_write_pos (f : File) (buf : List Nat) : (fs_write f buf).pos = f.pos + buf.length :=
  rfl

theorem writeSlotsAt_append (fs : sFileSystem) (chain : List Nat) :
    ∀ (a b : List (List Nat)) (k : Nat) (f : File),
      writeSlotsAt fs chain k (a ++ b) f
        = writeSlotsAt fs chain (k + a.length) b (writeSlotsAt fs chain k a f) := by
  intro a
  induction a with
  | nil =>
    intro b k f
    rfl
  | cons e a ih =>
    intro b k f
    rw [List.cons_append, writeSlotsAt, writeSlotsAt, ih, List.length_cons]
    congr 1
    omega

theorem writeSlotsAt_seek (fs : sFileSystem) (chain : List Nat) (k x : Nat)
    (es : List (List Nat)) (f : File) (h : es ≠ []) :
    writeSlotsAt fs chain k es (fs_seek f x) = writeSlotsAt fs chain k es f := by
  cases es with
  | nil => exact absurd rfl h
  | cons e es => rw [writeSlotsAt, writeSlotsAt, fs_seek_seek]

theorem slotOffset_eq (fs : sFileSystem) (chain : List Nat) (idx e : Nat)
    (he : e < fs.maxDirEntriesPerCluster) :
    slotOffset fs chain (idx * fs.maxDirEntriesPerCluster + e)
      = getClusterOffset fs (chain.getD idx 0) + DIR_ENTRY_SIZE * e := by
  unfold slotOffset
  have h1 : (idx * fs.maxDirEntriesPerCluster + e) / fs.maxDirEntriesPerCluster = idx := by
    rw [Nat.mul_comm, Nat.mul_add_div (by omega), Nat.div_eq_of_lt he, Nat.add_zero]
  have h2 : (idx * fs.maxDirEntriesPerCluster + e) % fs.maxDirEntriesPerCluster = e := by
    rw [Nat.mul_comm, Nat.mul_add_mod, Nat.mod_eq_of_lt he]
  rw [h1, h2]

/-- Entries written one after the other from the position of slot `idx * M + e` on go into the
slots `idx * M + e`, `idx * M + e + 1`, ... as long as they stay in cluster `idx`. -/
theorem writeAllLdes_layout (fs : sFileSystem) (chain : List Nat) (idx : Nat) :
    ∀ (tmp : List (List Nat)) (e : Nat) (f : File),
      e + tmp.length ≤ fs.maxDirEntriesPerCluster →
      f.pos = getClusterOffset fs (chain.getD idx 0) + DIR_ENTRY_SIZE * e →
      writeAllLdes tmp f
          = writeSlotsAt fs chain (idx * fs.maxDirEntriesPerCluster + e)
              (tmp.map entryBytes) f ∧
      (writeAllLdes tmp f).pos
          = getClusterOffset fs (chain.getD idx 0) + DIR_ENTRY_SIZE * (e + tmp.length) := by
  intro tmp
  induction tmp with
  | nil =>
    intro e f _ hpos
    exact ⟨rfl, by rw [writeAllLdes, hpos]; rfl⟩
  | cons lde tmp ih =>
    intro e f hlen hpos
    simp only [List.length_cons] at hlen
    have hso := slotOffset_eq fs chain idx e (by omega)
    have hw : fs_write (fs_seek f (slotOffset fs chain (idx * fs.maxDirEntriesPerCluster + e)))
        (entryBytes lde) = fs_write f (entryBytes lde) := by
      rw [hso, ← hpos, fs_seek_pos]
    have hp1 : (fs_write f (entryBytes lde)).pos
        = getClusterOffset fs (chain.getD idx 0) + DIR_ENTRY_SIZE * (e + 1) := by
      rw [fs_write_pos, entryBytes_length, hpos, Nat.mul_add, Nat.mul_one, Nat.add_assoc]
    obtain ⟨h1, h2⟩ := ih (e + 1) (fs_write f (entryBytes lde)) (by omega) hp1
    rw [writeAllLdes, List.map_cons, writeSlotsAt, hw, List.length_cons]
    refine ⟨by rw [h1, Nat.add_assoc], ?_⟩
    rw [h2]
    congr 2
    omega

theorem writeLdes_eq (n : Nat) :
    ∀ (tmp : List (List Nat)) (f : File), n ≤ tmp.length →
      writeLdes n tmp f = some (tmp.drop n, writeAllLdes (tmp.take n) f) := by
  induction n with
  | zero =>
    intro tmp f _
    rfl
  | succ n ih =>
    intro tmp f h
    cases tmp with
    | nil => simp at h
    | cons lde tmp =>
      simp only [List.length_cons] at h
      rw [writeLdes, ih tmp _ (by omega)]
      rfl

theorem listEntries_length (list : List sDirEntryList)
    (hrec : ∀ p ∈ list, p.entries = p.ldel.length + 1) :
    (listEntries list).length = (list.map (fun p => p.entries)).sum := by
  induction list with
  | nil => rfl
  | cons p list ih =>
    rw [listEntries, List.map_cons, List.sum_cons, List.length_append, List.length_append,
      List.length_map, List.length_singleton, ih (fun q hq => hrec q (List.mem_cons_of_mem _ hq)),
      hrec p (List.mem_cons_self _ _)]

theorem sub32_of_le (a b : Nat) (ha : a < 2 ^ 32) (hb : b ≤ a) : sub32 a b = a - b := by
  unfold sub32
  rw [Nat.mod_eq_of_lt ha, Nat.mod_eq_of_lt (by omega : b < 2 ^ 32)]
  have : a + 2 ^ 32 - b = (a - b) + 2 ^ 32 := by omega
  rw [this, Nat.add_mod_right, Nat.mod_eq_of_lt (by omega)]

theorem u32_of_lt (a : Nat) (ha : a < 2 ^ 32) : u32 a = a := Nat.mod_eq_of_lt ha

/-- The loop of `writeClusterChain` from slot `idx * M + entries` on: it dereferences no null
link, and the entries of the list go into the slots from there on, one after the other. -/
theorem writeChainLoop_layout (fs : sFileSystem) (chain : List Nat)
    (hM2 : fs.maxDirEntriesPerCluster < 2 ^ 31) :
    ∀ (list : List sDirEntryList) (idx entries : Nat) (f : File),
      idx < chain.length → entries ≤ fs.maxDirEntriesPerCluster →
      f.pos = getClusterOffset fs (chain.getD idx 0) + DIR_ENTRY_SIZE * entries →
      (∀ p ∈ list, p.entries = p.ldel.length + 1 ∧ p.entries ≤ fs.maxDirEntriesPerCluster) →
      idx * fs.maxDirEntriesPerCluster + entries + (listEntries list).length
        ≤ chain.length * fs.maxDirEntriesPerCluster →
      ∃ idx1 entries1,
        writeChainLoop fs list (chain.drop idx) entries f
          = some (entries1,
              writeSlotsAt fs chain (idx * fs.maxDirEntriesPerCluster + entries)
                (listEntries list) f) ∧
        idx1 * fs.maxDirEntriesPerCluster + entries1
          = idx * fs.maxDirEntriesPerCluster + entries + (listEntries list).length ∧
        entries1 ≤ fs.maxDirEntriesPerCluster ∧ (list ≠ [] → 1 ≤ entries1) ∧
        (list = [] → entries1 = entries) ∧ idx1 < chain.length ∧
        (writeSlotsAt fs chain (idx * fs.maxDirEntriesPerCluster + entries)
            (listEntries list) f).pos
          = getClusterOffset fs (chain.getD idx1 0) + DIR_ENTRY_SIZE * entries1 := by
  intro list
  induction list with
  | nil =>
    intro idx entries f hidx hent hpos _ _
    exact ⟨idx, entries, rfl, rfl, hent, fun h => absurd rfl h, fun _ => rfl, hidx, hpos⟩
  | cons p list ih =>
    intro idx entries f hidx hent hpos hrec hS
    obtain ⟨hp1, hp2⟩ := hrec p (List.mem_cons_self _ _)
    have hrest := fun q hq => hrec q (List.mem_cons_of_mem _ hq)
    have hle : (listEntries (p :: list)).length
        = p.ldel.length + 1 + (listEntries list).length := by
      rw [listEntries, List.length_append, List.length_append, List.length_map,
        List.length_singleton]
    rw [hle] at hS
    have hlist : listEntries (p :: list)
        = p.ldel.map entryBytes ++ ([entryBytes p.sde] ++ listEntries list) := by
      rw [listEntries, List.append_assoc]
    rw [writeChainLoop, u32_of_lt (entries + p.entries) (by omega)]
    by_cases hfit : entries + p.entries ≤ fs.maxDirEntriesPerCluster
    · -- the record fits into the current cluster
      rw [if_pos hfit, writeLdes_eq (p.entries - 1) p.ldel f (by omega)]
      have hn : p.entries - 1 = p.ldel.length := by omega
      simp only []
      rw [hn, List.take_length]
      obtain ⟨a1, a2⟩ := writeAllLdes_layout fs chain idx p.ldel entries f (by omega) hpos
      obtain ⟨b1, b2⟩ := writeAllLdes_layout fs chain idx [p.sde] (entries + p.ldel.length)
        (writeAllLdes p.ldel f) (by simp only [List.length_singleton]; omega) a2
      have hb : fs_write (writeAllLdes p.ldel f) (entryBytes p.sde)
          = writeAllLdes [p.sde] (writeAllLdes p.ldel f) := rfl
      simp only [List.length_singleton] at b2
      obtain ⟨idx1, entries1, c1, c2, c3, c4, c5, c6, c7⟩ := ih idx (entries + p.entries)
        (fs_write (writeAllLdes p.ldel f) (entryBytes p.sde)) hidx hfit
        (by rw [hb, b2, hp1, Nat.add_assoc]) hrest (by omega)
      have hfile : writeSlotsAt fs chain (idx * fs.maxDirEntriesPerCluster + entries)
              (listEntries (p :: list)) f
          = writeSlotsAt fs chain (idx * fs.maxDirEntriesPerCluster + (entries + p.entries))
              (listEntries list) (fs_write (writeAllLdes p.ldel f) (entryBytes p.sde)) := by
        have b3 : fs_write (writeAllLdes p.ldel f) (entryBytes p.sde)
            = writeSlotsAt fs chain (idx * fs.maxDirEntriesPerCluster + entries + p.ldel.length)
                [entryBytes p.sde] (writeAllLdes p.ldel f) := by
          rw [hb, b1, Nat.add_assoc]
          rfl
        rw [hlist, writeSlotsAt_append, writeSlotsAt_append, ← a1, List.length_map, ← b3,
          List.length_singleton, hp1]
        congr 1
        omega
      refine ⟨idx1, entries1, ?_, by omega, c3, fun _ => ?_, fun h => absurd h (List.cons_ne_nil _ _),
        c6, ?_⟩
      · rw [c1, hfile]
      · by_cases hl : list = []
        · have := c5 hl
          omega
        · exact c4 hl
      · rw [hfile]
        exact c7
    · -- the record is split between the current cluster and the next one
      rw [if_neg hfit, sub32_of_le _ _ (by omega) hent,
        writeLdes_eq (fs.maxDirEntriesPerCluster - entries) p.ldel f (by omega)]
      simp only []
      have hnext : idx + 1 < chain.length := by
        by_contra hn
        have h1 : chain.length = idx + 1 := by omega
        rw [h1, Nat.add_mul, Nat.one_mul] at hS
        omega
      rw [List.drop_eq_getElem_cons hidx, List.drop_eq_getElem_cons hnext]
      simp only []
      rw [sub32_of_le _ _ (by omega) (by omega), ← List.drop_eq_getElem_cons hnext]
      have hsplit : p.ldel.take (fs.maxDirEntriesPerCluster - entries)
          ++ p.ldel.drop (fs.maxDirEntriesPerCluster - entries) = p.ldel :=
        List.take_append_drop _ _
      have hA : (p.ldel.take (fs.maxDirEntriesPerCluster - entries)).length
          = fs.maxDirEntriesPerCluster - entries := by
        rw [List.length_take]
        omega
      have hB : (p.ldel.drop (fs.maxDirEntriesPerCluster - entries)).length
          = p.ldel.length - (fs.maxDirEntriesPerCluster - entries) := List.length_drop _ _
      obtain ⟨a1, a2⟩ := writeAllLdes_layout fs chain idx
        (p.ldel.take (fs.maxDirEntriesPerCluster - entries)) entries f (by omega) hpos
      have hget : chain.getD (idx + 1) 0 = chain[idx + 1] := List.getD_eq_getElem _ _ hnext
      obtain ⟨b1, b2⟩ := writeAllLdes_layout fs chain (idx + 1)
        (p.ldel.drop (fs.maxDirEntriesPerCluster - entries)) 0
        (fs_seek (writeAllLdes (p.ldel.take (fs.maxDirEntriesPerCluster - entries)) f)
          (getClusterOffset fs chain[idx + 1])) (by omega)
        (by rw [hget]; rfl)
      obtain ⟨d1, d2⟩ := writeAllLdes_layout fs chain (idx + 1) [p.sde]
        (0 + (p.ldel.drop (fs.maxDirEntriesPerCluster - entries)).length)
        (writeAllLdes (p.ldel.drop (fs.maxDirEntriesPerCluster - entries))
          (fs_seek (writeAllLdes (p.ldel.take (fs.maxDirEntriesPerCluster - entries)) f)
            (getClusterOffset fs chain[idx + 1])))
        (by simp only [List.length_singleton]; omega) b2
      simp only [List.length_singleton] at d2
      have hd : ∀ g : File, fs_write g (entryBytes p.sde) = writeAllLdes [p.sde] g :=
        fun _ => rfl
      obtain ⟨idx1, entries1, c1, c2, c3, c4, c5, c6, c7⟩ := ih (idx + 1)
        (p.entries - (fs.maxDirEntriesPerCluster - entries))
        (fs_write
          (writeAllLdes (p.ldel.drop (fs.maxDirEntriesPerCluster - entries))
            (fs_seek (writeAllLdes (p.ldel.take (fs.maxDirEntriesPerCluster - entries)) f)
              (getClusterOffset fs chain[idx + 1])))
          (entryBytes p.sde))
        hnext (by omega)
        (by
          rw [hd, d2]
          congr 2
          omega)
        hrest
        (by
          rw [Nat.add_mul, Nat.one_mul]
          omega)
      have hfile : writeSlotsAt fs chain (idx * fs.maxDirEntriesPerCluster + entries)
              (listEntries (p :: list)) f
          = writeSlotsAt fs chain
              ((idx + 1) * fs.maxDirEntriesPerCluster
                + (p.entries - (fs.maxDirEntriesPerCluster - entries)))
              (listEntries list)
              (fs_write
                (writeAllLdes (p.ldel.drop (fs.maxDirEntriesPerCluster - entries))
                  (fs_seek (writeAllLdes (p.ldel.take (fs.maxDirEntriesPerCluster - entries)) f)
                    (getClusterOffset fs chain[idx + 1])))
                (entryBytes p.sde)) := by
        have e1 : idx * fs.maxDirEntriesPerCluster + entries
            + (p.ldel.take (fs.maxDirEntriesPerCluster - entries)).length
            = (idx + 1) * fs.maxDirEntriesPerCluster := by
          rw [hA, Nat.add_mul, Nat.one_mul]
          omega
        have e2 : (idx + 1) * fs.maxDirEntriesPerCluster
            + (p.ldel.drop (fs.maxDirEntriesPerCluster - entries)).length + 1
            = (idx + 1) * fs.maxDirEntriesPerCluster
              + (p.entries - (fs.maxDirEntriesPerCluster - entries)) := by
          rw [hB]
          omega
        have e3 : fs_write
              (writeAllLdes (p.ldel.drop (fs.maxDirEntriesPerCluster - entries))
                (fs_seek (writeAllLdes (p.ldel.take (fs.maxDirEntriesPerCluster - entries)) f)
                  (getClusterOffset fs chain[idx + 1])))
              (entryBytes p.sde)
            = writeSlotsAt fs chain ((idx + 1) * fs.maxDirEntriesPerCluster)
                ((p.ldel.drop (fs.maxDirEntriesPerCluster - entries)).map entryBytes
                  ++ [entryBytes p.sde])
                (writeSlotsAt fs chain (idx * fs.maxDirEntriesPerCluster + entries)
                  ((p.ldel.take (fs.maxDirEntriesPerCluster - entries)).map entryBytes) f) := by
          rw [hd, d1, b1, ← a1, writeSlotsAt_append, List.length_map]
          simp only [Nat.add_zero, Nat.zero_add, List.map_cons, List.map_nil]
          generalize p.ldel.drop (fs.maxDirEntriesPerCluster - entries) = B
          cases B with
          | nil =>
            simp only [List.map_nil, writeSlotsAt, List.length_nil, Nat.add_zero, fs_seek_seek]
          | cons b bs =>
            rw [writeSlotsAt_seek fs chain _ _ _ _ (by simp)]
        rw [e3, ← e2]
        conv_lhs => rw [hlist, ← hsplit, List.map_append, List.append_assoc]
        rw [writeSlotsAt_append, List.length_map, e1, ← List.append_assoc, writeSlotsAt_append,
          List.length_append, List.length_map, List.length_singleton, Nat.add_assoc]
      refine ⟨idx1, entries1, ?_, ?_, c3, fun _ => ?_, fun h => absurd h (List.cons_ne_nil _ _),
        c6, ?_⟩
      · rw [c1, hfile]
      · rw [c2, hle, Nat.add_mul, Nat.one_mul]
        omega
      · by_cases hl : list = []
        · have := c5 hl
          omega
        · exact c4 hl
      · rw [hfile]
        exact c7

theorem slotOffset_zero (fs : sFileSystem) (cluster : Nat) (chain : List Nat) :
    slotOffset fs (cluster :: chain) 0 = getClusterOffset fs cluster := by
  unfold slotOffset
  rw [Nat.zero_div, Nat.zero_mod]
  rfl

theorem listEntries_entry_length (list : List sDirEntryList) :
    ∀ e ∈ listEntries list, e.length = DIR_ENTRY_SIZE := by
  induction list with
  | nil =>
    intro e he
    exact absurd he (List.not_mem_nil _)
  | cons p list ih =>
    intro e he
    rw [listEntries] at he
    rcases List.mem_append.mp he with h | h
    · rcases List.mem_append.mp h with h | h
      · obtain ⟨x, _, rfl⟩ := List.mem_map.mp h
        exact entryBytes_length x
      · rw [List.mem_singleton.mp h]
        exact entryBytes_length _
    · exact ih e h

/-- The result of `writeClusterChain`: the entries of the list in the slots 0, 1, ... of the
directory, and the all-zero entry behind them unless their number is a positive multiple of the
number of slots of a cluster. -/
theorem writeClusterChain_eq (fs : sFileSystem) (list : List sDirEntryList) (chain : List Nat)
    (f : File) (hM : 0 < fs.maxDirEntriesPerCluster) (hM2 : fs.maxDirEntriesPerCluster < 2 ^ 31)
    (hchain : 1 ≤ chain.length)
    (hrec : ∀ p ∈ list, p.entries = p.ldel.length + 1 ∧ p.entries ≤ fs.maxDirEntriesPerCluster)
    (hS : (listEntries list).length ≤ chain.length * fs.maxDirEntriesPerCluster) :
    writeClusterChain fs list chain f
      = some (writeSlotsAt fs chain 0
          (listEntries list ++
            (if (listEntries list).length = 0
                ∨ (listEntries list).length % fs.maxDirEntriesPerCluster ≠ 0
              then [emptyEntry] else []))
          (fs_seek f (slotOffset fs chain 0))) := by
  cases chain with
  | nil => simp at hchain
  | cons cluster rest =>
    obtain ⟨idx1, entries1, c1, c2, c3, c4, c5, c6, c7⟩ := writeChainLoop_layout fs
      (cluster :: rest) hM2 list 0 0 (fs_seek f (getClusterOffset fs cluster))
      (by simp) (Nat.zero_le _) rfl hrec (by simpa using hS)
    simp only [Nat.zero_mul, Nat.zero_add, List.drop_zero] at c1 c2 c7
    rw [writeClusterChain, c1, slotOffset_zero]
    simp only []
    rw [writeSlotsAt_append, Nat.zero_add]
    by_cases hlt : entries1 < fs.maxDirEntriesPerCluster
    · have hcond : (listEntries list).length = 0
          ∨ (listEntries list).length % fs.maxDirEntriesPerCluster ≠ 0 := by
        by_cases hl : list = []
        · left
          rw [hl]
          rfl
        · right
          have := c4 hl
          rw [← c2, Nat.mul_comm, Nat.mul_add_mod, Nat.mod_eq_of_lt hlt]
          omega
      rw [if_pos hlt, if_pos hcond, writeSlotsAt, writeSlotsAt]
      have hso : slotOffset fs (cluster :: rest) (listEntries list).length
          = getClusterOffset fs ((cluster :: rest).getD idx1 0) + DIR_ENTRY_SIZE * entries1 := by
        rw [← c2]
        exact slotOffset_eq fs (cluster :: rest) idx1 entries1 hlt
      rw [hso, ← c7, fs_seek_pos]
      rfl
    · have hcond : ¬ ((listEntries list).length = 0
          ∨ (listEntries list).length % fs.maxDirEntriesPerCluster ≠ 0) := by
        have he : entries1 = fs.maxDirEntriesPerCluster := by omega
        rw [← c2, he]
        intro h
        rcases h with h | h
        · omega
        · apply h
          rw [← Nat.succ_mul]
          exact Nat.mul_mod_left _ _
      rw [if_neg hlt, if_neg hcond]
      rfl

theorem fs_write_data_outside (f : File) (buf : List Nat) (x : Nat)
    (h : x < f.pos ∨ f.pos + buf.length ≤ x) : (fs_write f buf).data x = f.data x := by
  unfold fs_write
  simp only []
  rw [if_neg (by omega)]

theorem fs_write_bytesAt (f : File) (buf : List Nat) :
    bytesAt (fs_write f buf) f.pos buf.length = buf := by
  unfold bytesAt fs_write
  simp only []
  apply List.ext_getElem
  · rw [List.length_map, List.length_range]
  · intro i h1 h2
    rw [List.getElem_map, List.getElem_range, if_pos ⟨by omega, by omega⟩, Nat.add_sub_cancel_left,
      List.getD_eq_getElem _ _ h2]

/-- Storing entries in slots changes no byte outside these slots. -/
theorem writeSlotsAt_data_outside (fs : sFileSystem) (chain : List Nat) :
    ∀ (es : List (List Nat)) (k : Nat) (f : File) (x : Nat),
      (∀ e ∈ es, e.length = DIR_ENTRY_SIZE) →
      (∀ j, j < es.length →
        x < slotOffset fs chain (k + j) ∨ slotOffset fs chain (k + j) + DIR_ENTRY_SIZE ≤ x) →
      (writeSlotsAt fs chain k es f).data x = f.data x := by
  intro es
  induction es with
  | nil =>
    intro k f x _ _
    rfl
  | cons e es ih =>
    intro k f x hlen hout
    rw [writeSlotsAt, ih (k + 1) _ x (fun e1 h1 => hlen e1 (List.mem_cons_of_mem _ h1))
      (fun j hj => by
        have := hout (j + 1) (by simp only [List.length_cons]; omega)
        rwa [Nat.add_assoc, Nat.add_comm 1 j])]
    have h0 := hout 0 (by simp)
    rw [Nat.add_zero] at h0
    rw [fs_write_data_outside _ _ _ (by
      rw [hlen e (List.mem_cons_self _ _)]
      exact h0)]
    rfl

/-! ## `writeList` and the root directory -/

theorem File.ext_fields (f g : File) (h1 : f.size = g.size) (h2 : f.data = g.data)
    (h3 : f.pos = g.pos) : f = g := by
  cases f
  cases g
  simp only [File.mk.injEq]
  exact ⟨h1, h2, h3⟩

theorem fs_write_nil (f : File) (h : f.pos ≤ f.size) : fs_write f [] = f := by
  apply File.ext_fields
  · show max f.size (f.pos + 0) = f.size
    omega
  · funext x
    show (if f.pos ≤ x ∧ x < f.pos + 0 then _ else f.data x) = f.data x
    rw [if_neg (by omega)]
  · rfl

theorem fs_write_append (f : File) (a b : List Nat) :
    fs_write (fs_write f a) b = fs_write f (a ++ b) := by
  apply File.ext_fields
  · show max (max f.size (f.pos + a.length)) (f.pos + a.length + b.length)
        = max f.size (f.pos + (a ++ b).length)
    rw [List.length_append]
    omega
  · funext x
    show (if f.pos + a.length ≤ x ∧ x < f.pos + a.length + b.length
          then b.getD (x - (f.pos + a.length)) 0
          else if f.pos ≤ x ∧ x < f.pos + a.length then a.getD (x - f.pos) 0 else f.data x)
        = if f.pos ≤ x ∧ x < f.pos + (a ++ b).length then (a ++ b).getD (x - f.pos) 0
          else f.data x
    rw [List.length_append]
    by_cases h1 : f.pos + a.length ≤ x ∧ x < f.pos + a.length + b.length
    · rw [if_pos h1, if_pos ⟨by omega, by omega⟩, List.getD_eq_getElem?_getD,
        List.getD_eq_getElem?_getD, List.getElem?_append_right (by omega)]
      congr 2
      omega
    · rw [if_neg h1]
      by_cases h2 : f.pos ≤ x ∧ x < f.pos + a.length
      · rw [if_pos h2, if_pos ⟨by omega, by omega⟩, List.getD_eq_getElem?_getD,
          List.getD_eq_getElem?_getD, List.getElem?_append_left (by omega)]
      · rw [if_neg h2, if_neg (by omega)]
  · show f.pos + a.length + b.length = f.pos + (a ++ b).length
    rw [List.length_append, Nat.add_assoc]

theorem fs_write_size_pos (f : File) (buf : List Nat) :
    (fs_write f buf).pos ≤ (fs_write f buf).size := by
  show f.pos + buf.length ≤ max f.size (f.pos + buf.length)
  omega

theorem writeAllLdes_eq_write :
    ∀ (tmp : List (List Nat)) (f : File), f.pos ≤ f.size →
      writeAllLdes tmp f = fs_write f (tmp.map entryBytes).flatten := by
  intro tmp
  induction tmp with
  | nil =>
    intro f h
    exact (fs_write_nil f h).symm
  | cons lde tmp ih =>
    intro f h
    rw [writeAllLdes, ih _ (fs_write_size_pos f _), fs_write_append]
    rfl

/-- The function `writeList` stores the entries of the list one behind the other, without a
gap. -/
theorem writeList_eq_write :
    ∀ (list : List sDirEntryList) (f : File), f.pos ≤ f.size →
      writeList list f = fs_write f (listEntries list).flatten := by
  intro list
  induction list with
  | nil =>
    intro f h
    exact (fs_write_nil f h).symm
  | cons p list ih =>
    intro f h
    rw [writeList, ih _ (fs_write_size_pos _ _), writeAllLdes_eq_write p.ldel f h,
      fs_write_append, fs_write_append, listEntries, List.flatten_append, List.flatten_append]
    simp only [List.flatten_cons, List.flatten_nil, List.append_nil, List.append_assoc]

theorem flatten_length_entries (es : List (List Nat))
    (h : ∀ e ∈ es, e.length = DIR_ENTRY_SIZE) :
    es.flatten.length = DIR_ENTRY_SIZE * es.length := by
  induction es with
  | nil => rfl
  | cons e es ih =>
    rw [List.flatten_cons, List.length_append, h e (List.mem_cons_self _ _),
      ih (fun x hx => h x (List.mem_cons_of_mem _ hx)), List.length_cons, Nat.mul_succ,
      Nat.add_comm]

theorem listEntries_length_ldel (list : List sDirEntryList) :
    (listEntries list).length = (list.map (fun p => 1 + p.ldel.length)).sum := by
  induction list with
  | nil => rfl
  | cons p list ih =>
    rw [listEntries, List.map_cons, List.sum_cons, List.length_append, List.length_append,
      List.length_map, List.length_singleton, ih, Nat.add_comm p.ldel.length 1]

theorem listEntries_length_perm (l1 l2 : List sDirEntryList) (h : l1.Perm l2) :
    (listEntries l1).length = (listEntries l2).length := by
  rw [listEntries_length_ldel, listEntries_length_ldel]
  exact (h.map _).sum_eq

theorem readSlots_congr_from (f g : File) (a : Nat) (h : ∀ x, a ≤ x → f.data x = g.data x) :
    ∀ (n off : Nat), a ≤ off → readSlots f off n = readSlots g off n := by
  intro n
  induction n with
  | zero =>
    intro off _
    rfl
  | succ n ih =>
    intro off hoff
    rw [readSlots, readSlots, ih _ (by omega)]
    congr 1
    unfold bytesAt
    apply List.map_congr_left
    intro i _
    exact h _ (by omega)

theorem readSlots_drop (f : File) :
    ∀ (k n off : Nat), (readSlots f off n).drop k
      = readSlots f (off + DIR_ENTRY_SIZE * k) (n - k) := by
  intro k
  induction k with
  | zero =>
    intro n off
    rfl
  | succ k ih =>
    intro n off
    cases n with
    | zero =>
      rw [Nat.zero_sub]
      rfl
    | succ n =>
      rw [readSlots, List.drop_succ_cons, ih, Nat.succ_sub_succ]
      congr 1
      rw [Nat.mul_succ]
      omega

/-- The slots of a region into which entries have been written from its start on: the entries,
and behind them the slots that were there. -/
theorem readSlots_fs_write :
    ∀ (es : List (List Nat)) (h : File) (n : Nat),
      (∀ e ∈ es, e.length = DIR_ENTRY_SIZE) → es.length ≤ n →
      readSlots (fs_write h es.flatten) h.pos n
        = es ++ readSlots h (h.pos + DIR_ENTRY_SIZE * es.length) (n - es.length) := by
  intro es
  induction es with
  | nil =>
    intro h n _ _
    exact readSlots_congr _ _ (by
      funext x
      show (if h.pos ≤ x ∧ x < h.pos + 0 then _ else h.data x) = h.data x
      rw [if_neg (by omega)]) _ _
  | cons e es ih =>
    intro h n hlen hn
    have he := hlen e (List.mem_cons_self _ _)
    have hes := fun x hx => hlen x (List.mem_cons_of_mem _ hx)
    cases n with
    | zero => simp at hn
    | succ n =>
      simp only [List.length_cons] at hn
      rw [List.flatten_cons, ← fs_write_append, readSlots]
      have hpos : (fs_write h e).pos = h.pos + DIR_ENTRY_SIZE := by
        rw [fs_write_pos, he]
      have h1 : bytesAt (fs_write (fs_write h e) es.flatten) h.pos DIR_ENTRY_SIZE = e := by
        have : bytesAt (fs_write (fs_write h e) es.flatten) h.pos DIR_ENTRY_SIZE
            = bytesAt (fs_write h e) h.pos DIR_ENTRY_SIZE := by
          unfold bytesAt
          apply List.map_congr_left
          intro i hi
          rw [List.mem_range] at hi
          exact fs_write_data_outside _ _ _ (Or.inl (by rw [hpos]; omega))
        rw [this, ← he]
        exact fs_write_bytesAt h e
      have h2 := ih (fs_write h e) n hes (by omega)
      rw [hpos] at h2
      rw [h1, h2, List.cons_append, List.length_cons, Nat.succ_sub_succ]
      congr 2
      rw [readSlots_congr_from (fs_write h e) h (h.pos + DIR_ENTRY_SIZE)
        (fun x hx => fs_write_data_outside _ _ _ (Or.inr (by rw [he]; exact hx))) _ _ (by omega)]
      congr 1
      rw [Nat.mul_succ]
      omega

theorem groupSlots_count (env : Env) (iconv : List Nat → List Nat) :
    ∀ (pre pending : List (List Nat)),
      ((groupSlots env iconv pre pending).1.map (fun p => 1 + p.ldel.length)).sum
        + (groupSlots env iconv pre pending).2.length = pending.length + pre.length := by
  intro pre
  induction pre with
  | nil =>
    intro pending
    simp [groupSlots]
  | cons de rest ih =>
    intro pending
    by_cases hl : isLongSlot de = true
    · rw [groupSlots_long env iconv de rest pending hl, ih, List.length_append, List.length_singleton,
        List.length_cons]
      omega
    · rw [groupSlots_short env iconv de rest pending hl]
      have := ih []
      simp only [List.length_nil, Nat.zero_add] at this
      simp only [List.map_cons, List.sum_cons, List.length_cons]
      have hr : (recordOf env iconv pending de).ldel = pending := rfl
      rw [hr]
      omega

theorem groupSlots_isParsed (env : Env) (iconv : List Nat → List Nat) :
    ∀ (pre pending : List (List Nat)),
      (∀ e ∈ pre, isEntry e = true ∧ e.length = DIR_ENTRY_SIZE) →
      (∀ e ∈ pending, isEntry e = true ∧ isLongSlot e = true ∧ e.length = DIR_ENTRY_SIZE) →
      ∀ r ∈ (groupSlots env iconv pre pending).1, IsParsed env iconv r := by
  intro pre
  induction pre with
  | nil =>
    intro pending _ _ r hr
    simp [groupSlots] at hr
  | cons de rest ih =>
    intro pending hpre hpend r hr
    have hde := hpre de (List.mem_cons_self _ _)
    have hrest := fun e he => hpre e (List.mem_cons_of_mem _ he)
    by_cases hl : isLongSlot de = true
    · rw [groupSlots_long env iconv de rest pending hl] at hr
      refine ih (pending ++ [de]) hrest ?_ r hr
      intro e he
      rcases List.mem_append.mp he with h | h
      · exact hpend e h
      · rw [List.mem_singleton.mp h]
        exact ⟨hde.1, hl, hde.2⟩
    · rw [groupSlots_short env iconv de rest pending hl] at hr
      rcases List.mem_cons.mp hr with rfl | hr
      · exact ⟨rfl, hpend, hde.1, by simpa using hl, hde.2⟩
      · exact ih [] hrest (fun e he => absurd he (List.not_mem_nil _)) r hr

theorem entryBytes_of_length (e : List Nat) (h : e.length = DIR_ENTRY_SIZE) :
    entryBytes e = e := by
  unfold entryBytes
  apply List.ext_getElem
  · rw [List.length_map, List.length_range, h]
  · intro i h1 h2
    rw [List.getElem_map, List.getElem_range]
    unfold byteAt
    exact List.getD_eq_getElem _ _ h2

theorem groupSlots_frags (env : Env) (iconv : List Nat → List Nat) :
    ∀ (frags rest pending : List (List Nat)), (∀ e ∈ frags, isLongSlot e = true) →
      groupSlots env iconv (frags ++ rest) pending = groupSlots env iconv rest (pending ++ frags) := by
  intro frags
  induction frags with
  | nil =>
    intro rest pending _
    rw [List.nil_append, List.append_nil]
  | cons e frags ih =>
    intro rest pending h
    rw [List.cons_append, groupSlots_long env iconv e _ pending (h e (List.mem_cons_self _ _)),
      ih rest _ (fun x hx => h x (List.mem_cons_of_mem _ hx)), List.append_assoc]
    rfl

theorem listEntries_of_isParsed (env : Env) (iconv : List Nat → List Nat) (p : sDirEntryList)
    (list : List sDirEntryList) (hp : IsParsed env iconv p) :
    listEntries (p :: list) = p.ldel ++ (p.sde :: listEntries list) := by
  obtain ⟨_, h2, _, _, h5⟩ := hp
  have hmap : p.ldel.map entryBytes = p.ldel := by
    have : p.ldel.map entryBytes = p.ldel.map id :=
      List.map_congr_left (fun e he => entryBytes_of_length e (h2 e he).2.2)
    rw [this, List.map_id]
  rw [listEntries, hmap, entryBytes_of_length p.sde h5, List.append_assoc]
  rfl

/-- The entries of a list of parsed records group into these records again. -/
theorem groupSlots_listEntries (env : Env) (iconv : List Nat → List Nat) :
    ∀ (list : List sDirEntryList), (∀ r ∈ list, IsParsed env iconv r) →
      groupSlots env iconv (listEntries list) [] = (list, []) := by
  intro list
  induction list with
  | nil =>
    intro _
    rfl
  | cons p list ih =>
    intro h
    have hp := h p (List.mem_cons_self _ _)
    rw [listEntries_of_isParsed env iconv p list hp,
      groupSlots_frags env iconv p.ldel _ [] (fun e he => (hp.2.1 e he).2.1), List.nil_append,
      groupSlots_short env iconv p.sde _ p.ldel (by rw [hp.2.2.2.1]; simp),
      ih (fun r hr => h r (List.mem_cons_of_mem _ hr)), ← hp.1]

theorem listEntries_isEntry (env : Env) (iconv : List Nat → List Nat) :
    ∀ (list : List sDirEntryList), (∀ r ∈ list, IsParsed env iconv r) →
      ∀ e ∈ listEntries list, isEntry e = true := by
  intro list
  induction list with
  | nil =>
    intro _ e he
    exact absurd he (List.not_mem_nil _)
  | cons p list ih =>
    intro h e he
    have hp := h p (List.mem_cons_self _ _)
    rw [listEntries_of_isParsed env iconv p list hp] at he
    rcases List.mem_append.mp he with h1 | h1
    · exact (hp.2.1 e h1).1
    · rcases List.mem_cons.mp h1 with rfl | h1
      · exact hp.2.2.1
      · exact ih (fun r hr => h r (List.mem_cons_of_mem _ hr)) e h1

theorem bytesAt_length (f : File) (off n : Nat) : (bytesAt f off n).length = n := by
  unfold bytesAt
  rw [List.length_map, List.length_range]

theorem readSlots_entry_length (f : File) :
    ∀ (n off : Nat), ∀ e ∈ readSlots f off n, e.length = DIR_ENTRY_SIZE := by
  intro n
  induction n with
  | zero =>
    intro off e he
    exact absurd he (List.not_mem_nil _)
  | succ n ih =>
    intro off e he
    rw [readSlots] at he
    rcases List.mem_cons.mp he with rfl | he
    · exact bytesAt_length _ _ _
    · exact ih _ e he

/-- On slots without end mark the slot loop returns only with the code -1. -/
theorem scanSlots_ret_code (env : Env) (iconv : List Nat → List Nat) (o : Options) :
    ∀ (pre : List (List Nat)) (s s1 : Scan) (c : Int), (∀ de ∈ pre, isEntry de = true) →
      scanSlots env iconv o pre s = .ret c s1 → c = -1 := by
  intro pre
  induction pre with
  | nil =>
    intro s s1 c _ h
    cases h
  | cons de rest ih =>
    intro s s1 c hpre h
    have he := (isEntry_iff de).mp (hpre de (List.mem_cons_self _ _))
    rw [scanSlots] at h
    cases hs : scanSlot env iconv o s de with
    | cont s2 =>
      rw [hs] at h
      exact ih s2 s1 c (fun d hd => hpre d (List.mem_cons_of_mem _ hd)) h
    | ret c2 s2 =>
      rw [hs] at h
      simp only [ScanStep.ret.injEq] at h
      obtain ⟨rfl, _⟩ := h
      unfold scanSlot at hs
      simp only [] at hs
      rw [if_neg he] at hs
      by_cases hl : LDIR_Attr de &&& ATTR_LONG_NAME_MASK = ATTR_LONG_NAME
      · rw [if_pos hl] at hs
        cases hs
      · rw [if_neg hl] at hs
        split at hs
        · cases hs
        · split_ifs at hs
          · simp only [ScanStep.ret.injEq] at hs
            exact hs.1.symm
          · split at hs <;> cases hs
    | exit =>
      rw [hs] at h
      cases h

theorem insertDirEntryList_isSome (env : Env) (o : Options) (new : sDirEntryList) :
    ∀ (l : List sDirEntryList), (∀ b ∈ l, cmpEntries env o new b ≠ none) →
      ∃ l1, insertDirEntryList env o new l = some l1 := by
  intro l
  induction l with
  | nil =>
    intro _
    exact ⟨[new], rfl⟩
  | cons x rest ih =>
    intro h
    rw [insertDirEntryList]
    cases hc : cmpEntries env o new x with
    | none => exact absurd hc (h x (List.mem_cons_self _ _))
    | some c =>
      simp only []
      split_ifs
      · obtain ⟨l1, h1⟩ := ih (fun b hb => h b (List.mem_cons_of_mem _ hb))
        exact ⟨x :: l1, by rw [h1]; rfl⟩
      · exact ⟨_, rfl⟩

theorem insertAll_isSome (env : Env) (o : Options) :
    ∀ (recs l : List sDirEntryList),
      (∀ a ∈ recs, ∀ b ∈ recs ++ l, cmpEntries env o a b ≠ none) →
      ∃ l1, insertAll env o recs l = some l1 := by
  intro recs
  induction recs with
  | nil =>
    intro l _
    exact ⟨l, rfl⟩
  | cons r recs ih =>
    intro l h
    obtain ⟨l1, h1⟩ := insertDirEntryList_isSome env o r l
      (fun b hb => h r (List.mem_cons_self _ _) b
        (List.mem_append.mpr (Or.inr hb)))
    rw [insertAll, h1]
    simp only []
    apply ih
    intro a ha b hb
    apply h a (List.mem_cons_of_mem _ ha) b
    rcases List.mem_append.mp hb with hb | hb
    · exact List.mem_append.mpr (Or.inl (List.mem_cons_of_mem _ hb))
    · rcases (insertDirEntryList_mem env o r l l1 h1 b).mp hb with rfl | hb
      · exact List.mem_append.mpr (Or.inl (List.mem_cons_self _ _))
      · exact List.mem_append.mpr (Or.inr hb)

/-- What the return code 0 of a parse tells about the slots: no fragments are pending in front of
the end mark, every record has passed the check of its long entries, and the list is the result
of inserting the records in stream order. -/
theorem scanFinish_accepted (env : Env) (iconv : List Nat → List Nat) (o : Options)
    (stream : List (List Nat)) (s : Scan) (hlen : stream.length < 2 ^ 32)
    (h : scanFinish (scanSlots env iconv o stream scanInit) = .ret 0 s) :
    (groupSlots env iconv (stream.takeWhile isEntry) []).2 = [] ∧
    (∀ r ∈ (groupSlots env iconv (stream.takeWhile isEntry) []).1, checkLongDirEntries r = some 0) ∧
    insertAll env o (groupSlots env iconv (stream.takeWhile isEntry) []).1 [] = some s.list := by
  have hsplit : stream.takeWhile isEntry ++ stream.dropWhile isEntry = stream :=
    List.takeWhile_append_dropWhile _ _
  have hpl : (stream.takeWhile isEntry).length ≤ stream.length :=
    (List.takeWhile_sublist _).length_le
  have hent : ∀ de ∈ stream.takeWhile isEntry, isEntry de = true :=
    fun de hde => List.mem_takeWhile_imp hde
  have h1 : scanFinish (scanSlots env iconv o
      (stream.takeWhile isEntry ++ stream.dropWhile isEntry) scanInit) = .ret 0 s := by
    rw [hsplit]
    exact h
  rw [scanSlots_append] at h1
  cases hpre : scanSlots env iconv o (stream.takeWhile isEntry) scanInit with
  | cont s1 =>
    obtain ⟨hchk, hins⟩ := scanSlots_cont env iconv o (stream.takeWhile isEntry) scanInit s1
      hent rfl rfl (by show 0 + _ < _; omega) hpre
    have hrec := scanSlots_records env iconv o (stream.takeWhile isEntry) scanInit hent rfl rfl
      (by show 0 + _ < _; omega) (by show 0 + _ < _; omega) hchk s1.list hins
    rw [hpre] at hrec
    simp only [ScanStep.cont.injEq] at hrec
    have hll : s1.llist = (groupSlots env iconv (stream.takeWhile isEntry) []).2 := by
      rw [hrec]
      rfl
    rw [hpre] at h1
    simp only [] at h1
    have hfin : s1.llist = [] ∧ s.list = s1.list := by
      cases htail : stream.dropWhile isEntry with
      | nil =>
        rw [htail, scanSlots, scanFinish] at h1
        by_cases hp : s1.llist ≠ []
        · rw [if_pos hp] at h1
          simp at h1
        · rw [if_neg hp] at h1
          simp only [ScanStep.ret.injEq, true_and] at h1
          exact ⟨by simpa using hp, by rw [h1]⟩
      | cons t rest =>
        have ht : isEntry t = false := by
          have := List.head_dropWhile_not isEntry stream
            (by rw [htail]; exact List.cons_ne_nil _ _)
          simpa [htail] using this
        rw [htail, scanSlots, scanSlot_terminator env iconv o _ t ht] at h1
        simp only [scanFinish] at h1
        by_cases hp : s1.llist ≠ []
        · rw [if_pos hp] at h1
          simp at h1
        · rw [if_neg hp] at h1
          simp only [ScanStep.ret.injEq, true_and] at h1
          exact ⟨by simpa using hp, by rw [← h1]⟩
    refine ⟨by rw [← hll]; exact hfin.1, hchk, ?_⟩
    rw [hfin.2]
    exact hins
  | ret c s1 =>
    rw [hpre] at h1
    simp only [scanFinish, ScanStep.ret.injEq] at h1
    have := scanSlots_ret_code env iconv o _ scanInit s1 c hent hpre
    omega
  | exit =>
    rw [hpre] at h1
    simp [scanFinish] at h1

theorem drop_length_takeWhile {α : Type} (p : α → Bool) :
    ∀ (l : List α), l.drop (l.takeWhile p).length = l.dropWhile p := by
  intro l
  induction l with
  | nil => rfl
  | cons x l ih =>
    by_cases h : p x = true
    · rw [List.takeWhile_cons, if_pos h, List.dropWhile_cons, if_pos h, List.length_cons,
        List.drop_succ_cons, ih]
    · rw [List.takeWhile_cons, if_neg h, List.dropWhile_cons, if_neg h]
      rfl

theorem takeWhile_append_stop {α : Type} (p : α → Bool) :
    ∀ (a b : List α), (∀ e ∈ a, p e = true) → (∀ t ∈ b.head?, p t = false) →
      (a ++ b).takeWhile p = a := by
  intro a
  induction a with
  | nil =>
    intro b _ hb
    cases b with
    | nil => rfl
    | cons t b =>
      have := hb t (by simp)
      rw [List.nil_append, List.takeWhile_cons, if_neg (by simp [this])]
  | cons x a ih =>
    intro b ha hb
    rw [List.cons_append, List.takeWhile_cons, if_pos (ha x (List.mem_cons_self _ _)),
      ih b (fun e he => ha e (List.mem_cons_of_mem _ he)) hb]

theorem ParseStep.scan_of_code (r : ParseStep) (c : Int) (h : r.code = some c) :
    ∃ s, r.scan = .ret c s ∧ s.list = r.list := by
  cases r with
  | cont p => cases h
  | ret c1 p =>
    simp only [ParseStep.code, Option.some.injEq] at h
    subst h
    exact ⟨p.scan, rfl, rfl⟩
  | exit => cases h

/-! ## The chain of a successful walk -/

theorem ofInt32_toInt32 (n : Nat) (h : n < 2 ^ 32) : ofInt32 (toInt32 n) = n := by
  unfold ofInt32 toInt32
  rw [Nat.mod_eq_of_lt h]
  split_ifs <;> omega

/-- A value that `getFATEntry` returns on an image made of bytes has at most 28 bits. -/
theorem getFATEntry_lt (fs : sFileSystem) (f : File) (c v : Nat) (hf : f.IsBytes)
    (h : getFATEntry fs f c = some v) : v < 2 ^ 28 := by
  obtain ⟨h12, h16, h32⟩ := getFATEntry_range fs f c v hf h
  by_cases t32 : fs.FATType = FATTYPE_FAT32
  · exact h32 t32
  by_cases t16 : fs.FATType = FATTYPE_FAT16
  · have := h16 t16
    omega
  by_cases t12 : fs.FATType = FATTYPE_FAT12
  · have := h12 t12
    omega
  · unfold getFATEntry at h
    simp only [] at h
    rw [if_neg t32, if_neg t16, if_neg t12] at h
    cases h

/-- For a value of at most 28 bits the test of the walk for an unused cluster is
`isFreeCluster`, and it holds for the value 0 only. -/
theorem walkFree_eq (fs : sFileSystem) (v : Nat) (hv : v < 2 ^ 28) :
    walkFree fs v = isFreeCluster v ∧ (isFreeCluster v = true ↔ v = 0) := by
  have e : v &&& 0x0fffffff = v := by
    rw [and_mask28, Nat.mod_eq_of_lt hv]
  unfold walkFree isFreeCluster
  rw [e]
  refine ⟨by split_ifs <;> rfl, by simp⟩

theorem chain_getD (R : Nat → Nat → Prop) :
    ∀ (l : List Nat) (a : Nat), List.Chain R a l →
      ∀ k, k + 1 < (a :: l).length → R ((a :: l).getD k 0) ((a :: l).getD (k + 1) 0) := by
  intro l
  induction l with
  | nil =>
    intro a _ k hk
    simp at hk
  | cons b l ih =>
    intro a h k hk
    rw [List.chain_cons] at h
    cases k with
    | zero => exact h.1
    | succ k =>
      have := ih b h.2 k (by simpa using hk)
      simpa using this

/-- The chain of a successful walk: behind the clusters that were in the chain come the clusters
of the walk, each of which has the next one as its FAT entry, and none of which has a free
entry. -/
theorem getClusterChainLoop_walk (fs : sFileSystem) (f : File) (hf : f.IsBytes) :
    ∀ (fuel i : Nat) (cluster : Int) (chain : List Nat) (n : Nat) (chain1 : List Nat),
      getClusterChainLoop fs f fuel i cluster chain = some (n, chain1) →
      ∃ rest, chain1 = chain ++ ofInt32 cluster :: rest ∧ n = i + 1 + rest.length ∧
        List.Chain (fun a b => getFATEntry fs f a = some b) (ofInt32 cluster) rest ∧
        ∀ c ∈ ofInt32 cluster :: rest,
          ∃ v, getFATEntry fs f c = some v ∧ isFreeCluster v = false := by
  intro fuel
  induction fuel with
  | zero =>
    intro i cluster chain n chain1 h
    rw [getClusterChainLoop] at h
    cases h
  | succ fuel ih =>
    intro i cluster chain n chain1 h
    rw [getClusterChainLoop_succ] at h
    by_cases hi : i = fs.maxClusterChainLength
    · rw [if_pos hi] at h
      cases h
    rw [if_neg hi] at h
    by_cases hr : walkInRange fs cluster = false
    · rw [if_pos hr] at h
      cases h
    rw [if_neg hr] at h
    cases hd : getFATEntry fs f (ofInt32 cluster) with
    | none =>
      rw [hd] at h
      cases h
    | some data =>
      rw [hd] at h
      simp only [] at h
      have hlt := getFATEntry_lt fs f _ data hf hd
      by_cases hfree : walkFree fs data = true
      · rw [if_pos hfree] at h
        cases h
      rw [if_neg hfree] at h
      have hnf : isFreeCluster data = false := by
        rw [← (walkFree_eq fs data hlt).1]
        simpa using hfree
      by_cases hc : walkContinues fs data = true
      · rw [if_pos hc] at h
        obtain ⟨rest, h1, h2, h3, h4⟩ := ih _ _ _ _ _ h
        rw [ofInt32_toInt32 data (by omega)] at h1 h3 h4
        refine ⟨data :: rest, ?_, ?_, ?_, ?_⟩
        · rw [h1]
          simp [insertCluster]
        · rw [h2]
          simp only [List.length_cons]
          omega
        · exact List.Chain.cons hd h3
        · intro c hcm
          rcases List.mem_cons.mp hcm with rfl | hcm
          · exact ⟨data, hd, hnf⟩
          · exact h4 c hcm
      · rw [if_neg hc] at h
        simp only [Option.some.injEq, Prod.mk.injEq] at h
        obtain ⟨rfl, rfl⟩ := h
        refine ⟨[], rfl, rfl, List.Chain.nil, ?_⟩
        intro c hcm
        rw [List.mem_singleton.mp hcm]
        exact ⟨data, hd, hnf⟩

/-! ## The values that end a walk -/

/-- For a value of at most 28 bits the walk goes on unless the value is end-of-chain or, on
FAT32, 0x0ff8fff8. -/
theorem walkContinues_eq (fs : sFileSystem) (v : Nat) (hv : v < 2 ^ 28)
    (hty : fs.FATType = FATTYPE_FAT12 ∨ fs.FATType = FATTYPE_FAT16 ∨
      fs.FATType = FATTYPE_FAT32) :
    walkContinues fs v = false ↔
      (isEOC fs v = true ∨ (fs.FATType = FATTYPE_FAT32 ∧ v = 0x0ff8fff8)) := by
  have e : v &&& 0x0fffffff = v := by
    rw [and_mask28, Nat.mod_eq_of_lt hv]
  have e1 : ofInt32 (toInt32 v) = v := ofInt32_toInt32 v (by omega)
  have e2 : toInt32 v = (v : Int) := toInt32_of_lt v (by omega)
  have d1 : FATTYPE_FAT12 ≠ FATTYPE_FAT16 := by decide
  have d2 : FATTYPE_FAT12 ≠ FATTYPE_FAT32 := by decide
  have d3 : FATTYPE_FAT16 ≠ FATTYPE_FAT32 := by decide
  have d4 : FATTYPE_FAT16 ≠ FATTYPE_FAT12 := by decide
  rw [(cluster_classes_iff fs v).2.2]
  unfold walkContinues
  rw [e1, e2, e]
  rcases hty with h | h | h
  · rw [h, if_neg d2, if_pos rfl]
    simp only [decide_eq_false_iff_not, d1, d2, false_and, or_false, true_and]
    omega
  · rw [h, if_neg d3, if_neg d4]
    simp only [decide_eq_false_iff_not, d1.symm, d3, d4, false_and, or_false, true_and,
      false_or]
    omega
  · rw [h, if_pos rfl]
    simp only [decide_eq_false_iff_not, d2.symm, d3.symm, false_and, false_or, true_and]
    omega

/-- A walk that is to go on with a cluster number of at least `clusters + 2` returns -1. -/
theorem getClusterChainLoop_out_of_range (fs : sFileSystem) (f : File) (fuel i v : Nat)
    (chain : List Nat) (hv : v < 2 ^ 28) (h : fs.clusters + 2 ≤ (v : Int)) :
    getClusterChainLoop fs f fuel i (v : Int) chain = none := by
  cases fuel with
  | zero => rw [getClusterChainLoop]
  | succ fuel =>
    rw [getClusterChainLoop_succ]
    by_cases hi : i = fs.maxClusterChainLength
    · rw [if_pos hi]
    · rw [if_neg hi, if_pos]
      rw [walkInRange_of_small fs v (by omega) (by exact_mod_cast hv)]
      exact decide_eq_false (by omega)

/-! ## Metadata that does not fit into the volume -/

/-- When the metadata takes more sectors than the volume has and no sum wraps around, the
difference of `getCountOfClusters` wraps around: the function returns the quotient of
`2^32 - (metadata - total)` by the sectors per cluster as an `int32_t`, and -1 only when that
value is not positive. -/
theorem getCountOfClusters_of_no_room (bs : sBootSector) (hchk : check_bootsector bs = 0)
    (hroot : bs.BS_RootEntCnt < 65536) (htot : specTotalSectors bs < 2 ^ 32)
    (hmeta : (bs.BS_RsvdSecCnt : Int) + bs.BS_NumFATs * specFATSize bs + specRootDirSectors bs
      < 2 ^ 32)
    (hfit : specDataSectors bs < 0) :
    getCountOfClusters bs
      = if toInt32 ((2 ^ 32 + specDataSectors bs).toNat / bs.BS_SecPerClus) ≤ 0 then -1
        else toInt32 ((2 ^ 32 + specDataSectors bs).toNat / bs.BS_SecPerClus) := by
  obtain ⟨_, _, hb0, _, hs0, hle, _, _, _⟩ := (check_bootsector_eq_zero_iff bs).mp hchk
  have hbpos : 0 < bs.BS_BytesPerSec := Nat.pos_of_ne_zero hb0
  have hspos : 0 < bs.BS_SecPerClus := Nat.pos_of_ne_zero hs0
  have hB : bs.BS_BytesPerSec ≤ 65536 :=
    Nat.le_trans (Nat.le_mul_of_pos_left _ hspos) hle
  have hT : specTotalSectors bs
      = ((if bs.BS_TotSec16 ≠ 0 then bs.BS_TotSec16 else bs.BS_TotSec32 : Nat) : Int) := by
    unfold specTotalSectors
    split_ifs <;> rfl
  have hF : specFATSize bs
      = ((if bs.BS_FATSz16 ≠ 0 then bs.BS_FATSz16 else bs.BS_FATSz32 : Nat) : Int) := by
    unfold specFATSize
    split_ifs <;> rfl
  have hR : specRootDirSectors bs
      = (((bs.BS_RootEntCnt * 32 + (bs.BS_BytesPerSec - 1)) / bs.BS_BytesPerSec : Nat) : Int) := by
    unfold specRootDirSectors
    rw [← ceilDiv_natCast _ _ hbpos]
    push_cast
    rfl
  unfold specDataSectors at hfit ⊢
  rw [hT] at htot
  rw [hF, hR] at hmeta
  rw [hT, hF, hR] at hfit ⊢
  unfold getCountOfClusters DIR_ENTRY_SIZE
  dsimp only
  generalize (if bs.BS_TotSec16 ≠ 0 then bs.BS_TotSec16 else bs.BS_TotSec32) = T
    at htot hfit ⊢
  generalize (if bs.BS_FATSz16 ≠ 0 then bs.BS_FATSz16 else bs.BS_FATSz32) = F
    at hfit hmeta ⊢
  have e3 : ∀ n, n < 2 ^ 32 → u32 n = n := fun n hn => Nat.mod_eq_of_lt hn
  rw [e3 (bs.BS_RootEntCnt * 32 + (bs.BS_BytesPerSec - 1)) (by omega)]
  generalize (bs.BS_RootEntCnt * 32 + (bs.BS_BytesPerSec - 1)) / bs.BS_BytesPerSec = rds
    at hfit hmeta ⊢
  have hTn : T < 2 ^ 32 := by exact_mod_cast htot
  generalize hm : bs.BS_NumFATs * F = m
  have hmz : (bs.BS_NumFATs : Int) * (F : Int) = (m : Int) := by
    rw [← hm]
    push_cast
    rfl
  rw [hmz] at hfit hmeta ⊢
  have hM : bs.BS_RsvdSecCnt + m + rds < 2 ^ 32 := by
    have : ((bs.BS_RsvdSecCnt + m + rds : Nat) : Int) < 2 ^ 32 := by
      push_cast
      omega
    exact_mod_cast this
  have hov : T < bs.BS_RsvdSecCnt + m + rds := by
    have : (T : Int) < ((bs.BS_RsvdSecCnt + m + rds : Nat) : Int) := by
      push_cast
      omega
    exact_mod_cast this
  rw [e3 m (by omega), e3 (bs.BS_RsvdSecCnt + m) (by omega),
    e3 (bs.BS_RsvdSecCnt + m + rds) (by omega)]
  have hsub : sub32 T (bs.BS_RsvdSecCnt + m + rds)
      = (2 ^ 32 + ((T : Int) - ((bs.BS_RsvdSecCnt : Int) + (m : Int) + (rds : Int)))).toNat := by
    unfold sub32
    rw [Nat.mod_eq_of_lt hTn, Nat.mod_eq_of_lt hM]
    omega
  rw [hsub]

/-- With 32 or more sectors per cluster `getCountOfClusters` reports a failure for metadata
that does not fit only when less than one cluster is left of the wrapped difference. -/
theorem getCountOfClusters_large_clusters (bs : sBootSector) (hchk : check_bootsector bs = 0)
    (hroot : bs.BS_RootEntCnt < 65536) (htot : specTotalSectors bs < 2 ^ 32)
    (hmeta : (bs.BS_RsvdSecCnt : Int) + bs.BS_NumFATs * specFATSize bs + specRootDirSectors bs
      < 2 ^ 32)
    (hfit : specDataSectors bs < 0) (hspc : 32 ≤ bs.BS_SecPerClus)
    (hleft : (bs.BS_SecPerClus : Int) ≤ 2 ^ 32 + specDataSectors bs) :
    0 < getCountOfClusters bs ∧ getCountOfClusters bs ≤ 268435445 := by
  rw [getCountOfClusters_of_no_room bs hchk hroot htot hmeta hfit]
  have hq1 : (2 ^ 32 + specDataSectors bs).toNat / bs.BS_SecPerClus < 2 ^ 27 := by
    rw [Nat.div_lt_iff_lt_mul (by omega)]
    have : (2 ^ 32 + specDataSectors bs).toNat < 2 ^ 32 := by omega
    calc (2 ^ 32 + specDataSectors bs).toNat < 2 ^ 32 := this
      _ = 2 ^ 27 * 32 := by norm_num
      _ ≤ 2 ^ 27 * bs.BS_SecPerClus := Nat.mul_le_mul_left _ hspc
  have hq0 : 0 < (2 ^ 32 + specDataSectors bs).toNat / bs.BS_SecPerClus := by
    apply Nat.div_pos _ (by omega)
    omega
  rw [toInt32_of_lt _ (by omega)]
  generalize (2 ^ 32 + specDataSectors bs).toNat / bs.BS_SecPerClus = q at hq0 hq1
  rw [if_neg (by omega)]
  omega

/-! ## The records that a parse puts into the list -/

theorem ParseStep.list_scan (r : ParseStep) : r.scan.list = r.list := by
  cases r <;> rfl

theorem scanFinish_list (r : ScanStep) : (scanFinish r).list = r.list := by
  cases r with
  | cont s =>
    simp only [scanFinish]
    split_ifs <;> rfl
  | ret c s => rfl
  | exit => rfl

/-- A record of a slot sequence is a record of every longer sequence. -/
theorem recordIn_append (env : Env) (iconv : List Nat → List Nat) (a b : List (List Nat))
    (r : sDirEntryList) (h : RecordIn env iconv a r) : RecordIn env iconv (a ++ b) r := by
  obtain ⟨h1, pre, post, h2, h3⟩ := h
  refine ⟨h1, pre, post ++ b, ?_, h3⟩
  rw [h2]
  simp only [List.append_assoc]

/-- The records in the list of the slot loop are records of the slots that the loop has read:
`done` are the slots read so far and `rest` those to come. -/
theorem scanSlots_recordIn (env : Env) (iconv : List Nat → List Nat) (o : Options) :
    ∀ (rest done : List (List Nat)) (s : Scan),
      done.length + rest.length < 2 ^ 32 →
      s.entries = s.llist.length → s.lname = lnameOf iconv s.llist →
      (∃ pre, done = pre ++ s.llist ∧ ∀ e, pre.getLast? = some e → isLongSlot e = false) →
      (∀ e ∈ s.llist, isLongSlot e = true ∧ isEntry e = true) →
      (∀ r ∈ s.list, RecordIn env iconv done r) →
      ∀ r ∈ (scanSlots env iconv o rest s).list, RecordIn env iconv (done ++ rest) r := by
  intro rest
  induction rest with
  | nil =>
    intro done s _ _ _ _ _ hl r hr
    rw [List.append_nil]
    exact hl r hr
  | cons de rest ih =>
    intro done s hlen hent hname hpre hll hl r hr
    obtain ⟨pre, hdone, hlast⟩ := hpre
    have hllen : s.llist.length ≤ done.length := by
      rw [hdone, List.length_append]
      omega
    simp only [List.length_cons] at hlen
    have hsplit : done ++ de :: rest = (done ++ [de]) ++ rest := by simp
    rw [scanSlots] at hr
    by_cases he : isEntry de = true
    · by_cases hlong : isLongSlot de = true
      · rw [scanSlot_long env iconv o s de he hlong] at hr
        simp only [] at hr
        rw [hsplit]
        refine ih (done ++ [de]) _ ?_ ?_ ?_ ?_ ?_ ?_ r hr
        · simp only [List.length_append, List.length_singleton]
          omega
        · simp only [List.length_append, List.length_singleton]
          unfold u32
          rw [hent, Nat.mod_eq_of_lt (by omega)]
        · simp only []
          rw [lnameOf_append, hname]
        · exact ⟨pre, by simp only []; rw [hdone, List.append_assoc], hlast⟩
        · intro e hm
          simp only [] at hm
          rcases List.mem_append.mp hm with hm | hm
          · exact hll e hm
          · rw [List.mem_singleton.mp hm]
            exact ⟨hlong, he⟩
        · intro x hx
          exact recordIn_append env iconv done [de] x (hl x hx)
      · rw [scanSlot_short env iconv o s de he hlong hent hname (by omega)] at hr
        cases hc : checkLongDirEntries (recordOf env iconv s.llist de) with
        | none =>
          rw [hc] at hr
          cases hr
        | some chk =>
          rw [hc] at hr
          simp only [] at hr
          by_cases hchk : chk ≠ 0
          · rw [if_pos hchk] at hr
            exact recordIn_append env iconv done _ r (hl r hr)
          · rw [if_neg hchk] at hr
            cases hi : insertDirEntryList env o (recordOf env iconv s.llist de) s.list with
            | none =>
              rw [hi] at hr
              cases hr
            | some list1 =>
              rw [hi] at hr
              simp only [] at hr
              rw [hsplit]
              refine ih (done ++ [de]) _ ?_ rfl rfl ?_ ?_ ?_ r hr
              · simp only [List.length_append, List.length_singleton]
                omega
              · refine ⟨done ++ [de], by simp, ?_⟩
                intro e hlst
                rw [List.getLast?_append, List.getLast?_singleton] at hlst
                have hde : de = e := by
                  cases hg : done.getLast? <;> simpa [Option.or, hg] using hlst
                rw [← hde]
                simpa using hlong
              · intro e hm
                exact absurd hm (List.not_mem_nil _)
              · intro x hx
                rcases (insertDirEntryList_mem env o _ s.list list1 hi x).mp hx with rfl | hx
                · refine ⟨rfl, pre, [], ?_, hll, by simpa using hlong, he, hlast⟩
                  show done ++ [de] = pre ++ s.llist ++ [de] ++ []
                  rw [hdone, List.append_nil]
                · exact recordIn_append env iconv done [de] x (hl x hx)
    · rw [scanSlot_terminator env iconv o s de (by simpa using he)] at hr
      exact recordIn_append env iconv done _ r (hl r hr)

/-- Every record in the list of a parse of the slots `stream` is a record of `stream`. -/
theorem recordIn_of_scan (env : Env) (iconv : List Nat → List Nat) (o : Options)
    (stream : List (List Nat)) (p : ParseStep) (hlen : stream.length < 2 ^ 32)
    (h : p.scan = scanFinish (scanSlots env iconv o stream scanInit)) :
    ∀ r ∈ p.list, RecordIn env iconv stream r := by
  intro r hr
  rw [← ParseStep.list_scan, h, scanFinish_list] at hr
  have := scanSlots_recordIn env iconv o stream [] scanInit (by simpa using hlen) rfl rfl
    ⟨[], rfl, fun e he => by simp at he⟩ (fun e he => absurd he (List.not_mem_nil _))
    (fun x hx => absurd hx (List.not_mem_nil _)) r hr
  simpa using this

theorem chainSlots_length (fs : sFileSystem) (f : File) (chain : List Nat) :
    (chainSlots fs f chain).length = chain.length * fs.maxDirEntriesPerCluster := by
  induction chain with
  | nil => simp [chainSlots]
  | cons c chain ih =>
    rw [chainSlots, List.length_append, readSlots_length, ih, List.length_cons, Nat.succ_mul]
    omega

/-- On a volume that `openFileSystem` accepts, a chain of at most `maxClusterChainLength`
clusters has fewer than 2^32 slots. -/
theorem chain_slots_lt (bs : sBootSector) (fs : sFileSystem) (n : Nat)
    (hopen : openFileSystem bs = some fs) (hn : n ≤ fs.maxClusterChainLength) :
    n * fs.maxDirEntriesPerCluster < 2 ^ 32 := by
  obtain ⟨_, _, _, _, hm, hl, _⟩ := openFileSystem_geometry bs fs hopen
  rw [hm]
  rw [hl] at hn
  generalize bs.BS_SecPerClus * bs.BS_BytesPerSec = cs at hn ⊢
  have h1 : n * (cs / DIR_ENTRY_SIZE) ≤ n * cs := Nat.mul_le_mul_left _ (Nat.div_le_self _ _)
  have h2 : n * cs ≤ MAX_FILE_LEN / cs * cs := Nat.mul_le_mul_right _ hn
  have h3 : MAX_FILE_LEN / cs * cs ≤ MAX_FILE_LEN := Nat.div_mul_le_self _ _
  have h4 : MAX_FILE_LEN < 2 ^ 32 := by decide
  omega

/-! ## The long name of a record -/

theorem cstr_take (l : List Nat) (n : Nat) : cstr (l.take n) = (cstr l).take n := by
  unfold cstr
  induction l generalizing n with
  | nil => simp
  | cons a l ih =>
    cases n with
    | zero => simp
    | succ n =>
      rw [List.take_succ_cons, List.takeWhile_cons, List.takeWhile_cons]
      split_ifs
      · rw [List.take_succ_cons, ih]
      · rfl

theorem take_append_take (a b : List Nat) (n : Nat) :
    (a ++ b.take n).take n = (a ++ b).take n := by
  rw [List.take_append_eq_append_take, List.take_append_eq_append_take, List.take_take,
    Nat.min_eq_left (Nat.sub_le _ _)]

theorem take_take_append (a b : List Nat) (n : Nat) :
    (a.take n ++ b).take n = (a ++ b).take n := by
  rw [List.take_append_eq_append_take, List.take_append_eq_append_take, List.take_take,
    Nat.min_self, List.length_take]
  by_cases h : n ≤ a.length
  · rw [Nat.min_eq_left h, Nat.sub_self, Nat.sub_eq_zero_of_le h]
  · rw [Nat.min_eq_right (by omega)]

/-- The name in the buffer `lname` is the concatenation of the converted parts, the last
fragment first, cut to `MAX_PATH_LEN` bytes. -/
theorem lnameOf_eq (iconv : List Nat → List Nat) :
    ∀ (frags : List (List Nat)) (acc : List Nat),
      frags.foldl (fun acc de => (parseLongFilenamePart iconv de ++ acc).take MAX_PATH_LEN)
          (acc.take MAX_PATH_LEN)
        = ((frags.reverse.map (parseLongFilenamePart iconv)).flatten ++ acc).take
            MAX_PATH_LEN := by
  intro frags
  induction frags with
  | nil =>
    intro acc
    simp
  | cons de rest ih =>
    intro acc
    rw [List.foldl_cons, take_append_take, ih]
    simp [List.append_assoc]

/-- Cutting every part to `n` bytes does not change the first `n` bytes of the whole. -/
theorem take_flatten_map_take (D : List Nat → List Nat) (n : Nat) :
    ∀ l : List (List Nat),
      ((l.map (fun x => (D x).take n)).flatten).take n = ((l.map D).flatten).take n := by
  intro l
  induction l with
  | nil => rfl
  | cons x l ih =>
    simp only [List.map_cons, List.flatten_cons]
    rw [take_take_append, List.take_append_eq_append_take,
      @List.take_append_eq_append_take _ (D x) _ n]
    congr 1
    have h1 := congrArg (List.take (n - (D x).length)) ih
    rw [List.take_take, List.take_take, Nat.min_eq_left (Nat.sub_le _ _)] at h1
    exact h1

/-- The bytes that `parseLongFilenamePart` gathers are those of the specification, and when
`iconv` turns a thirteenth code unit 0x0000 into a NUL byte, the string of the part is the text
of the fragment as the specification states it, cut to `MAX_PATH_LEN` bytes. -/
theorem parseLongFilenamePart_eq (iconv : List Nat → List Nat) (hnul : ConvertsNul iconv)
    (f : List Nat) (hf : f.length = DIR_ENTRY_SIZE) :
    parseLongFilenamePart iconv f = (specDecode iconv f).take MAX_PATH_LEN := by
  have hlen : (utf16str f).length = 26 := by
    unfold utf16str
    simp only [List.length_append, List.length_take, List.length_drop]
    unfold DIR_ENTRY_SIZE at hf
    omega
  have hu : (f.drop 1).take 10 ++ (f.drop 14).take 12 ++ (f.drop 28).take 4 = utf16str f := rfl
  unfold parseLongFilenamePart specDecode specCodeUnits incount
  simp only []
  rw [cstr_take, hu]
  generalize utf16str f = u at hlen
  have h13 : List.range 13 = List.range 12 ++ [12] := by decide
  rw [h13, List.find?_append]
  cases h12 : (List.range 12).find?
      (fun i => byteAt u (2 * i) == 0 && byteAt u (2 * i + 1) == 0) with
  | some i =>
    have e : (List.range 12).find?
        (fun i => byteAt u (i * 2) == 0 && byteAt u (i * 2 + 1) == 0) = some i := by
      rw [← h12]
      congr 1
      funext j
      rw [Nat.mul_comm]
    rw [e]
    simp only [Option.or, Nat.mul_comm]
  | none =>
    have e : (List.range 12).find?
        (fun i => byteAt u (i * 2) == 0 && byteAt u (i * 2 + 1) == 0) = none := by
      rw [← h12]
      congr 1
      funext j
      rw [Nat.mul_comm]
    rw [e]
    simp only [Option.or]
    have ht : u.take 26 = u := List.take_of_length_le (by omega)
    rw [ht]
    by_cases hp : (byteAt u (2 * 12) == 0 && byteAt u (2 * 12 + 1) == 0) = true
    · have hfind : List.find? (fun i => byteAt u (2 * i) == 0 && byteAt u (2 * i + 1) == 0) [12]
          = some 12 := by
        rw [List.find?_cons]
        simp only [hp]
      rw [hfind]
      simp only []
      simp only [Bool.and_eq_true, beq_iff_eq] at hp
      have hsplit : u = u.take 24 ++ [0, 0] := by
        have h1 : u.drop 24 = [0, 0] := by
          rw [List.drop_eq_getElem_cons (by omega), List.drop_eq_getElem_cons (by omega),
            List.drop_of_length_le (by omega)]
          have a := hp.1
          have b := hp.2
          unfold byteAt at a b
          rw [List.getD_eq_getElem _ _ (by omega)] at a b
          simp only [Nat.reduceMul, Nat.reduceAdd] at a b
          rw [a, b]
        rw [← h1, List.take_append_drop]
      have := hnul (u.take 24) (by rw [List.length_take]; omega)
      rw [← hsplit] at this
      rw [this]
    · have hfind : List.find? (fun i => byteAt u (2 * i) == 0 && byteAt u (2 * i + 1) == 0) [12]
          = none := by
        have hp1 : (byteAt u (2 * 12) == 0 && byteAt u (2 * 12 + 1) == 0) = false := by
          simpa using hp
        rw [List.find?_cons]
        simp only [hp1, List.find?_nil]
      rw [hfind]

/-- The name in the buffer `lname` after the fragments `frags` of 32 bytes is the long name as
the specification states it. -/
theorem lnameOf_eq_spec (iconv : List Nat → List Nat) (hnul : ConvertsNul iconv)
    (frags : List (List Nat)) (hf : ∀ e ∈ frags, e.length = DIR_ENTRY_SIZE) :
    lnameOf iconv frags = specLongName iconv frags := by
  have h := lnameOf_eq iconv frags []
  rw [List.take_nil, List.append_nil] at h
  unfold lnameOf specLongName
  rw [h]
  have hmap : frags.reverse.map (parseLongFilenamePart iconv)
      = frags.reverse.map (fun x => (specDecode iconv x).take MAX_PATH_LEN) := by
    apply List.map_congr_left
    intro x hx
    exact parseLongFilenamePart_eq iconv hnul x (hf x (List.mem_reverse.mp hx))
  rw [hmap, take_flatten_map_take]

/-- The long name of a record of a parse: the long name as the specification states it when
that has fewer than `MAX_PATH_LEN` bytes, and otherwise its `MAX_PATH_LEN` bytes followed by
the bytes that memory holds behind them. -/
theorem lname_of_recordIn (env : Env) (iconv : List Nat → List Nat) (hnul : ConvertsNul iconv)
    (stream : List (List Nat)) (r : sDirEntryList)
    (hs : ∀ e ∈ stream, e.length = DIR_ENTRY_SIZE) (hr : RecordIn env iconv stream r) :
    r.lname = heldLname env (specLongName iconv r.ldel) ∧
    (((r.ldel.reverse.map (specDecode iconv)).flatten).length < MAX_PATH_LEN →
      r.lname = (r.ldel.reverse.map (specDecode iconv)).flatten) ∧
    (MAX_PATH_LEN ≤ ((r.ldel.reverse.map (specDecode iconv)).flatten).length →
      r.lname = specLongName iconv r.ldel ++ cstr env.lnameTail) := by
  obtain ⟨h1, pre, post, h2, _⟩ := hr
  have hf : ∀ e ∈ r.ldel, e.length = DIR_ENTRY_SIZE := by
    intro e he
    apply hs e
    rw [h2]
    simp only [List.mem_append]
    exact Or.inl (Or.inl (Or.inr he))
  have hl : r.lname = heldLname env (specLongName iconv r.ldel) := by
    have : r.lname = (recordOf env iconv r.ldel r.sde).lname := by rw [← h1]
    rw [this, ← lnameOf_eq_spec iconv hnul r.ldel hf]
    rfl
  refine ⟨hl, fun hlt => ?_, fun hge => ?_⟩
  · rw [hl]
    unfold heldLname specLongName
    rw [List.take_of_length_le (by omega), if_neg (by omega)]
  · rw [hl]
    unfold heldLname specLongName
    rw [if_pos (by rw [List.length_take]; omega)]

theorem cstr_append_zero (a : List Nat) : cstr (a ++ [0]) = cstr a := by
  unfold cstr
  induction a with
  | nil => simp
  | cons x a ih =>
    rw [List.cons_append, List.takeWhile_cons, List.takeWhile_cons]
    split_ifs
    · rw [ih]
    · rfl

/-- The converter that keeps the low bytes turns a thirteenth code unit 0x0000 into a NUL
byte. -/
theorem convertsNul_iconvLow : ConvertsNul iconvLow := by
  intro u hu
  unfold iconvLow
  have h1 : (u ++ [0, 0]).length / 2 = 12 + 1 := by
    rw [List.length_append, hu]
    rfl
  have h2 : u.length / 2 = 12 := by rw [hu]
  rw [h1, h2, List.range_succ, List.map_append]
  have h3 : (List.range 12).map (fun i => byteAt (u ++ [0, 0]) (2 * i))
      = (List.range 12).map (fun i => byteAt u (2 * i)) := by
    apply List.map_congr_left
    intro i hi
    have hi1 : i < 12 := List.mem_range.mp hi
    unfold byteAt
    rw [List.getD_eq_getElem _ _ (by rw [List.length_append, hu]; simp; omega),
      List.getD_eq_getElem _ _ (by omega), List.getElem_append_left]
  have h4 : byteAt (u ++ [0, 0]) (2 * 12) = 0 := by
    unfold byteAt
    rw [List.getD_eq_getElem _ _ (by rw [List.length_append, hu]; simp),
      List.getElem_append_right (by omega)]
    simp [hu]
  rw [h3]
  simp only [List.map_cons, List.map_nil, h4]
  exact cstr_append_zero _

/-! ## The subdirectories that the driver descends into -/

set_option maxRecDepth 1000000 in
theorem attr_bits (a : Nat) (h : a < 256) :
    ((a &&& ATTR_DIRECTORY != 0) = true ↔ a / 16 % 2 = 1) ∧
    ((a &&& ATTR_VOLUME_ID == 0) = true ↔ a / 8 % 2 = 0) := by
  revert a
  unfold ATTR_DIRECTORY ATTR_VOLUME_ID
  decide

/-- The test of `sortSubdirectories` is that of the specification. -/
theorem isSubdirectory_iff (p : sDirEntryList) (hb : IsBytes p.sde) :
    isSubdirectory p = true ↔ specLiveSubdirectory p := by
  have ha : DIR_Atrr p.sde < 256 := byteAt_lt p.sde hb 11
  obtain ⟨h1, h2⟩ := attr_bits (DIR_Atrr p.sde) ha
  unfold isSubdirectory specLiveSubdirectory
  simp only [Bool.and_eq_true, h1, h2, bne_iff_ne, ne_eq, and_assoc]
  have hd : DE_FREE = 0xe5 := rfl
  rw [hd]
  constructor
  · rintro ⟨a, b, c, d, e⟩
    exact ⟨a, c, b, d, e⟩
  · rintro ⟨a, b, c, d, e⟩
    exact ⟨a, c, b, d, e⟩

/-- The loop of `sortSubdirectories` passes over the records that fail its test. -/
theorem sortSubdirectoriesLoop_filter (fs : sFileSystem)
    (sortDir : Nat → List Nat → SortState → Run) (path : List Nat) :
    ∀ (list : List sDirEntryList) (newpath : List Nat) (s : SortState),
      sortSubdirectoriesLoop fs sortDir path list newpath s
        = sortSubdirectoriesLoop fs sortDir path (list.filter isSubdirectory) newpath s := by
  intro list
  induction list with
  | nil =>
    intro newpath s
    rfl
  | cons p rest ih =>
    intro newpath s
    by_cases hp : isSubdirectory p = true
    · rw [List.filter_cons_of_pos hp, sortSubdirectoriesLoop, sortSubdirectoriesLoop]
      simp only [if_pos hp]
      cases getFATEntry fs s.f
          (u32 (DIR_FstClusHI p.sde * 65536 + DIR_FstClusLO p.sde)) with
      | none => rfl
      | some v =>
        simp only []
        cases (sortDir (u32 (DIR_FstClusHI p.sde * 65536 + DIR_FstClusLO p.sde))
            (cstr (nextPath newpath path p)) s).out with
        | ret code =>
          simp only []
          by_cases hc : code = -1
          · rw [if_pos hc, if_pos hc]
          · rw [if_neg hc, if_neg hc]
            exact ih _ _
        | exit => rfl
        | deep => rfl
    · rw [List.filter_cons_of_neg hp, sortSubdirectoriesLoop]
      simp only [if_neg hp]
      exact ih _ _

/-- The start cluster that `sortSubdirectories` computes from a short entry made of bytes. -/
theorem startCluster_eq (sde : List Nat) (hb : IsBytes sde) :
    u32 (DIR_FstClusHI sde * 65536 + DIR_FstClusLO sde)
      = DIR_FstClusHI sde * 65536 + DIR_FstClusLO sde := by
  have h1 : DIR_FstClusHI sde < 65536 := le16_lt sde hb 20
  have h2 : DIR_FstClusLO sde < 65536 := le16_lt sde hb 26
  unfold u32
  rw [Nat.mod_eq_of_lt (by omega)]

/-- The step of the loop of `sortSubdirectories` at a record that passes the test and whose FAT
entry is readable. -/
theorem sortSubdirectoriesLoop_descend (fs : sFileSystem)
    (sortDir : Nat → List Nat → SortState → Run) (path : List Nat) (p : sDirEntryList)
    (rest : List sDirEntryList) (newpath : List Nat) (s : SortState)
    (hp : isSubdirectory p = true) (hb : IsBytes p.sde)
    (hfat : (getFATEntry fs s.f (DIR_FstClusHI p.sde * 65536 + DIR_FstClusLO p.sde)).isSome
      = true) :
    sortSubdirectoriesLoop fs sortDir path (p :: rest) newpath s
      = match (sortDir (DIR_FstClusHI p.sde * 65536 + DIR_FstClusLO p.sde)
            (cstr (nextPath newpath path p)) s).out with
        | .ret code =>
          if code = -1 then
            { out := .ret (-1),
              s := (sortDir (DIR_FstClusHI p.sde * 65536 + DIR_FstClusLO p.sde)
                (cstr (nextPath newpath path p)) s).s }
          else
            sortSubdirectoriesLoop fs sortDir path rest (nextPath newpath path p)
              (sortDir (DIR_FstClusHI p.sde * 65536 + DIR_FstClusLO p.sde)
                (cstr (nextPath newpath path p)) s).s
        | _ => sortDir (DIR_FstClusHI p.sde * 65536 + DIR_FstClusLO p.sde)
            (cstr (nextPath newpath path p)) s := by
  rw [sortSubdirectoriesLoop]
  simp only [if_pos hp]
  rw [startCluster_eq p.sde hb]
  cases hg : getFATEntry fs s.f (DIR_FstClusHI p.sde * 65536 + DIR_FstClusLO p.sde) with
  | none =>
    rw [hg] at hfat
    cases hfat
  | some v => rfl

/-! ## The path of a subdirectory -/

theorem take_length_cstr (l : List Nat) : l.take (cstr l).length = cstr l := by
  unfold cstr
  induction l with
  | nil => rfl
  | cons a l ih =>
    rw [List.takeWhile_cons]
    split_ifs
    · rw [List.length_cons, List.take_succ_cons, ih]
    · rfl

/-- A buffer that holds the string `s` and a NUL behind it still holds `s` after a NUL has been
stored at an index that is not inside `s`. -/
theorem cstr_set_zero (s t : List Nat) (k : Nat) (hs : IsCStr s) (hk : s.length ≤ k) :
    cstr ((s ++ 0 :: t).set k 0) = s := by
  have e : (s ++ 0 :: t).set k 0 = s ++ (0 :: t).set (k - s.length) 0 := by
    rw [List.set_append, if_neg (by omega)]
  rw [e]
  apply cstr_append_of_isCStr s _ hs
  cases h : k - s.length with
  | zero => rfl
  | succ j => rfl

/-- The string in the buffer after `strncpy` of a string that is shorter than the bound,
followed by the store of a NUL at index `k`. -/
theorem cstr_strncpy (dst src : List Nat) (n k : Nat) (hs : IsCStr src)
    (hn : src.length < n) (hk : src.length ≤ k) :
    cstr ((strncpy dst src n).set k 0) = src := by
  unfold strncpy
  simp only []
  rw [cstr_of_isCStr src hs, List.take_of_length_le (by omega)]
  obtain ⟨j, hj⟩ : ∃ j, n - src.length = j + 1 := ⟨n - src.length - 1, by omega⟩
  rw [hj, List.replicate_succ, List.append_assoc, List.cons_append]
  exact cstr_set_zero src _ k hs hk

/-- The string in the buffer after `strncat` of a string that is not longer than the bound,
followed by the store of a NUL at index `k`. -/
theorem cstr_strncat (dst src : List Nat) (n k : Nat) (hs : IsCStr src)
    (hn : src.length ≤ n) (hk : (cstr dst).length + src.length ≤ k) :
    cstr ((strncat dst src n).set k 0) = cstr dst ++ src := by
  unfold strncat
  simp only []
  rw [cstr_of_isCStr src hs, List.take_of_length_le hn, take_length_cstr]
  have hd : IsCStr (cstr dst ++ src) := by
    intro c hc
    rcases List.mem_append.mp hc with h | h
    · have := List.mem_takeWhile_imp h
      simpa using this
    · exact hs c h
  have e : cstr dst ++ src ++ [0] ++ dst.drop ((cstr dst).length + src.length + 1)
      = (cstr dst ++ src) ++ 0 :: dst.drop ((cstr dst).length + src.length + 1) := by
    simp
  rw [e]
  exact cstr_set_zero _ _ k hd (by rw [List.length_append]; exact hk)

/-- The path that `sortSubdirectories` puts together for a subdirectory is `path`, the display
name and "/" when these fit into `MAX_PATH_LEN` bytes and the string that the buffer `newpath`
holds from the subdirectories before leaves room for `path` and a NUL in the bound of
`strncpy`. For the first subdirectory the buffer holds the empty string. -/
theorem nextPath_eq (newpath path : List Nat) (p : sDirEntryList) (hpath : IsCStr path)
    (hname : IsCStr (displayName p))
    (hfit : path.length + (displayName p).length + 1 ≤ MAX_PATH_LEN)
    (hroom : (cstr newpath).length + path.length < MAX_PATH_LEN) :
    cstr (nextPath newpath path p) = path ++ displayName p ++ str "/" := by
  have h1 : cstr ((strncpy newpath path (MAX_PATH_LEN - (cstr newpath).length)).set
      MAX_PATH_LEN 0) = path :=
    cstr_strncpy newpath path _ _ hpath (by omega) (by omega)
  have hnm : (if p.lname ≠ [] then p.lname else p.sname) = displayName p := rfl
  unfold nextPath
  simp only []
  rw [hnm]
  generalize (strncpy newpath path (MAX_PATH_LEN - (cstr newpath).length)).set
    MAX_PATH_LEN 0 = b1 at h1
  have h2 : cstr ((strncat b1 (displayName p) (MAX_PATH_LEN - (cstr b1).length)).set
      MAX_PATH_LEN 0) = path ++ displayName p := by
    rw [cstr_strncat b1 _ _ _ hname (by rw [h1]; omega) (by rw [h1]; omega), h1]
  generalize (strncat b1 (displayName p) (MAX_PATH_LEN - (cstr b1).length)).set
    MAX_PATH_LEN 0 = b2 at h2
  have hslash : IsCStr (str "/") := by
    intro c hc
    have : c = 47 := by simpa [str] using hc
    omega
  rw [cstr_strncat b2 _ _ _ hslash
    (by rw [h2, List.length_append]; show 1 ≤ _; omega)
    (by rw [h2, List.length_append]; show _ + _ + 1 ≤ _; omega), h2]

/-! ## The claims -/

set_option maxRecDepth 1000000 in
/-- C1 (fails on the code): on a FAT12 volume with three FAT copies where copies 0 and 1 agree
and copy 2 differs, `checkFATs` returns 0, because every iteration reads the copy at
`BSOffset + FATSizeInBytes`. -/
theorem checkFATs_misses_third_copy :
    openFileSystem bsThreeFATs = some fsThreeFATs ∧
    readFAT fsThreeFATs imgThirdFATDiffers 1 = readFAT fsThreeFATs imgThirdFATDiffers 0 ∧
    readFAT fsThreeFATs imgThirdFATDiffers 2 ≠ readFAT fsThreeFATs imgThirdFATDiffers 0 ∧
    (readFAT fsThreeFATs imgThirdFATDiffers 2).isSome = true ∧
    checkFATs fsThreeFATs imgThirdFATDiffers = 0 := by
  decide

set_option maxRecDepth 1000000 in
/-- C2 (fails on the code): the directory `imgLongRecord` parses into the list A, B; after
`writeClusterChain` has written that list back to the chain 2, 9, 4, `parseClusterChain` on the
same chain returns -1. -/
theorem closure_fails_on_long_record :
    openFileSystem bsSmall = some fsSmall ∧
    checkFATs fsSmall imgLongRecord = 0 ∧
    getClusterChain fsSmall imgLongRecord 2 = some (3, [2, 9, 4]) ∧
    (parseClusterChain envPlain iconvLow optsAscii fsSmall imgLongRecord [2, 9, 4]).code = some 0 ∧
    listLongRecord.map (fun r => (r.sname, r.entries)) = [(str "A", 12), (str "B", 21)] ∧
    (writeClusterChain fsSmall listLongRecord [2, 9, 4] imgLongRecord).map
      (fun f => (parseClusterChain envPlain iconvLow optsAscii fsSmall f [2, 9, 4]).code)
      = some (some (-1)) := by
  decide

set_option maxRecDepth 1000000 in
/-- C3 (fails on the code): writing the parsed list A, B of `imgLongRecord` to its chain
2, 9, 4 stores the short entry of B at offset 6656, the first byte of cluster 10, which is not
a cluster of the chain. -/
theorem write_leaves_chain_on_long_record :
    openFileSystem bsSmall = some fsSmall ∧
    getClusterChain fsSmall imgLongRecord 2 = some (3, [2, 9, 4]) ∧
    (parseClusterChain envPlain iconvLow optsAscii fsSmall imgLongRecord [2, 9, 4]).code = some 0 ∧
    listLongRecord.map (fun r => (r.sname, r.entries)) = [(str "A", 12), (str "B", 21)] ∧
    [2, 9, 4].map (getClusterOffset fsSmall) = [2560, 6144, 3584] ∧
    getClusterOffset fsSmall 10 = 6656 ∧
    imgLongRecord.data 6656 = 0 ∧
    (writeClusterChain fsSmall listLongRecord [2, 9, 4] imgLongRecord).map
      (fun f => bytesAt f 6656 12) = some (str "B          " ++ [ATTR_ARCHIVE]) := by
  decide

set_option maxRecDepth 1000000 in
/-- C4 (fails on the code): `openFileSystem` accepts `bsWrap`, for which the data region starts
at sector 0; sorting its root directory (cluster 3, at offset 512) writes below
`(reserved + NumFATs * FATSize) * sectorSize` and changes the FAT entry of cluster 3 from
end-of-chain to 0. -/
theorem fat_overwritten_on_wrapped_volume :
    openFileSystem bsWrap = some fsWrap ∧
    getFATEntry fsWrap imgWrap 3 = some 0x0ffffff8 ∧
    checkFATs fsWrap imgWrap = 0 ∧
    getClusterChain fsWrap imgWrap bsWrap.BS_RootClus = some (1, [3]) ∧
    (parseClusterChain envPlain iconvLow optsAscii fsWrap imgWrap [3]).code = some 0 ∧
    (parseClusterChain envPlain iconvLow optsAscii fsWrap imgWrap [3]).list
      = [mkFile (str "A"), { mkFile (str "B") with sde := sdeWrapB }] ∧
    getClusterOffset fsWrap 3
      < (bsWrap.BS_RsvdSecCnt + bsWrap.BS_NumFATs * fsWrap.FATSize) * fsWrap.sectorSize ∧
    (writeClusterChain fsWrap
        (parseClusterChain envPlain iconvLow optsAscii fsWrap imgWrap [3]).list [3] imgWrap).map
      (fun f => getFATEntry fsWrap f 3) = some (some 0) := by
  decide

/-- C5 (amended): in the list that either parse function builds with `insertDirEntryList`, for
every option setting, two adjacent records `a`, `b` satisfy `cmpEntries(a, b) < 0` or
`cmpEntries(b, a) >= 0`; and outside list, random, natural and ignore-case mode
`cmpEntries(a, b) <= 0` unless both are deleted entries. -/
theorem adjacent_records_as_inserted (env : Env) (iconv : List Nat → List Nat) (o : Options)
    (fs : sFileSystem) (f : File) (chain : List Nat) :
    AdjacentOrdered env o (parseClusterChain env iconv o fs f chain).list ∧
    AdjacentOrdered env o (parseFAT1xRootDirEntries env iconv o fs f).list := by
  constructor
  · apply adjacentOrdered_of_chain
    exact parseClusterChain_invariant env iconv o fs _ List.chain'_nil
      (fun new l l1 hl h => insertDirEntryList_chain env o new l l1 hl h) f chain
  · apply adjacentOrdered_of_chain
    exact parseFAT1xRootDirEntries_invariant env iconv o fs _ List.chain'_nil
      (fun new l l1 hl h => insertDirEntryList_chain env o new l l1 hl h) f

set_option maxRecDepth 1000000 in
/-- C5 (counterexample): a directory with two deleted entries parses into a list in which the
two are adjacent, and `cmpEntries` of the first and the second is 1. -/
theorem two_deleted_entries_compare_positive :
    getClusterChain fsSmall imgTwoDeleted 2 = some (1, [2]) ∧
    (parseClusterChain envPlain iconvLow optsAscii fsSmall imgTwoDeleted [2]).code = some 0 ∧
    (parseClusterChain envPlain iconvLow optsAscii fsSmall imgTwoDeleted [2]).list
      = [mkRecord sdeDeletedA, mkRecord sdeDeletedB] ∧
    cmpEntries envPlain optsAscii (mkRecord sdeDeletedA) (mkRecord sdeDeletedB) = some 1 := by
  decide

/-- C6 (amended): in the list that either parse function builds, and in every list that
`randomizeDirEntryList` makes of it, a volume label, if there is one, is at index 0; when
there is no volume label, a "." record, if there is one, is at index 0; and when there is no
volume label and exactly one "." record, a ".." record, if there is one, is at index 1. -/
theorem special_entries_lead (env : Env) (iconv : List Nat → List Nat) (o : Options)
    (fs : sFileSystem) (f : File) (chain : List Nat) :
    SpecialLead (parseClusterChain env iconv o fs f chain).list ∧
    SpecialLead (parseFAT1xRootDirEntries env iconv o fs f).list ∧
    (∀ irand n l, randomizeDirEntryList irand
        (parseClusterChain env iconv o fs f chain).list n = some l → SpecialLead l) ∧
    (∀ irand n l, randomizeDirEntryList irand
        (parseFAT1xRootDirEntries env iconv o fs f).list n = some l → SpecialLead l) := by
  have h1 : RankSorted (parseClusterChain env iconv o fs f chain).list :=
    parseClusterChain_invariant env iconv o fs RankSorted List.Pairwise.nil
      (fun new l l1 hl h => insertDirEntryList_rankSorted env o new l l1 hl h) f chain
  have h2 : RankSorted (parseFAT1xRootDirEntries env iconv o fs f).list :=
    parseFAT1xRootDirEntries_invariant env iconv o fs RankSorted List.Pairwise.nil
      (fun new l l1 hl h => insertDirEntryList_rankSorted env o new l l1 hl h) f
  refine ⟨h1.specialFirst.lead, h2.specialFirst.lead, ?_, ?_⟩
  · intro irand n l hl
    exact (randomizeDirEntryList_specialFirst irand _ l n h1.specialFirst hl).lead
  · intro irand n l hl
    exact (randomizeDirEntryList_specialFirst irand _ l n h2.specialFirst hl).lead

set_option maxRecDepth 1000000 in
/-- C6 (counterexample): a directory that holds ".", ".." and a volume label parses into a
list with the volume label at index 0, "." at index 1 and ".." at index 2. -/
theorem dot_behind_volume_label :
    getClusterChain fsSmall imgLabelAndDots 2 = some (1, [2]) ∧
    (parseClusterChain envPlain iconvLow optsAscii fsSmall imgLabelAndDots [2]).code = some 0 ∧
    (parseClusterChain envPlain iconvLow optsAscii fsSmall imgLabelAndDots [2]).list.map
      (fun r => r.sname) = [str "LABEL", str ".", str ".."] := by
  decide

/-- C7: when every pick of iteration `i` is at most `n - 1 - i`, `randomizeDirEntryList` on a
list of `n` records dereferences no null link, leaves the leading run of volume labels, "."
and ".." where it is, and leaves behind it a permutation of the other records. -/
theorem randomizeDirEntryList_permutes_rest (irand : Nat → Nat) (list : List sDirEntryList)
    (hpick : ∀ i, (list.takeWhile isSkipped).length ≤ i → i < list.length →
      irand i ≤ list.length - 1 - i) :
    ∃ l1, randomizeDirEntryList irand list list.length = some l1 ∧
      l1.length = list.length ∧
      l1.take (list.takeWhile isSkipped).length = list.takeWhile isSkipped ∧
      (l1.drop (list.takeWhile isSkipped).length).Perm (list.dropWhile isSkipped) ∧
      l1.Perm list := by
  have hsplit : list.takeWhile isSkipped ++ list.dropWhile isSkipped = list :=
    List.takeWhile_append_dropWhile _ _
  have hlen : (list.dropWhile isSkipped).length
      = list.length - (list.takeWhile isSkipped).length := by
    have := congrArg List.length hsplit
    simp only [List.length_append] at this
    omega
  obtain ⟨l1, hl1⟩ := randomizeLoop_isSome irand
    (list.length - (list.takeWhile isSkipped).length) (list.takeWhile isSkipped).length
    (list.takeWhile isSkipped) (list.dropWhile isSkipped) hlen
    (fun j h1 h2 => by
      have := hpick j h1 (by omega)
      omega)
  obtain ⟨r, hr, hp⟩ := randomizeLoop_perm irand _ _ _ _ _ hl1
  refine ⟨l1, hl1, ?_, ?_, ?_, ?_⟩
  · rw [hr, List.length_append, hp.length_eq, ← List.length_append, hsplit]
  · rw [hr, List.take_left']
    rfl
  · rw [hr, List.drop_left']
    · exact hp
    · rfl
  · rw [hr]
    exact (List.Perm.append_left _ hp).trans (List.Perm.of_eq hsplit)

set_option maxRecDepth 1000000 in
/-- C7 (witness): for ".", ".." and five files, with the picks 4, 3, 2, 1, 0, the two dot
entries stay in front and the five files come out in reverse order. -/
theorem randomizeDirEntryList_permutes_rest_witness :
    (∀ i, (listDotsAndFive.takeWhile isSkipped).length ≤ i → i < listDotsAndFive.length →
      picksLast i ≤ listDotsAndFive.length - 1 - i) ∧
    (∃ l1, randomizeDirEntryList picksLast listDotsAndFive listDotsAndFive.length = some l1 ∧
      l1.length = listDotsAndFive.length ∧
      l1.take (listDotsAndFive.takeWhile isSkipped).length
        = listDotsAndFive.takeWhile isSkipped ∧
      (l1.drop (listDotsAndFive.takeWhile isSkipped).length).Perm
        (listDotsAndFive.dropWhile isSkipped) ∧
      l1.Perm listDotsAndFive) ∧
    (randomizeDirEntryList picksLast listDotsAndFive 7).map (fun l => l.map (fun r => r.sname))
      = some [str ".", str "..", str "F5", str "F4", str "F3", str "F2", str "F1"] :=
  ⟨fun i _ _ => by unfold picksLast; simp [listDotsAndFive],
   randomizeDirEntryList_permutes_rest picksLast listDotsAndFive
     (fun i _ _ => by unfold picksLast; simp [listDotsAndFive]),
   by decide⟩

/-- C8 (fails on the code): with ASCII order and ignore-case, when `scase1` still holds "xyz",
`cmpEntries` puts "ab" after "abc" although "ab" is a proper prefix of "abc". -/
theorem cmpEntries_ignore_case_reads_stale_bytes :
    cmpEntries envStale optsAsciiNoCase (mkFile (str "ab")) (mkFile (str "abc")) = some 23 ∧
    strcmp ((str "ab").map tolower) ((str "abc").map tolower) < 0 := by
  decide

/-- C9: with directories first, the reverse flag, no list, random or time mode and a name
comparison that follows byte order, in the list that either parse function builds every live
directory is in front of every live file, and the display names of the live directories and
of the live files descend; the four records of the scenario come out as dirX, dirA,
file2.txt, file1.txt; and the reverse flag does not change what `cmpEntries` returns for a
directory and a file when the order option is "directories first" or "files first". -/
theorem dirs_first_names_descending (env : Env) (iconv : List Nat → List Nat) (o : Options)
    (fs : sFileSystem) (f : File) (chain : List Nat)
    (hlist : o.OPT_LIST = false) (hrand : o.OPT_RANDOM = false)
    (hmod : o.OPT_MODIFICATION = false) (horder : o.OPT_ORDER = 0)
    (hrev : o.OPT_REVERSE = -1) (hbyte : ByteOrderMode env o) :
    DirsFirstDescending (parseClusterChain env iconv o fs f chain).list ∧
    DirsFirstDescending (parseFAT1xRootDirEntries env iconv o fs f).list ∧
    insertAll envPlain optsDirsFirstReverse [recDirX, recFile1, recDirA, recFile2] []
      = some [recDirX, recDirA, recFile2, recFile1] ∧
    (∀ (o1 : Options) (r : Int) (a b : sDirEntryList),
      o1.OPT_ORDER = 0 ∨ o1.OPT_ORDER = 1 → isDirectory a ≠ isDirectory b →
      cmpEntries env { o1 with OPT_REVERSE := r } a b = cmpEntries env o1 a b) := by
  have hins : ∀ new l l1, l.Pairwise DirsFirstRevLe →
      insertDirEntryList env o new l = some l1 → l1.Pairwise DirsFirstRevLe :=
    fun new l l1 hl h =>
      insertDirEntryList_pairwise env o DirsFirstRevLe
        (fun _ _ _ h1 h2 => DirsFirstRevLe.trans h1 h2)
        (fun a b c => cmpEntries_pass_dirsFirst env o hlist hrand hmod horder hrev hbyte a b c)
        (fun a b c => cmpEntries_stop_dirsFirst env o hlist hrand hmod horder hrev hbyte a b c)
        new l l1 hl h
  refine ⟨?_, ?_, by decide, ?_⟩
  · exact dirsFirstDescending_of_pairwise _
      (parseClusterChain_invariant env iconv o fs _ List.Pairwise.nil hins f chain)
  · exact dirsFirstDescending_of_pairwise _
      (parseFAT1xRootDirEntries_invariant env iconv o fs _ List.Pairwise.nil hins f)
  · intro o1 r a b h1 h2
    exact cmpEntries_reverse_irrelevant env o1 r a b h1 h2

set_option maxRecDepth 1000000 in
/-- C9 (witness): the options of `fatsort -a -o d -r` on a directory with the entries DIRX,
FILE1.TXT, DIRA, FILE2.TXT; the parsed list is DIRX, DIRA, FILE2.TXT, FILE1.TXT. -/
theorem dirs_first_names_descending_witness :
    (optsDirsFirstReverse.OPT_LIST = false ∧ optsDirsFirstReverse.OPT_RANDOM = false ∧
      optsDirsFirstReverse.OPT_MODIFICATION = false ∧ optsDirsFirstReverse.OPT_ORDER = 0 ∧
      optsDirsFirstReverse.OPT_REVERSE = -1 ∧ ByteOrderMode envPlain optsDirsFirstReverse) ∧
    DirsFirstDescending
      (parseClusterChain envPlain iconvLow optsDirsFirstReverse fsSmall imgDirsAndFiles [2]).list ∧
    (parseClusterChain envPlain iconvLow optsDirsFirstReverse fsSmall imgDirsAndFiles [2]).list.map
      (fun r => r.sname) = [str "DIRX", str "DIRA", str "FILE2.TXT", str "FILE1.TXT"] :=
  ⟨⟨rfl, rfl, rfl, rfl, rfl, byteOrderMode_of_ascii envPlain optsDirsFirstReverse rfl rfl rfl rfl⟩,
   (dirs_first_names_descending envPlain iconvLow optsDirsFirstReverse fsSmall imgDirsAndFiles
      [2] rfl rfl rfl rfl rfl
      (byteOrderMode_of_ascii envPlain optsDirsFirstReverse rfl rfl rfl rfl)).1,
   by decide⟩

/-- C10: for a prefix list of C strings, `stripSpecialPrefixes` returns 1 exactly when some
prefix matches the start of `old` with letter case ignored, and then `new` is `old` without
its first `len(p)` bytes for the first such prefix `p` of the list; nothing more is removed.
With the prefixes "The " and "A ", "The Beatles" becomes "Beatles", and "ABBA" and "A-ha" match
no prefix. -/
theorem stripSpecialPrefixes_first_match (prefixes : List (List Nat)) (old : List Nat)
    (hp : ∀ p ∈ prefixes, IsCStr p) :
    stripSpecialPrefixes prefixes old =
      (prefixes.find? (fun p => matchesPrefix p old)).map (fun p => old.drop p.length) ∧
    stripSpecialPrefixes [str "The ", str "A "] (str "The Beatles") = some (str "Beatles") ∧
    stripSpecialPrefixes [str "The ", str "A "] (str "ABBA") = none ∧
    stripSpecialPrefixes [str "The ", str "A "] (str "A-ha") = none ∧
    stripSpecialPrefixes [str "The ", str "A "] (str "a the B") = some (str "the B") :=
  ⟨stripSpecialPrefixes_eq prefixes old hp, by decide, by decide, by decide, by decide⟩

/-- C10 (witness): the prefixes "The " and "A " on the name "the beatles". -/
theorem stripSpecialPrefixes_first_match_witness :
    (∀ p ∈ [str "The ", str "A "], IsCStr p) ∧
    stripSpecialPrefixes [str "The ", str "A "] (str "the beatles") = some (str "beatles") :=
  ⟨by unfold IsCStr; decide,
   by
    have h := (stripSpecialPrefixes_first_match [str "The ", str "A "] (str "the beatles")
      (by unfold IsCStr; decide)).1
    rw [h]
    decide⟩

/-- C11: in modification-time mode (outside list and random mode, which end the comparison
before), for two live records that the directory-versus-file rule does not separate,
`cmpEntries` is negative, zero or positive exactly as the key `date << 16 | time` of the first
is less than, equal to or greater than that of the second; with the reverse flag the sign is
flipped and ties stay 0. For short entries made of bytes the key is `date * 65536 + time`, and
its numeric order is the lexicographic order of the decoded timestamps (year, month, day,
hour, minute, two-second count). -/
theorem cmpEntries_modification_time (env : Env) (o : Options) (a b : sDirEntryList)
    (hlist : o.OPT_LIST = false) (hrand : o.OPT_RANDOM = false)
    (hmod : o.OPT_MODIFICATION = true)
    (ha : isLive a = true) (hb : isLive b = true)
    (hsep : o.OPT_ORDER = 0 ∨ o.OPT_ORDER = 1 → isDirectory a = isDirectory b) :
    (o.OPT_REVERSE = 1 →
      ∃ r, cmpEntries env o a b = some r ∧
        (r < 0 ↔ modKey a < modKey b) ∧ (r = 0 ↔ modKey a = modKey b) ∧
        (0 < r ↔ modKey b < modKey a)) ∧
    (o.OPT_REVERSE = -1 →
      ∃ r, cmpEntries env o a b = some r ∧
        (0 < r ↔ modKey a < modKey b) ∧ (r = 0 ↔ modKey a = modKey b) ∧
        (r < 0 ↔ modKey b < modKey a)) ∧
    (IsBytes a.sde → IsBytes b.sde →
      modKey a = DIR_WrtDate a.sde * 65536 + DIR_WrtTime a.sde ∧
      modKey b = DIR_WrtDate b.sde * 65536 + DIR_WrtTime b.sde ∧
      compare (modKey a) (modKey b) = lexCompare (writeTimestamp a) (writeTimestamp b)) := by
  have hcmp := cmpEntries_by_time env o a b hlist hrand hmod ha hb hsep
  refine ⟨fun hrev => ?_, fun hrev => ?_, fun hba hbb => ?_⟩
  · rw [hcmp, hrev]
    split_ifs with h1 h2
    · exact ⟨-1, rfl, by omega, by omega, by omega⟩
    · exact ⟨1, rfl, by omega, by omega, by omega⟩
    · exact ⟨0, rfl, by omega, by omega, by omega⟩
  · rw [hcmp, hrev]
    split_ifs with h1 h2
    · exact ⟨1, rfl, by omega, by omega, by omega⟩
    · exact ⟨-1, rfl, by omega, by omega, by omega⟩
    · exact ⟨0, rfl, by omega, by omega, by omega⟩
  · refine ⟨modKey_eq a hba, modKey_eq b hbb, ?_⟩
    rw [modKey_eq a hba, modKey_eq b hbb]
    exact (lexCompare_specTimestamp _ _ _ _ (le16_lt _ hba 24) (le16_lt _ hba 22)
      (le16_lt _ hbb 24) (le16_lt _ hbb 22)).symm

/-- C11 (witness): `fatsort -t` on a file written on 2024-03-15 at 10:30:20 and a file written
on 2024-03-16 at 09:00:00: the first has the smaller key and is put first. -/
theorem cmpEntries_modification_time_witness :
    (optsTime.OPT_LIST = false ∧ optsTime.OPT_RANDOM = false ∧
      optsTime.OPT_MODIFICATION = true ∧ optsTime.OPT_REVERSE = 1 ∧
      isLive recMarch15 = true ∧ isLive recMarch16 = true ∧
      isDirectory recMarch15 = isDirectory recMarch16) ∧
    (∃ r, cmpEntries envPlain optsTime recMarch15 recMarch16 = some r ∧
      (r < 0 ↔ modKey recMarch15 < modKey recMarch16) ∧
      (r = 0 ↔ modKey recMarch15 = modKey recMarch16) ∧
      (0 < r ↔ modKey recMarch16 < modKey recMarch15)) ∧
    cmpEntries envPlain optsTime recMarch15 recMarch16 = some (-1) ∧
    writeTimestamp recMarch15 = [2024, 3, 15, 10, 30, 10] ∧
    writeTimestamp recMarch16 = [2024, 3, 16, 9, 0, 0] :=
  ⟨by decide,
   (cmpEntries_modification_time envPlain optsTime recMarch15 recMarch16 rfl rfl rfl
      (by decide) (by decide) (fun _ => by decide)).1 rfl,
   by decide, by decide, by decide⟩

/-- C12: `check_bootsector` returns 0 exactly when the sector starts with 0xEB .. 0x90 or with
0xE9, ends with the marker 0xAA55, has a nonzero sector size that is a multiple of 512, a
nonzero number of sectors per cluster, a cluster size of at most 65536 bytes, a nonzero
reserved sector count, a nonzero number of FATs and a root-entry count that is a multiple of
32; in every other case it returns -1. -/
theorem check_bootsector_accepts_exactly (bs : sBootSector) :
    (check_bootsector bs = 0 ↔
      ((bs.BS_JmpBoot0 = 0xeb ∧ bs.BS_JmpBoot2 = 0x90) ∨ bs.BS_JmpBoot0 = 0xe9) ∧
      bs.BS_EndOfBS = 0xaa55 ∧
      bs.BS_BytesPerSec ≠ 0 ∧ bs.BS_BytesPerSec % 512 = 0 ∧
      bs.BS_SecPerClus ≠ 0 ∧
      bs.BS_SecPerClus * bs.BS_BytesPerSec ≤ 65536 ∧
      bs.BS_RsvdSecCnt ≠ 0 ∧
      bs.BS_NumFATs ≠ 0 ∧
      bs.BS_RootEntCnt % 32 = 0) ∧
    (check_bootsector bs = 0 ∨ check_bootsector bs = -1) :=
  ⟨check_bootsector_eq_zero_iff bs, check_bootsector_values bs⟩

/-- C13: when `openFileSystem` succeeds, the total sector count is not zero; the type is
FAT12, FAT16 or FAT32; on FAT32 the 32-bit FAT size is not zero and the root-entry count is
zero; on FAT12 and FAT16 the 16-bit FAT size and the root-entry count are not zero; the
cluster count is between 1 and 268435445; the cluster size is a nonzero multiple of 512 of at
most 65536 and `maxDirEntriesPerCluster * 32` equals it; and the divisors of the geometry
computation (sector size, sectors per cluster, cluster size) are not zero. -/
theorem openFileSystem_success_invariants (bs : sBootSector) (fs : sFileSystem)
    (hopen : openFileSystem bs = some fs) :
    fs.bs = bs ∧
    fs.totalSectors = (if bs.BS_TotSec16 ≠ 0 then bs.BS_TotSec16 else bs.BS_TotSec32) ∧
    fs.totalSectors ≠ 0 ∧
    (fs.FATType = FATTYPE_FAT12 ∨ fs.FATType = FATTYPE_FAT16 ∨ fs.FATType = FATTYPE_FAT32) ∧
    (fs.FATType = FATTYPE_FAT32 → bs.BS_FATSz32 ≠ 0 ∧ bs.BS_RootEntCnt = 0) ∧
    (fs.FATType = FATTYPE_FAT12 ∨ fs.FATType = FATTYPE_FAT16 →
      bs.BS_FATSz16 ≠ 0 ∧ bs.BS_RootEntCnt ≠ 0) ∧
    1 ≤ fs.clusters ∧ fs.clusters ≤ 268435445 ∧
    fs.clusterSize ≠ 0 ∧ fs.clusterSize % 512 = 0 ∧ fs.clusterSize ≤ 65536 ∧
    fs.maxDirEntriesPerCluster * 32 = fs.clusterSize ∧
    bs.BS_BytesPerSec ≠ 0 ∧ bs.BS_SecPerClus ≠ 0 ∧ fs.sectorSize = bs.BS_BytesPerSec := by
  obtain ⟨hbs, hsec, _, hcs, hmd, _, _, hty, hcl, hchk⟩ := openFileSystem_geometry bs fs hopen
  obtain ⟨htot, htot0, h3, h4, h5, h6, h7, h8, h9⟩ := openFileSystem_checks bs fs hopen
  obtain ⟨_, _, hb0, hb512, hs0, hle, _, _, _⟩ := (check_bootsector_eq_zero_iff bs).mp hchk
  have hmul : (bs.BS_SecPerClus * bs.BS_BytesPerSec) % 512 = 0 :=
    Nat.mod_eq_zero_of_dvd (Dvd.dvd.mul_left (Nat.dvd_of_mod_eq_zero hb512) _)
  have hpos : bs.BS_SecPerClus * bs.BS_BytesPerSec ≠ 0 := Nat.mul_ne_zero hs0 hb0
  have htype : fs.FATType = FATTYPE_FAT12 ∨ fs.FATType = FATTYPE_FAT16 ∨
      fs.FATType = FATTYPE_FAT32 := by
    rw [hty]
    rcases getFATType_values bs with h | h
    · exact absurd h.1 h3
    · exact h.2
  have hcount : 1 ≤ fs.clusters := by
    rw [hcl]
    rcases getCountOfClusters_values bs with h | h
    · exact absurd h h8
    · omega
  refine ⟨hbs, htot, htot0, htype, ?_, ?_, hcount, ?_, ?_, ?_, ?_, ?_, hb0, hs0, hsec⟩
  · intro h32
    rw [hty] at h32
    exact ⟨fun h => h4 ⟨h32, h⟩, by_contra fun h => h7 ⟨h32, h⟩⟩
  · intro h1x
    rw [hty] at h1x
    exact ⟨fun h => h5 ⟨h1x, h⟩, fun h => h6 ⟨h1x.symm, h⟩⟩
  · rw [hcl]
    omega
  · rw [hcs]
    exact hpos
  · rw [hcs]
    exact hmul
  · rw [hcs]
    exact hle
  · rw [hcs, hmd]
    unfold DIR_ENTRY_SIZE
    generalize bs.BS_SecPerClus * bs.BS_BytesPerSec = n at hmul
    omega

/-- C13 (witness): the volume `fsSmall` that `openFileSystem` derives from `bsSmall`. -/
theorem openFileSystem_success_invariants_witness :
    openFileSystem bsSmall = some fsSmall ∧
    fsSmall.totalSectors = 100 ∧ fsSmall.FATType = FATTYPE_FAT12 ∧
    (bsSmall.BS_FATSz16 ≠ 0 ∧ bsSmall.BS_RootEntCnt ≠ 0) ∧
    1 ≤ fsSmall.clusters ∧ fsSmall.clusters ≤ 268435445 ∧
    fsSmall.maxDirEntriesPerCluster * 32 = fsSmall.clusterSize :=
  have h := openFileSystem_success_invariants bsSmall fsSmall (by decide)
  ⟨by decide, rfl, rfl, h.2.2.2.2.2.1 (Or.inl rfl), h.2.2.2.2.2.2.1, h.2.2.2.2.2.2.2.1,
    h.2.2.2.2.2.2.2.2.2.2.2.1⟩

/-- C14 (fails on the code): the boot sector `bsShort`, which `check_bootsector` accepts, has
8 sectors and 33 sectors of metadata, so its data sectors are -25 and its cluster count is not
positive; the unsigned 32-bit difference of `getCountOfClusters` wraps around to 2^32 - 25,
half of it is the positive `int32_t` value 2147483635, and `getFATType` returns FAT32 where
the claim has -1. -/
theorem getFATType_wraps_on_short_volume :
    check_bootsector bsShort = 0 ∧
    specRootDirSectors bsShort = 14 ∧ specDataSectors bsShort = -25 ∧
    specClusterCount bsShort = -13 ∧ specFATType bsShort = -1 ∧
    getCountOfClusters bsShort = 2147483635 ∧
    getFATType bsShort = FATTYPE_FAT32 := by
  decide

/-- C15 (fails on the code): for the 512-byte clusters of `bsSmall`, `openFileSystem` stores
the chain length limit 8388607, which is `0xFFFFFFFF / 512`, where `2^32 / 512` is 8388608. -/
theorem maxClusterChainLength_is_one_short :
    openFileSystem bsSmall = some fsSmall ∧ fsSmall.clusterSize = 512 ∧
    fsSmall.maxClusterChainLength = 8388607 ∧ 2 ^ 32 / fsSmall.clusterSize = 8388608 := by
  decide

/-- C16: on an opened volume and an image made of bytes, for every cluster `c` whose entry
lies inside the image `getFATEntry` returns: on FAT12 the 12-bit value at bit offset `12 * c`
of the FAT (least significant bit first), which is the low 12 bits (`c` even) or the high 12
bits (`c` odd) of the little-endian 16-bit value at `reserved * sectorSize + c + c / 2` and is
below 4096; on FAT16 the little-endian 16-bit value at `reserved * sectorSize + 2 * c`; on
FAT32 the little-endian 32-bit value at `reserved * sectorSize + 4 * c` without its top four
bits, which is below 2^28. -/
theorem getFATEntry_reads_entry (bs : sBootSector) (fs : sFileSystem) (f : File) (c : Nat)
    (hopen : openFileSystem bs = some fs) (hf : f.IsBytes) :
    (fs.FATType = FATTYPE_FAT12 →
      fs.bs.BS_RsvdSecCnt * fs.sectorSize + (c + c / 2) + 2 ≤ f.size →
      getFATEntry fs f c = some (specBits f (fs.bs.BS_RsvdSecCnt * fs.sectorSize) (12 * c) 12) ∧
      specBits f (fs.bs.BS_RsvdSecCnt * fs.sectorSize) (12 * c) 12
        = (if c % 2 = 0 then
            specLE f (fs.bs.BS_RsvdSecCnt * fs.sectorSize + (c + c / 2)) 2 % 2 ^ 12
          else specLE f (fs.bs.BS_RsvdSecCnt * fs.sectorSize + (c + c / 2)) 2 / 2 ^ 4) ∧
      specBits f (fs.bs.BS_RsvdSecCnt * fs.sectorSize) (12 * c) 12 < 4096) ∧
    (fs.FATType = FATTYPE_FAT16 →
      fs.bs.BS_RsvdSecCnt * fs.sectorSize + 2 * c + 2 ≤ f.size →
      getFATEntry fs f c = some (specLE f (fs.bs.BS_RsvdSecCnt * fs.sectorSize + 2 * c) 2)) ∧
    (fs.FATType = FATTYPE_FAT32 →
      fs.bs.BS_RsvdSecCnt * fs.sectorSize + 4 * c + 4 ≤ f.size →
      getFATEntry fs f c
        = some (specLE f (fs.bs.BS_RsvdSecCnt * fs.sectorSize + 4 * c) 4 % 2 ^ 28) ∧
      specLE f (fs.bs.BS_RsvdSecCnt * fs.sectorSize + 4 * c) 4 % 2 ^ 28 < 2 ^ 28) := by
  obtain ⟨hbs, hsec, _⟩ := openFileSystem_geometry bs fs hopen
  rw [← hbs] at hsec
  rw [hsec]
  refine ⟨fun hty hin => ?_, fun hty hin => ?_, fun hty hin => ?_⟩
  · rw [getFATEntry_fat12 fs f c hty hin, specLE_two]
    by_cases hc : c % 2 = 1
    · rw [if_pos hc, if_neg (by omega), specBits_odd f hf _ c hc]
      have h0 := hf (fs.bs.BS_RsvdSecCnt * fs.bs.BS_BytesPerSec + (c + c / 2))
      have h1 := hf (fs.bs.BS_RsvdSecCnt * fs.bs.BS_BytesPerSec + (c + c / 2) + 1)
      refine ⟨rfl, rfl, ?_⟩
      omega
    · rw [if_neg hc, if_pos (by omega), specBits_even f hf _ c (by omega)]
      refine ⟨rfl, rfl, ?_⟩
      omega
  · rw [Nat.mul_comm 2 c, getFATEntry_fat16 fs f c hty (by omega), specLE_two]
  · rw [Nat.mul_comm 4 c, getFATEntry_fat32 fs f c hty (by omega), specLE_four]
    exact ⟨rfl, Nat.mod_lt _ (by decide)⟩

/-- C16 (witness): entry 9 of the FAT12 table `fatSmall`, an odd cluster, is 4. -/
theorem getFATEntry_reads_entry_witness :
    openFileSystem bsSmall = some fsSmall ∧ (imgWithFATs fatSmall).IsBytes ∧
    getFATEntry fsSmall (imgWithFATs fatSmall) 9
      = some (specBits (imgWithFATs fatSmall) 512 108 12) ∧
    specBits (imgWithFATs fatSmall) 512 108 12 = 4 :=
  ⟨by decide, imgWithFATs_isBytes fatSmall (by decide),
   ((getFATEntry_reads_entry bsSmall fsSmall (imgWithFATs fatSmall) 9 (by decide)
      (imgWithFATs_isBytes fatSmall (by decide))).1 rfl (by decide)).1,
   by decide⟩

set_option maxRecDepth 1000000 in
/-- C17 (fails on the code): on the FAT12 volume `fsSmall`, whose FAT starts with the media
entry 0xff8 and the entry 0xfff, `getClusterChain` succeeds for the start clusters 0 and 1 and
returns the chains [0] and [1]. -/
theorem getClusterChain_accepts_clusters_0_and_1 :
    openFileSystem bsSmall = some fsSmall ∧
    checkFATs fsSmall imgOneCluster = 0 ∧
    getFATEntry fsSmall imgOneCluster 0 = some 0xff8 ∧
    getFATEntry fsSmall imgOneCluster 1 = some 0xfff ∧
    getClusterChain fsSmall imgOneCluster 0 = some (1, [0]) ∧
    getClusterChain fsSmall imgOneCluster 1 = some (1, [1]) := by
  decide

set_option maxRecDepth 1000000 in
/-- C18: the walk of `getClusterChain` makes at most `maxClusterChainLength + 1` passes for
every volume, image and start cluster (more fuel does not change its result); on success the
returned length is between 1 and `maxClusterChainLength` and is the number of clusters in the
chain; a pass returns -1 when `maxClusterChainLength` clusters are in the chain already, when
the cluster fails the range test (for a cluster number below 2^28: when it is at least
`clusters + 2`), or when the FAT entry of the cluster is free; a walk inside a set of clusters
whose entries all point into the set again returns -1, as on the image `imgSelfLoop`, where
cluster 2 points to itself. -/
theorem getClusterChain_terminates (fs : sFileSystem) (f : File) (startCluster : Nat) :
    (∀ extra,
      getClusterChainLoop fs f (fs.maxClusterChainLength + 1 + extra) 0 (toInt32 startCluster) []
        = getClusterChainLoop fs f (fs.maxClusterChainLength + 1) 0 (toInt32 startCluster) []) ∧
    (∀ n chain, getClusterChain fs f startCluster = some (n, chain) →
      1 ≤ n ∧ n ≤ fs.maxClusterChainLength ∧ chain.length = n) ∧
    (∀ (fuel i : Nat) (cluster : Int) (chain : List Nat),
      (i = fs.maxClusterChainLength →
        getClusterChainLoop fs f (fuel + 1) i cluster chain = none) ∧
      (walkInRange fs cluster = false →
        getClusterChainLoop fs f (fuel + 1) i cluster chain = none) ∧
      (0 ≤ cluster → cluster < 2 ^ 28 → fs.clusters + 2 ≤ cluster →
        getClusterChainLoop fs f (fuel + 1) i cluster chain = none) ∧
      (getFATEntry fs f (ofInt32 cluster) = some 0 →
        getClusterChainLoop fs f (fuel + 1) i cluster chain = none)) ∧
    (∀ P : Int → Prop,
      (∀ c, P c → ∀ data, getFATEntry fs f (ofInt32 c) = some data →
        walkContinues fs data = true ∧ P (toInt32 data)) →
      P (toInt32 startCluster) → getClusterChain fs f startCluster = none) ∧
    getFATEntry fsSmall imgSelfLoop 2 = some 2 ∧
    getClusterChain fsSmall imgSelfLoop 2 = none := by
  have hrange : ∀ (fuel i : Nat) (cluster : Int) (chain : List Nat),
      walkInRange fs cluster = false →
      getClusterChainLoop fs f (fuel + 1) i cluster chain = none := by
    intro fuel i cluster chain h
    rw [getClusterChainLoop_succ, if_pos h]
    split_ifs <;> rfl
  have hclosed : ∀ (fs1 : sFileSystem) (f1 : File) (s : Nat) (P : Int → Prop),
      (∀ c, P c → ∀ data, getFATEntry fs1 f1 (ofInt32 c) = some data →
        walkContinues fs1 data = true ∧ P (toInt32 data)) →
      P (toInt32 s) → getClusterChain fs1 f1 s = none := by
    intro fs1 f1 s P hP hs
    unfold getClusterChain
    split_ifs
    · exact getClusterChainLoop_closed fs1 f1 P hP _ _ _ _ hs
    · rfl
  refine ⟨fun extra => ?_, fun n chain h => ?_, fun fuel i cluster chain => ⟨?_, ?_, ?_, ?_⟩,
    fun P hP hs => hclosed fs f startCluster P hP hs, by decide, ?_⟩
  · exact getClusterChainLoop_fuel fs f extra _ 0 _ _ (Nat.zero_le _) (Nat.le_refl _)
  · unfold getClusterChain at h
    split_ifs at h
    obtain ⟨h1, h2, h3⟩ := getClusterChainLoop_length fs f _ _ _ _ _ _ (Nat.zero_le _) h
    refine ⟨h1, h2, ?_⟩
    rw [h3]
    simp
  · intro h
    rw [getClusterChainLoop_succ, if_pos h]
  · exact hrange fuel i cluster chain
  · intro h0 h1 h2
    apply hrange
    rw [walkInRange_of_small fs cluster h0 h1]
    exact decide_eq_false (by omega)
  · intro h
    rw [getClusterChainLoop_succ, h]
    simp only []
    have hfree : walkFree fs 0 = true := by
      unfold walkFree
      split_ifs <;> rfl
    rw [if_pos hfree]
    split_ifs <;> rfl
  · apply hclosed fsSmall imgSelfLoop 2 (fun c => c = 2)
    · intro c hc data hd
      subst hc
      have h2 : getFATEntry fsSmall imgSelfLoop (ofInt32 2) = some 2 := by decide
      rw [h2] at hd
      cases hd
      exact ⟨by decide, by decide⟩
    · decide

/-- C19: for every 11-byte short name `calculateChecksum` returns the value of an 8-bit
accumulator that starts at 0 and, for each of the 11 bytes in order, is rotated right by one
bit and has the byte added modulo 256; the result is below 256 and is the same when the name
bytes are read as signed chars. -/
theorem calculateChecksum_rotate_add (sname : List Nat) (hlen : sname.length = 11) :
    calculateChecksum sname = specChecksum sname ∧
    calculateChecksumSigned sname = calculateChecksum sname ∧
    calculateChecksum sname < 256 :=
  ⟨calculateChecksum_eq_spec sname hlen, calculateChecksumSigned_eq sname,
    calculateChecksum_lt sname⟩

/-- C19 (witness): the name `nameHighByte`, whose first byte is 0x8e, has the checksum 219. -/
theorem calculateChecksum_rotate_add_witness :
    nameHighByte.length = 11 ∧
    calculateChecksum nameHighByte = specChecksum nameHighByte ∧
    calculateChecksumSigned nameHighByte = calculateChecksum nameHighByte ∧
    calculateChecksum nameHighByte = 219 :=
  have h := calculateChecksum_rotate_add nameHighByte (by decide)
  ⟨by decide, h.1, h.2.1, by decide⟩

/-- C20: for a record with `entries = 1 + number of fragments` whose fragments are made of
bytes, `checkLongDirEntries` returns 0 or -1, and it returns 0 exactly when the first fragment
in stream order is deleted (ordinal 0xE5) or has the bit 0x40 set, and every fragment that is
not deleted, at stream position `i`, has an ordinal that with the bit 0x40 cleared equals
`N - i` and carries the checksum of the 11-byte name of the short entry; a record without
fragments is accepted, and the conditions say nothing about deleted fragments. -/
theorem checkLongDirEntries_accepts_iff (r : sDirEntryList)
    (hent : r.entries = r.ldel.length + 1) (hb : ∀ lde ∈ r.ldel, IsBytes lde) :
    (checkLongDirEntries r = some 0 ∨ checkLongDirEntries r = some (-1)) ∧
    (checkLongDirEntries r = some 0 ↔
      FragmentsOk r.ldel (calculateChecksum (DIR_Name r.sde))) ∧
    (r.ldel = [] → checkLongDirEntries r = some 0) := by
  obtain ⟨h1, h2⟩ := checkLongDirEntries_eq r hent hb
  refine ⟨h1, h2, fun hnil => h2.mpr ?_⟩
  intro i lde h
  rw [hnil] at h
  simp at h

/-- C20 (witness): a record with three fragments whose ordinals are 0x43, 2, 1 and whose
checksums are that of the short name is accepted. -/
theorem checkLongDirEntries_accepts_iff_witness :
    recThreeFragments.entries = recThreeFragments.ldel.length + 1 ∧
    recThreeFragments.ldel.map LDIR_Ord = [0x43, 2, 1] ∧
    checkLongDirEntries recThreeFragments = some 0 ∧
    FragmentsOk recThreeFragments.ldel (calculateChecksum (DIR_Name recThreeFragments.sde)) :=
  ⟨by decide, by decide, by decide,
   (checkLongDirEntries_accepts_iff recThreeFragments (by decide)
      (by unfold IsBytes; decide)).2.1.mp (by decide)⟩

/-- C21 (fails on the code): for the short names "README  MD " and "README  M  ", whose
extensions have two and one characters, `parseShortFilename` returns "README.MD " and
"README.M  ": the padding spaces of the extension stay in the result. -/
theorem parseShortFilename_keeps_extension_padding :
    parseShortFilename (mkSde (str "README  MD ") ATTR_ARCHIVE) = str "README.MD " ∧
    parseShortFilename (mkSde (str "README  M  ") ATTR_ARCHIVE) = str "README.M  " ∧
    parseShortFilename (mkSde (str "README  TXT") ATTR_ARCHIVE) = str "README.TXT" ∧
    parseShortFilename (mkSde (str "README     ") ATTR_ARCHIVE) = str "README" := by
  decide

/-- C22: `parseClusterChain`, on a chain whose clusters lie inside the device, and
`parseFAT1xRootDirEntries`, on a root directory that lies inside the device, stop at the first
slot whose byte 0 is 0x00: the outcome (return code, list, `*direntries`) is that of the slot
loop on the slots up to and including that slot, whatever the later slots hold. When every
record in front of that slot passes `checkLongDirEntries` and no comparison ends the process,
the return code is -1 if long-name fragments are pending at that slot, or at the end of the
chain or root region, and 0 otherwise; the list holds exactly the records in front of that
slot, and `*direntries` is the number of records in the list. -/
theorem parse_stops_at_terminator (env : Env) (iconv : List Nat → List Nat) (o : Options)
    (fs : sFileSystem) (f : File) (chain : List Nat) :
    ((∀ c ∈ chain,
        getClusterOffset fs c + DIR_ENTRY_SIZE * fs.maxDirEntriesPerCluster ≤ f.size) →
      StopsAtTerminator env iconv o (chainSlots fs f chain)
        (parseClusterChain env iconv o fs f chain)) ∧
    (rootDirOffset fs + DIR_ENTRY_SIZE * fs.bs.BS_RootEntCnt ≤ f.size →
      StopsAtTerminator env iconv o (rootSlots fs f)
        (parseFAT1xRootDirEntries env iconv o fs f)) :=
  ⟨fun hin => stopsAtTerminator_of_scan env iconv o _ _
      (parseClusterChain_scan env iconv o fs f chain hin),
   fun hin => stopsAtTerminator_of_scan env iconv o _ _
      (parseFAT1xRootDirEntries_scan env iconv o fs f hin)⟩

set_option maxRecDepth 1000000 in
/-- C22 (examples): in `imgOrphan` the directory in cluster 2 holds LIVE, a fragment and the
end mark, and the parse returns -1; in `imgStale` it holds LIVE and the end mark, and the
parse returns 0 with the one record LIVE, although a short entry follows the end mark; the
root directory of `imgRootLiveDeleted` gives 0 with two records. -/
theorem parse_stops_at_terminator_witness :
    (parseClusterChain envPlain iconvLow optsAscii fsSmall imgOrphan [2]).code = some (-1) ∧
    ((parseClusterChain envPlain iconvLow optsAscii fsSmall imgStale [2]).code = some 0 ∧
     (parseClusterChain envPlain iconvLow optsAscii fsSmall imgStale [2]).list
       = [mkRecord (mkSde (str "LIVE       ") ATTR_ARCHIVE)] ∧
     [mkRecord (mkSde (str "LIVE       ") ATTR_ARCHIVE)].Perm
       [mkRecord (mkSde (str "LIVE       ") ATTR_ARCHIVE)] ∧
     (parseClusterChain envPlain iconvLow optsAscii fsSmall imgStale [2]).direntries = 1) ∧
    (parseFAT1xRootDirEntries envPlain iconvLow optsAscii fsSmall imgRootLiveDeleted).direntries
      = 2 :=
  ⟨((parse_stops_at_terminator envPlain iconvLow optsAscii fsSmall imgOrphan [2]).1
      (by decide)).2 [mkRecord (mkSde (str "LIVE       ") ATTR_ARCHIVE)] [mkLde 0x41 0 97]
      [mkRecord (mkSde (str "LIVE       ") ATTR_ARCHIVE)]
      (by decide) (by decide) (by decide) (by decide) |>.1,
   ((parse_stops_at_terminator envPlain iconvLow optsAscii fsSmall imgStale [2]).1
      (by decide)).2 [mkRecord (mkSde (str "LIVE       ") ATTR_ARCHIVE)] []
      [mkRecord (mkSde (str "LIVE       ") ATTR_ARCHIVE)]
      (by decide) (by decide) (by decide) (by decide),
   (((parse_stops_at_terminator envPlain iconvLow optsAscii fsSmall imgRootLiveDeleted []).2
      (by decide)).2
      [mkRecord (mkSde (str "LIVE       ") ATTR_ARCHIVE), recDeletedA] []
      [mkRecord (mkSde (str "LIVE       ") ATTR_ARCHIVE), recDeletedA]
      (by decide) (by decide) (by decide) (by decide)).2.2.2⟩

set_option maxRecDepth 1000000 in
/-- C23 (counterexample): the directory in cluster 2 of `imgStale` holds the file LIVE, the end
mark, and the old short entry STALE. The parse gives the one record LIVE; after
`writeClusterChain`, and after a whole run of `sortClusterChain`, slot 2, which lies behind the
last record, still holds the entry STALE, which is not all-zero. -/
theorem writeClusterChain_leaves_stale_entry :
    (parseClusterChain envPlain iconvLow optsAscii fsSmall imgStale [2]).list
      = [mkRecord (mkSde (str "LIVE       ") ATTR_ARCHIVE)] ∧
    (writeClusterChain fsSmall [mkRecord (mkSde (str "LIVE       ") ATTR_ARCHIVE)] [2]
        imgStale).map (fun g => bytesAt g (slotOffset fsSmall [2] 2) DIR_ENTRY_SIZE)
      = some (mkSde (str "STALE      ") ATTR_ARCHIVE) ∧
    (sortClusterChain envPlain iconvLow optsAscii (fun _ => true) picksSecond fsSmall 1 2
        (str "/D/") { f := imgStale, calls := 0, written := [] }).out = Outcome.ret 0 ∧
    bytesAt
      (sortClusterChain envPlain iconvLow optsAscii (fun _ => true) picksSecond fsSmall 1 2
        (str "/D/") { f := imgStale, calls := 0, written := [] }).s.f
      (slotOffset fsSmall [2] 2) DIR_ENTRY_SIZE
      = mkSde (str "STALE      ") ATTR_ARCHIVE ∧
    mkSde (str "STALE      ") ATTR_ARCHIVE ≠ emptyEntry := by
  decide

/-- C23 (amended): under the conditions of C26, with `S` entries in the list,
`writeClusterChain` leaves slot `S`, the slot behind the last record, all-zero when `S` is 0 or
not a multiple of the number of slots of a cluster, and it changes no byte outside the slots
0 to `S`. -/
theorem writeClusterChain_writes_one_terminator (fs : sFileSystem)
    (list : List sDirEntryList) (chain : List Nat) (f : File)
    (hM : 0 < fs.maxDirEntriesPerCluster) (hM2 : fs.maxDirEntriesPerCluster < 2 ^ 31)
    (hchain : 1 ≤ chain.length)
    (hrec : ∀ p ∈ list, p.entries = p.ldel.length + 1 ∧ p.entries ≤ fs.maxDirEntriesPerCluster)
    (hS : (listEntries list).length ≤ chain.length * fs.maxDirEntriesPerCluster) :
    ∃ g, writeClusterChain fs list chain f = some g ∧
      ((listEntries list).length = 0
          ∨ (listEntries list).length % fs.maxDirEntriesPerCluster ≠ 0 →
        bytesAt g (slotOffset fs chain (listEntries list).length) DIR_ENTRY_SIZE = emptyEntry) ∧
      (∀ x, (∀ k, k ≤ (listEntries list).length →
          x < slotOffset fs chain k ∨ slotOffset fs chain k + DIR_ENTRY_SIZE ≤ x) →
        g.data x = f.data x) := by
  refine ⟨_, writeClusterChain_eq fs list chain f hM hM2 hchain hrec hS, ?_, ?_⟩
  · intro hcond
    rw [if_pos hcond, writeSlotsAt_append, Nat.zero_add, writeSlotsAt, writeSlotsAt]
    exact fs_write_bytesAt (fs_seek _ _) emptyEntry
  · intro x hx
    rw [writeSlotsAt_data_outside fs chain _ 0 _ x]
    · rfl
    · intro e he
      rcases List.mem_append.mp he with h | h
      · exact listEntries_entry_length list e h
      · split_ifs at h
        · rw [List.mem_singleton.mp h]
          rfl
        · exact absurd h (List.not_mem_nil _)
    · intro j hj
      rw [Nat.zero_add]
      apply hx
      rw [List.length_append] at hj
      split_ifs at hj
      · simp only [List.length_singleton] at hj
        omega
      · simp only [List.length_nil] at hj
        omega

set_option maxRecDepth 1000000 in
/-- C23 (witness): writing the one record LIVE to the directory in cluster 2 of `imgStale`
leaves slot 1 all-zero and slot 2 as it was. -/
theorem writeClusterChain_writes_one_terminator_witness :
    (∀ p ∈ [mkRecord (mkSde (str "LIVE       ") ATTR_ARCHIVE)],
      p.entries = p.ldel.length + 1 ∧ p.entries ≤ fsSmall.maxDirEntriesPerCluster) ∧
    (∃ g, writeClusterChain fsSmall [mkRecord (mkSde (str "LIVE       ") ATTR_ARCHIVE)] [2]
          imgStale = some g ∧
      ((listEntries [mkRecord (mkSde (str "LIVE       ") ATTR_ARCHIVE)]).length = 0
          ∨ (listEntries [mkRecord (mkSde (str "LIVE       ") ATTR_ARCHIVE)]).length
            % fsSmall.maxDirEntriesPerCluster ≠ 0 →
        bytesAt g (slotOffset fsSmall [2]
          (listEntries [mkRecord (mkSde (str "LIVE       ") ATTR_ARCHIVE)]).length)
          DIR_ENTRY_SIZE = emptyEntry) ∧
      (∀ x, (∀ k, k ≤ (listEntries [mkRecord (mkSde (str "LIVE       ") ATTR_ARCHIVE)]).length →
          x < slotOffset fsSmall [2] k ∨ slotOffset fsSmall [2] k + DIR_ENTRY_SIZE ≤ x) →
        g.data x = imgStale.data x)) :=
  ⟨by decide,
   writeClusterChain_writes_one_terminator fsSmall
     [mkRecord (mkSde (str "LIVE       ") ATTR_ARCHIVE)] [2] imgStale
     (by decide) (by decide) (by decide) (by decide) (by decide)⟩

/-- C24: in a run of `sortFileSystem`, and of `sortClusterChain` and `sortFAT1xRootDirectory`
on any volume, `writeClusterChain` and `writeList` are called only outside list mode and only
for directories whose path matches the filters; a run that calls neither leaves the size and
the bytes of the device as they were. So in list mode, and when no path matches, the device is
unchanged. The open mode in list mode is read-only-exclusive without force and read-only with
force. -/
theorem list_mode_writes_nothing (env : Env) (iconv : List Nat → List Nat) (o : Options)
    (matchOf : List Nat → Bool) (irand : Nat → Nat → Nat) (fuel : Nat) (bs : sBootSector)
    (f : File) :
    (∀ p ∈ (sortFileSystem env iconv o matchOf irand fuel bs f).s.written,
      matchOf p = true ∧ o.OPT_LIST = false) ∧
    ((sortFileSystem env iconv o matchOf irand fuel bs f).s.written = [] →
      f.SameBytes (sortFileSystem env iconv o matchOf irand fuel bs f).s.f) ∧
    (o.OPT_LIST = true ∨ (∀ p, matchOf p = false) →
      (sortFileSystem env iconv o matchOf irand fuel bs f).s.written = [] ∧
      f.SameBytes (sortFileSystem env iconv o matchOf irand fuel bs f).s.f) ∧
    (∀ (fs : sFileSystem) (cluster : Nat) (path : List Nat) (s : SortState),
      WritesOnlyMatches o matchOf s
        (sortClusterChain env iconv o matchOf irand fs fuel cluster path s).s ∧
      WritesOnlyMatches o matchOf s
        (sortFAT1xRootDirectory env iconv o matchOf irand fs fuel s).s) ∧
    (o.OPT_LIST = true →
      sortFileSystemMode o = if o.OPT_FORCE = true then FS_MODE_RO else FS_MODE_RO_EXCL) := by
  obtain ⟨w, hw, hm, hd⟩ := sortFileSystem_writes env iconv o matchOf irand fuel bs f
  rw [List.nil_append] at hw
  have hnone : o.OPT_LIST = true ∨ (∀ p, matchOf p = false) → w = [] := by
    intro h
    cases w with
    | nil => rfl
    | cons p w =>
      obtain ⟨h1, h2⟩ := hm p (List.mem_cons_self _ _)
      rcases h with h | h
      · rw [h] at h2
        cases h2
      · rw [h p] at h1
        cases h1
  refine ⟨?_, ?_, ?_, ?_, ?_⟩
  · rw [hw]
    exact hm
  · intro h
    exact hd (hw.symm.trans h)
  · intro h
    exact ⟨hw.trans (hnone h), hd (hnone h)⟩
  · intro fs cluster path s
    exact ⟨sortClusterChain_writes env iconv o matchOf irand fs fuel cluster path s,
      sortFAT1xRootDirectory_writes env iconv o matchOf irand fs fuel s⟩
  · intro hl
    unfold sortFileSystemMode
    by_cases hf : o.OPT_FORCE = true
    · simp [hf, hl]
    · simp [hf, hl]

set_option maxRecDepth 1000000 in
/-- C24 (example): on `imgTree`, whose root directory holds the directory SUB, a run in list
mode returns 0 and writes no directory; a run in ASCII mode writes "/" and "/SUB/" and puts the
file A in front of the file B; with a filter that does not match "/SUB/" only "/" is written;
and in list mode the device keeps its size and bytes. -/
theorem list_mode_writes_nothing_witness :
    openFileSystem bsSmall = some fsSmall ∧
    (sortFileSystem envPlain iconvLow optsList (fun _ => true) picksSecond 4 bsSmall
      imgTree).out = Outcome.ret 0 ∧
    (sortFileSystem envPlain iconvLow optsList (fun _ => true) picksSecond 4 bsSmall
      imgTree).s.written = [] ∧
    (sortFileSystem envPlain iconvLow optsAscii (fun _ => true) picksSecond 4 bsSmall
      imgTree).s.written = [str "/", str "/SUB/"] ∧
    bytesAt (sortFileSystem envPlain iconvLow optsAscii (fun _ => true) picksSecond 4 bsSmall
      imgTree).s.f (getClusterOffset fsSmall 2 + 64) 64
      = mkSde (str "A          ") ATTR_ARCHIVE ++ mkSde (str "B          ") ATTR_ARCHIVE ∧
    (sortFileSystem envPlain iconvLow optsAscii (fun p => p != str "/SUB/") picksSecond 4
      bsSmall imgTree).s.written = [str "/"] ∧
    sortFileSystemMode optsList = FS_MODE_RO_EXCL ∧
    imgTree.SameBytes
      (sortFileSystem envPlain iconvLow optsList (fun _ => true) picksSecond 4 bsSmall
        imgTree).s.f :=
  ⟨by decide, by decide, by decide, by decide, by decide, by decide, by decide,
    ((list_mode_writes_nothing envPlain iconvLow optsList (fun _ => true) picksSecond 4 bsSmall
      imgTree).2.2.1 (Or.inl rfl)).2⟩

/-- C25: on a FAT12/16 volume whose root directory lies inside the device and is accepted by
`parseFAT1xRootDirEntries`, for every ordering `list` of the parsed records (on which no
comparison ends the process): the offset at which `writeList` starts is
`(reserved sectors + NumFATs * FATSize) * sectorSize`; `writeList` stores, from there on and
without a gap, for every record its fragments in their original order and then its short entry;
these are `32 * (sum over the records of 1 + fragment count)` bytes, at most
`32 * root-entry count`; the size of the device and every byte outside the root region stay as
they are; and parsing the root directory again returns 0 with a list that holds the same
records. -/
theorem writeList_repacks_root (env : Env) (iconv : List Nat → List Nat) (o : Options)
    (fs : sFileSystem) (f : File) (list : List sDirEntryList)
    (hnowrap : fs.bs.BS_NumFATs * fs.FATSize < 2 ^ 32)
    (hcount : fs.bs.BS_RootEntCnt < 2 ^ 32)
    (hin : rootDirOffset fs + DIR_ENTRY_SIZE * fs.bs.BS_RootEntCnt ≤ f.size)
    (hacc : (parseFAT1xRootDirEntries env iconv o fs f).code = some 0)
    (hperm : list.Perm (parseFAT1xRootDirEntries env iconv o fs f).list)
    (hcmp : ∀ a ∈ list, ∀ b ∈ list, cmpEntries env o a b ≠ none) :
    rootDirOffset fs
      = (fs.bs.BS_RsvdSecCnt + fs.bs.BS_NumFATs * fs.FATSize) * fs.sectorSize ∧
    fs_seek ((parseFAT1xRootDirEntries env iconv o fs f).file f) (rootDirOffset fs)
      = fs_seek f (rootDirOffset fs) ∧
    writeList list (fs_seek f (rootDirOffset fs))
      = fs_write (fs_seek f (rootDirOffset fs)) (listEntries list).flatten ∧
    (listEntries list).flatten.length
      = DIR_ENTRY_SIZE * (list.map (fun p => 1 + p.ldel.length)).sum ∧
    (list.map (fun p => 1 + p.ldel.length)).sum ≤ fs.bs.BS_RootEntCnt ∧
    (writeList list (fs_seek f (rootDirOffset fs))).size = f.size ∧
    (∀ x, x < rootDirOffset fs ∨ rootDirOffset fs + DIR_ENTRY_SIZE * fs.bs.BS_RootEntCnt ≤ x →
      (writeList list (fs_seek f (rootDirOffset fs))).data x = f.data x) ∧
    (parseFAT1xRootDirEntries env iconv o fs
      (writeList list (fs_seek f (rootDirOffset fs)))).code = some 0 ∧
    (parseFAT1xRootDirEntries env iconv o fs
      (writeList list (fs_seek f (rootDirOffset fs)))).list.Perm
        (parseFAT1xRootDirEntries env iconv o fs f).list := by
  -- the first parse
  have hscan := parseFAT1xRootDirEntries_scan env iconv o fs f hin
  obtain ⟨s, hs, hsl⟩ := ParseStep.scan_of_code _ 0 hacc
  have hstream : (rootSlots fs f).length < 2 ^ 32 := by
    unfold rootSlots
    rw [readSlots_length]
    exact hcount
  obtain ⟨hpend, hchk, hins⟩ := scanFinish_accepted env iconv o (rootSlots fs f) s hstream
    (hscan.symm.trans hs)
  rw [hsl] at hins
  have hp0 := insertAll_perm env o _ [] _ hins
  rw [List.append_nil] at hp0
  have hpl : list.Perm (groupSlots env iconv ((rootSlots fs f).takeWhile isEntry) []).1 :=
    hperm.trans hp0
  -- the number of entries
  have hcnt := groupSlots_count env iconv ((rootSlots fs f).takeWhile isEntry) []
  rw [hpend] at hcnt
  simp only [List.length_nil, Nat.add_zero, Nat.zero_add] at hcnt
  have hS : (listEntries list).length = ((rootSlots fs f).takeWhile isEntry).length := by
    rw [listEntries_length_perm list _ hpl, listEntries_length_ldel, hcnt]
  have hpre : ((rootSlots fs f).takeWhile isEntry).length ≤ fs.bs.BS_RootEntCnt := by
    have := (List.takeWhile_sublist isEntry (l := rootSlots fs f)).length_le
    unfold rootSlots at this ⊢
    rwa [readSlots_length] at this
  have hSn : (listEntries list).length ≤ fs.bs.BS_RootEntCnt := by
    rw [hS]
    exact hpre
  -- the records are parsed records
  have hparsed : ∀ r ∈ list, IsParsed env iconv r := by
    intro r hr
    apply groupSlots_isParsed env iconv ((rootSlots fs f).takeWhile isEntry) [] _
      (fun e he => absurd he (List.not_mem_nil _)) r (hpl.subset hr)
    intro e he
    exact ⟨List.mem_takeWhile_imp he,
      readSlots_entry_length f _ _ e ((List.takeWhile_sublist _).subset he)⟩
  -- the write
  have hw : writeList list (fs_seek f (rootDirOffset fs))
      = fs_write (fs_seek f (rootDirOffset fs)) (listEntries list).flatten :=
    writeList_eq_write list _ (by
      show rootDirOffset fs ≤ f.size
      omega)
  have hflat : (listEntries list).flatten.length = DIR_ENTRY_SIZE * (listEntries list).length :=
    flatten_length_entries _ (listEntries_entry_length list)
  have hsize : (writeList list (fs_seek f (rootDirOffset fs))).size = f.size := by
    rw [hw]
    show max f.size (rootDirOffset fs + (listEntries list).flatten.length) = f.size
    rw [hflat]
    have : DIR_ENTRY_SIZE * (listEntries list).length
        ≤ DIR_ENTRY_SIZE * fs.bs.BS_RootEntCnt := Nat.mul_le_mul_left _ hSn
    omega
  -- the slots after the write
  have hslots : rootSlots fs (writeList list (fs_seek f (rootDirOffset fs)))
      = listEntries list ++ (rootSlots fs f).dropWhile isEntry := by
    unfold rootSlots
    rw [hw]
    have h1 := readSlots_fs_write (listEntries list) (fs_seek f (rootDirOffset fs))
      fs.bs.BS_RootEntCnt (listEntries_entry_length list) hSn
    have h2 : (fs_seek f (rootDirOffset fs)).pos = rootDirOffset fs := rfl
    rw [h2] at h1
    rw [h1, readSlots_congr (fs_seek f (rootDirOffset fs)) f rfl, ← readSlots_drop, hS]
    show listEntries list
        ++ (rootSlots fs f).drop ((rootSlots fs f).takeWhile isEntry).length
      = listEntries list ++ (rootSlots fs f).dropWhile isEntry
    rw [drop_length_takeWhile]
  have htake : (rootSlots fs (writeList list (fs_seek f (rootDirOffset fs)))).takeWhile isEntry
      = listEntries list := by
    rw [hslots]
    apply takeWhile_append_stop isEntry _ _ (listEntries_isEntry env iconv list hparsed)
    intro t ht
    cases htail : (rootSlots fs f).dropWhile isEntry with
    | nil => simp [htail] at ht
    | cons t1 rest =>
      have := List.head_dropWhile_not isEntry (rootSlots fs f)
        (by rw [htail]; exact List.cons_ne_nil _ _)
      simp only [htail, List.head?_cons, Option.mem_def, Option.some.injEq] at ht
      subst ht
      simpa [htail] using this
  -- the second parse
  obtain ⟨list2, hins2⟩ := insertAll_isSome env o list [] (fun a ha b hb => by
    rw [List.append_nil] at hb
    exact hcmp a ha b hb)
  have hin2 : rootDirOffset fs + DIR_ENTRY_SIZE * fs.bs.BS_RootEntCnt
      ≤ (writeList list (fs_seek f (rootDirOffset fs))).size := by
    rw [hsize]
    exact hin
  have hstop := stopsAtTerminator_of_scan env iconv o _ _
    (parseFAT1xRootDirEntries_scan env iconv o fs _ hin2)
  obtain ⟨r1, r2, r3, _⟩ := hstop.2 list [] list2
    (by rw [htake]; exact groupSlots_listEntries env iconv list hparsed)
    (fun x hx => hchk x (hpl.subset hx)) hins2
    (by
      unfold rootSlots
      rw [readSlots_length]
      exact hcount)
  refine ⟨?_, ?_, hw, ?_, ?_, hsize, ?_, r1, ?_⟩
  · unfold rootDirOffset u32
    rw [Nat.mod_eq_of_lt hnowrap]
  · have hb := parseFAT1xRootDirEntries_sameBytes env iconv o fs f
    apply File.ext_fields
    · exact hb.1
    · exact hb.2
    · rfl
  · rw [hflat, listEntries_length_ldel]
  · rw [← listEntries_length_ldel]
    exact hSn
  · intro x hx
    rw [hw]
    apply fs_write_data_outside
    show x < rootDirOffset fs ∨ rootDirOffset fs + (listEntries list).flatten.length ≤ x
    rw [hflat]
    have : DIR_ENTRY_SIZE * (listEntries list).length
        ≤ DIR_ENTRY_SIZE * fs.bs.BS_RootEntCnt := Nat.mul_le_mul_left _ hSn
    omega
  · rw [r2]
    exact r3.trans hperm

set_option maxRecDepth 1000000 in
/-- C25 (witness): the root directory of `imgRootLiveDeleted` holds LIVE and the deleted file A;
written back in the order deleted A, LIVE it parses again with return code 0 into the same two
records. -/
theorem writeList_repacks_root_witness :
    (parseFAT1xRootDirEntries envPlain iconvLow optsAscii fsSmall imgRootLiveDeleted).code
      = some 0 ∧
    [recDeletedA, mkRecord (mkSde (str "LIVE       ") ATTR_ARCHIVE)].Perm
      (parseFAT1xRootDirEntries envPlain iconvLow optsAscii fsSmall imgRootLiveDeleted).list ∧
    rootDirOffset fsSmall = 1536 ∧
    bytesAt (writeList [recDeletedA, mkRecord (mkSde (str "LIVE       ") ATTR_ARCHIVE)]
        (fs_seek imgRootLiveDeleted (rootDirOffset fsSmall))) 1536 64
      = sdeDeletedA ++ mkSde (str "LIVE       ") ATTR_ARCHIVE ∧
    ((parseFAT1xRootDirEntries envPlain iconvLow optsAscii fsSmall
      (writeList [recDeletedA, mkRecord (mkSde (str "LIVE       ") ATTR_ARCHIVE)]
        (fs_seek imgRootLiveDeleted (rootDirOffset fsSmall)))).code = some 0 ∧
     (parseFAT1xRootDirEntries envPlain iconvLow optsAscii fsSmall
      (writeList [recDeletedA, mkRecord (mkSde (str "LIVE       ") ATTR_ARCHIVE)]
        (fs_seek imgRootLiveDeleted (rootDirOffset fsSmall)))).list.Perm
        (parseFAT1xRootDirEntries envPlain iconvLow optsAscii fsSmall
          imgRootLiveDeleted).list) :=
  have hl : (parseFAT1xRootDirEntries envPlain iconvLow optsAscii fsSmall
      imgRootLiveDeleted).list
      = [mkRecord (mkSde (str "LIVE       ") ATTR_ARCHIVE), recDeletedA] := by decide
  have hp : [recDeletedA, mkRecord (mkSde (str "LIVE       ") ATTR_ARCHIVE)].Perm
      (parseFAT1xRootDirEntries envPlain iconvLow optsAscii fsSmall imgRootLiveDeleted).list :=
    hl ▸ List.Perm.swap _ _ []
  ⟨by decide, hp, by decide, by decide,
    (writeList_repacks_root envPlain iconvLow optsAscii fsSmall imgRootLiveDeleted
      [recDeletedA, mkRecord (mkSde (str "LIVE       ") ATTR_ARCHIVE)]
      (by decide) (by decide) (by decide) (by decide) hp (by decide)).2.2.2.2.2.2.2⟩

/-- C26: for a chain of at least one cluster with `M = maxDirEntriesPerCluster` slots each and a
list whose records have `entries` equal to their fragment count plus one and at most `M`, with
`S`, the sum of the `entries`, at most the number of slots of the chain, `writeClusterChain`
dereferences no null link (it neither leaves the chain nor the fragment list of a record); the
entries of the list, for every record its fragments in their original order and then its short
entry, go into the slots 0, 1, ..., `S - 1` of the directory, slot `k` being slot `k mod M` of
cluster `k / M` of the chain; and one all-zero entry is written into slot `S` exactly when `S`
is 0 or not a multiple of `M`. -/
theorem writeClusterChain_layout (fs : sFileSystem) (list : List sDirEntryList)
    (chain : List Nat) (f : File) (hM : 0 < fs.maxDirEntriesPerCluster)
    (hM2 : fs.maxDirEntriesPerCluster < 2 ^ 31) (hchain : 1 ≤ chain.length)
    (hrec : ∀ p ∈ list, p.entries = p.ldel.length + 1 ∧ p.entries ≤ fs.maxDirEntriesPerCluster)
    (hS : (list.map (fun p => p.entries)).sum ≤ chain.length * fs.maxDirEntriesPerCluster) :
    (listEntries list).length = (list.map (fun p => p.entries)).sum ∧
    (∀ e ∈ listEntries list, e.length = DIR_ENTRY_SIZE) ∧
    writeClusterChain fs list chain f
      = some (writeSlotsAt fs chain 0
          (listEntries list ++
            (if (list.map (fun p => p.entries)).sum = 0
                ∨ (list.map (fun p => p.entries)).sum % fs.maxDirEntriesPerCluster ≠ 0
              then [emptyEntry] else []))
          (fs_seek f (slotOffset fs chain 0))) := by
  have hlen := listEntries_length list (fun p hp => (hrec p hp).1)
  refine ⟨hlen, listEntries_entry_length list, ?_⟩
  rw [writeClusterChain_eq fs list chain f hM hM2 hchain hrec (by rw [hlen]; exact hS), hlen]

set_option maxRecDepth 1000000 in
/-- C26 (witness): two records of twelve slots on the chain 2, 9 of `fsSmall`, which has 16 slots
per cluster: the second record is split, its fifth fragment is the first entry of cluster 9,
its short entry is in slot 23, and slot 24 holds the all-zero entry. -/
theorem writeClusterChain_layout_witness :
    (∀ p ∈ [recTwelveSlots, recTwelveSlots],
      p.entries = p.ldel.length + 1 ∧ p.entries ≤ fsSmall.maxDirEntriesPerCluster) ∧
    writeClusterChain fsSmall [recTwelveSlots, recTwelveSlots] [2, 9] (imgWithFATs fatSmall)
      = some (writeSlotsAt fsSmall [2, 9] 0
          (listEntries [recTwelveSlots, recTwelveSlots] ++ [emptyEntry])
          (fs_seek (imgWithFATs fatSmall) (slotOffset fsSmall [2, 9] 0))) ∧
    (writeClusterChain fsSmall [recTwelveSlots, recTwelveSlots] [2, 9] (imgWithFATs fatSmall)).map
        (fun g => (bytesAt g (getClusterOffset fsSmall 9) 32,
          bytesAt g (getClusterOffset fsSmall 9 + 32 * 7) 32,
          bytesAt g (getClusterOffset fsSmall 9 + 32 * 8) 32))
      = some ((mkLdes (str "A          ") 97 11).getD 4 [], recTwelveSlots.sde, emptyEntry) :=
  ⟨by decide,
   (writeClusterChain_layout fsSmall [recTwelveSlots, recTwelveSlots] [2, 9] (imgWithFATs fatSmall)
      (by decide) (by decide) (by decide) (by decide) (by decide)).2.2,
   by decide⟩

/-- C27: for a list of pairwise distinct records, of which a leading run is skipped, every valid
pick sequence (pick `j` at most `m - 1 - j` for the `m` records behind the run) makes
`randomizeDirEntryList` return the run followed by an arrangement of the other records; every
arrangement is the result of exactly one valid pick sequence; and there are `m!` arrangements,
all different. -/
theorem randomizeDirEntryList_bijection (list : List sDirEntryList) (hnd : list.Nodup) :
    (∀ picks, ValidPicks (list.dropWhile isSkipped).length picks →
      ∃ p, p.Perm (list.dropWhile isSkipped) ∧
        randomizeDirEntryList (picksFrom (list.takeWhile isSkipped).length picks) list
          list.length = some (list.takeWhile isSkipped ++ p)) ∧
    (∀ p, p.Perm (list.dropWhile isSkipped) →
      ∃! picks, ValidPicks (list.dropWhile isSkipped).length picks ∧
        randomizeDirEntryList (picksFrom (list.takeWhile isSkipped).length picks) list
          list.length = some (list.takeWhile isSkipped ++ p)) ∧
    (∀ p, p ∈ (list.dropWhile isSkipped).permutations ↔ p.Perm (list.dropWhile isSkipped)) ∧
    (list.dropWhile isSkipped).permutations.Nodup ∧
    (list.dropWhile isSkipped).permutations.length
      = (list.length - (list.takeWhile isSkipped).length).factorial := by
  have hsplit : list.takeWhile isSkipped ++ list.dropWhile isSkipped = list :=
    List.takeWhile_append_dropWhile _ _
  have hlen : list.length - (list.takeWhile isSkipped).length
      = (list.dropWhile isSkipped).length := by
    have := congrArg List.length hsplit
    simp only [List.length_append] at this
    omega
  have hndr : (list.dropWhile isSkipped).Nodup := hnd.sublist (List.dropWhile_sublist _)
  refine ⟨?_, ?_, fun p => List.mem_permutations, List.nodup_permutations _ hndr, ?_⟩
  · intro picks hv
    obtain ⟨l1, hl1⟩ := randomizeLoop_isSome
      (picksFrom (list.takeWhile isSkipped).length picks)
      (list.dropWhile isSkipped).length (list.takeWhile isSkipped).length
      (list.takeWhile isSkipped) (list.dropWhile isSkipped) rfl
      (fun j h1 h2 => by
        have := hv.2 (j - (list.takeWhile isSkipped).length) (by omega)
        unfold picksFrom
        omega)
    obtain ⟨r, hr, hp⟩ := randomizeLoop_perm _ _ _ _ _ _ hl1
    refine ⟨r, hp, ?_⟩
    unfold randomizeDirEntryList
    simp only []
    rw [hlen, hl1, hr]
  · intro p hp
    obtain ⟨picks, hv, hr⟩ := randomizeLoop_surjective p (list.dropWhile isSkipped) hp
      (list.takeWhile isSkipped).length (list.takeWhile isSkipped)
    rw [hp.length_eq] at hv hr
    refine ⟨picks, ⟨hv, ?_⟩, ?_⟩
    · unfold randomizeDirEntryList
      simp only []
      rw [hlen, hr]
    · rintro picks2 ⟨hv2, hr2⟩
      unfold randomizeDirEntryList at hr2
      simp only [] at hr2
      rw [hlen] at hr2
      exact randomizeLoop_injective _ _ hndr rfl picks2 picks _ _ _ hv2 hv hr2 hr
  · rw [List.length_permutations, hlen]

set_option maxRecDepth 1000000 in
/-- C27 (witness): the seven records of `listDotsAndFive` are pairwise distinct; the five files
behind "." and ".." have 5! arrangements, and the picks 4, 3, 2, 1, 0 give the files in
reverse order. -/
theorem randomizeDirEntryList_bijection_witness :
    listDotsAndFive.Nodup ∧
    (listDotsAndFive.dropWhile isSkipped).permutations.length
      = (listDotsAndFive.length - (listDotsAndFive.takeWhile isSkipped).length).factorial ∧
    (randomizeDirEntryList (picksFrom 2 [4, 3, 2, 1, 0]) listDotsAndFive 7).map
        (fun l => l.map (fun r => r.sname))
      = some [str ".", str "..", str "F5", str "F4", str "F3", str "F2", str "F1"] :=
  ⟨by decide, (randomizeDirEntryList_bijection listDotsAndFive (by decide)).2.2.2.2, by decide⟩

/-- C28: in list mode and random mode the list built from a directory stream `recs` by
successive `insertDirEntryList` calls is a front part of volume labels, "." and ".." records,
then the live records of `recs` in stream order, then the deleted records of `recs` in stream
order. In every mode the new record goes behind the longest front part of the list whose
records all compare as not above it, so that it is put behind every record of that part that
compares as equal, and directly in front of a record that compares above it; and when the
comparison of live records is consistent, no record of a list built by insertion that compares
as equal to the new record is behind it. The comparison is consistent in list mode and random
mode, in modification-time mode, and with a name comparison that follows byte order. -/
theorem insertion_is_stable (env : Env) (o : Options) :
    ((o.OPT_LIST = true ∨ o.OPT_RANDOM = true) → ∀ recs : List sDirEntryList,
      ∃ specials, (∀ x ∈ specials, isSkipped x = true) ∧
        insertAll env o recs []
          = some (specials ++ (recs.filter isLive ++ recs.filter isDeletedRecord))) ∧
    (∀ new l l1, insertDirEntryList env o new l = some l1 →
      ∃ pre post, l = pre ++ post ∧ l1 = pre ++ new :: post ∧
        (∀ x ∈ pre, ∃ c, cmpEntries env o new x = some c ∧ 0 ≤ c) ∧
        (∀ y ∈ post.head?, ∃ c, cmpEntries env o new y = some c ∧ c < 0)) ∧
    (Consistent env o → ∀ recs list new list1, insertAll env o recs [] = some list →
      insertDirEntryList env o new list = some list1 →
      ∃ pre post, list = pre ++ post ∧ list1 = pre ++ new :: post ∧
        ∀ x ∈ post, cmpEntries env o new x ≠ some 0) ∧
    ((o.OPT_LIST = true ∨ o.OPT_RANDOM = true) → Consistent env o) ∧
    (o.OPT_LIST = false → o.OPT_RANDOM = false → o.OPT_REVERSE = 1 ∨ o.OPT_REVERSE = -1 →
      o.OPT_MODIFICATION = true ∨ ByteOrderMode env o → Consistent env o) := by
  refine ⟨?_, insertDirEntryList_split env o, ?_, consistent_listMode env o, ?_⟩
  · intro hmode recs
    obtain ⟨S1, hS1, h⟩ := insertAll_listMode env o hmode recs [] [] []
      (fun x hx => absurd hx (List.not_mem_nil _)) (fun x hx => absurd hx (List.not_mem_nil _))
      (fun x hx => absurd hx (List.not_mem_nil _))
    refine ⟨S1, fun x hx => (isSkipped_iff x).mpr (hS1 x hx), ?_⟩
    have e1 : recs.filter isLive = recs.filter (fun r => decide (rank r = 3)) :=
      List.filter_congr (fun x _ => by
        rw [Bool.eq_iff_iff, isLive_iff, decide_eq_true_iff])
    have e2 : recs.filter isDeletedRecord = recs.filter (fun r => decide (rank r = 4)) :=
      List.filter_congr (fun x _ => by
        rw [Bool.eq_iff_iff, isDeletedRecord_iff, decide_eq_true_iff])
    rw [e1, e2]
    simpa using h
  · intro hcons recs list new list1 hbuilt hins
    exact insertDirEntryList_stable env o hcons recs list list1 new hbuilt hins
  · intro hlist hrand hrev hmode
    by_cases hmod : o.OPT_MODIFICATION = true
    · exact consistent_timeMode env o hlist hrand hmod hrev
    · rcases hmode with h | h
      · exact absurd h hmod
      · exact consistent_byteOrder env o hlist hrand (by simpa using hmod) hrev h

set_option maxRecDepth 1000000 in
/-- C28 (example): in list mode the stream Z, deleted B, A, deleted A, M, ".", ".." gives the
list ".", "..", Z, A, M, deleted B, deleted A; the comparison is consistent in list mode and
in ASCII mode. -/
theorem insertion_is_stable_witness :
    insertAll envPlain optsList recsMixed []
      = some [mkNamed [] (str ".") ATTR_DIRECTORY, mkNamed [] (str "..") ATTR_DIRECTORY,
          mkFile (str "Z"), mkFile (str "A"), mkFile (str "M"), recDeletedB, recDeletedA] ∧
    recsMixed.filter isLive = [mkFile (str "Z"), mkFile (str "A"), mkFile (str "M")] ∧
    recsMixed.filter isDeletedRecord = [recDeletedB, recDeletedA] ∧
    Consistent envPlain optsList ∧ Consistent envPlain optsAscii :=
  ⟨by decide, by decide, by decide,
    (insertion_is_stable envPlain optsList).2.2.2.1 (Or.inl rfl),
    (insertion_is_stable envPlain optsAscii).2.2.2.2 rfl rfl (Or.inl rfl)
      (Or.inr (byteOrderMode_of_ascii envPlain optsAscii rfl rfl rfl rfl))⟩

set_option maxRecDepth 1000000 in
/-- C29 (fails on the code): the root directory of `imgRootLiveDeleted` holds the file LIVE and
then the deleted file A. In random mode the parsed list is LIVE, deleted A; with the pick 1 in
the first iteration `randomizeDirEntryList` turns it into deleted A, LIVE, and `writeList`
stores the deleted entry in slot 0 and the live entry in slot 1. -/
theorem randomize_moves_deleted_before_live :
    (parseFAT1xRootDirEntries envPlain iconvLow optsRandom fsSmall imgRootLiveDeleted).code
      = some 0 ∧
    (parseFAT1xRootDirEntries envPlain iconvLow optsRandom fsSmall imgRootLiveDeleted).list
      = [mkRecord (mkSde (str "LIVE       ") ATTR_ARCHIVE), recDeletedA] ∧
    randomizeDirEntryList (picksSecond 0)
        [mkRecord (mkSde (str "LIVE       ") ATTR_ARCHIVE), recDeletedA] 2
      = some [recDeletedA, mkRecord (mkSde (str "LIVE       ") ATTR_ARCHIVE)] ∧
    isDeletedRecord recDeletedA = true ∧
    isLive (mkRecord (mkSde (str "LIVE       ") ATTR_ARCHIVE)) = true ∧
    (sortFileSystem envPlain iconvLow optsRandom (fun _ => true) picksSecond 4 bsSmall
      imgRootLiveDeleted).out = Outcome.ret 0 ∧
    bytesAt (sortFileSystem envPlain iconvLow optsRandom (fun _ => true) picksSecond 4 bsSmall
      imgRootLiveDeleted).s.f 1536 64 = sdeDeletedA ++ mkSde (str "LIVE       ") ATTR_ARCHIVE := by
  decide

/-- C30: a value `v` that `getFATEntry` returns is at most one of free, bad and end-of-chain;
`isFreeCluster` holds exactly when the low 28 bits of `v` are 0, `isBadCluster` exactly for
0xFF7, 0xFFF7 and (after masking to 28 bits) 0x0FFFFFF7, `isEOC` exactly from 0xFF8, 0xFFF8
and (after masking) 0x0FFFFFF8 on; the loop of `printFSInfo` counts the clusters 2 to
`clusters + 1` whose value is not free as used and those whose value is bad as bad, so that
bad ≤ used ≤ cluster count. -/
theorem cluster_classes_and_counts (fs : sFileSystem) (f : File) (c v : Nat)
    (hf : f.IsBytes) (hclusters : 0 ≤ fs.clusters) (hv : getFATEntry fs f c = some v) :
    ¬ (isFreeCluster v = true ∧ isBadCluster fs v = true) ∧
    ¬ (isFreeCluster v = true ∧ isEOC fs v = true) ∧
    ¬ (isBadCluster fs v = true ∧ isEOC fs v = true) ∧
    (isFreeCluster v = true ↔ v &&& 0x0FFFFFFF = 0) ∧
    (isBadCluster fs v = true ↔
      (fs.FATType = FATTYPE_FAT12 ∧ v = 0xFF7) ∨ (fs.FATType = FATTYPE_FAT16 ∧ v = 0xFFF7) ∨
      (fs.FATType = FATTYPE_FAT32 ∧ v &&& 0x0FFFFFFF = 0x0FFFFFF7)) ∧
    (isEOC fs v = true ↔
      (fs.FATType = FATTYPE_FAT12 ∧ v ≥ 0xFF8) ∨ (fs.FATType = FATTYPE_FAT16 ∧ v ≥ 0xFFF8) ∨
      (fs.FATType = FATTYPE_FAT32 ∧ v &&& 0x0FFFFFFF ≥ 0x0FFFFFF8)) ∧
    countClusters fs f
      = ((List.range' 2 fs.clusters.toNat).countP (fun i => !isFreeCluster (fatValue fs f i)),
         (List.range' 2 fs.clusters.toNat).countP (fun i => isBadCluster fs (fatValue fs f i))) ∧
    (countClusters fs f).2 ≤ (countClusters fs f).1 ∧
    ((countClusters fs f).1 : Int) ≤ fs.clusters := by
  obtain ⟨r12, r16, r32⟩ := getFATEntry_range fs f c v hf hv
  obtain ⟨a1, a2, a3⟩ := cluster_classes_disjoint fs v r12 r16 r32
  obtain ⟨b1, b2, b3⟩ := cluster_classes_iff fs v
  have hc : countClusters fs f
      = ((List.range' 2 fs.clusters.toNat).countP (fun i => !isFreeCluster (fatValue fs f i)),
         (List.range' 2 fs.clusters.toNat).countP
           (fun i => isBadCluster fs (fatValue fs f i))) := by
    unfold countClusters
    rw [countClustersLoop_eq, Nat.zero_add, Nat.zero_add]
  obtain ⟨c1, c2⟩ := countP_range_le (fun i => isBadCluster fs (fatValue fs f i))
    (fun i => !isFreeCluster (fatValue fs f i)) 2 fs.clusters.toNat
    (fun j hj => not_isFreeCluster_of_isBadCluster fs _ hj)
  refine ⟨a1, a2, a3, b1, b2, b3, hc, ?_, ?_⟩
  · rw [hc]
    exact c1
  · rw [hc]
    have : ((fs.clusters.toNat : Nat) : Int) = fs.clusters := Int.toNat_of_nonneg hclusters
    omega

set_option maxRecDepth 1000000 in
/-- C30 (witness): on `imgBadCluster`, whose FAT holds the bad-cluster mark for cluster 3, `printFSInfo` counts
two used clusters and one bad cluster. -/
theorem cluster_classes_and_counts_witness :
    getFATEntry fsSmall imgBadCluster 3 = some 0xFF7 ∧
    isBadCluster fsSmall 0xFF7 = true ∧ isFreeCluster 0xFF7 = false ∧
    isEOC fsSmall 0xFF7 = false ∧
    countClusters fsSmall imgBadCluster = (2, 1) ∧
    (countClusters fsSmall imgBadCluster).2 ≤ (countClusters fsSmall imgBadCluster).1 :=
  ⟨by decide, by decide, by decide, by decide, by decide,
    (cluster_classes_and_counts fsSmall imgBadCluster 3 0xFF7
      (imgWithFATs_isBytes fatBadCluster (by decide)) (by decide) (by decide)).2.2.2.2.2.2.2.1⟩

/-- C31: when `getClusterChain(fs, start, chain)` succeeds with the result `n` on an image made
of bytes, the chain holds exactly `n` clusters, the first one is `start`, the FAT entry of
cluster `k` of the chain is cluster `k + 1` for every `k < n - 1`, and the FAT entry of every
cluster of the chain is readable, not 0 and not free. -/
theorem getClusterChain_follows_fat (fs : sFileSystem) (f : File) (startCluster n : Nat)
    (chain : List Nat) (hf : f.IsBytes) (hstart : startCluster < 2 ^ 32)
    (h : getClusterChain fs f startCluster = some (n, chain)) :
    chain.length = n ∧ chain.head? = some startCluster ∧
    (∀ k, k + 1 < n → getFATEntry fs f (chain.getD k 0) = some (chain.getD (k + 1) 0)) ∧
    (∀ k, k < n → ∃ v, getFATEntry fs f (chain.getD k 0) = some v ∧ v ≠ 0 ∧
      isFreeCluster v = false) := by
  unfold getClusterChain at h
  split_ifs at h
  obtain ⟨rest, h1, h2, h3, h4⟩ := getClusterChainLoop_walk fs f hf _ _ _ _ _ _ h
  rw [ofInt32_toInt32 startCluster hstart, List.nil_append] at h1
  rw [ofInt32_toInt32 startCluster hstart] at h3 h4
  subst h1
  have hlen : (startCluster :: rest).length = n := by
    rw [h2]
    simp only [List.length_cons]
    omega
  refine ⟨hlen, rfl, ?_, ?_⟩
  · intro k hk
    exact chain_getD _ rest startCluster h3 k (by omega)
  · intro k hk
    have hk1 : k < (startCluster :: rest).length := by omega
    obtain ⟨v, hv1, hv2⟩ := h4 ((startCluster :: rest).getD k 0)
      (by
        rw [List.getD_eq_getElem _ _ hk1]
        exact List.getElem_mem _)
    refine ⟨v, hv1, ?_, hv2⟩
    intro h0
    rw [h0] at hv2
    exact absurd hv2 (by decide)

set_option maxRecDepth 1000000 in
/-- C31 (witness): on the image with the chain 2, 9, 4 the walk from cluster 2 returns 3 and
the chain 2, 9, 4. -/
theorem getClusterChain_follows_fat_witness :
    (imgWithFATs fatSmall).IsBytes ∧ (2 : Nat) < 2 ^ 32 ∧
    getClusterChain fsSmall (imgWithFATs fatSmall) 2 = some (3, [2, 9, 4]) ∧
    ([2, 9, 4] : List Nat).length = 3 ∧ ([2, 9, 4] : List Nat).head? = some 2 ∧
    (∀ k, k + 1 < 3 →
      getFATEntry fsSmall (imgWithFATs fatSmall) (([2, 9, 4] : List Nat).getD k 0)
        = some (([2, 9, 4] : List Nat).getD (k + 1) 0)) ∧
    (∀ k, k < 3 → ∃ v,
      getFATEntry fsSmall (imgWithFATs fatSmall) (([2, 9, 4] : List Nat).getD k 0) = some v ∧
      v ≠ 0 ∧ isFreeCluster v = false) :=
  ⟨imgWithFATs_isBytes fatSmall (by decide), by decide, by decide,
    getClusterChain_follows_fat fsSmall (imgWithFATs fatSmall) 2 3 [2, 9, 4]
      (imgWithFATs_isBytes fatSmall (by decide)) (by decide) (by decide)⟩

set_option maxRecDepth 1000000 in
/-- C32 (fails on the code): on the FAT32 volume `fsFat32` the FAT entry of cluster 2 is
0x0ff8fff8, for which `isEOC` is false, and the walk from cluster 2 ends successfully behind
that value with the chain 2. -/
theorem getClusterChain_ends_on_0ff8fff8 :
    openFileSystem bsFat32 = some fsFat32 ∧
    getFATEntry fsFat32 imgMarker 2 = some 0x0ff8fff8 ∧
    isEOC fsFat32 0x0ff8fff8 = false ∧
    getClusterChain fsFat32 imgMarker 2 = some (1, [2]) := by
  decide

/-- C32 (amended): in a pass of the walk of `getClusterChain` that reads the FAT value `v` of
the cluster at hand (on an image made of bytes, with `maxClusterChainLength` not reached and
the cluster in range), for every FAT type: the walk ends successfully with this cluster as the
last one exactly when `isEOC(fs, v)` holds or, on FAT32, `v` is 0x0ff8fff8; a free value
returns -1; every other value is followed as a forward pointer, the walk goes on with the
cluster `v`, and it returns -1 when `v` is at least `clusters + 2`. -/
theorem getClusterChain_end_values (fs : sFileSystem) (f : File) (fuel i : Nat) (cluster : Int)
    (chain : List Nat) (v : Nat) (hf : f.IsBytes) (hi : i ≠ fs.maxClusterChainLength)
    (hr : walkInRange fs cluster = true)
    (hv : getFATEntry fs f (ofInt32 cluster) = some v) :
    (getClusterChainLoop fs f (fuel + 1) i cluster chain
        = some (i + 1, insertCluster chain (ofInt32 cluster))
      ↔ (isEOC fs v = true ∨ (fs.FATType = FATTYPE_FAT32 ∧ v = 0x0ff8fff8))) ∧
    (isFreeCluster v = true → getClusterChainLoop fs f (fuel + 1) i cluster chain = none) ∧
    (isFreeCluster v = false →
      ¬ (isEOC fs v = true ∨ (fs.FATType = FATTYPE_FAT32 ∧ v = 0x0ff8fff8)) →
      getClusterChainLoop fs f (fuel + 1) i cluster chain
        = getClusterChainLoop fs f fuel (i + 1) (v : Int)
            (insertCluster chain (ofInt32 cluster)) ∧
      (fs.clusters + 2 ≤ (v : Int) →
        getClusterChainLoop fs f (fuel + 1) i cluster chain = none)) := by
  have hlt := getFATEntry_lt fs f _ v hf hv
  have hty : fs.FATType = FATTYPE_FAT12 ∨ fs.FATType = FATTYPE_FAT16 ∨
      fs.FATType = FATTYPE_FAT32 := by
    by_contra hn
    simp only [not_or] at hn
    unfold getFATEntry at hv
    simp only [] at hv
    rw [if_neg hn.2.2, if_neg hn.2.1, if_neg hn.1] at hv
    cases hv
  have hpass : getClusterChainLoop fs f (fuel + 1) i cluster chain
      = if walkFree fs v = true then none
        else if walkContinues fs v = true then
          getClusterChainLoop fs f fuel (i + 1) (toInt32 v)
            (insertCluster chain (ofInt32 cluster))
        else some (i + 1, insertCluster chain (ofInt32 cluster)) := by
    rw [getClusterChainLoop_succ, if_neg hi, if_neg (by rw [hr]; decide), hv]
  have hfree := walkFree_eq fs v hlt
  have hcont := walkContinues_eq fs v hlt hty
  have e2 : toInt32 v = (v : Int) := toInt32_of_lt v (by omega)
  rw [hfree.1, e2] at hpass
  have hEOCfree : (isEOC fs v = true ∨ (fs.FATType = FATTYPE_FAT32 ∧ v = 0x0ff8fff8)) →
      isFreeCluster v = false := by
    intro h
    cases hfr : isFreeCluster v with
    | false => rfl
    | true =>
      have h0 := hfree.2.mp hfr
      subst h0
      rw [(cluster_classes_iff fs 0).2.2] at h
      rcases h with (⟨_, h⟩ | ⟨_, h⟩ | ⟨_, h⟩) | ⟨_, h⟩
      · omega
      · omega
      · exact absurd h (by decide)
      · omega
  refine ⟨⟨fun h => ?_, fun h => ?_⟩, fun h => ?_, fun h hn => ?_⟩
  · by_contra hn
    have hc : walkContinues fs v = true := by
      cases hcv : walkContinues fs v with
      | true => rfl
      | false => exact absurd (hcont.mp hcv) hn
    rw [hpass] at h
    by_cases hfr : isFreeCluster v = true
    · rw [if_pos hfr] at h
      cases h
    · rw [if_neg hfr, if_pos hc] at h
      obtain ⟨rest, _, h2, _, _⟩ := getClusterChainLoop_walk fs f hf _ _ _ _ _ _ h
      omega
  · rw [hpass, if_neg (by rw [hEOCfree h]; decide), if_neg (by rw [hcont.mpr h]; decide)]
  · rw [hpass, if_pos h]
  · have hc : walkContinues fs v = true := by
      cases hcv : walkContinues fs v with
      | true => rfl
      | false => exact absurd (hcont.mp hcv) hn
    have e : getClusterChainLoop fs f (fuel + 1) i cluster chain
        = getClusterChainLoop fs f fuel (i + 1) (v : Int)
            (insertCluster chain (ofInt32 cluster)) := by
      rw [hpass, if_neg (by rw [h]; decide), if_pos hc]
    refine ⟨e, fun hge => ?_⟩
    rw [e]
    exact getClusterChainLoop_out_of_range fs f fuel (i + 1) v _ hlt hge

set_option maxRecDepth 1000000 in
/-- C32 (witness): the pass at cluster 2 of `imgMarker`, which reads the value 0x0ff8fff8. -/
theorem getClusterChain_end_values_witness :
    imgMarker.IsBytes ∧ (0 : Nat) ≠ fsFat32.maxClusterChainLength ∧
    walkInRange fsFat32 2 = true ∧ getFATEntry fsFat32 imgMarker (ofInt32 2) = some 0x0ff8fff8 ∧
    (getClusterChainLoop fsFat32 imgMarker 1 0 2 [] = some (1, insertCluster [] (ofInt32 2))
      ↔ (isEOC fsFat32 0x0ff8fff8 = true ∨
          (fsFat32.FATType = FATTYPE_FAT32 ∧ 0x0ff8fff8 = 0x0ff8fff8))) :=
  have hb : imgMarker.IsBytes :=
    fs_write_isBytes _ _ (fun _ => by show (0 : Nat) < 256; decide) (by decide)
  ⟨hb, by decide, by decide, by decide,
    (getClusterChain_end_values fsFat32 imgMarker 0 0 2 [] 0x0ff8fff8 hb (by decide)
      (by decide) (by decide)).1⟩

/-- C33: every record in the list of `parseClusterChain` (on a chain inside the device, its
slots taken cluster by cluster as one sequence) and of `parseFAT1xRootDirEntries` (on a root
directory inside the device) has `entries = 1 + ` the number of its fragments; its fragment list
is, slot by slot and in stream order, the run of long-name slots that stands directly in front
of its short entry in the sequence, whether or not the run crosses from one cluster into the
next; its short entry is that slot; and every one of these copies has 32 bytes. This holds
for the list of every outcome, the return code -1 included. -/
theorem parsed_records_copy_their_slots (env : Env) (iconv : List Nat → List Nat) (o : Options)
    (fs : sFileSystem) (f : File) (chain : List Nat) :
    ((∀ c ∈ chain,
        getClusterOffset fs c + DIR_ENTRY_SIZE * fs.maxDirEntriesPerCluster ≤ f.size) →
      chain.length * fs.maxDirEntriesPerCluster < 2 ^ 32 →
      ∀ r ∈ (parseClusterChain env iconv o fs f chain).list,
        r.entries = 1 + r.ldel.length ∧ RecordIn env iconv (chainSlots fs f chain) r ∧
        ∀ e ∈ r.ldel ++ [r.sde], e.length = DIR_ENTRY_SIZE) ∧
    (rootDirOffset fs + DIR_ENTRY_SIZE * fs.bs.BS_RootEntCnt ≤ f.size →
      fs.bs.BS_RootEntCnt < 2 ^ 32 →
      ∀ r ∈ (parseFAT1xRootDirEntries env iconv o fs f).list,
        r.entries = 1 + r.ldel.length ∧ RecordIn env iconv (rootSlots fs f) r ∧
        ∀ e ∈ r.ldel ++ [r.sde], e.length = DIR_ENTRY_SIZE) := by
  have key : ∀ (stream : List (List Nat)) (r : sDirEntryList),
      (∀ e ∈ stream, e.length = DIR_ENTRY_SIZE) → RecordIn env iconv stream r →
      r.entries = 1 + r.ldel.length ∧ RecordIn env iconv stream r ∧
        ∀ e ∈ r.ldel ++ [r.sde], e.length = DIR_ENTRY_SIZE := by
    intro stream r hs hr
    refine ⟨?_, hr, ?_⟩
    · have h1 := hr.1
      have : r.entries = (recordOf env iconv r.ldel r.sde).entries := by rw [← h1]
      rw [this]
      show r.ldel.length + 1 = _
      omega
    · obtain ⟨_, pre, post, h2, _⟩ := hr
      intro e he
      apply hs e
      rw [h2]
      simp only [List.mem_append] at he ⊢
      rcases he with he | he
      · exact Or.inl (Or.inl (Or.inr he))
      · exact Or.inl (Or.inr he)
  have hchainlen : ∀ ch : List Nat, ∀ e ∈ chainSlots fs f ch, e.length = DIR_ENTRY_SIZE := by
    intro ch
    induction ch with
    | nil =>
      intro e he
      exact absurd he (List.not_mem_nil _)
    | cons c ch ih =>
      intro e he
      rw [chainSlots] at he
      rcases List.mem_append.mp he with he | he
      · exact readSlots_entry_length f _ _ e he
      · exact ih e he
  refine ⟨fun hin hlen r hr => ?_, fun hin hlen r hr => ?_⟩
  · exact key _ r (hchainlen chain)
      (recordIn_of_scan env iconv o _ _ (by rw [chainSlots_length]; exact hlen)
        (parseClusterChain_scan env iconv o fs f chain hin) r hr)
  · exact key _ r (readSlots_entry_length f _ _)
      (recordIn_of_scan env iconv o _ _
        (by unfold rootSlots; rw [readSlots_length]; exact hlen)
        (parseFAT1xRootDirEntries_scan env iconv o fs f hin) r hr)

set_option maxRecDepth 1000000 in
/-- C33 (example): in `imgLongRecord` the directory on the chain 2, 9, 4 holds the file B, whose
20 fragments fill cluster 2 and go on in cluster 9, and the file A; the records have 21 and 12
entries. -/
theorem parsed_records_copy_their_slots_witness :
    openFileSystem bsSmall = some fsSmall ∧
    listLongRecord.map (fun r => (r.sname, r.entries, r.ldel.length))
      = [(str "A", 12, 11), (str "B", 21, 20)] ∧
    ∀ r ∈ (parseClusterChain envPlain iconvLow optsAscii fsSmall imgLongRecord [2, 9, 4]).list,
      r.entries = 1 + r.ldel.length ∧
      RecordIn envPlain iconvLow (chainSlots fsSmall imgLongRecord [2, 9, 4]) r ∧
      ∀ e ∈ r.ldel ++ [r.sde], e.length = DIR_ENTRY_SIZE :=
  ⟨by decide, by decide,
    (parsed_records_copy_their_slots envPlain iconvLow optsAscii fsSmall imgLongRecord
      [2, 9, 4]).1 (by decide)
      (chain_slots_lt bsSmall fsSmall 3 (by decide) (by decide))⟩

set_option maxRecDepth 1000000 in
/-- C34 (fails on the code): in `imgWideName` a file has a long name of 14 fragments that a
UTF-8 converter turns into 546 bytes, so the long name of the specification is 512 bytes long.
The parse accepts the directory; the buffer `lname` holds these 512 bytes, and as
`lname[MAX_PATH_LEN]` is never stored, the long name of the record is these 512 bytes followed
by the byte "X" that memory holds there: 513 bytes. Only when that byte happens to be NUL is
the long name the one of the specification. -/
theorem long_name_is_not_cut :
    (parseClusterChain envNameTail iconvUtf8 optsAscii fsSmall imgWideName [2]).code = some 0 ∧
    (parseClusterChain envNameTail iconvUtf8 optsAscii fsSmall imgWideName [2]).list.map
        (fun r => (r.sname, r.ldel, r.lname.length, r.lname.drop 510))
      = [(str "A", mkLdesWide (str "A          ") 14, 513, [0xe4, 0xb8] ++ str "X")] ∧
    (parseClusterChain envNameTail iconvUtf8 optsAscii fsSmall imgWideName [2]).list.map
        (fun r => r.lname)
      = [specLongName iconvUtf8 (mkLdesWide (str "A          ") 14) ++ str "X"] ∧
    (specLongName iconvUtf8 (mkLdesWide (str "A          ") 14)).length = 512 ∧
    (parseClusterChain envPlain iconvUtf8 optsAscii fsSmall imgWideName [2]).list.map
        (fun r => r.lname)
      = [specLongName iconvUtf8 (mkLdesWide (str "A          ") 14)] := by
  decide

/-- C35: the test of `sortSubdirectories` on a record (with a short entry made of bytes) holds
exactly when the directory attribute is set, the volume-id attribute is clear, byte 0 of the
short name is not 0xE5 and the short name is neither "." nor ".."; records that fail the test
are passed over, so the run is that on the records that pass it; for a record that passes it
and whose FAT entry is readable, `sortClusterChain` is called with the start cluster
`DIR_FstClusHI * 65536 + DIR_FstClusLO`, and the loop goes on with the next record unless that
call returns -1. When `getClusterChain` succeeds and the parse does not return -1,
`sortClusterChain` goes on with `sortSubdirectories` on the parsed list, in list mode and for a
path that does not match as well as after a directory has been written; so does
`sortFAT1xRootDirectory`. -/
theorem sortSubdirectories_descends (env : Env) (iconv : List Nat → List Nat) (o : Options)
    (matchOf : List Nat → Bool) (irand : Nat → Nat → Nat) (fs : sFileSystem)
    (sortDir : Nat → List Nat → SortState → Run) (path : List Nat) :
    (∀ p : sDirEntryList, IsBytes p.sde →
      (isSubdirectory p = true ↔ specLiveSubdirectory p)) ∧
    (∀ (list : List sDirEntryList) (s : SortState),
      sortSubdirectories fs sortDir path list s
        = sortSubdirectories fs sortDir path (list.filter isSubdirectory) s) ∧
    (∀ (p : sDirEntryList) (rest : List sDirEntryList) (newpath : List Nat) (s : SortState),
      isSubdirectory p = true → IsBytes p.sde →
      (getFATEntry fs s.f (DIR_FstClusHI p.sde * 65536 + DIR_FstClusLO p.sde)).isSome = true →
      sortSubdirectoriesLoop fs sortDir path (p :: rest) newpath s
        = match (sortDir (DIR_FstClusHI p.sde * 65536 + DIR_FstClusLO p.sde)
              (cstr (nextPath newpath path p)) s).out with
          | .ret code =>
            if code = -1 then
              { out := .ret (-1),
                s := (sortDir (DIR_FstClusHI p.sde * 65536 + DIR_FstClusLO p.sde)
                  (cstr (nextPath newpath path p)) s).s }
            else
              sortSubdirectoriesLoop fs sortDir path rest (nextPath newpath path p)
                (sortDir (DIR_FstClusHI p.sde * 65536 + DIR_FstClusLO p.sde)
                  (cstr (nextPath newpath path p)) s).s
          | _ => sortDir (DIR_FstClusHI p.sde * 65536 + DIR_FstClusLO p.sde)
              (cstr (nextPath newpath path p)) s) ∧
    (∀ (fuel cluster n : Nat) (chain : List Nat) (s : SortState) (code : Int)
        (p : ParseState),
      getClusterChain fs s.f cluster = some (n, chain) →
      parseClusterChain env iconv o fs s.f chain = .ret code p → code ≠ -1 →
      (o.OPT_LIST = true ∨ matchOf path = false →
        sortClusterChain env iconv o matchOf irand fs (fuel + 1) cluster path s
          = sortSubdirectories fs (sortClusterChain env iconv o matchOf irand fs fuel) path
              p.list { s with f := p.f }) ∧
      (∀ (list1 : List sDirEntryList) (calls1 : Nat) (f1 : File),
        o.OPT_LIST = false → matchOf path = true →
        randomizeStep o irand p.list p.direntries s.calls = some (list1, calls1) →
        writeClusterChain fs list1 chain p.f = some f1 →
        sortClusterChain env iconv o matchOf irand fs (fuel + 1) cluster path s
          = sortSubdirectories fs (sortClusterChain env iconv o matchOf irand fs fuel) path
              list1 { f := f1, calls := calls1, written := s.written ++ [path] })) ∧
    (∀ (fuel : Nat) (s : SortState) (code : Int) (p : ParseState),
      parseFAT1xRootDirEntries env iconv o fs s.f = .ret code p → code ≠ -1 →
      (o.OPT_LIST = true ∨ matchOf (str "/") = false →
        sortFAT1xRootDirectory env iconv o matchOf irand fs fuel s
          = sortSubdirectories fs (sortClusterChain env iconv o matchOf irand fs fuel)
              (str "/") p.list { s with f := p.f }) ∧
      (∀ (list1 : List sDirEntryList) (calls1 : Nat),
        o.OPT_LIST = false → matchOf (str "/") = true →
        randomizeStep o irand p.list p.direntries s.calls = some (list1, calls1) →
        sortFAT1xRootDirectory env iconv o matchOf irand fs fuel s
          = sortSubdirectories fs (sortClusterChain env iconv o matchOf irand fs fuel)
              (str "/") list1
              { f := writeList list1 (fs_seek p.f (rootDirOffset fs)), calls := calls1,
                written := s.written ++ [str "/"] })) := by
  refine ⟨fun p hb => isSubdirectory_iff p hb, fun list s => ?_,
    fun p rest newpath s hp hb hfat =>
      sortSubdirectoriesLoop_descend fs sortDir path p rest newpath s hp hb hfat,
    fun fuel cluster n chain s code p hchain hparse hcode => ⟨fun hno => ?_,
      fun list1 calls1 f1 hl hm hrand hwrite => ?_⟩,
    fun fuel s code p hparse hcode => ⟨fun hno => ?_, fun list1 calls1 hl hm hrand => ?_⟩⟩
  · unfold sortSubdirectories
    rw [sortSubdirectoriesLoop_filter]
  · rw [sortClusterChain, hchain]
    simp only []
    rw [hparse]
    simp only []
    rw [if_neg hcode, if_neg]
    rintro ⟨h1, h2⟩
    rcases hno with h | h
    · exact h1 h
    · rw [h] at h2
      cases h2
  · rw [sortClusterChain, hchain]
    simp only []
    rw [hparse]
    simp only []
    rw [if_neg hcode, if_pos ⟨by rw [hl]; decide, hm⟩, hrand]
    simp only []
    rw [hwrite]
  · rw [sortFAT1xRootDirectory, hparse]
    simp only []
    rw [if_neg hcode, if_neg]
    rintro ⟨h1, h2⟩
    rcases hno with h | h
    · exact h1 h
    · rw [h] at h2
      cases h2
  · rw [sortFAT1xRootDirectory, hparse]
    simp only []
    rw [if_neg hcode, if_pos ⟨by rw [hl]; decide, hm⟩, hrand]

set_option maxRecDepth 1000000 in
/-- C35 (example): in `imgTree` the root directory holds the directory SUB with first cluster 2,
which passes the test, while "." and ".." in SUB and the files do not; with a filter that
matches "/SUB/" only, the root directory is not written and SUB is. -/
theorem sortSubdirectories_descends_witness :
    IsBytes (mkDirSde (str "SUB        ") 2) ∧
    (isSubdirectory (mkRecord (mkDirSde (str "SUB        ") 2)) = true ↔
      specLiveSubdirectory (mkRecord (mkDirSde (str "SUB        ") 2))) ∧
    isSubdirectory (mkRecord (mkDirSde (str "SUB        ") 2)) = true ∧
    DIR_FstClusHI (mkDirSde (str "SUB        ") 2) * 65536
      + DIR_FstClusLO (mkDirSde (str "SUB        ") 2) = 2 ∧
    (parseClusterChain envPlain iconvLow optsAscii fsSmall imgTree [2]).list.map
        (fun r => (r.sname, isSubdirectory r))
      = [(str ".", false), (str "..", false), (str "A", false), (str "B", false)] ∧
    (sortFileSystem envPlain iconvLow optsAscii (fun p => p == str "/SUB/") picksSecond 4
      bsSmall imgTree).s.written = [str "/SUB/"] :=
  ⟨by unfold IsBytes; decide,
    (sortSubdirectories_descends envPlain iconvLow optsAscii (fun p => p == str "/SUB/")
      picksSecond fsSmall (sortClusterChain envPlain iconvLow optsAscii
        (fun p => p == str "/SUB/") picksSecond fsSmall 3) (str "/")).1
      (mkRecord (mkDirSde (str "SUB        ") 2)) (by unfold IsBytes; decide),
    by decide, by decide, by decide, by decide⟩

set_option maxRecDepth 1000000 in
/-- C36 (fails on the code): in `imgDeep` the directory with the path `pathDeep` (249 bytes)
holds the subdirectories "AAAAAAAAAAAAA" and "B". For B, `len(path) + len(name) + 1` is 251, but
the path that `sortSubdirectories` passes to `sortClusterChain` is
`pathDeep ++ "AAAAAAAAAAAAA/B/"`: the name of the sibling that was processed before is still in
it. A filter that excludes `pathDeep ++ "B/"` does not keep the directory B from being
written. -/
theorem sortSubdirectories_path_keeps_sibling :
    pathDeep.length = 249 ∧ pathDeep.length + (str "B").length + 1 ≤ MAX_PATH_LEN ∧
    (sortFileSystem envPlain iconvLow optsAscii (fun _ => true) picksSecond 4 bsSmall
      imgDeep).out = Outcome.ret 0 ∧
    (sortFileSystem envPlain iconvLow optsAscii (fun _ => true) picksSecond 4 bsSmall
      imgDeep).s.written
      = [str "/", pathDeep, pathDeep ++ str "AAAAAAAAAAAAA/",
         pathDeep ++ str "AAAAAAAAAAAAA/B/"] ∧
    (sortFileSystem envPlain iconvLow optsAscii (fun p => p != pathDeep ++ str "B/") picksSecond
      4 bsSmall imgDeep).s.written
      = [str "/", pathDeep, pathDeep ++ str "AAAAAAAAAAAAA/",
         pathDeep ++ str "AAAAAAAAAAAAA/B/"] ∧
    cstr (nextPath (nextPath (List.replicate (MAX_PATH_LEN + 1) 0) pathDeep
        (mkNamed (str "AAAAAAAAAAAAA") (str "A") ATTR_DIRECTORY)) pathDeep
        (mkNamed [] (str "B") ATTR_DIRECTORY))
      = pathDeep ++ str "AAAAAAAAAAAAA/B/" ∧
    cstr (nextPath (List.replicate (MAX_PATH_LEN + 1) 0) pathDeep
        (mkNamed [] (str "B") ATTR_DIRECTORY))
      = pathDeep ++ str "B/" := by
  decide

set_option maxRecDepth 1000000 in
/-- C37 (fails on the code): in `imgDeletedFragment` the live short entry ZEBRA is preceded only
by a deleted long entry. The parse accepts the directory and gives ZEBRA the text of the deleted
entry as long name, so its display name is "AAAAAAAAAAAAA" and it is put in front of the file
M, although "M" comes before "ZEBRA". -/
theorem deleted_fragment_names_live_entry :
    LDIR_Ord (mkLde DE_FREE 0 65) = 0xe5 ∧ isLongSlot (mkLde DE_FREE 0 65) = true ∧
    (parseClusterChain envPlain iconvLow optsAscii fsSmall imgDeletedFragment [2]).code
      = some 0 ∧
    (parseClusterChain envPlain iconvLow optsAscii fsSmall imgDeletedFragment [2]).list.map
        (fun r => (r.sname, r.ldel, r.lname, displayName r))
      = [(str "ZEBRA", [mkLde DE_FREE 0 65], str "AAAAAAAAAAAAA", str "AAAAAAAAAAAAA"),
         (str "M", [], [], str "M")] ∧
    strcmp (str "M") (str "ZEBRA") < 0 := by
  decide

/-- C38 (fails on the code): `check_bootsector` accepts the boot sector `bsNoRoom`, whose
metadata takes 232 sectors of a volume of 100 sectors (data sectors -132, no sum wraps). With
32 sectors per cluster the wrapped difference 2^32 - 132 gives 134217723 clusters, which is
positive and not above 268435445: `getCountOfClusters` reports no failure and `openFileSystem`
accepts the volume as FAT32. -/
theorem openFileSystem_accepts_volume_without_room :
    check_bootsector bsNoRoom = 0 ∧
    specTotalSectors bsNoRoom = 100 ∧
    (bsNoRoom.BS_RsvdSecCnt : Int) + bsNoRoom.BS_NumFATs * specFATSize bsNoRoom
      + specRootDirSectors bsNoRoom = 232 ∧
    specDataSectors bsNoRoom = -132 ∧
    getCountOfClusters bsNoRoom = 134217723 ∧
    openFileSystem bsNoRoom = some fsNoRoom := by
  decide

end FatSort
